import Mathlib

/-!
# Simmer: geometry validation, routing tables and mesh augmentation

A shallow embedding of parts of `latentlyso/simmer` (C++): `Geometry::validate`,
`Geometry::patchUp`, `Geometry::constructSusoMaps` (`geometry.cpp`), the lazy
Dijkstra of `finder.cpp`, the augmenter pipeline of `augmenter.cpp` and the
table builders of `router.cpp`.

Conventions of the embedding.
* `IdxType` (`std::uint64_t`) is `Nat`; no arithmetic on indices in the embedded
  code can wrap for containers that fit in memory.
* `std::vector<T>` is `List T`.  Reading or writing outside a vector is undefined
  behaviour in the source and `std::unordered_map::at` on a missing key throws;
  both are modelled by a distinct failure value (`VError.fault`, or `none`).
* `std::unordered_map<IdxType, T>` is an association list with pairwise distinct
  keys; the order of the list stands for the (unspecified) iteration order.
-/

namespace Simmer

/-! ## Part I: definitions -/

/-! ### Index maps -/

/-- A `std::unordered_map<IdxType, IdxType>`: the entries in iteration order, with
pairwise distinct keys. -/
structure IdxMap where
  entries : List (Nat × Nat)
  nodup : (entries.map Prod.fst).Nodup

/-- The empty map. -/
def IdxMap.empty : IdxMap := ⟨[], List.nodup_nil⟩

/-- `m.at(k)`: the value stored under `k`, `none` when the key is missing (the
source throws `std::out_of_range`). -/
def IdxMap.at? (m : IdxMap) (k : Nat) : Option Nat :=
  (m.entries.find? (fun p => p.1 == k)).map Prod.snd

/-- `m.contains(k)`. -/
def IdxMap.contains (m : IdxMap) (k : Nat) : Bool :=
  (m.at? k).isSome

/-- `m[k]` as an rvalue: the stored value, or the value-initialised `0` that
`operator[]` inserts for a missing key. -/
def IdxMap.get (m : IdxMap) (k : Nat) : Nat :=
  (m.at? k).getD 0

/-- The key of the first entry (in iteration order) whose value is `v`: the
`std::find_if` over the map in `Geometry::validate`. -/
def IdxMap.keyOf? (m : IdxMap) (v : Nat) : Option Nat :=
  (m.entries.find? (fun p => p.2 == v)).map Prod.fst

/-! ### Geometry -/

/-- The triple `{ sIdx, cIdx, oIdx }` of `types.hpp`. -/
structure TriType where
  sIdx : Nat
  cIdx : Nat
  oIdx : Nat
deriving DecidableEq, Repr

/-- The fields of `Geometry` read or written by `validate`, `patchUp`, `shrink` and
`constructSusoMaps`.  `susoMaps[c]` is kept as the list of inserted
`(key, value)` pairs. -/
structure Geometry where
  vFlg : Bool
  cellIdx : Nat
  susoExtz : List (List TriType)
  cMap : IdxMap
  cMapR : IdxMap
  sMaps : List IdxMap
  susoMaps : List (List (Nat × TriType))

/-- The outcomes of `Geometry::validate` other than success.  The first five are
the five messages of the source, with the formatted arguments kept as data;
`fault` is an exception out of `at` or an access outside a vector; `outOfFuel`
is produced by the embedding alone, when the bound on loop iterations given to
the breadth-first search was too small. -/
inductive VError where
  | invalidCell (cell cIdx oIdx : Nat)
  | invalidLine (cell sIdx cIdx oIdx : Nat)
  | dualNotFound (cell sIdx cIdx oIdx : Nat)
  | roundtrip (cell : Nat) (src tgt : TriType)
  | noRoute (cells : List Nat)
  | fault
  | outOfFuel
deriving DecidableEq, Repr

/-- The value of `cMapR.at(i)` inside an error message: a missing key throws. -/
def withCell (g : Geometry) (i : Nat) (f : Nat → VError) : VError :=
  match g.cMapR.at? i with
  | some n => f n
  | none => VError.fault

/-- One iteration of the inner loop of `Geometry::validate` on the entry `trioP`
of cell `i`: `Except.ok none` for an EXIT line (`directExit = true; continue`),
`Except.ok (some cIdxS)` for an interface whose checks pass (`nbrs.insert(cIdxS)`),
and the error otherwise. -/
def checkTrio (g : Geometry) (i : Nat) (sMap : IdxMap) (trioP : TriType) :
    Except VError (Option Nat) :=
  match g.cMap.at? trioP.cIdx with
  | none => Except.error (withCell g i fun n => VError.invalidCell n trioP.cIdx trioP.oIdx)
  | some cIdxS =>
    if cIdxS = i then Except.ok none
    else
      match sMap.keyOf? trioP.sIdx with
      | none => Except.error VError.fault
      | some sIdxPF =>
        match g.sMaps[cIdxS]? with
        | none => Except.error VError.fault
        | some sMapS =>
          match sMapS.at? trioP.oIdx with
          | none =>
            Except.error (withCell g i fun n => VError.invalidLine n sIdxPF trioP.cIdx trioP.oIdx)
          | some sIdxS =>
            match g.susoExtz[cIdxS]? with
            | none => Except.error VError.fault
            | some susoExtsS =>
              match susoExtsS.find? (fun trio => trio.sIdx == sIdxS) with
              | none =>
                Except.error
                  (withCell g i fun n => VError.dualNotFound n sIdxPF trioP.cIdx trioP.oIdx)
              | some trioS =>
                match g.cMap.at? trioS.cIdx with
                | none => Except.error VError.fault
                | some cBack =>
                  if i ≠ cBack ∨ trioS.oIdx ≠ sIdxPF then
                    Except.error
                      (withCell g i fun n =>
                        VError.roundtrip n ⟨sIdxPF, trioP.cIdx, trioP.oIdx⟩
                          ⟨trioP.oIdx, trioS.cIdx, trioS.oIdx⟩)
                  else Except.ok (some cIdxS)

/-- The inner loop of `Geometry::validate` over the entries of cell `i`, threading
`directExit` and the set `nbrs` (kept without repetitions, in insertion order). -/
def checkTrios (g : Geometry) (i : Nat) (sMap : IdxMap) :
    List TriType → Bool × List Nat → Except VError (Bool × List Nat)
  | [], acc => Except.ok acc
  | trioP :: rest, (directExit, nbrs) =>
    match checkTrio g i sMap trioP with
    | Except.error e => Except.error e
    | Except.ok none => checkTrios g i sMap rest (true, nbrs)
    | Except.ok (some c) =>
      checkTrios g i sMap rest (directExit, if c ∈ nbrs then nbrs else nbrs ++ [c])

/-- The body of the outer loop of `Geometry::validate` for cell `i`: the references
`susoExtz[i]` and `sMaps[i]` are taken first. -/
def checkCell (g : Geometry) (i : Nat) : Except VError (Bool × List Nat) :=
  match g.susoExtz[i]?, g.sMaps[i]? with
  | some susoExts, some sMap => checkTrios g i sMap susoExts (false, [])
  | _, _ => Except.error VError.fault

/-- The outer loop of `Geometry::validate` from cell `i` on, `n` cells to go:
returns the local map `nbrz` (cell `i + k` at position `k`) and the initial
content of `que` (the cells with a direct exit, in increasing order). -/
def checkCells (g : Geometry) : Nat → Nat → Except VError (List (List Nat) × List Nat)
  | _, 0 => Except.ok ([], [])
  | i, n + 1 =>
    match checkCell g i with
    | Except.error e => Except.error e
    | Except.ok (directExit, nbrs) =>
      match checkCells g (i + 1) n with
      | Except.error e => Except.error e
      | Except.ok (nbrz, que) =>
        Except.ok (nbrs :: nbrz, if directExit then i :: que else que)

/-- The `for` loop inside the breadth-first search: the neighbours pushed onto the
queue are those whose mask bit is clear; a neighbour outside the mask is a fault. -/
def pushNbrs (mask : List Bool) : List Nat → Except VError (List Nat)
  | [] => Except.ok []
  | nbr :: rest =>
    match mask[nbr]? with
    | none => Except.error VError.fault
    | some b =>
      match pushNbrs mask rest with
      | Except.error e => Except.error e
      | Except.ok l => Except.ok (if b then l else nbr :: l)

/-- The `while (not que.empty())` loop of `Geometry::validate`, run for at most
`fuel` iterations on the state `(mask, isos, que)`; returns the final `isos`. -/
def bfs (nbrz : List (List Nat)) : Nat → List Bool → List Nat → List Nat →
    Except VError (List Nat)
  | _, _, isos, [] => Except.ok isos
  | 0, _, _, _ :: _ => Except.error VError.outOfFuel
  | fuel + 1, mask, isos, u :: que =>
    if u < mask.length then
      match nbrz[u]? with
      | none => Except.error VError.fault
      | some nbrs =>
        match pushNbrs (mask.set u true) nbrs with
        | Except.error e => Except.error e
        | Except.ok pushed => bfs nbrz fuel (mask.set u true) (isos.erase u) (que ++ pushed)
    else Except.error VError.fault

/-- The message built from a non-empty `isos`: the nominal index `cMapR.at(iso)` of
every remaining cell. -/
def isoNames (g : Geometry) : List Nat → Option (List Nat)
  | [] => some []
  | iso :: rest =>
    match g.cMapR.at? iso, isoNames g rest with
    | some n, some l => some (n :: l)
    | _, _ => none

/-- `Geometry::validate`: `none` when the function returns `{}`. -/
def validate (fuel : Nat) (g : Geometry) : Option VError :=
  match checkCells g 0 g.cellIdx with
  | Except.error e => some e
  | Except.ok (nbrz, que) =>
    match bfs nbrz fuel (List.replicate g.cellIdx false) (List.range g.cellIdx) que with
    | Except.error e => some e
    | Except.ok [] => none
    | Except.ok (iso :: isos) =>
      match isoNames g (iso :: isos) with
      | some names => some (VError.noRoute names)
      | none => some VError.fault

/-- The body of the loops of `Geometry::patchUp` on one trio: `cIdx = cMap[cIdx]`,
then `oIdx = sMaps[cIdx][oIdx]` with the new `cIdx`.  `Geometry::validate` has
bound `sMaps[cIdx]` for every cell it accepted, so the default taken here for a
missing `sMaps[cIdx]` is not reached after a successful validation. -/
def patchTrio (g : Geometry) (t : TriType) : TriType :=
  let cIdx := g.cMap.get t.cIdx
  ⟨t.sIdx, cIdx, ((g.sMaps[cIdx]?).getD IdxMap.empty).get t.oIdx⟩

/-- `Geometry::patchUp`, the part that rewrites `susoExtz`. -/
def patchUp (g : Geometry) : Geometry :=
  { g with susoExtz := g.susoExtz.map (fun susoExt => susoExt.map (patchTrio g)) }

/-- `Geometry::shrink`: `sMaps.clear()`. -/
def shrink (g : Geometry) : Geometry :=
  { g with sMaps := [] }

/-- The map built for one cell by `Geometry::constructSusoMaps`: `insert` keeps the
first entry of a key. -/
def susoMapOf : Nat → List TriType → List (Nat × TriType) → List (Nat × TriType)
  | _, [], acc => acc
  | i, t :: rest, acc =>
    susoMapOf (i + 1) rest
      (if acc.any (fun p => p.1 == t.sIdx) then acc else acc ++ [(t.sIdx, ⟨i, t.cIdx, t.oIdx⟩)])

/-- `Geometry::constructSusoMaps`. -/
def constructSusoMaps (g : Geometry) : Geometry :=
  { g with susoMaps := g.susoMaps ++ g.susoExtz.map (fun susoExts => susoMapOf 0 susoExts []) }

/-- `Geometry::finalize`: the returned error, if any, and the state afterwards. -/
def finalize (fuel : Nat) (g : Geometry) : Option VError × Geometry :=
  if g.vFlg then
    match validate fuel g with
    | some e => (some e, g)
    | none => (none, constructSusoMaps (shrink (patchUp g)))
  else (none, constructSusoMaps (shrink (patchUp g)))

/-! ### Specification vocabulary for `validate` -/

/-- The facts established by a passed interface check of `checkTrio`. -/
structure TrioChecked (g : Geometry) (i : Nat) (sMap : IdxMap) (t : TriType) (cS : Nat) : Prop where
  cmap : g.cMap.at? t.cIdx = some cS
  ne : cS ≠ i
  dual : ∃ sPF sMapS sS extS trioS,
    sMap.keyOf? t.sIdx = some sPF ∧ g.sMaps[cS]? = some sMapS ∧
    sMapS.at? t.oIdx = some sS ∧ g.susoExtz[cS]? = some extS ∧
    trioS ∈ extS ∧ trioS.sIdx = sS ∧ g.cMap.at? trioS.cIdx = some i ∧ trioS.oIdx = sPF

/-- Cell `i` owns an exit edge: one of its entries names the cell itself
(`cMap.at(trio.cIdx) == i`). -/
def OwnsExit (g : Geometry) (i : Nat) : Prop :=
  ∃ ext t, g.susoExtz[i]? = some ext ∧ t ∈ ext ∧ g.cMap.at? t.cIdx = some i

/-- The cell-neighbour graph induced by the interface trios: `k` is a neighbour of
`i` when an entry of cell `i` names the other cell `k`. -/
def CellNbr (g : Geometry) (i k : Nat) : Prop :=
  ∃ ext t, g.susoExtz[i]? = some ext ∧ t ∈ ext ∧ g.cMap.at? t.cIdx = some k ∧ k ≠ i

/-- Cell `k` is reached from a registered cell that owns an exit edge, along the
cell-neighbour graph. -/
inductive ReachedFromExit (g : Geometry) : Nat → Prop where
  | exit (i : Nat) : i < g.cellIdx → OwnsExit g i → ReachedFromExit g i
  | step (i k : Nat) : ReachedFromExit g i → CellNbr g i k → ReachedFromExit g k

/-- A geometry of two cells (nominal indices 10 and 20): cell 0 has an interface
(local edge 2, user index 5) to cell 20 and an exit (local edge 0, user index 1);
cell 1 has the other side of the interface (local edge 3, user index 7). -/
def geoPair : Geometry where
  vFlg := true
  cellIdx := 2
  susoExtz := [[⟨2, 20, 7⟩, ⟨0, 10, 1⟩], [⟨3, 10, 5⟩]]
  cMap := ⟨[(10, 0), (20, 1)], by decide⟩
  cMapR := ⟨[(0, 10), (1, 20)], by decide⟩
  sMaps := [⟨[(5, 2), (1, 0)], by decide⟩, ⟨[(7, 3)], by decide⟩]
  susoMaps := []

/-- The adjacency kept in the local map `nbrz` of `Geometry::validate`. -/
def Adj (nbrz : List (List Nat)) (u v : Nat) : Prop :=
  ∃ nbrs, nbrz[u]? = some nbrs ∧ v ∈ nbrs

/-- The cells reached from the initial queue `que0` along `Adj`. -/
inductive Closure (nbrz : List (List Nat)) (que0 : List Nat) : Nat → Prop where
  | base (v : Nat) : v ∈ que0 → Closure nbrz que0 v
  | step (u v : Nat) : Closure nbrz que0 u → Adj nbrz u v → Closure nbrz que0 v

/-- The loop invariant of the breadth-first search of `Geometry::validate`, for a
search started from the queue `que0` on `n` cells. -/
structure BfsInv (nbrz : List (List Nat)) (n : Nat) (que0 : List Nat)
    (mask : List Bool) (isos que : List Nat) : Prop where
  len : mask.length = n
  que_lt : ∀ v ∈ que, v < n
  que_reach : ∀ v ∈ que, Closure nbrz que0 v
  mask_reach : ∀ v, mask[v]? = some true → Closure nbrz que0 v
  init : ∀ v ∈ que0, mask[v]? = some true ∨ v ∈ que
  closed : ∀ u v, mask[u]? = some true → Adj nbrz u v → mask[v]? = some true ∨ v ∈ que
  isos_mem : ∀ v, v ∈ isos ↔ (v < n ∧ mask[v]? = some false)
  isos_nodup : isos.Nodup

/-- The number of queue entries whose cell is already masked. -/
def maskedIn (mask : List Bool) (que : List Nat) : Nat :=
  que.countP (fun v => mask[v]? == some true)

/-- A geometry of two cells (nominal indices 10 and 20) without any interface:
cell 0 has one exit (local edge 0, user index 1), cell 1 has no subsolid line. -/
def geoLone : Geometry where
  vFlg := true
  cellIdx := 2
  susoExtz := [[⟨0, 10, 1⟩], []]
  cMap := ⟨[(10, 0), (20, 1)], by decide⟩
  cMapR := ⟨[(0, 10), (1, 20)], by decide⟩
  sMaps := [⟨[(1, 0)], by decide⟩, ⟨[], by decide⟩]
  susoMaps := []

/-! ### Lazy Dijkstra (`finder.cpp`)

`CrdType` values are read as exact numbers of an ordered additive monoid `D` with
a greatest element `⊤`, which stands for `std::numeric_limits<CrdType>::infinity()`
(`⊤ + x = ⊤`).  `GraphType` (`std::vector<std::unordered_map<IdxType, CrdType>>`)
is a list of rows, each row the `(target, weight)` pairs in iteration order. -/

/-- `IdxTypeMax` of `types.hpp`. -/
def IdxTypeMax : Nat := 2 ^ 64 - 1

/-- `GraphType` of `finder.hpp`. -/
abbrev GraphType (D : Type) := List (List (Nat × D))

/-- The local variables of `dijkstraPQ` and `dijkstraPQCS`: distances `d`, parents
`p`, mask `m` and the content of the priority queue `q`. -/
structure DState (D : Type) where
  d : List D
  p : List Nat
  m : List Bool
  q : List (D × Nat)

/-- The order `std::greater<NbrType>` inverts: `operator<` of
`std::pair<CrdType, IdxType>`. -/
def pairLt {D : Type} [LinearOrder D] (a b : D × Nat) : Bool :=
  decide (a.1 < b.1) || (decide (a.1 = b.1) && decide (a.2 < b.2))

/-- `q.top()`: a least element of the queue, `none` when the queue is empty. -/
def pqTop {D : Type} [LinearOrder D] : List (D × Nat) → Option (D × Nat)
  | [] => none
  | x :: rest =>
    match pqTop rest with
    | none => some x
    | some y => if pairLt y x then some y else some x

/-- The `for (auto const & [v, wgt] : g[u])` loop: `dv = d[u] + wgt`, and when
`dv < d[v]` the distance and parent of `v` are updated and `(d[v], v)` is pushed.
An index outside `d` is a fault (`none`). -/
def relax {D : Type} [LinearOrderedAddCommMonoidWithTop D] (u : Nat) :
    List (Nat × D) → DState D → Option (DState D)
  | [], st => some st
  | (v, wgt) :: rest, st =>
    match st.d[u]?, st.d[v]? with
    | some du, some dvOld =>
      if du + wgt < dvOld then
        relax u rest
          { st with d := st.d.set v (du + wgt), p := st.p.set v u, q := st.q ++ [(du + wgt, v)] }
      else relax u rest st
    | _, _ => none

/-- The `while (not q.empty())` loop, for at most `fuel` iterations; `none` is a
fault or an exhausted `fuel`. -/
def dijkstraLoop {D : Type} [LinearOrderedAddCommMonoidWithTop D] (g : GraphType D) :
    Nat → DState D → Option (DState D)
  | 0, st => if st.q = [] then some st else none
  | fuel + 1, st =>
    match pqTop st.q with
    | none => some st
    | some top =>
      match st.m[top.2]? with
      | none => none
      | some true => dijkstraLoop g fuel { st with q := st.q.erase top }
      | some false =>
        match g[top.2]? with
        | none => none
        | some row =>
          match relax top.2 row { st with m := st.m.set top.2 true, q := st.q.erase top } with
          | none => none
          | some st1 => dijkstraLoop g fuel st1

/-- The part shared verbatim by `dijkstraPQ` and `dijkstraPQCS`: initialisation of
`d`, `p`, `m`, `q` for the source `s` and the main loop.  The number of
iterations of the loop is at most `1 + Σ_u (1 + |g[u]|)`: an iteration either
discards a queue entry of a masked vertex or masks `u` and pushes at most
`|g[u]|` entries; that bound is the `fuel` given to `dijkstraLoop`.
Returns `(d, p)`. -/
def dijkstraCore {D : Type} [LinearOrderedAddCommMonoidWithTop D] (g : GraphType D) (s : Nat) :
    Option (List D × List Nat) :=
  let xSize := g.length
  if s < xSize then
    let st : DState D :=
      { d := (List.replicate xSize ⊤).set s 0
        p := (List.replicate xSize IdxTypeMax).set s s
        m := List.replicate xSize false
        q := [(0, s)] }
    match dijkstraLoop g (1 + (g.map fun row => 1 + row.length).sum) st with
    | none => none
    | some st1 => some (st1.d, st1.p)
  else none

/-- The final loop `for i < xSize: path[i * ySize + t] = p[i]; dist[i * ySize + t] = d[i]`,
from row `i` on; writing outside a table is a fault. -/
def writeColumn {D : Type} (ySize t : Nat) :
    Nat → List D → List Nat → List Nat × List D → Option (List Nat × List D)
  | _, [], _, tabs => some tabs
  | _, _ :: _, [], _ => none
  | i, di :: ds, pi :: ps, (path, dist) =>
    if i * ySize + t < path.length ∧ i * ySize + t < dist.length then
      writeColumn ySize t (i + 1) ds ps (path.set (i * ySize + t) pi, dist.set (i * ySize + t) di)
    else none

/-- `dijkstraPQ(graph, pathM, distM, s)`: returns the tables `(pathM, distM)` after
the call. -/
def dijkstraPQ {D : Type} [LinearOrderedAddCommMonoidWithTop D] (graph : GraphType D)
    (pathM : List Nat) (distM : List D) (s : Nat) : Option (List Nat × List D) :=
  match dijkstraCore graph s with
  | none => none
  | some (d, p) => writeColumn graph.length s 0 d p (pathM, distM)

/-- `dijkstraPQCS(pathMCS, distMCS, g, st)` with `st = (s, t)`: `ySize` is
`pathMCS.size() / xSize`; returns the tables `(pathMCS, distMCS)` after the call. -/
def dijkstraPQCS {D : Type} [LinearOrderedAddCommMonoidWithTop D]
    (pathMCS : List Nat) (distMCS : List D) (g : GraphType D) (st : Nat × Nat) :
    Option (List Nat × List D) :=
  match dijkstraCore g st.1 with
  | none => none
  | some (d, p) => writeColumn (pathMCS.length / g.length) st.2 0 d p (pathMCS, distMCS)

/-- There is a walk in `g` from `s` to `v` whose weights add up to `l`. -/
inductive Walk {D : Type} [LinearOrderedAddCommMonoidWithTop D] (g : GraphType D) (s : Nat) :
    Nat → D → Prop where
  | nil : s < g.length → Walk g s s 0
  | snoc (u v : Nat) (l w : D) (row : List (Nat × D)) :
      Walk g s u l → g[u]? = some row → (v, w) ∈ row → Walk g s v (l + w)

/-- The number `dist` is the length of a shortest walk from `s` to `v`. -/
def IsShortest {D : Type} [LinearOrderedAddCommMonoidWithTop D] (g : GraphType D)
    (s v : Nat) (dist : D) : Prop :=
  Walk g s v dist ∧ ∀ l, Walk g s v l → dist ≤ l

/-- The vertex `v` is reachable from `s`. -/
def Reachable {D : Type} [LinearOrderedAddCommMonoidWithTop D] (g : GraphType D)
    (s v : Nat) : Prop :=
  ∃ l, Walk g s v l

/-- A graph on three vertices with weights in `WithTop ℕ`: `0 → 1` (weight 4),
`0 → 2` (weight 1), `2 → 1` (weight 2); vertex `0` is not reachable from `2`. -/
def graphTri : GraphType (WithTop Nat) :=
  [[(1, 4), (2, 1)], [], [(1, 2)]]

/-- The distance `d[v]` of a state, `⊤` outside the vector. -/
def DState.dOf {D : Type} [LinearOrderedAddCommMonoidWithTop D] (st : DState D) (v : Nat) : D :=
  st.d.getD v ⊤

/-- The loop invariant of the lazy Dijkstra on graph `g` from source `s`.  While
the edges of the freshly masked vertex `cur` are being relaxed, `todo` holds the
edges of `cur` not yet visited; between iterations of the outer loop `todo` is
empty. -/
structure DInv {D : Type} [LinearOrderedAddCommMonoidWithTop D] (g : GraphType D) (s : Nat)
    (cur : Nat) (todo : List (Nat × D)) (st : DState D) : Prop where
  len_d : st.d.length = g.length
  len_p : st.p.length = g.length
  len_m : st.m.length = g.length
  q_lt : ∀ e ∈ st.q, e.2 < g.length
  zero : st.dOf s = 0
  nonneg : ∀ v, 0 ≤ st.dOf v
  real : ∀ v, v < g.length → st.dOf v = ⊤ ∨ Walk g s v (st.dOf v)
  par : ∀ v, v ≠ s → v < g.length → st.dOf v = ⊤ → st.p[v]? = some IdxTypeMax
  keyA : ∀ e ∈ st.q, st.dOf e.2 ≤ e.1
  keyB : ∀ u, st.m[u]? = some true → ∀ e ∈ st.q, st.dOf u ≤ e.1
  relaxed : ∀ u row v w, st.m[u]? = some true → g[u]? = some row → (v, w) ∈ row →
    (u = cur ∧ (v, w) ∈ todo) ∨ st.dOf v ≤ st.dOf u + w
  pending : ∀ v, st.m[v]? = some false → st.dOf v ≠ ⊤ → (st.dOf v, v) ∈ st.q
  tree : ∀ v, v < g.length → v ≠ s → st.dOf v ≠ ⊤ →
    ∃ (u : Nat) (w : D) (row : List (Nat × D)), st.p[v]? = some u ∧ u ≠ v ∧
      st.m[u]? = some true ∧ g[u]? = some row ∧ (v, w) ∈ row ∧ st.dOf v = st.dOf u + w

/-- The bound on the remaining iterations of the main loop: the queue length plus
`1 + |g[u]|` for every vertex `u` not yet masked. -/
def budget {D : Type} (g : GraphType D) (m : List Bool) (q : List (D × Nat)) : Nat :=
  q.length + (List.zipWith (fun (b : Bool) (row : List (Nat × D)) =>
    if b then 0 else 1 + row.length) m g).sum

/-! ### Primitives (`types.hpp`, `geometry/point.cpp`, `geometry/line.cpp`)

`CrdType` (`double`) is read as an exact number of an ordered field `K`, the
rationals wherever a value is computed: the tolerant comparisons are evaluated
without rounding.  Every call in the embedded code uses the default `ulp = 2`. -/

/-- `std::numeric_limits<double>::epsilon()`. -/
def epsilon {K : Type} [LinearOrderedField K] : K := 1 / 2 ^ 52

/-- `std::numeric_limits<double>::min()`, the least positive normal number. -/
def minNormal {K : Type} [LinearOrderedField K] : K := 1 / 2 ^ 1022

/-- `fEqual(x, y)` of `types.hpp`, with `ulp = 2`. -/
def fEqual {K : Type} [LinearOrderedField K] (x y : K) : Bool :=
  decide (|x - y| ≤ epsilon * |x + y| * 2) || decide (|x - y| < minNormal)

/-- `fLess(x, y)` of `types.hpp`, with `ulp = 2`. -/
def fLess {K : Type} [LinearOrderedField K] (x y : K) : Bool :=
  decide (y - x > epsilon * |x + y| * 2) || decide (y - x ≥ minNormal)

/-- `fELess(x, y)` of `types.hpp`. -/
def fELess {K : Type} [LinearOrderedField K] (x y : K) : Bool :=
  fLess x y || fEqual x y

/-- `smr::Point`, over a coordinate type `K`. -/
structure Point (K : Type) where
  x : K
  y : K
deriving DecidableEq, Repr

/-- `operator==` of `smr::Point`. -/
def Point.eqv (lhs rhs : Point ℚ) : Bool :=
  fEqual lhs.x rhs.x && fEqual lhs.y rhs.y

/-- `operator<` of `smr::Point`. -/
def Point.lt (lhs rhs : Point ℚ) : Bool :=
  fLess lhs.x rhs.x || (fEqual lhs.x rhs.x && fLess lhs.y rhs.y)

/-- `operator<=` of `smr::Point`. -/
def Point.le (lhs rhs : Point ℚ) : Bool :=
  fLess lhs.x rhs.x || (fEqual lhs.x rhs.x && fELess lhs.y rhs.y)

/-- `smr::Line`. -/
structure Line where
  u : Point ℚ
  v : Point ℚ
deriving DecidableEq, Repr

/-- `TriangleType` of `support.hpp`. -/
structure TriangleType where
  u : Point ℚ
  v : Point ℚ
  w : Point ℚ
deriving DecidableEq, Repr

/-- The `std::array<IdxType, 4>` of neighbour slots of an edge. -/
structure Nbrs where
  n0 : Nat
  n1 : Nat
  n2 : Nat
  n3 : Nat
deriving DecidableEq, Repr

/-- `nbrs[j]` for `j < 4`. -/
def Nbrs.get (n : Nbrs) : Nat → Nat
  | 0 => n.n0
  | 1 => n.n1
  | 2 => n.n2
  | _ => n.n3

/-- `nbrs[j] = x` for `j < 4`. -/
def Nbrs.set (n : Nbrs) (j x : Nat) : Nbrs :=
  match j with
  | 0 => { n with n0 := x }
  | 1 => { n with n1 := x }
  | 2 => { n with n2 := x }
  | _ => { n with n3 := x }

/-- The four slots in order. -/
def Nbrs.toList (n : Nbrs) : List Nat :=
  [n.n0, n.n1, n.n2, n.n3]

/-- `std::find(nbrs.begin(), nbrs.end(), x)`: the first slot holding `x`, `none` for
`nbrs.end()`. -/
def Nbrs.find? (n : Nbrs) (x : Nat) : Option Nat :=
  if n.n0 = x then some 0
  else if n.n1 = x then some 1
  else if n.n2 = x then some 2
  else if n.n3 = x then some 3
  else none

/-- `smr::Edge`. -/
structure Edge where
  u : Point ℚ
  v : Point ℚ
  idx : Nat
  nbrs : Nbrs
deriving DecidableEq, Repr

/-- The constructor `Edge::Edge(u, v, idx, thisNbr, thatNbr)`: the indices are
shifted by one, `0` being reserved for the null neighbour. -/
def Edge.ctor (u v : Point ℚ) (idx thisNbr thatNbr : Nat) : Edge :=
  ⟨u, v, 1 + idx, ⟨1 + thisNbr, 1 + thatNbr, 0, 0⟩⟩

/-- `operator==` of `smr::Edge`: the end points only. -/
def Edge.eqv (lhs rhs : Edge) : Bool :=
  lhs.u.eqv rhs.u && lhs.v.eqv rhs.v

/-- `operator<` of `smr::Edge`. -/
def Edge.lt (lhs rhs : Edge) : Bool :=
  lhs.u.lt rhs.u || (lhs.u.eqv rhs.u && lhs.v.lt rhs.v)

/-- `orderPoints` of `support.hpp` on an edge. -/
def orderPoints (e : Edge) : Edge :=
  if e.u.le e.v then e else { e with u := e.v, v := e.u }

/-! ### The edge list of the mesher (`mesher.cpp`) -/

/-- The final loop of `Mesher::mesh` from triangle number `i` on: triangle `i` with
corners `u, v, w` yields the edges `uv`, `vw`, `wu` with indices `3 i + 1`,
`3 i + 2`, `3 i + 3`, each naming the other two in its first two slots. -/
def meshEdgesFrom : Nat → List TriangleType → List Edge
  | _, [] => []
  | i, t :: rest =>
    orderPoints (Edge.ctor t.u t.v (3 * i + 0) (3 * i + 1) (3 * i + 2)) ::
    orderPoints (Edge.ctor t.v t.w (3 * i + 1) (3 * i + 2) (3 * i + 0)) ::
    orderPoints (Edge.ctor t.w t.u (3 * i + 2) (3 * i + 0) (3 * i + 1)) ::
    meshEdgesFrom (i + 1) rest

/-- The edges `Mesher::mesh` emits for the triangles `triVec` of the last
triangulation. -/
def meshEdges (triVec : List TriangleType) : List Edge :=
  meshEdgesFrom 0 triVec

/-! ### The augmenter (`augmenter.cpp`) -/

/-- The position `std::find(edgesC.begin(), edgesC.end(), qeury)` returns, `none`
for `edgesC.end()`. -/
def findEdge (edgesC : List Edge) (query : Edge) : Option Nat :=
  let k := edgesC.findIdx (fun e => e.eqv query)
  if k < edgesC.length then some k else none

/-- One pass of `for (int j {}; j < 2; j++)` in `subtractLines` for the wall at
position `k`: slot `(j + 1) % 2` of the neighbour named in slot `j` is cleared.
A neighbour index beyond the list is a fault. -/
def clearSlot (edgesC : List Edge) (k j : Nat) : Option (List Edge) :=
  match edgesC[k]? with
  | none => none
  | some edge =>
    let nbrIdx := edge.nbrs.get j
    if nbrIdx = 0 then some edgesC
    else
      match edgesC[nbrIdx - 1]? with
      | none => none
      | some nbr =>
        some (edgesC.set (nbrIdx - 1) { nbr with nbrs := nbr.nbrs.set ((j + 1) % 2) 0 })

/-- The body of the loop over the walls in `subtractLines`: the matching edge gets
`idx = 0` and its two in-triangle neighbours forget it.  Dereferencing
`edgesC.end()` (no matching edge) is a fault. -/
def subtractWall (edgesC : List Edge) (line : Line) : Option (List Edge) :=
  match findEdge edgesC (Edge.ctor line.u line.v 0 0 0) with
  | none => none
  | some k =>
    match edgesC[k]? with
    | none => none
    | some edge =>
      match clearSlot (edgesC.set k { edge with idx := 0 }) k 0 with
      | none => none
      | some edges1 => clearSlot edges1 k 1

/-- The loop over the walls in `subtractLines`. -/
def subtractWalls : List Edge → List Line → Option (List Edge)
  | edgesC, [] => some edgesC
  | edgesC, line :: rest =>
    match subtractWall edgesC line with
    | none => none
    | some edges1 => subtractWalls edges1 rest

/-- `subtractLines(edgesC, walls)`. -/
def subtractLines (edgesC : List Edge) (walls : List Line) : Option (List Edge) :=
  match subtractWalls edgesC walls with
  | none => none
  | some edges1 => some (edges1.filter fun edge => edge.idx != 0)

/-- The edge built from a wall for the search in `subtractLines`
(`smr::Edge const qeury { line.u, line.v, 0, 0, 0 }`). -/
def wallQuery (line : Line) : Edge :=
  Edge.ctor line.u line.v 0 0 0

/-- The identity of an edge in the returned list: end points and index. -/
def edgeKey (e : Edge) : Point ℚ × Point ℚ × Nat :=
  (e.u, e.v, e.idx)

/-- The triangle with corners `(1 + 4 ε, 0)`, `(5, 0)`, `(3, 2)`. -/
def triNear : TriangleType :=
  ⟨⟨1 + 4 * epsilon, 0⟩, ⟨5, 0⟩, ⟨3, 2⟩⟩

/-- Two walls from `(1, 0)` and from `(1 + 8 ε, 0)` to `(5, 0)`: each is equal,
within the tolerance of `fEqual`, to the first side of `triNear`, and they are
not equal to each other. -/
def wallsNear : List Line :=
  [⟨⟨1, 0⟩, ⟨5, 0⟩⟩, ⟨⟨1 + 8 * epsilon, 0⟩, ⟨5, 0⟩⟩]

/-- `e1` is `e` up to cleared neighbour slots. -/
def SlotsCleared (e e1 : Edge) : Prop :=
  e1.u = e.u ∧ e1.v = e.v ∧ e1.idx = e.idx ∧
    ∀ j, e1.nbrs.get j = 0 ∨ e1.nbrs.get j = e.nbrs.get j

/-- The state of the vector `edgesC` of `subtractLines` after the walls `done` have
been processed, in terms of the input `edges0`: end points are unchanged, the
index is zeroed exactly on the edges equal to a processed wall, and every
neighbour slot holds its input value or has been cleared. -/
def Subtracted (edges0 : List Edge) (done : List Line) (cur : List Edge) : Prop :=
  cur.length = edges0.length ∧
  ∀ (i : Nat) (e0 : Edge), edges0[i]? = some e0 →
    ∃ e, cur[i]? = some e ∧ e.u = e0.u ∧ e.v = e0.v ∧
      e.idx = (if done.any (fun w => e0.eqv (wallQuery w)) then 0 else e0.idx) ∧
      ∀ j, e.nbrs.get j = 0 ∨ e.nbrs.get j = e0.nbrs.get j

/-- Insertion of an edge into a list sorted by `operator<`: after every element
that is not greater. -/
def insertEdge (e : Edge) : List Edge → List Edge
  | [] => [e]
  | x :: rest => if e.lt x then e :: x :: rest else x :: insertEdge e rest

/-- `std::sort(edges.begin(), edges.end())`.  The standard leaves the order of
equivalent elements open; this model keeps them in their input order. -/
def sortEdges (edges : List Edge) : List Edge :=
  edges.foldl (fun acc e => insertEdge e acc) []

/-- `m.at(x)` for the map `m` built by `m.insert({ edges[i].idx, i })` for
`i = 0, 1, ...` over the list of indices `idxs`: the first position holding `x`
(`insert` keeps the first entry of a key); `none` when the key is missing (the
source throws). -/
def posOf? (idxs : List Nat) (x : Nat) : Option Nat :=
  let k := idxs.indexOf x
  if k < idxs.length then some k else none

/-- One pass of the loop `for (char j {}; j < 2; j++)` of `sortNCorrectNbrs` for the
diamond at positions `i`, `i + 1`: slot `2 + j` of the remaining edge `e0`
receives slot `j` of the leaving edge `e1`, and the neighbour named there
replaces `e1.idx` by `e0.idx` in its own slots.  Dereferencing `nbrs.end()`
is a fault. -/
def fixSlot (m : List Nat) (edges : List Edge) (i j : Nat) : Option (List Edge) :=
  match edges[i]?, edges[i + 1]? with
  | some e0, some e1 =>
    let nCIdx := e1.nbrs.get j
    let edges1 := edges.set i { e0 with nbrs := e0.nbrs.set (2 + j) nCIdx }
    if nCIdx = 0 then some edges1
    else
      match posOf? m nCIdx with
      | none => none
      | some k =>
        match edges1[k]? with
        | none => none
        | some nb =>
          match nb.nbrs.find? e1.idx with
          | none => none
          | some s => some (edges1.set k { nb with nbrs := nb.nbrs.set s e0.idx })
  | _, _ => none

/-- The loop `for (IdxType i {}; i < (edges.size() - 1); i++)` of
`sortNCorrectNbrs` from position `i` on, for at most `fuel` iterations (the
loop needs fewer than `edges.size()`). -/
def correctLoop (m : List Nat) : Nat → Nat → List Edge → Option (List Edge)
  | 0, _, edges => some edges
  | fuel + 1, i, edges =>
    if i + 1 < edges.length then
      match edges[i]?, edges[i + 1]? with
      | some e0, some e1 =>
        if e0.eqv e1 then
          match fixSlot m edges i 0 with
          | none => none
          | some edges1 =>
            match fixSlot m edges1 i 1 with
            | none => none
            | some edges2 => correctLoop m fuel (i + 2) edges2
        else correctLoop m fuel (i + 1) edges
      | _, _ => none
    else some edges

/-- `sortNCorrectNbrs(edges)`.  For an empty vector the bound `edges.size() - 1`
wraps around and the loop reads `edges[0]`: a fault. -/
def sortNCorrectNbrs (edges : List Edge) : Option (List Edge) :=
  let sorted := sortEdges edges
  if sorted.length = 0 then none
  else correctLoop (sorted.map fun e => e.idx) sorted.length 0 sorted

/-- The loop of `formUniques` from position `i` on, for at most `fuel` iterations:
the first edge of every run of one or two equal edges is kept. -/
def uniqLoop (edges : List Edge) : Nat → Nat → List Edge → List Edge
  | 0, _, edgesU => edgesU
  | fuel + 1, i, edgesU =>
    if i + 1 < edges.length then
      match edges[i]?, edges[i + 1]? with
      | some e0, some e1 =>
        if e0.eqv e1 then uniqLoop edges fuel (i + 2) (edgesU ++ [e0])
        else uniqLoop edges fuel (i + 1) (edgesU ++ [e0])
      | _, _ => edgesU
    else edgesU

/-- `formUniques(edges)`.  The function reads `*(last - 1)` with
`last = edges.end() - 1` and loops up to `edges.size() - 1`: with fewer than two
edges it reads outside the vector, a fault. -/
def formUniques (edges : List Edge) : Option (List Edge) :=
  if edges.length < 2 then none
  else
    match edges[edges.length - 2]?, edges[edges.length - 1]? with
    | some e0, some e1 =>
      let edgesU := uniqLoop edges edges.length 0 []
      if e0.eqv e1 then some edgesU else some (edgesU ++ [e1])
    | _, _ => none

/-- The body of `for (char j {}; j < 4; j++)` in `uniqeNRename` for the edge at
position `i`: a neighbour with a larger new position `newIdx` has the old index
of this edge replaced by `1 + i` (when found), and slot `j` of this edge becomes
`1 + newIdx`. -/
def renameSlot (m : List Nat) (edgesU edges : List Edge) (i j : Nat) : Option (List Edge) :=
  match edgesU[i]?, edges[i]? with
  | some edgeU, some edge =>
    let oldIdx := edgeU.nbrs.get j
    if oldIdx = 0 then some edges
    else
      match posOf? m oldIdx with
      | none => none
      | some newIdx =>
        if newIdx > i then
          match edges[newIdx]? with
          | none => none
          | some nb =>
            let edges1 :=
              match nb.nbrs.find? edge.idx with
              | none => edges
              | some s => edges.set newIdx { nb with nbrs := nb.nbrs.set s (1 + i) }
            some (edges1.set i { edge with nbrs := edge.nbrs.set j (1 + newIdx) })
        else some edges
  | _, _ => none

/-- The four passes `j = 0, 1, 2, 3` and the final `edge.idx = 1 + i` for the edge at
position `i` in `uniqeNRename`. -/
def renameEdge (m : List Nat) (edgesU edges : List Edge) (i : Nat) : Option (List Edge) :=
  match renameSlot m edgesU edges i 0 with
  | none => none
  | some e1 =>
    match renameSlot m edgesU e1 i 1 with
    | none => none
    | some e2 =>
      match renameSlot m edgesU e2 i 2 with
      | none => none
      | some e3 =>
        match renameSlot m edgesU e3 i 3 with
        | none => none
        | some e4 =>
          match e4[i]? with
          | none => none
          | some edge => some (e4.set i { edge with idx := 1 + i })

/-- The loop `for (IdxType i {}; i < edges.size(); i++)` of `uniqeNRename` from
position `i` on, `n` positions to go. -/
def renameLoop (m : List Nat) (edgesU : List Edge) : Nat → Nat → List Edge → Option (List Edge)
  | 0, _, edges => some edges
  | n + 1, i, edges =>
    match renameEdge m edgesU edges i with
    | none => none
    | some edges1 => renameLoop m edgesU n (i + 1) edges1

/-- `uniqeNRename(edges, edgesU)`: returns the new content of `edges`. -/
def uniqeNRename (edgesU : List Edge) : Option (List Edge) :=
  renameLoop (edgesU.map fun e => e.idx) edgesU edgesU.length 0 edgesU

/-- The edge list computed by `Augmenter::augment` from the triangles `triVec` of
the mesher and the walls of the cell. -/
def augmentEdges (triVec : List TriangleType) (walls : List Line) : Option (List Edge) :=
  match subtractLines (meshEdges triVec) walls with
  | none => none
  | some edges =>
    match sortNCorrectNbrs edges with
    | none => none
    | some sorted =>
      match formUniques sorted with
      | none => none
      | some edgesU => uniqeNRename edgesU

/-- The property of claim C6 for a returned list `E`: `E[i].idx = i + 1`, and every
non-zero neighbour entry `n` of `E[i]` is at most `|E|` and `E[n - 1]` names
`i + 1` among its neighbours. -/
def backRefs (E : List Edge) : Bool :=
  (List.range E.length).all fun i =>
    match E[i]? with
    | none => false
    | some e =>
      e.idx == i + 1 &&
      e.nbrs.toList.all fun n =>
        n == 0 ||
          (decide (n ≤ E.length) &&
            match E[n - 1]? with
            | none => false
            | some nb => nb.nbrs.toList.contains (i + 1))

/-- The triangle with corners `(0, 0)`, `(1, 0)`, `(0, 1)`. -/
def triUnit : TriangleType :=
  ⟨⟨0, 0⟩, ⟨1, 0⟩, ⟨0, 1⟩⟩

/-- The two legs of `triUnit` as walls (the hypotenuse is left as an exit). -/
def wallsLegs : List Line :=
  [⟨⟨0, 0⟩, ⟨1, 0⟩⟩, ⟨⟨0, 0⟩, ⟨0, 1⟩⟩]

/-- The unit square cut along the diagonal from `(0, 0)` to `(1, 1)`. -/
def trisSquare : List TriangleType :=
  [⟨⟨0, 0⟩, ⟨1, 0⟩, ⟨1, 1⟩⟩, ⟨⟨0, 0⟩, ⟨1, 1⟩, ⟨0, 1⟩⟩]

/-! ### `Router::consolidate` (`router.cpp`) -/

/-- `QudType` of `types.hpp`. -/
structure QudType where
  cIdxP : Nat
  sIdxP : Nat
  cIdxS : Nat
  sIdxS : Nat
deriving DecidableEq, Repr

/-- The fields of `Router` written by `consolidate` (`gIdx`, `quads`, `gEIds`,
`gIdz`) and its local vector `clonz`; a map of `clonz` is the list of its
`(sIdx, gIdx)` entries in insertion order. -/
structure Consolidated where
  gIdx : Nat
  quads : List QudType
  gEIds : List Nat
  gIdz : List (List Nat)
  clonz : List (List (Nat × Nat))
deriving DecidableEq, Repr

/-- `clons.insert({ k, v })`: an existing key keeps its value. -/
def insertFirst (clons : List (Nat × Nat)) (k v : Nat) : List (Nat × Nat) :=
  if (clons.lookup k).isSome then clons else clons ++ [(k, v)]

/-- The body of the inner loop of `Router::consolidate` for the entry
`(sIdx, cIdx, oIdx)` of cell `i`, on the router fields `st` and the locals
`clons`, `gIds` of the cell.  With `cIdx >= i` the entry receives the fresh
id `gIdx`; otherwise it reuses `clonz[cIdx].at(oIdx)` and completes the quad.
A missing key or an index outside a vector is a fault. -/
def consEntry (i : Nat) (st : Consolidated) (clons : List (Nat × Nat)) (gIds : List Nat)
    (t : TriType) : Option (Consolidated × List (Nat × Nat) × List Nat) :=
  if t.cIdx ≥ i then
    some ({ st with
            gIdx := st.gIdx + 1
            quads := st.quads ++ [⟨i, t.sIdx, IdxTypeMax, IdxTypeMax⟩]
            gEIds := if t.cIdx = i then st.gEIds ++ [st.gIdx] else st.gEIds },
          insertFirst clons t.sIdx st.gIdx, gIds ++ [st.gIdx])
  else
    match st.clonz[t.cIdx]? with
    | none => none
    | some cl =>
      match cl.lookup t.oIdx with
      | none => none
      | some gIdxO =>
        match st.quads[gIdxO]? with
        | none => none
        | some quad =>
          some ({ st with quads := st.quads.set gIdxO ⟨quad.cIdxP, quad.sIdxP, i, t.sIdx⟩ },
                clons, gIds ++ [gIdxO])

/-- The inner loop of `Router::consolidate` over the entries of cell `i`. -/
def consCell (i : Nat) :
    List TriType → Consolidated → List (Nat × Nat) → List Nat →
      Option (Consolidated × List (Nat × Nat) × List Nat)
  | [], st, clons, gIds => some (st, clons, gIds)
  | t :: rest, st, clons, gIds =>
    match consEntry i st clons gIds t with
    | none => none
    | some (st1, clons1, gIds1) => consCell i rest st1 clons1 gIds1

/-- The end of an iteration of the outer loop:
`clonz.emplace_back(std::move(clons)); gIdz.emplace_back(std::move(gIds))`. -/
def Consolidated.push (st : Consolidated) (clons : List (Nat × Nat)) (gIds : List Nat) :
    Consolidated :=
  { st with clonz := st.clonz ++ [clons], gIdz := st.gIdz ++ [gIds] }

/-- The outer loop of `Router::consolidate` from cell `i` on.  The local `clons` is
moved into `clonz` at the end of every iteration and starts the next one empty. -/
def consCells : Nat → List (List TriType) → Consolidated → Option Consolidated
  | _, [], st => some st
  | i, susoExts :: rest, st =>
    match consCell i susoExts st [] [] with
    | none => none
    | some (st1, clons, gIds) => consCells (i + 1) rest (st1.push clons gIds)

/-- `Router::consolidate` on `geometry.getSusoExtz()`. -/
def consolidate (susoExtz : List (List TriType)) : Option Consolidated :=
  consCells 0 susoExtz ⟨0, [], [], [], []⟩

/-- The element `L[c][k]` of a vector of vectors, when defined. -/
def at2 {α : Type} (L : List (List α)) (c k : Nat) : Option α :=
  match L[c]? with
  | none => none
  | some row => row[k]?

/-- The entry at position `k` of cell `c` is the trio `t`. -/
def IsEntry (susoExtz : List (List TriType)) (c k : Nat) (t : TriType) : Prop :=
  at2 susoExtz c k = some t

/-- The global id `gIdz[c][k]`, when defined. -/
def Consolidated.gidAt (st : Consolidated) (c k : Nat) : Option Nat :=
  at2 st.gIdz c k

/-- The entries `t` of cell `c` and `t1` of cell `c1` are the two reciprocal sides of
one interface. -/
def Reciprocal (c : Nat) (t : TriType) (c1 : Nat) (t1 : TriType) : Prop :=
  c ≠ c1 ∧ t.cIdx = c1 ∧ t1.cIdx = c ∧ t1.sIdx = t.oIdx ∧ t1.oIdx = t.sIdx

/-- The subsolid tables of a finalized geometry, as far as `Router::consolidate`
relies on them: every interface entry has its reciprocal entry (the conclusion
of claim C1), and the local edge indices `sIdx` of a cell are pairwise distinct
(every subsolid line is a different edge of the cell). -/
structure FinalizedSusos (susoExtz : List (List TriType)) : Prop where
  recip : ∀ (c : Nat) (ext : List TriType), susoExtz[c]? = some ext → ∀ t ∈ ext, t.cIdx ≠ c →
    ∃ extS, susoExtz[t.cIdx]? = some extS ∧ (⟨t.oIdx, c, t.sIdx⟩ : TriType) ∈ extS
  distinct : ∀ ext ∈ susoExtz, (ext.map fun t => t.sIdx).Nodup

/-- The number of entries from cell `i` on that satisfy `p cell trio`. -/
def countEntries (p : Nat → TriType → Bool) : Nat → List (List TriType) → Nat
  | _, [] => 0
  | i, ext :: rest => ext.countP (p i) + countEntries p (i + 1) rest

/-- The number of exit entries (`cIdx` is the cell itself). -/
def exitCount (susoExtz : List (List TriType)) : Nat :=
  countEntries (fun c t => decide (t.cIdx = c)) 0 susoExtz

/-- The number of interface entries on the side with the lower cell index. -/
def primaryCount (susoExtz : List (List TriType)) : Nat :=
  countEntries (fun c t => decide (c < t.cIdx)) 0 susoExtz

/-- The number of interface entries on the side with the higher cell index. -/
def secondaryCount (susoExtz : List (List TriType)) : Nat :=
  countEntries (fun c t => decide (t.cIdx < c)) 0 susoExtz

/-- The finalized subsolid tables of `geoPair`: cell 0 holds the interface
`(2, 1, 3)` and the exit `(0, 0, 0)`, cell 1 the other side `(3, 0, 2)`. -/
def susosPair : List (List TriType) :=
  [[⟨2, 1, 3⟩, ⟨0, 0, 0⟩], [⟨3, 0, 2⟩]]

/-- The invariant of `Router::consolidate` after the entries of `S` have been
processed (`S` is the list of the completed cells followed by the processed
part of the current cell, whose locals `clons`, `gIds` are viewed as the last
rows of `clonz` and `gIdz`). -/
structure CInv (S : List (List TriType)) (st : Consolidated) : Prop where
  len_g : st.gIdz.length = S.length
  len_c : st.clonz.length = S.length
  len_q : st.quads.length = st.gIdx
  row : ∀ (c : Nat) (ext : List TriType) (gIds : List Nat), S[c]? = some ext →
    st.gIdz[c]? = some gIds → gIds.length = ext.length
  lt : ∀ c k g, st.gidAt c k = some g → g < st.gIdx
  clon : ∀ c k t g, IsEntry S c k t → c ≤ t.cIdx → st.gidAt c k = some g →
    ∃ cl, st.clonz[c]? = some cl ∧ cl.lookup t.sIdx = some g
  keys : ∀ (c : Nat) (cl : List (Nat × Nat)) (s g : Nat), st.clonz[c]? = some cl →
    cl.lookup s = some g → ∃ k t, IsEntry S c k t ∧ t.sIdx = s
  inj : ∀ c k t c1 k1 t1 g, IsEntry S c k t → IsEntry S c1 k1 t1 → c ≤ t.cIdx →
    c1 ≤ t1.cIdx → st.gidAt c k = some g → st.gidAt c1 k1 = some g → c = c1 ∧ k = k1
  sec : ∀ c k t g, IsEntry S c k t → t.cIdx < c → st.gidAt c k = some g →
    ∃ k1 t1, IsEntry S t.cIdx k1 t1 ∧ t1.sIdx = t.oIdx ∧ t.cIdx ≤ t1.cIdx ∧
      st.gidAt t.cIdx k1 = some g
  count : st.gIdx = countEntries (fun c t => decide (c ≤ t.cIdx)) 0 S

/-- Subsolid tables in which both cells list the same local edge `0` twice as an
interface to the other cell. -/
def susosTwin : List (List TriType) :=
  [[⟨0, 1, 0⟩, ⟨0, 1, 0⟩], [⟨0, 0, 0⟩, ⟨0, 0, 0⟩]]

/-! ### Local edge indices (`Geometry::processCell`) -/

/-- `operator==` of `smr::Line`. -/
def Line.eqv (lhs rhs : Line) : Bool :=
  lhs.u.eqv rhs.u && lhs.v.eqv rhs.v

/-- The vector `nosos` that `Geometry::processCell` stores in `nosoz`: the end
points of the edges returned by the augmenter, in their order. -/
def nososOf (edges : List Edge) : List Line :=
  edges.map fun e => ⟨e.u, e.v⟩

/-- The local index `processCell` writes into the `sIdx` of the entry of the
subsolid line `suso`:
`std::distance(nosos.cbegin(), std::find(nosos.cbegin(), nosos.cend(), suso))`. -/
def localIndex (nosos : List Line) (suso : Line) : Nat :=
  nosos.findIdx fun l => l.eqv suso

/-- The walls of the unit square whose only subsolid line is the top side: the
bottom, right and left sides. -/
def wallsSquare : List Line :=
  [⟨⟨0, 0⟩, ⟨1, 0⟩⟩, ⟨⟨1, 0⟩, ⟨1, 1⟩⟩, ⟨⟨0, 0⟩, ⟨0, 1⟩⟩]

/-- The top side of the unit square, an exit. -/
def exitSquare : Line :=
  ⟨⟨0, 1⟩, ⟨1, 1⟩⟩

/-- The geometry of the single cell (nominal index 10) made of the unit square
with the walls `wallsSquare` and the exit `exitSquare` (user index 7), after
`processCell`: the exit is the local edge 1 of the two non-solid edges. -/
def geoSquare : Geometry where
  vFlg := true
  cellIdx := 1
  susoExtz := [[⟨1, 10, 0⟩]]
  cMap := ⟨[(10, 0)], by decide⟩
  cMapR := ⟨[(0, 10)], by decide⟩
  sMaps := [⟨[(7, 1)], by decide⟩]
  susoMaps := []

/-! ### Interface transforms (`Router::translate`, `support.hpp`)

`CrdType` is read as an exact number of a commutative ring `K`; the functions
`std::cos`, `std::sin` and the square root `std::pow(·, .5)` are passed as the
record `CMath K`. -/

/-- The functions of `<cmath>` used by `rotate` and `euclideanDistance`. -/
structure CMath (K : Type) where
  cos : K → K
  sin : K → K
  sqrt : K → K

/-- `operator+` of `smr::Point`. -/
def Point.add {K : Type} [Add K] (lhs rhs : Point K) : Point K :=
  ⟨lhs.x + rhs.x, lhs.y + rhs.y⟩

/-- `operator-` of `smr::Point`. -/
def Point.sub {K : Type} [Sub K] (lhs rhs : Point K) : Point K :=
  ⟨lhs.x - rhs.x, lhs.y - rhs.y⟩

/-- `DctType` of `support.hpp`. -/
structure DctType (K : Type) where
  s : Bool
  tP : Point K
  tS : Point K
  a : K

/-- `rotate` of `support.hpp`. -/
def rotate {K : Type} [CommRing K] (m : CMath K) (p : Point K) (a : K) : Point K :=
  ⟨m.cos a * p.x - m.sin a * p.y, m.sin a * p.x + m.cos a * p.y⟩

/-- `euclideanDistance` of `support.hpp`:
`pow(pow(a.x - b.x, 2.) + pow(a.y - b.y, 2.), .5)`. -/
def euclideanDistance {K : Type} [CommRing K] (m : CMath K) (a b : Point K) : K :=
  m.sqrt ((a.x - b.x) ^ 2 + (a.y - b.y) ^ 2)

/-- `dcts[cIdxP].at(cIdxS)`: `none` when the index or the key is missing (the source
indexes outside the vector, or `at` throws inside a `noexcept` function). -/
def dctAt {K : Type} (dcts : List (List (Nat × DctType K))) (cIdxP cIdxS : Nat) :
    Option (DctType K) :=
  match dcts[cIdxP]? with
  | none => none
  | some row => row.lookup cIdxS

/-- `Router::translate(cIdxP, cIdxS, p)` for a point. -/
def translate {K : Type} [CommRing K] (m : CMath K) (dcts : List (List (Nat × DctType K)))
    (cIdxP cIdxS : Nat) (p : Point K) : Option (Point K) :=
  match dctAt dcts cIdxP cIdxS with
  | none => none
  | some d => some ((rotate m (p.sub d.tP) d.a).add d.tS)

/-- A transform table over `ℚ` with the single entry `dcts[0][1]`, a rotation by the
angle whose cosine is `3/5` and sine is `4/5`. -/
def dctsRat : List (List (Nat × DctType ℚ)) :=
  [[(1, ⟨true, ⟨1, 2⟩, ⟨-3, 5⟩, 0⟩)]]

/-- The functions `cos`, `sin` at the angle of `dctsRat`; the root is not used on
this table, whose distances are compared through their squares. -/
def mathRat : CMath ℚ :=
  ⟨fun _ => 3 / 5, fun _ => 4 / 5, fun x => x⟩

/-! ### The routing tables (`Finder::findLocal`, `Router::patchUp`, `Router::nextMark`)

Distances are exact numbers of `D`.  The value of
`euclideanLLDistance(nosoz[c][i], nosoz[c][j])`, the distance between the
midpoints of two non-solid edges of cell `c`, is the parameter `w c i j`; the
worker threads of `pathFinderLocal` and `pathFinderGlobal` write disjoint columns
of the tables and are run one after the other. -/

/-- `DuoType` of `types.hpp`. -/
structure DuoType where
  cIdx : Nat
  sIdx : Nat
deriving DecidableEq, Repr

/-- `m.insert({ k, v })` on a map kept as the list of its entries: an existing key
keeps its value. -/
def mapInsert {α : Type} (m : List (Nat × α)) (k : Nat) (v : α) : List (Nat × α) :=
  if (m.lookup k).isSome then m else m ++ [(k, v)]

/-- `m.at(k) = v` for a key that is present. -/
def mapAssign {α : Type} (m : List (Nat × α)) (k : Nat) (v : α) : List (Nat × α) :=
  m.map fun p => if p.1 == k then (p.1, v) else p

/-- The row `g[i]` of the graph built in `Finder::formMCS`: the neighbours
`nbrs[i * 4 + j] - 1` of edge `i` that are not null, with the distance between the
midpoints.  `processCell` stores four neighbour slots per edge. -/
def localRow {D : Type} (w : Nat → Nat → D) (nbrs : List Nat) (i : Nat) : List (Nat × D) :=
  (List.range 4).foldl (fun row j =>
    match nbrs.getD (i * 4 + j) 0 with
    | 0 => row
    | Jm + 1 => mapInsert row Jm (w i Jm)) []

/-- The graph `g` of `Finder::formMCS` for a cell with `xSize` non-solid edges. -/
def localGraph {D : Type} (w : Nat → Nat → D) (nbrs : List Nat) (xSize : Nat) : GraphType D :=
  (List.range xSize).map (localRow w nbrs)

/-- The runs `dijkstraPQCS(pathMCS, distMCS, g, { susoExts[i].sIdx, i })` of
`pathFinderLocal`, from position `i` on. -/
def localRuns {D : Type} [LinearOrderedAddCommMonoidWithTop D] (g : GraphType D) :
    Nat → List TriType → List Nat × List D → Option (List Nat × List D)
  | _, [], tabs => some tabs
  | i, t :: rest, (pathMCS, distMCS) =>
    match dijkstraPQCS pathMCS distMCS g (t.sIdx, i) with
    | none => none
    | some tabs => localRuns g (i + 1) rest tabs

/-- `Finder::formMCS` for one cell: the tables `(pathMCS, distMCS)` of size
`xSize * ySize`. -/
def formMCS {D : Type} [LinearOrderedAddCommMonoidWithTop D] (w : Nat → Nat → D)
    (nbrs : List Nat) (xSize : Nat) (susoExts : List TriType) : Option (List Nat × List D) :=
  localRuns (localGraph w nbrs xSize) 0 susoExts
    (List.replicate (xSize * susoExts.length) 0, List.replicate (xSize * susoExts.length) 0)

/-- `Finder::findLocal` from cell `idx` on; `nSizes` lists `nosoz[idx].size()`. -/
def findLocal {D : Type} [LinearOrderedAddCommMonoidWithTop D] (w : Nat → Nat → Nat → D)
    (nbrz : List (List Nat)) (susoExtz : List (List TriType)) :
    Nat → List Nat → Option (List (List Nat) × List (List D))
  | _, [] => some ([], [])
  | idx, xSize :: rest =>
    match nbrz[idx]?, susoExtz[idx]? with
    | some nbrs, some susoExts =>
      match formMCS (w idx) nbrs xSize susoExts, findLocal w nbrz susoExtz (idx + 1) rest with
      | some (p, d), some (ps, ds) => some (p :: ps, d :: ds)
      | _, _ => none
    | _, _ => none

/-- The update of the row `g[gIdxJ]` in `Router::patchUp`: a new key is inserted,
an old one keeps the smaller weight. -/
def graphEdge {D : Type} [LinearOrder D] (row : List (Nat × D)) (gIdxK : Nat) (wgt : D) :
    List (Nat × D) :=
  match row.lookup gIdxK with
  | none => row ++ [(gIdxK, wgt)]
  | some old => mapAssign row gIdxK (min old wgt)

/-- The graph `g` of `Router::patchUp` over the global ids. -/
def globalGraph {D : Type} [LinearOrder D] (gIdx : Nat) (susoExtz : List (List TriType))
    (gIdz : List (List Nat)) (distMCSs : List (List D)) : Option (GraphType D) :=
  (List.range susoExtz.length).foldlM (fun g i =>
    match susoExtz[i]?, gIdz[i]?, distMCSs[i]? with
    | some susoExts, some gIds, some distMCS =>
      (List.range susoExts.length).foldlM (fun g j =>
        match gIds[j]?, susoExts[j]? with
        | some gIdxJ, some tJ =>
          (List.range susoExts.length).foldlM (fun g k =>
            match gIds[k]?, distMCS[tJ.sIdx * susoExts.length + k]?, g[gIdxJ]? with
            | some gIdxK, some wgt, some row => some (g.set gIdxJ (graphEdge row gIdxK wgt))
            | _, _, _ => none) g
        | _, _ => none) g
    | _, _, _ => none) (List.replicate gIdx [])

/-- `Finder::pathFinderGlobal`: `dijkstraPQ(g, pathM, distM, i)` for every vertex. -/
def pathFinderGlobal {D : Type} [LinearOrderedAddCommMonoidWithTop D] (g : GraphType D)
    (pathM : List Nat) (distM : List D) : Option (List Nat × List D) :=
  (List.range g.length).foldlM (fun tabs i => dijkstraPQ g tabs.1 tabs.2 i) (pathM, distM)

/-- `std::min_element` on a range with first element `best`: the first smallest
element, as `(position, value)`. -/
def minElementFrom {D : Type} [LinearOrder D] (best : Nat × D) : Nat → List D → Nat × D
  | _, [] => best
  | i, x :: rest =>
    if x < best.2 then minElementFrom (i, x) (i + 1) rest else minElementFrom best (i + 1) rest

/-- `std::min_element` followed by a dereference: `none` on an empty range. -/
def minElement {D : Type} [LinearOrder D] : List D → Option (Nat × D)
  | [] => none
  | x :: rest => some (minElementFrom (0, x) 1 rest)

/-- The fields of `Router` read by `nextMark`, together with the tables
`susoMaps` of the geometry. -/
structure Router (D : Type) where
  gIdx : Nat
  quads : List QudType
  gEIds : List Nat
  gIdz : List (List Nat)
  susoMaps : List (List (Nat × TriType))
  pathMCSs : List (List Nat)
  distMCSs : List (List D)
  pathM : List Nat
  distM : List D
  distMCS : List D
  gShrts : List (Nat × D)

/-- The table `distMCS` of `Router::patchUp`:
`distMCS[i * ySize + j] = distM[i * xSize + gEIds[j]]`. -/
def exitColumns {D : Type} (xSize : Nat) (gEIds : List Nat) (distM : List D) :
    Option (List D) :=
  ((List.range xSize).mapM fun i => gEIds.mapM fun J => distM[i * xSize + J]?).map List.flatten

/-- The vector `gShrts` of `Router::patchUp`: for every global id the nearest exit
and its distance. -/
def gShrtsOf {D : Type} [LinearOrder D] (xSize : Nat) (gEIds : List Nat) (distMCS : List D) :
    Option (List (Nat × D)) :=
  (List.range xSize).mapM fun i =>
    match minElement ((distMCS.drop (i * gEIds.length)).take gEIds.length) with
    | none => none
    | some (pos, val) =>
      match gEIds[pos]? with
      | none => none
      | some gE => some (gE, val)

/-- The constructor `Router::Router` up to `patchUp()`: `findLocal`, `consolidate`
and `patchUp` (the transforms of `formDicts` are not read by `nextMark`). -/
def routerTables {D : Type} [LinearOrderedAddCommMonoidWithTop D] (w : Nat → Nat → Nat → D)
    (nbrz : List (List Nat)) (nSizes : List Nat) (susoExtz : List (List TriType))
    (susoMaps : List (List (Nat × TriType))) : Option (Router D) :=
  match findLocal w nbrz susoExtz 0 nSizes, consolidate susoExtz with
  | some (pathMCSs, distMCSs), some c =>
    match globalGraph c.gIdx susoExtz c.gIdz distMCSs with
    | none => none
    | some g =>
      match pathFinderGlobal g (List.replicate (c.gIdx * c.gIdx) 0)
          (List.replicate (c.gIdx * c.gIdx) 0) with
      | none => none
      | some (pathM, distM) =>
        match exitColumns c.gIdx c.gEIds distM with
        | none => none
        | some distMCS =>
          match gShrtsOf c.gIdx c.gEIds distMCS with
          | none => none
          | some gShrts =>
            some ⟨c.gIdx, c.quads, c.gEIds, c.gIdz, susoMaps, pathMCSs, distMCSs, pathM, distM,
              distMCS, gShrts⟩
  | _, _ => none

/-- The interface branch of `Router::nextMark` after `lShrtz[cIdx][sIdx]` has been
written: the choice of the cell `cIdxD`, of the line `sIdx` seen from that cell
and of the target position `sIdxD`, for the destination `quad`.  Returns
`(cIdxD, sIdx, ySize, sIdxD)`. -/
def nextCell {D : Type} [LinearOrder D] (r : Router D) (cIdx sIdx : Nat)
    (susoMap : List (Nat × TriType)) (trio : TriType) (quad : QudType) :
    Option (Nat × Nat × Nat × Nat) :=
  match r.susoMaps[trio.cIdx]? with
  | none => none
  | some susoA =>
    let ySize := susoMap.length
    let switch : Option (Nat × Nat × Nat × Nat) :=
      match susoA.lookup (if trio.cIdx = quad.cIdxP then quad.sIdxP else quad.sIdxS) with
      | none => none
      | some tD => some (trio.cIdx, trio.oIdx, susoA.length, tD.sIdx)
    let stay (sIdxQ sIdxO other : Nat) : Option (Nat × Nat × Nat × Nat) :=
      match susoMap.lookup sIdxQ with
      | none => none
      | some tD =>
        if trio.cIdx ≠ other then some (cIdx, sIdx, ySize, tD.sIdx)
        else
          match susoA.lookup sIdxO with
          | none => none
          | some tO =>
            match at2 r.distMCSs cIdx (sIdx * ySize + tD.sIdx),
              at2 r.distMCSs trio.cIdx (trio.oIdx * susoA.length + tO.sIdx) with
            | some dstS, some dstO =>
              if dstS < dstO then some (cIdx, sIdx, ySize, tD.sIdx) else switch
            | _, _ => none
    if cIdx = quad.cIdxP then stay quad.sIdxP quad.sIdxS quad.cIdxS
    else if cIdx = quad.cIdxS then stay quad.sIdxS quad.sIdxP quad.cIdxP
    else switch

/-- The element `distMCST[sIdx * ySize + i] + gShrts[gIdz[cIdxD][i]].second` pushed to
`dist` in the interior branch of `Router::nextMark`. -/
def exitDist {D : Type} [Add D] (r : Router D) (cIdx sIdx ySize i : Nat) : Option D :=
  match at2 r.distMCSs cIdx (sIdx * ySize + i), at2 r.gIdz cIdx i with
  | some dst, some gI =>
    match r.gShrts[gI]? with
    | some (_, sh) => some (dst + sh)
    | none => none
  | _, _ => none

/-- `Router::nextMark(cIdx, sIdx)`: the returned pair and the value written to
`lShrtz[cIdx][sIdx]`, if any (an exit returns without writing).  An index
outside a vector, a missing key and an empty `min_element` range are faults. -/
def nextMark {D : Type} [LinearOrderedAddCommMonoidWithTop D] (r : Router D) (cIdx sIdx : Nat) :
    Option (DuoType × Option D) :=
  match r.susoMaps[cIdx]? with
  | none => none
  | some susoMap =>
    let ySize := susoMap.length
    match susoMap.lookup sIdx with
    | some trio =>
      if trio.cIdx = cIdx then some (⟨cIdx, sIdx⟩, none)
      else
        match at2 r.gIdz cIdx trio.sIdx with
        | none => none
        | some gIdxS =>
          match r.gShrts[gIdxS]? with
          | none => none
          | some (gIdxT, _) =>
            match r.pathM[gIdxS * r.gIdx + gIdxT]? with
            | none => none
            | some gIdxD =>
              match r.gShrts[gIdxD]?, r.quads[gIdxD]? with
              | some (_, lShrt), some quad =>
                match nextCell r cIdx sIdx susoMap trio quad with
                | none => none
                | some (cIdxD, sIdx1, ySize1, sIdxD) =>
                  match at2 r.pathMCSs cIdxD (sIdx1 * ySize1 + sIdxD) with
                  | none => none
                  | some sIdxM => some (⟨cIdxD, sIdxM⟩, some lShrt)
              | _, _ => none
    | none =>
      match (List.range ySize).mapM (exitDist r cIdx sIdx ySize) with
      | none => none
      | some dist =>
        match minElement dist with
        | none => none
        | some (sIdxD, lShrt) =>
          match at2 r.pathMCSs cIdx (sIdx * ySize + sIdxD) with
          | none => none
          | some sIdxM => some (⟨cIdx, sIdxM⟩, some lShrt)

/-- `Router::populateNexts`: the tables `nextz` and `lShrtz`; `lShrtz[i]` is resized
to zeros before the calls of `nextMark`. -/
def populateNexts {D : Type} [LinearOrderedAddCommMonoidWithTop D] (r : Router D)
    (nSizes : List Nat) : Option (List (List DuoType) × List (List D)) :=
  ((List.range nSizes.length).mapM fun i =>
    (List.range (nSizes.getD i 0)).mapM fun j =>
      (nextMark r i j).map fun res => (res.1, res.2.getD 0)).map fun rows =>
    (rows.map fun row => row.map Prod.fst, rows.map fun row => row.map Prod.snd)

/-- `Geometry::isExit(cIdx, sIdx)`. -/
def isExit (susoMaps : List (List (Nat × TriType))) (cIdx sIdx : Nat) : Bool :=
  match susoMaps[cIdx]? with
  | none => false
  | some susoMap =>
    match susoMap.lookup sIdx with
    | none => false
    | some trio => trio.cIdx == cIdx

/-- The sum of the step distances along the chain of `nextz` from the edge `sIdx`
of cell `cIdx` to the exit it ends at, within `fuel` steps: `0` at an exit; a step
inside a cell costs the distance between the midpoints of the two edges; a step
into the adjacent cell starts from the other side `oIdx` of the interface. -/
def chainLength {D : Type} [AddMonoid D] (w : Nat → Nat → Nat → D)
    (susoMaps : List (List (Nat × TriType))) (nextz : List (List DuoType)) :
    Nat → Nat → Nat → Option D
  | 0, _, _ => none
  | fuel + 1, cIdx, sIdx =>
    if isExit susoMaps cIdx sIdx then some 0
    else
      match at2 nextz cIdx sIdx with
      | none => none
      | some nx =>
        let start : Option Nat :=
          if nx.cIdx = cIdx then some sIdx
          else ((susoMaps[cIdx]?).bind fun susoMap => susoMap.lookup sIdx).map
            fun trio => trio.oIdx
        match start, chainLength w susoMaps nextz fuel nx.cIdx nx.sIdx with
        | some s0, some rest => some (w nx.cIdx s0 nx.sIdx + rest)
        | _, _ => none

/-- Two triangular cells.  Cell 0 has the exit `0` and the interface `1` to cell 1,
with midpoints at distance `5`; cell 1 has the other side `0` of the interface
and the exit `1`, with midpoints at distance `100`. -/
def susosDuo : List (List TriType) :=
  [[⟨0, 0, 0⟩, ⟨1, 1, 0⟩], [⟨0, 0, 1⟩, ⟨1, 1, 0⟩]]

/-- The neighbour slots of the two cells of `susosDuo`: in each cell the two
non-solid edges are neighbours of each other. -/
def nbrzDuo : List (List Nat) :=
  [[2, 0, 0, 0, 1, 0, 0, 0], [2, 0, 0, 0, 1, 0, 0, 0]]

/-- The distances between the midpoints in the cells of `susosDuo`. -/
def wDuo (c : Nat) (_ _ : Nat) : WithTop Nat :=
  if c = 0 then 5 else 100

/-! ### The chain of `nextz`: vocabulary

The tables of a router are read through total accessors (a default outside
the tables); `Sound` collects what the tables of a router mean. -/

/-- The map `susoMaps[c]`, as the list of its entries. -/
def Router.susoMap {D : Type} (r : Router D) (c : Nat) : List (Nat × TriType) :=
  (r.susoMaps[c]?).getD []

/-- `susoMaps[c].size()`. -/
def Router.ySize {D : Type} (r : Router D) (c : Nat) : Nat :=
  (r.susoMap c).length

/-- The entry of `susoMaps[c]` inserted at place `t`. -/
def Router.entry {D : Type} (r : Router D) (c t : Nat) : Nat × TriType :=
  (r.susoMap c).getD t (0, ⟨0, 0, 0⟩)

/-- The local edge index of the subsolid line at position `t` of cell `c`. -/
def Router.key {D : Type} (r : Router D) (c t : Nat) : Nat :=
  (r.entry c t).1

/-- `distMCSs[c][e * ySize + t]`: the local distance between edge `e` and the
subsolid line at position `t`. -/
def Router.ld {D : Type} [Top D] (r : Router D) (c e t : Nat) : D :=
  (at2 r.distMCSs c (e * r.ySize c + t)).getD ⊤

/-- `pathMCSs[c][e * ySize + t]`: the next edge from `e` to the subsolid line at
position `t`. -/
def Router.lp {D : Type} (r : Router D) (c e t : Nat) : Nat :=
  (at2 r.pathMCSs c (e * r.ySize c + t)).getD 0

/-- `gIdz[c][t]`. -/
def Router.gid {D : Type} (r : Router D) (c t : Nat) : Nat :=
  (at2 r.gIdz c t).getD 0

/-- `gShrts[g].second`: the distance of the global line `g` to its nearest exit. -/
def Router.gsh {D : Type} [Top D] (r : Router D) (g : Nat) : D :=
  ((r.gShrts[g]?).map Prod.snd).getD ⊤

/-- `gShrts[g].first`: the nearest exit of the global line `g`. -/
def Router.gex {D : Type} (r : Router D) (g : Nat) : Nat :=
  ((r.gShrts[g]?).map Prod.fst).getD 0

/-- `pathM[g * gIdx + gShrts[g].first]`: the next global line from `g` to its
nearest exit. -/
def Router.hop {D : Type} (r : Router D) (g : Nat) : Nat :=
  (r.pathM[g * r.gIdx + r.gex g]?).getD 0

/-- `quads[g]`. -/
def Router.quad {D : Type} (r : Router D) (g : Nat) : QudType :=
  (r.quads[g]?).getD ⟨0, 0, 0, 0⟩

/-- The distance of the edge `e` of cell `c` to the nearest exit according to the
tables: the least `distMCSs[c][e * ySize + i] + gShrts[gIdz[c][i]].second`. -/
def Router.pot {D : Type} [LinearOrderedAddCommMonoidWithTop D] (r : Router D) (c e : Nat) : D :=
  ((List.range (r.ySize c)).map fun i => r.ld c e i + r.gsh (r.gid c i)).foldr min ⊤

/-- What the tables say about the interface at position `t` of cell `c`, with
global id `S`, other side in cell `c1`, and next global line `G = hop S`: `G` is
another line; the other side of the interface is the key `oIdx` of `c1`; the
sides of `G` in `c` and `c1` are the ones `quads[G]` names, and no others; and the
distance of `S` is the distance of `G` plus the local distance to `G` in `c` or
in `c1`. -/
@[reducible] def HopOK {D : Type} [LinearOrderedAddCommMonoidWithTop D] (r : Router D)
    (c t : Nat) : Prop :=
  r.hop (r.gid c t) < r.gIdx ∧ r.hop (r.gid c t) ≠ r.gid c t ∧
  (r.quad (r.hop (r.gid c t))).cIdxP ≠ (r.quad (r.hop (r.gid c t))).cIdxS ∧
  (∃ t1, t1 < r.ySize (r.entry c t).2.cIdx ∧ r.key (r.entry c t).2.cIdx t1 = (r.entry c t).2.oIdx ∧
    r.gid (r.entry c t).2.cIdx t1 = r.gid c t) ∧
  (∀ x, x < r.susoMaps.length → (x = c ∨ x = (r.entry c t).2.cIdx) →
    (x = (r.quad (r.hop (r.gid c t))).cIdxP →
      ∃ p, p < r.ySize x ∧ r.key x p = (r.quad (r.hop (r.gid c t))).sIdxP ∧
        r.gid x p = r.hop (r.gid c t)) ∧
    (x = (r.quad (r.hop (r.gid c t))).cIdxS →
      ∃ p, p < r.ySize x ∧ r.key x p = (r.quad (r.hop (r.gid c t))).sIdxS ∧
        r.gid x p = r.hop (r.gid c t)) ∧
    (∀ p, p < r.ySize x → r.gid x p = r.hop (r.gid c t) →
      x = (r.quad (r.hop (r.gid c t))).cIdxP ∨ x = (r.quad (r.hop (r.gid c t))).cIdxS)) ∧
  ((∃ p, p < r.ySize c ∧ r.gid c p = r.hop (r.gid c t) ∧
      r.gsh (r.gid c t) = r.ld c (r.key c t) p + r.gsh (r.hop (r.gid c t))) ∨
    (∃ p, p < r.ySize (r.entry c t).2.cIdx ∧
      r.gid (r.entry c t).2.cIdx p = r.hop (r.gid c t) ∧
      r.gsh (r.gid c t) =
        r.ld (r.entry c t).2.cIdx (r.entry c t).2.oIdx p + r.gsh (r.hop (r.gid c t))))

/-- The tables of a router over cells with `nSizes[c]` non-solid edges are sound:
they have their sizes; every subsolid line of a cell has a position, an edge of
the cell and a global id, different lines having different edges and ids, and
every cell has a subsolid line; every
global line has a finite distance to its nearest exit; `pathMCSs` steps to an
edge strictly nearer to the target line; the exit distances obey the triangle
inequality inside every cell; and every interface satisfies `HopOK`. -/
@[mk_iff] structure Sound {D : Type} [LinearOrderedAddCommMonoidWithTop D] (r : Router D)
    (nSizes : List Nat) : Prop where
  maps : r.susoMaps.length = nSizes.length
  lens : r.distMCSs.length = nSizes.length ∧ r.pathMCSs.length = nSizes.length ∧
    r.gIdz.length = nSizes.length ∧ r.gShrts.length = r.gIdx ∧ r.quads.length = r.gIdx ∧
    r.pathM.length = r.gIdx * r.gIdx
  rows : ∀ c, c < nSizes.length →
    ((r.distMCSs[c]?).getD []).length = nSizes.getD c 0 * r.ySize c ∧
    ((r.pathMCSs[c]?).getD []).length = nSizes.getD c 0 * r.ySize c ∧
    ((r.gIdz[c]?).getD []).length = r.ySize c ∧
    ((r.susoMap c).map Prod.fst).Nodup ∧ 0 < r.ySize c
  subs : ∀ c, c < nSizes.length → ∀ t, t < r.ySize c →
    (r.entry c t).2.sIdx = t ∧ r.key c t < nSizes.getD c 0 ∧ r.gid c t < r.gIdx ∧
    (r.entry c t).2.cIdx < nSizes.length ∧
    ∀ t1, t1 < r.ySize c → r.gid c t = r.gid c t1 → t = t1
  fin : ∀ g, g < r.gIdx → r.gsh g ≠ ⊤ ∧ r.gex g < r.gIdx
  par : ∀ c, c < nSizes.length → ∀ t, t < r.ySize c → ∀ e, e < nSizes.getD c 0 →
    e ≠ r.key c t → r.lp c e t < nSizes.getD c 0 ∧ r.ld c (r.lp c e t) t < r.ld c e t
  tri : ∀ c, c < nSizes.length → ∀ j, j < r.ySize c → ∀ i, i < r.ySize c →
    r.gsh (r.gid c j) ≤ r.ld c (r.key c j) i + r.gsh (r.gid c i)
  hop : ∀ c, c < nSizes.length → ∀ t, t < r.ySize c → (r.entry c t).2.cIdx ≠ c → HopOK r c t

/-- `k` applications of `nextz` from the pair `d`. -/
def follow (nextz : List (List DuoType)) : Nat → DuoType → Option DuoType
  | 0, d => some d
  | k + 1, d => (at2 nextz d.cIdx d.sIdx).bind (follow nextz k)

/-- The router of the two cells of `susosDuo`. -/
def routerDuo : Router (WithTop Nat) :=
  (routerTables wDuo nbrzDuo [2, 2] susosDuo (susosDuo.map fun e => susoMapOf 0 e [])).getD
    ⟨0, [], [], [], [], [], [], [], [], [], []⟩

/-- All pairs `(c, e)` of a cell and one of its `nSizes[c]` non-solid edges. -/
def edgesOf (nSizes : List Nat) : List (Nat × Nat) :=
  (List.range nSizes.length).flatMap fun c => (List.range (nSizes.getD c 0)).map fun e => (c, e)

/-- `orderPoints` of `support.hpp` on a line. -/
def orderPointsLine (l : Line) : Line :=
  if l.u.le l.v then l else ⟨l.v, l.u⟩

/-! ### The classification of edges (`geometry.cpp`)

As in `isExit`, a cell index outside `susoMaps` yields `false`; the theorems take
the cell index inside the vector. -/

/-- `Geometry::isSubsolid(cIdx, sIdx)`. -/
def isSubsolid (susoMaps : List (List (Nat × TriType))) (cIdx sIdx : Nat) : Bool :=
  match susoMaps[cIdx]? with
  | none => false
  | some susoMap => (susoMap.lookup sIdx).isSome

/-- `Geometry::isInterface(cIdx, sIdx)`. -/
def isInterface (susoMaps : List (List (Nat × TriType))) (cIdx sIdx : Nat) : Bool :=
  match susoMaps[cIdx]? with
  | none => false
  | some susoMap =>
    match susoMap.lookup sIdx with
    | none => false
    | some trio => trio.cIdx != cIdx

/-- `Geometry::andIsExit(cIdx, sIdx)`: `susoMap.at(sIdx)` throws for a line that is
not subsolid. -/
def andIsExit (susoMaps : List (List (Nat × TriType))) (cIdx sIdx : Nat) : Option Bool :=
  match susoMaps[cIdx]? with
  | none => none
  | some susoMap =>
    match susoMap.lookup sIdx with
    | none => none
    | some trio => some (trio.cIdx == cIdx)

/-! ### `Geometry::processCell`: local indices and blobs -/

/-- The loop of `Geometry::processCell` that fills `sMap` and `SCMap` and rewrites
the `sIdx` of the trios, over the subsolid lines with their trios (the parser
pushes one trio per subsolid line); with `vFlg` an interface whose user index is a
key of `sMap` ends the loop with the message `duplicate s-index`, here the error
value.  Returns `(sMap, SCMap, susoExts)`. -/
def indexSusos (vFlg : Bool) (cellIdxN : Nat) (nosos : List Line) :
    List (Line × TriType) → List (Nat × Nat) → List (Nat × Nat) → List TriType →
      Except Nat (List (Nat × Nat) × List (Nat × Nat) × List TriType)
  | [], sMap, SCMap, out => Except.ok (sMap, SCMap, out)
  | (suso, trio) :: rest, sMap, SCMap, out =>
    if vFlg && (cellIdxN != trio.cIdx) && (sMap.lookup trio.sIdx).isSome then
      Except.error trio.sIdx
    else
      indexSusos vFlg cellIdxN nosos rest (mapInsert sMap trio.sIdx (localIndex nosos suso))
        (mapInsert SCMap (localIndex nosos suso) trio.cIdx)
        (out ++ [⟨localIndex nosos suso, trio.cIdx, trio.oIdx⟩])

/-- The locals `blobs`, `blobMap`, `bIdx` of the blob loop of `processCell`. -/
structure BlobState where
  blobs : List (List Nat)
  blobMap : List (Nat × Nat)
  bIdx : Nat
deriving DecidableEq, Repr

/-- `blobs.back().push_back(x)`; `back()` of an empty vector is a fault. -/
def pushBack (blobs : List (List Nat)) (x : Nat) : Option (List (List Nat)) :=
  match blobs.getLast? with
  | none => none
  | some b => some (blobs.dropLast ++ [b ++ [x]])

/-- The loop `for (i = 0; i < blobC.size() - 1; i++)` over the user indices of a
parsed blob but the last, for the neighbour cell `cIdx` of its first line. -/
def blobInner (sMap SCMap : List (Nat × Nat)) (cIdx : Nat) :
    List Nat → BlobState → Option BlobState
  | [], st => some st
  | n :: rest, st =>
    match sMap.lookup n with
    | none => none
    | some sIdx =>
      match SCMap.lookup sIdx with
      | none => none
      | some cI =>
        let blobs0 := if cI ≠ cIdx then st.blobs ++ [[]] else st.blobs
        let bIdx0 := if cI ≠ cIdx then st.bIdx + 1 else st.bIdx
        match pushBack blobs0 sIdx with
        | none => none
        | some blobs1 => blobInner sMap SCMap cIdx rest ⟨blobs1, mapInsert st.blobMap sIdx bIdx0, bIdx0⟩

/-- One pass of the loop `for (auto const & blobC : blobsC)` of `processCell`.
`blobMap[sIdxF]` inserts the value `0` for a missing key. -/
def blobOne (sMap SCMap : List (Nat × Nat)) (blobC : List Nat) (st : BlobState) :
    Option BlobState :=
  match blobC.head?, blobC.getLast? with
  | some front, some back =>
    match (sMap.lookup front).bind fun s => SCMap.lookup s with
    | none => none
    | some cIdx =>
      match blobInner sMap SCMap cIdx blobC.dropLast { st with blobs := st.blobs ++ [[]] } with
      | none => none
      | some st1 =>
        match sMap.lookup back with
        | none => none
        | some sIdxL =>
          match SCMap.lookup sIdxL with
          | none => none
          | some cIdxL =>
            if cIdxL ≠ cIdx then
              match (sMap.lookup back).bind fun sIdxF => SCMap.lookup sIdxF with
              | none => none
              | some cF =>
                if cIdxL = cF then
                  let bIdxF := (st1.blobMap.lookup sIdxL).getD 0
                  match st1.blobs[bIdxF]? with
                  | none => none
                  | some b =>
                    some ⟨st1.blobs.set bIdxF (b ++ [sIdxL]),
                      mapInsert (mapInsert st1.blobMap sIdxL 0) sIdxL bIdxF, st1.bIdx + 1⟩
                else
                  match pushBack (st1.blobs ++ [[]]) sIdxL with
                  | none => none
                  | some blobs1 =>
                    some ⟨blobs1, mapInsert st1.blobMap sIdxL (st1.bIdx + 1), st1.bIdx + 1 + 1⟩
            else
              match pushBack st1.blobs sIdxL with
              | none => none
              | some blobs1 => some ⟨blobs1, mapInsert st1.blobMap sIdxL st1.bIdx, st1.bIdx + 1⟩
  | _, _ => none

/-- The blob loop of `processCell` over the parsed blobs `blobsC` of a cell. -/
def blobLoop (sMap SCMap : List (Nat × Nat)) : List (List Nat) → BlobState → Option BlobState
  | [], st => some st
  | blobC :: rest, st =>
    match blobOne sMap SCMap blobC st with
    | none => none
    | some st1 => blobLoop sMap SCMap rest st1

/-- The non-solid edges of a triangular cell (nominal index 10) without walls. -/
def nososTri : List Line :=
  [⟨⟨0, 0⟩, ⟨0, 4⟩⟩, ⟨⟨0, 0⟩, ⟨4, 0⟩⟩, ⟨⟨0, 4⟩, ⟨4, 0⟩⟩]

/-- The subsolid lines of the cell of `nososTri` in the order of its polygon
`(0, 0), (4, 0), (0, 4)`: interfaces to the cells 20 and 30 with the user indices
`1` and `2`, and an exit. -/
def susosTri : List (Line × TriType) :=
  [(⟨⟨0, 0⟩, ⟨4, 0⟩⟩, ⟨1, 20, 1⟩), (⟨⟨0, 4⟩, ⟨4, 0⟩⟩, ⟨2, 30, 1⟩), (⟨⟨0, 0⟩, ⟨0, 4⟩⟩, ⟨0, 10, 0⟩)]

/-- The cell of `nososTri` with two exits and one interface, all of user index `5`,
the interface first. -/
def susosSame : List (Line × TriType) :=
  [(⟨⟨0, 0⟩, ⟨4, 0⟩⟩, ⟨5, 20, 1⟩), (⟨⟨0, 4⟩, ⟨4, 0⟩⟩, ⟨5, 10, 0⟩), (⟨⟨0, 0⟩, ⟨0, 4⟩⟩, ⟨5, 10, 0⟩)]

/-! ### Segments (`support.hpp`, `geometry/line.cpp`, `geometry/cell.cpp`)

Coordinates are exact rationals; the square root `std::pow(·, .5)` of
`euclideanDistance` is the field `sqrt` of a record `CMath ℚ`. -/

/-- `smr::Param::CPA` of `line.hpp`. -/
def CPA : ℚ := 1 / 1000000

/-- `vctrDot` of `support.hpp`. -/
def vctrDot {K : Type} [CommRing K] (p q : Point K) : K :=
  p.x * q.x + p.y * q.y

/-- `vctrCross` of `support.hpp`. -/
def vctrCross {K : Type} [CommRing K] (p q : Point K) : K :=
  p.x * q.y - p.y * q.x

/-- `operator*(CrdType, Point)` of `smr::Point`. -/
def Point.smul {K : Type} [Mul K] (lhs : K) (rhs : Point K) : Point K :=
  ⟨lhs * rhs.x, lhs * rhs.y⟩

/-- `lineNorm` of `line.hpp`. -/
def lineNorm (m : CMath ℚ) (l : Line) : ℚ :=
  euclideanDistance m l.u l.v

/-- `pointLineDistance` of `line.cpp`. -/
def pointLineDistance (m : CMath ℚ) (p : Point ℚ) (l : Line) : ℚ :=
  let lv := l.v.sub l.u
  let ln2 := lv.x ^ 2 + lv.y ^ 2
  let t := vctrDot lv (p.sub l.u) / ln2
  if fLess t 0 then euclideanDistance m p l.u
  else if fLess 1 t then euclideanDistance m p l.v
  else euclideanDistance m p (l.u.add (Point.smul t lv))

/-- The distance of the end point `p` of one segment to the other segment
`(lu, lu + lv)` in `nonIntSegmentDistance`, for the parameter `t` of its foot. -/
def endDistance (m : CMath ℚ) (p lu lvEnd lv : Point ℚ) (t : ℚ) : ℚ :=
  if fLess t 0 then lineNorm m ⟨p, lu⟩
  else if fLess 1 t then lineNorm m ⟨p, lvEnd⟩
  else lineNorm m ⟨p, lu.add (Point.smul t lv)⟩

/-- `nonIntSegmentDistance` of `line.cpp`; `std::min` of the four distances. -/
def nonIntSegmentDistance (m : CMath ℚ) (k l : Line) : ℚ :=
  let kv := k.v.sub k.u
  let lv := l.v.sub l.u
  let kn2 := kv.x ^ 2 + kv.y ^ 2
  let ln2 := lv.x ^ 2 + lv.y ^ 2
  let kpu := vctrDot lv (k.u.sub l.u) / ln2
  let kpv := vctrDot lv (k.v.sub l.u) / ln2
  let lpu := vctrDot kv (l.u.sub k.u) / kn2
  let lpv := vctrDot kv (l.v.sub k.u) / kn2
  let kpud := endDistance m k.u l.u l.v lv kpu
  let kpvd := endDistance m k.v l.u l.v lv kpv
  let lpud := endDistance m l.u k.u k.v kv lpu
  let lpvd := endDistance m l.v k.u k.v kv lpv
  min (min (min kpud kpvd) lpud) lpvd

/-- `intersectionFlag` of `line.cpp`. -/
def intersectionFlag (pr qs : Line) : Bool :=
  let p := pr.u
  let r := pr.v.sub pr.u
  let q := qs.u
  let s := qs.v.sub qs.u
  let qp := q.sub p
  let rs := vctrCross r s
  let qpr := vctrCross qp r
  if fEqual rs 0 then
    if fEqual qpr 0 then
      let rr := vctrDot r r
      let t0 := vctrDot qp r / rr
      let t1 := t0 + vctrDot s r / rr
      if fELess 0 t0 && fELess t0 1 then true
      else if fELess 0 t1 && fELess t1 1 then true
      else if fLess (min t0 t1) 0 && fLess 1 (max t0 t1) then true
      else false
    else false
  else
    let t := vctrCross qp s / rs
    let u := qpr / rs
    if fELess 0 u && fELess u 1 && fELess 0 t && fELess t 1 then true else false

/-- `intersectionFlagCPA` of `line.cpp`. -/
def intersectionFlagCPA (m : CMath ℚ) (l0 l1 : Line) : Bool :=
  if intersectionFlag l0 l1 then true
  else if fELess (nonIntSegmentDistance m l0 l1) CPA then true
  else false

/-- A record of functions over `ℚ` whose `sqrt` is the identity: it is monotone and
maps every `x ≥ 1` to a value `≥ 1`, as the square root does, so that distances
can be evaluated; the values are then the squared distances. -/
def mathId : CMath ℚ :=
  ⟨fun _ => 1, fun _ => 0, fun x => x⟩

/-! ### `Cell::validate` (`cell.cpp`) -/

/-- `PolyType` of `cell.hpp`: the vertices of a polygon. -/
abbrev PolyType := List (Point ℚ)

/-- The vertex `poly[i]`; the indices used by `Cell::validate` are within bounds. -/
def PolyType.at (poly : PolyType) (i : Nat) : Point ℚ :=
  poly.getD i ⟨0, 0⟩

/-- The errors returned by `Cell::validate`, in the order of its messages. -/
inductive CellError where
  | nonPoly
  | lineNorm
  | selfIntersection
  | polysIntersect
deriving DecidableEq, Repr

/-- The lines `{ *itr, *(itr + 1) }` of a polygon followed by the line
`{ *(cend() - 1), *cbegin() }`, as `polyIntersectionFlag` runs through them. -/
def polyLines (poly : PolyType) : List Line :=
  (List.range (poly.length - 1)).map (fun i => ⟨poly.at i, poly.at (i + 1)⟩) ++
    [⟨poly.at (poly.length - 1), poly.at 0⟩]

/-- `polyIntersectionFlag` of `cell.cpp`; `none` for an empty polygon, where the source
dereferences `cend() - 1`. -/
def polyIntersectionFlag (m : CMath ℚ) (polyO polyS : PolyType) : Option Bool :=
  if polyO.length = 0 ∨ polyS.length = 0 then none
  else some ((polyLines polyS).any (fun lineS =>
    (polyLines polyO).any (fun lineO => intersectionFlagCPA m lineS lineO)))

/-- The task started by `Cell::validate` for `polys[i]`: the first `polys[j]`, `j > i`,
that `polyIntersectionFlag` reports ends the loop. -/
def polysFlag (m : CMath ℚ) (polyO : PolyType) : List PolyType → Option Bool
  | [] => some false
  | polyS :: rest =>
    match polyIntersectionFlag m polyO polyS with
    | none => none
    | some true => some true
    | some false => polysFlag m polyO rest

/-- The tests of `Cell::validate` on one polygon, up to the self-intersection loops. -/
def polyValidate (m : CMath ℚ) (poly : PolyType) : Option CellError :=
  let pSize := poly.length
  if pSize < 3 then some .nonPoly
  else if (List.range (pSize - 1)).any (fun i =>
      fELess (lineNorm m ⟨poly.at i, poly.at (i + 1)⟩) CPA) then some .lineNorm
  else if fELess (lineNorm m ⟨poly.at 0, poly.at (pSize - 1)⟩) CPA then some .lineNorm
  else if (List.range (pSize - 2)).any (fun i =>
      fELess (pointLineDistance m (poly.at (i + 2)) ⟨poly.at (i + 1), poly.at i⟩) CPA) then
    some .selfIntersection
  else if (List.range (pSize - 1)).any (fun i =>
      (List.range' (i + 2) (pSize - 2 - (i + 2))).any (fun j =>
        intersectionFlagCPA m ⟨poly.at i, poly.at (i + 1)⟩ ⟨poly.at j, poly.at (j + 1)⟩)) then
    some .selfIntersection
  else if (List.range' 1 (pSize - 2 - 1)).any (fun i =>
      intersectionFlagCPA m ⟨poly.at i, poly.at (i + 1)⟩ ⟨poly.at 0, poly.at (pSize - 1)⟩) then
    some .selfIntersection
  else none

/-- `Cell::validate` of `cell.cpp` on the polygons of a cell: `some none` is the empty
optional (no error), `none` an execution that dereferences past an empty polygon. -/
def Cell.validate (m : CMath ℚ) : List PolyType → Option (Option CellError)
  | [] => some none
  | poly :: rest =>
    match polysFlag m poly rest with
    | none => none
    | some ftr =>
      match polyValidate m poly with
      | some e => some (some e)
      | none => if ftr then some (some .polysIntersect) else Cell.validate m rest

/-- The square of `pointLineDistance(p, l)`: the same three cases, before the root. -/
def sqPointLine (p : Point ℚ) (l : Line) : ℚ :=
  let lv := l.v.sub l.u
  let ln2 := lv.x ^ 2 + lv.y ^ 2
  let t := vctrDot lv (p.sub l.u) / ln2
  if fLess t 0 then (p.x - l.u.x) ^ 2 + (p.y - l.u.y) ^ 2
  else if fLess 1 t then (p.x - l.v.x) ^ 2 + (p.y - l.v.y) ^ 2
  else (p.x - (l.u.add (Point.smul t lv)).x) ^ 2 + (p.y - (l.u.add (Point.smul t lv)).y) ^ 2

/-- The pentagon `(0,0), (10,0), (10,10), (5,8), (20,-10)`. -/
def bowPoly : PolyType :=
  [⟨0, 0⟩, ⟨10, 0⟩, ⟨10, 10⟩, ⟨5, 8⟩, ⟨20, -10⟩]

/-! ### `Router::formDicts` (`router.cpp`) and `vctrAngle` (`support.hpp`) -/

/-- `smr::Line` over a coordinate type `K`. -/
structure LineOf (K : Type) where
  u : Point K
  v : Point K

/-- The functions of `<cmath>` and the constant `std::numbers::pi` used by
`vctrAngle`. -/
structure CAngle (K : Type) extends CMath K where
  asin : K → K
  pi : K

/-- `linePoint` of `support.hpp`: the midpoint of a line. -/
def linePoint {K : Type} [Field K] (line : LineOf K) : Point K :=
  ⟨(line.u.x + line.v.x) / 2, (line.u.y + line.v.y) / 2⟩

/-- `vctrAngle` of `support.hpp`. -/
def vctrAngle {K : Type} [LinearOrderedField K] (m : CAngle K) (k l : Point K) : K :=
  let kn := m.sqrt (k.x ^ 2 + k.y ^ 2)
  let ln := m.sqrt (l.x ^ 2 + l.y ^ 2)
  let a := m.asin ((k.x * l.y - k.y * l.x) / (kn * ln))
  let s := fELess 0 (k.x * l.x + k.y * l.y)
  if s then a
  else if fELess 0 a then m.pi - a
  else -(m.pi + a)

/-- The dictionary built in the body of the loop of `Router::formDicts` for the lines
`lineP`, `lineS` and the parity flag `pty`. -/
def formDct {K : Type} [LinearOrderedField K] (m : CAngle K) (pty : Bool)
    (lineP lineS : LineOf K) : DctType K :=
  let ptP := lineP.v.sub lineP.u
  let ptS := lineS.v.sub lineS.u
  let s := fELess 0 (vctrDot ptP ptS)
  let tP := linePoint lineP
  let tS := linePoint lineS
  let a := vctrAngle m (lineP.v.sub tP) ((if xor pty s then lineS.v else lineS.u).sub tS)
  ⟨s, tP, tS, a⟩

/-- `Geometry::getPMaps(idx)`: the set `pMaps[idx]`, empty for a missing key. -/
def getPMaps (pMaps : List (Nat × List Nat)) (idx : Nat) : List Nat :=
  (pMaps.lookup idx).getD []

/-- The inner loop of `Router::formDicts` for cell `i`, from the map `row = dcts[i]`:
a trio is skipped when it is an exit (`i == tri.cIdx`) or when `dcts[i]` already has
the key `tri.cIdx`.  `none` when a line index lies outside `nosoz`. -/
def formDictsRow {K : Type} [LinearOrderedField K] (m : CAngle K)
    (nosoz : List (List (LineOf K))) (pMap : List Nat) (i : Nat) :
    List TriType → List (Nat × DctType K) → Option (List (Nat × DctType K))
  | [], row => some row
  | tri :: rest, row =>
    if i = tri.cIdx ∨ (row.lookup tri.cIdx).isSome then formDictsRow m nosoz pMap i rest row
    else
      match at2 nosoz i tri.sIdx, at2 nosoz tri.cIdx tri.oIdx with
      | some lineP, some lineS =>
        formDictsRow m nosoz pMap i rest
          (row ++ [(tri.cIdx, formDct m (pMap.contains tri.cIdx) lineP lineS)])
      | _, _ => none

/-- `Router::formDicts`: the table `dcts`, one map per cell. -/
def formDicts {K : Type} [LinearOrderedField K] (m : CAngle K)
    (susoExtz : List (List TriType)) (nosoz : List (List (LineOf K)))
    (pMaps : List (Nat × List Nat)) : Option (List (List (Nat × DctType K))) :=
  (List.range susoExtz.length).mapM (fun i =>
    formDictsRow m nosoz (getPMaps pMaps i) i ((susoExtz[i]?).getD []) [])

/-- Two cells with one interface each, to each other: `susoExtz` after `finalize`. -/
def pairSusoExtz : List (List TriType) :=
  [[⟨0, 1, 0⟩], [⟨0, 0, 0⟩]]

/-- The parity flag set for the pair of cells `0`, `1`, as `addParityFlag` stores it. -/
def pairPMaps : List (Nat × List Nat) :=
  [(0, [1]), (1, [0])]

/-- The interface `(0,0)-(2,0)` in either cell. -/
def sameNosoz (K : Type) [Field K] : List (List (LineOf K)) :=
  [[⟨⟨0, 0⟩, ⟨2, 0⟩⟩], [⟨⟨0, 0⟩, ⟨2, 0⟩⟩]]

/-- The interface `(0,0)-(1,2)` in cell `0` and `(0,0)-(1,-2)` in cell `1`. -/
def mirrorNosoz (K : Type) [Field K] : List (List (LineOf K)) :=
  [[⟨⟨0, 0⟩, ⟨1, 2⟩⟩], [⟨⟨0, 0⟩, ⟨1, -2⟩⟩]]

/-- The properties of the exact functions that the dictionaries rely on. -/
structure ExactAngle {K : Type} [LinearOrderedField K] (m : CAngle K) : Prop where
  sqrt_mul_self : ∀ y : K, 0 ≤ y → m.sqrt y * m.sqrt y = y
  sin_asin : ∀ x : K, -1 ≤ x → x ≤ 1 → m.sin (m.asin x) = x
  cos_asin_nonneg : ∀ x : K, 0 ≤ m.cos (m.asin x)
  cos_sq_add_sin_sq : ∀ a : K, m.cos a * m.cos a + m.sin a * m.sin a = 1
  sin_pi_sub : ∀ a : K, m.sin (m.pi - a) = m.sin a
  cos_pi_sub : ∀ a : K, m.cos (m.pi - a) = -m.cos a
  sin_neg_pi_add : ∀ a : K, m.sin (-(m.pi + a)) = m.sin a
  cos_neg_pi_add : ∀ a : K, m.cos (-(m.pi + a)) = -m.cos a

/-! ### The blobs of a cell (`parser.cpp`, `Geometry::processCell`, `Geometry::getBlob`) -/

/-- Every key `s` of `blobMap` is mapped to the index of a blob that contains `s`:
`getBlob(cell, s)` is defined and contains `s`. -/
@[reducible]
def BlobInv (st : BlobState) : Prop :=
  ∀ (s b : Nat), st.blobMap.lookup s = some b → ∃ blob, st.blobs[b]? = some blob ∧ s ∈ blob

/-- The blobs `blobs1` extend the blobs `blobs0`: same positions, more members. -/
@[reducible]
def Grows (blobs0 blobs1 : List (List Nat)) : Prop :=
  ∀ (b : Nat) (blob : List Nat), blobs0[b]? = some blob → ∃ blob1, blobs1[b]? = some blob1 ∧ ∀ y ∈ blob, y ∈ blob1

/-- The line colours `LineColor` of `types.hpp` below `INVD`. -/
inductive LineColor where
  | INFC
  | EXIT
  | SOLD
  | META
deriving DecidableEq, Repr

/-- The attributes of a `<point>` of a polygon read by `Parser::parsePartition`,
with the line from the point to the next point of the polygon.  The colours at or
above `INVD` and an interface with a zero index end the parser with an error before
any vector is filled; they have no value here. -/
structure XPoint where
  line : Line
  cTyp : LineColor
  sIdx : Nat
  cIdx : Nat
  oIdx : Nat
deriving DecidableEq, Repr

/-- The vectors `susos` and `susoExts` the parser builds for a polygon of the cell
`cellIdx`, as pairs: one entry for every interface and exit line, with `cIdx = cellIdx`
for an exit. -/
def parseSusos (cellIdx : Nat) (pts : List XPoint) : List (Line × TriType) :=
  pts.filterMap fun p =>
    match p.cTyp with
    | .INFC => some (orderPointsLine p.line, ⟨p.sIdx, p.cIdx, p.oIdx⟩)
    | .EXIT => some (orderPointsLine p.line, ⟨p.sIdx, cellIdx, p.oIdx⟩)
    | _ => none

/-- The vector `blobs` the parser builds for a polygon, from the flag `inBlob` and
the blobs so far: a wall ends the current blob, an interface line joins it or starts
a new one. -/
def parseBlobs : List XPoint → Bool → List (List Nat) → Option (List (List Nat))
  | [], _, blobs => some blobs
  | p :: rest, inBlob, blobs =>
    match p.cTyp with
    | .SOLD => parseBlobs rest false blobs
    | .INFC =>
      if inBlob then
        match pushBack blobs p.sIdx with
        | none => none
        | some blobs1 => parseBlobs rest true blobs1
      else parseBlobs rest true (blobs ++ [[p.sIdx]])
    | _ => parseBlobs rest inBlob blobs

/-- `Geometry::getBlob(cIdx, sIdx)`: `blobz[cIdx][blobMaps[cIdx].at(sIdx)]`. -/
def getBlob (blobz : List (List (List Nat))) (blobMaps : List (List (Nat × Nat)))
    (cIdx sIdx : Nat) : Option (List Nat) :=
  match blobz[cIdx]?, blobMaps[cIdx]? with
  | some blobs, some blobMap =>
    match blobMap.lookup sIdx with
    | none => none
    | some b => blobs[b]?
  | _, _ => none

/-- The vectors `susos` and `susoExts` of a cell after `Cell::addPoly` for each of
its polygons, as pairs. -/
def cellSusos (cellIdx : Nat) (polys : List (List XPoint)) : List (Line × TriType) :=
  polys.flatMap (parseSusos cellIdx)

/-- The vector `blobs` of a cell after `Cell::addPoly` for each of its polygons. -/
def cellBlobs (polys : List (List XPoint)) : Option (List (List Nat)) :=
  (polys.mapM fun pts => parseBlobs pts false []).map List.flatten

/-- A cell (nominal index 10) whose polygon has two consecutive interfaces to the cell
20, a wall, and an exit. -/
def polysQuad : List (List XPoint) :=
  [[⟨⟨⟨0, 0⟩, ⟨4, 0⟩⟩, .INFC, 7, 20, 1⟩, ⟨⟨⟨4, 0⟩, ⟨4, 4⟩⟩, .INFC, 8, 20, 2⟩,
    ⟨⟨⟨4, 4⟩, ⟨0, 4⟩⟩, .SOLD, 0, 0, 0⟩, ⟨⟨⟨0, 4⟩, ⟨0, 0⟩⟩, .EXIT, 9, 0, 0⟩]]

/-- The non-solid edges of the cell of `polysQuad`: the sides but the wall, and the
diagonal. -/
def nososQuad : List Line :=
  [⟨⟨0, 0⟩, ⟨4, 0⟩⟩, ⟨⟨0, 0⟩, ⟨0, 4⟩⟩, ⟨⟨0, 0⟩, ⟨4, 4⟩⟩, ⟨⟨4, 0⟩, ⟨4, 4⟩⟩]

/-! ### Neighbour slots through `subtractLines` -/

/-- The shape of the edge list of the mesher: the edge at position `p` has the index
`p + 1`, its slots `2`, `3` are null, and each of its slots `0`, `1` names an edge
`q + 1` of the list, other than itself, whose other slot names `p + 1`. -/
structure MeshLike (edges0 : List Edge) : Prop where
  idx : ∀ (p : Nat) (e : Edge), edges0[p]? = some e → e.idx = p + 1
  high : ∀ (p : Nat) (e : Edge) (s : Nat), edges0[p]? = some e → 2 ≤ s → e.nbrs.get s = 0
  recip : ∀ (p : Nat) (e : Edge) (j : Nat), edges0[p]? = some e → j < 2 →
    ∃ q eq, e.nbrs.get j = q + 1 ∧ q ≠ p ∧ edges0[q]? = some eq ∧
      eq.nbrs.get ((j + 1) % 2) = p + 1

/-- The state of the vector `edgesC` of `subtractLines` once the walls matching the
positions `K` have been processed, in terms of the input `edges0`: a slot holds its
input value, or it is null and its input value names a position of `K`; a slot of
an edge outside `K` whose input value names a position of `K` is null. -/
def CutInv (edges0 : List Edge) (K : List Nat) (cur : List Edge) : Prop :=
  cur.length = edges0.length ∧
  ∀ (q : Nat) (e0 : Edge), edges0[q]? = some e0 →
    ∃ e, cur[q]? = some e ∧ e.u = e0.u ∧ e.v = e0.v ∧
      e.idx = (if q ∈ K then 0 else e0.idx) ∧
      (∀ s, e.nbrs.get s = e0.nbrs.get s ∨
        (e.nbrs.get s = 0 ∧ ∃ p, e0.nbrs.get s = p + 1 ∧ p ∈ K)) ∧
      (∀ s p, s < 2 → e0.nbrs.get s = p + 1 → p ∈ K → q ∉ K → e.nbrs.get s = 0)

/-! ### The walk of the router (`router.cpp`) and the agents (`actuator.cpp`, `simmer.cpp`)

Coordinates are exact rationals, the root is the field `sqrt` of a record `CMath ℚ`,
and the distances `lShrtz` are numbers or `⊤` (the value `infinity()`).  A result
`none` stands for an execution that leaves a vector, or for `at` throwing. -/

/-- The tables of `Geometry` and `Router` read by `findLine`, `findCell`,
`findVisible` and `Actuator::operator()`. -/
structure World where
  triz : List (List TriangleType)
  wallz : List (List Line)
  nosoz : List (List Line)
  susoExtz : List (List TriType)
  susoMaps : List (List (Nat × TriType))
  blobz : List (List (List Nat))
  blobMaps : List (List (Nat × Nat))
  dummys : List Nat
  lShrtz : List (List (WithTop ℚ))
  nextz : List (List DuoType)
  dcts : List (List (Nat × DctType ℚ))

/-- A line over `ℚ` as a line over a coordinate type. -/
def Line.toLineOf (l : Line) : LineOf ℚ :=
  ⟨l.u, l.v⟩

/-- `isInsideTriangle` of `geometry.cpp`. -/
def isInsideTriangle (p : Point ℚ) (t : TriangleType) : Bool :=
  let l1 := (p.x - t.u.x) * (t.v.y - t.u.y) - (t.v.x - t.u.x) * (p.y - t.u.y)
  let l2 := (p.x - t.v.x) * (t.w.y - t.v.y) - (t.w.x - t.v.x) * (p.y - t.v.y)
  let l3 := (p.x - t.w.x) * (t.u.y - t.w.y) - (t.u.x - t.w.x) * (p.y - t.w.y)
  (fELess 0 l1 && fELess 0 l2 && fELess 0 l3) || (fELess l1 0 && fELess l2 0 && fELess l3 0)

/-- The second loop of `Geometry::isInsideCell`, over the trios of the cell. -/
def nearSusos (m : CMath ℚ) (nosoz : List (List Line)) (cIdx : Nat) (p : Point ℚ) :
    List TriType → Option Bool
  | [] => some false
  | tri :: rest =>
    match at2 nosoz cIdx tri.sIdx with
    | none => none
    | some l =>
      if fELess (pointLineDistance m p l) CPA then some true else nearSusos m nosoz cIdx p rest

/-- `Geometry::isInsideCell(p, cIdx)`. -/
def isInsideCell (m : CMath ℚ) (W : World) (p : Point ℚ) (cIdx : Nat) : Option Bool :=
  match W.triz[cIdx]? with
  | none => none
  | some tris =>
    if tris.any (isInsideTriangle p) then some true
    else
      match W.susoExtz[cIdx]? with
      | none => none
      | some exts => nearSusos m W.nosoz cIdx p exts

/-- The test of `Geometry::intersectsWalls` on one line `w`. -/
def hitsLine (m : CMath ℚ) (cpa : ℚ) (l w : Line) : Bool :=
  intersectionFlag l w || fELess (nonIntSegmentDistance m l w) cpa

/-- `Geometry::intersectsWalls(l, cIdx, cpa)`. -/
def intersectsWalls (m : CMath ℚ) (W : World) (l : Line) (cIdx : Nat) (cpa : ℚ) : Option Bool :=
  match W.wallz[cIdx]? with
  | none => none
  | some walls => some (walls.any (hitsLine m cpa l))

/-- The loop of `Geometry::intersectsWalls(l, cIdx, pseudos, cpa)` over `pseudos`. -/
def hitsPseudos (m : CMath ℚ) (cpa : ℚ) (l : Line) (nosos : List Line) : List Nat → Option Bool
  | [] => some false
  | idx :: rest =>
    match nosos[idx]? with
    | none => none
    | some w => if hitsLine m cpa l w then some true else hitsPseudos m cpa l nosos rest

/-- `Geometry::intersectsWalls(l, cIdx, pseudos, cpa)`. -/
def intersectsWallsP (m : CMath ℚ) (W : World) (l : Line) (cIdx : Nat) (pseudos : List Nat)
    (cpa : ℚ) : Option Bool :=
  match W.wallz[cIdx]? with
  | none => none
  | some walls =>
    if walls.any (hitsLine m cpa l) then some true
    else
      match W.nosoz[cIdx]? with
      | none => none
      | some nosos => hitsPseudos m cpa l nosos pseudos

/-- `euclideanPLDistance` of `support.hpp`. -/
def euclideanPLDistance (m : CMath ℚ) (p : Point ℚ) (l : Line) : ℚ :=
  let mx := (l.u.x + l.v.x) / 2
  let my := (l.u.y + l.v.y) / 2
  (euclideanDistance m p l.u * 1 + euclideanDistance m p l.v * 1 +
    euclideanDistance m p ⟨mx, my⟩ * 2) / 4

/-- `Router::DICHI`. -/
def DICHI : Nat := 7

/-- Insertion of the index `a` into a list of indices sorted by `key`, after the
indices whose key is not greater. -/
def insertIdx (key : Nat → ℚ) (a : Nat) : List Nat → List Nat
  | [] => [a]
  | x :: rest => if key a < key x then a :: x :: rest else x :: insertIdx key a rest

/-- `std::partial_sort(vec.begin(), vec.begin() + cnt, vec.end(), <)` by `key`.  The
standard fixes the first `cnt` elements up to the order of equivalent ones and leaves
the rest open; this model sorts the whole vector, equivalent elements in their input
order. -/
def partialSort (key : Nat → ℚ) (vec : List Nat) : List Nat :=
  vec.foldl (fun acc a => insertIdx key a acc) []

/-- The entry `dst[i]` of `Router::findLine` for the candidate `v = vec[i]`:
`infinity()` when the segment from `pt` to the midpoint of the edge meets a wall. -/
def lineCost (m : CMath ℚ) (W : World) (cIdx : Nat) (pt : Point ℚ) (nosos : List Line)
    (v : Nat) : Option (WithTop ℚ) :=
  match nosos[v]? with
  | none => none
  | some l =>
    match intersectsWalls m W ⟨pt, linePoint l.toLineOf⟩ cIdx CPA with
    | none => none
    | some true => some ⊤
    | some false =>
      match at2 W.lShrtz cIdx v with
      | none => none
      | some s => some (((euclideanPLDistance m pt l : ℚ) : WithTop ℚ) + s)

/-- `Router::findLine` after the partial sort, for the sorted vector `vec`:
`vec[std::distance(dst.cbegin(), std::min_element(dst.cbegin(), dst.cend()))]`. -/
def findLineFrom (m : CMath ℚ) (W : World) (cIdx : Nat) (pt : Point ℚ) (nosos : List Line)
    (vec : List Nat) : Option Nat :=
  match (vec.take (min DICHI nosos.length)).mapM (lineCost m W cIdx pt nosos) with
  | none => none
  | some dst =>
    match minElement dst with
    | none => vec[0]?
    | some (pos, _) => vec[pos]?

/-- `Router::findLine(cIdx, pt)`. -/
def findLine (m : CMath ℚ) (W : World) (cIdx : Nat) (pt : Point ℚ) : Option Nat :=
  match W.nosoz[cIdx]? with
  | none => none
  | some nosos =>
    findLineFrom m W cIdx pt nosos
      (partialSort (fun a => euclideanPLDistance m pt (nosos.getD a ⟨⟨0, 0⟩, ⟨0, 0⟩⟩))
        (List.range nosos.length))

/-- `unitVctr` of `support.hpp`. -/
def unitVctr (m : CMath ℚ) (p : Point ℚ) : Point ℚ :=
  Point.smul (1 / m.sqrt (p.x ^ 2 + p.y ^ 2)) p

/-- The loop of `Router::findCell` from index `i` on, over the remaining lines: `idx`
is set to every index whose interpolated point lies inside its cell. -/
def findCellLoop (m : CMath ℚ) (W : World) (cells : List DuoType) (s : ℚ) :
    Nat → List Line → Nat → Option Nat
  | _, [], idx => some idx
  | i, ln :: rest, idx =>
    match cells[i]? with
    | none => none
    | some c =>
      match isInsideCell m W ((Point.smul (1 - s) ln.u).add (Point.smul s ln.v)) c.cIdx with
      | none => none
      | some inside => findCellLoop m W cells s (i + 1) rest (if inside then i else idx)

/-- `Router::findCell(lines, cells, s)`. -/
def findCell (m : CMath ℚ) (W : World) (lines : List Line) (cells : List DuoType) (s : ℚ) :
    Option (Nat × Line) :=
  match findCellLoop m W cells s 0 lines IdxTypeMax with
  | none => none
  | some idx =>
    match lines[idx]? with
    | none => none
    | some ln => some (idx, ⟨ln.u.add (Point.smul s (ln.v.sub ln.u)), unitVctr m (ln.v.sub ln.u)⟩)

/-- `Router::PseudoType`: per cell, a set of edge indices, as a list. -/
abbrev PseudoType := List (Nat × List Nat)

/-- `set.erase(sIdx)` for every `sIdx` of a blob. -/
def eraseAll (set : List Nat) (blob : List Nat) : List Nat :=
  blob.foldl (fun s x => s.erase x) set

/-- `set.insert(x)`. -/
def insertSet (set : List Nat) (x : Nat) : List Nat :=
  if set.contains x then set else set ++ [x]

/-- One half of `Router::subtractInfc`: the blob of the edge `sIdx` is erased from
the set of the cell `cIdx`, which starts as the set of all subsolid edges of the
cell when the cell has no set yet. -/
def subtractSide (W : World) (pseudoz : PseudoType) (cIdx sIdx : Nat) : Option PseudoType :=
  match getBlob W.blobz W.blobMaps cIdx sIdx with
  | none => none
  | some blob =>
    match pseudoz.lookup cIdx with
    | some set => some (mapAssign pseudoz cIdx (eraseAll set blob))
    | none =>
      match W.susoExtz[cIdx]? with
      | none => none
      | some exts =>
        some (pseudoz ++ [(cIdx, eraseAll (exts.foldl (fun s t => insertSet s t.sIdx) []) blob)])

/-- `Router::subtractInfc(pseudoz, cIdxP, sIdxP)`. -/
def subtractInfc (W : World) (pseudoz : PseudoType) (cIdxP sIdxP : Nat) : Option PseudoType :=
  match subtractSide W pseudoz cIdxP sIdxP with
  | none => none
  | some pz1 =>
    match (W.susoMaps[cIdxP]?).bind fun mp => mp.lookup sIdxP with
    | none => none
    | some trio => subtractSide W pz1 trio.cIdx trio.oIdx

/-- `pseudoz[cIdx]`: the set of the cell, inserted empty when missing. -/
def pseudoAt (pseudoz : PseudoType) (cIdx : Nat) : List Nat × PseudoType :=
  match pseudoz.lookup cIdx with
  | some set => (set, pseudoz)
  | none => ([], pseudoz ++ [(cIdx, [])])

/-- `Navi` of `router.hpp`. -/
abbrev Navi := List Line × List DuoType

/-- The locals of `Router::findVisible` that live across the iterations of its loop. -/
structure VisState where
  duoP : DuoType
  cells : List DuoType
  tails : List (Point ℚ)
  lines : List Line
  pseudoz : PseudoType
  dmp : Nat

/-- The loop `for (auto i { cells.size() - 1 }; i > 0; i--)` of `findVisible` from `i`
down: `acc` holds `linesT[i ..]`; the second component is `none` when a wall is met
(`visible = false; break`). -/
def backLines (m : CMath ℚ) (W : World) (cpa : ℚ) (cells : List DuoType)
    (tails : List (Point ℚ)) :
    Nat → Point ℚ → List Line → PseudoType → Option (PseudoType × Option (List Line))
  | 0, _, acc, pz => some (pz, some acc)
  | i + 1, head, acc, pz =>
    match cells[i + 1]?, cells[i]?, tails[i]? with
    | some ci, some cc, some tail =>
      match translate m W.dcts ci.cIdx cc.cIdx head with
      | none => none
      | some head1 =>
        match intersectsWallsP m W ⟨tail, head1⟩ cc.cIdx (pseudoAt pz cc.cIdx).1 cpa with
        | none => none
        | some true => some ((pseudoAt pz cc.cIdx).2, none)
        | some false =>
          backLines m W cpa cells tails i head1 (⟨tail, head1⟩ :: acc) (pseudoAt pz cc.cIdx).2
    | _, _, _ => none

/-- `cells.back().sIdx = sIdx`. -/
def setBackSIdx (cells : List DuoType) (sIdx : Nat) : Option (List DuoType) :=
  match cells.getLast? with
  | none => none
  | some c => some (cells.dropLast ++ [⟨c.cIdx, sIdx⟩])

/-- The first part of the body of the loop of `findVisible`: the vectors `cells`,
`tails`, the sets `pseudoz` and the flags `cTrnsn`, `hitExit` for the next mark
`duoS`. -/
def visEnter (m : CMath ℚ) (W : World) (st : VisState) (duoS : DuoType) :
    Option (List DuoType × List (Point ℚ) × PseudoType × Bool × Bool) :=
  if duoS.cIdx ≠ st.duoP.cIdx then
    match st.tails.getLast? with
    | none => none
    | some tail =>
      match translate m W.dcts st.duoP.cIdx duoS.cIdx tail with
      | none => none
      | some tail1 =>
        match subtractInfc W st.pseudoz st.duoP.cIdx st.duoP.sIdx with
        | none => none
        | some pz => some (st.cells ++ [duoS], st.tails ++ [tail1], pz, true, false)
  else if isExit W.susoMaps duoS.cIdx duoS.sIdx then
    match st.pseudoz.lookup duoS.cIdx with
    | some set =>
      some (st.cells, st.tails, mapAssign st.pseudoz duoS.cIdx (set.erase duoS.sIdx), false, true)
    | none => some (st.cells, st.tails, st.pseudoz, false, true)
  else some (st.cells, st.tails, st.pseudoz, false, false)

/-- The vector `linesT` of one iteration of `findVisible`, with the sets `pseudoz`
after the tests: `none` in the second component when some segment meets a wall. -/
def visLines (m : CMath ℚ) (W : World) (cpa : ℚ) (cells : List DuoType)
    (tails : List (Point ℚ)) (pz : PseudoType) (duoS : DuoType) :
    Option (PseudoType × Option (List Line)) :=
  match at2 W.nosoz duoS.cIdx duoS.sIdx, tails.getLast? with
  | some l, some tail =>
    match intersectsWallsP m W ⟨tail, linePoint l.toLineOf⟩ duoS.cIdx
        (pseudoAt pz duoS.cIdx).1 cpa with
    | none => none
    | some true => some ((pseudoAt pz duoS.cIdx).2, none)
    | some false =>
      backLines m W cpa cells tails (cells.length - 1) (linePoint l.toLineOf)
        [⟨tail, linePoint l.toLineOf⟩] (pseudoAt pz duoS.cIdx).2
  | _, _ => none

/-- One iteration of the loop of `Router::findVisible`; the flag tells whether the
loop is left by `break`. -/
def visStep (m : CMath ℚ) (W : World) (cpa : ℚ) (st : VisState) : Option (VisState × Bool) :=
  match at2 W.nextz st.duoP.cIdx st.duoP.sIdx with
  | none => none
  | some duoS =>
    match visEnter m W st duoS with
    | none => none
    | some (cells, tails, pz, cTrnsn, hitExit) =>
      match visLines m W cpa cells tails pz duoS with
      | none => none
      | some (pz1, none) =>
        some (⟨duoS, cells, tails, st.lines, pz1, if cTrnsn then st.dmp + 1 else st.dmp⟩, hitExit)
      | some (pz1, some linesT) =>
        if cTrnsn then some (⟨duoS, cells, tails, linesT, pz1, 0⟩, hitExit)
        else
          match setBackSIdx cells duoS.sIdx with
          | none => none
          | some cells1 => some (⟨duoS, cells1, tails, linesT, pz1, 0⟩, hitExit)

/-- The loop `while (hop--)` of `Router::findVisible`. -/
def visLoop (m : CMath ℚ) (W : World) (cpa : ℚ) : Nat → VisState → Option VisState
  | 0, st => some st
  | hop + 1, st =>
    match visStep m W cpa st with
    | none => none
    | some (st1, true) => some st1
    | some (st1, false) => visLoop m W cpa hop st1

/-- `Router::findVisible(cIdx, pt, hop, cpa)`. -/
def findVisible (m : CMath ℚ) (W : World) (cIdx : Nat) (pt : Point ℚ) (hop : Nat) (cpa : ℚ) :
    Option Navi :=
  match findLine m W cIdx pt with
  | none => none
  | some sIdx =>
    match at2 W.nosoz cIdx sIdx with
    | none => none
    | some l =>
      match visLoop m W cpa hop
          ⟨⟨cIdx, sIdx⟩, [⟨cIdx, sIdx⟩], [pt], [⟨pt, linePoint l.toLineOf⟩], [], 0⟩ with
      | none => none
      | some st => some (st.lines, st.cells.take (st.cells.length - st.dmp))

/-- The members of `Actuator` that `operator()` reads or writes; `path` is the list
of cell runs `CellPathType`. -/
structure Actuator where
  idx : Nat
  nIdx : Nat
  cIdx : Nat
  pos : Point ℚ
  vel : Point ℚ
  dpt : ℚ
  path : List (Nat × List (Point ℚ))
deriving DecidableEq, Repr

/-- `Actuator::DPTM`, the value of the member `dptM`. -/
def DPTM : ℚ := 9 / 10

/-- The constructor `Actuator::Actuator` for the value `gIdx` of the static counter:
the new agent and the counter after `gIdx++`.  The members `vel` and `dpt` are
written by `operator()` before they are read. -/
def Actuator.ctor (gIdx nIdx cIdx : Nat) (pos : Point ℚ) : Actuator × Nat :=
  (⟨gIdx, nIdx, cIdx, pos, ⟨0, 0⟩, 0, [(cIdx, [pos])]⟩, gIdx + 1)

/-- The agents a client constructs one after the other from `(nIdx, cIdx, pos)`. -/
def Actuator.ctors : Nat → List (Nat × Nat × Point ℚ) → List Actuator
  | _, [] => []
  | gIdx, (nIdx, cIdx, pos) :: rest =>
    (Actuator.ctor gIdx nIdx cIdx pos).1 :: Actuator.ctors (Actuator.ctor gIdx nIdx cIdx pos).2 rest

/-- The step `dpt` chosen in `Actuator::operator()`. -/
def stepDpt (exitInSight : Bool) (dptA : ℚ) : ℚ :=
  if exitInSight then DPTM else min dptA DPTM

/-- The condition of the branch of `Actuator::operator()` that moves the agent. -/
def takesStep (exitInSight isDummy : Bool) (dptA : ℚ) : Bool :=
  !(exitInSight && fELess dptA (stepDpt exitInSight dptA)) && !isDummy

/-- `path.back().second.emplace_back(pos)`. -/
def pushPos (path : List (Nat × List (Point ℚ))) (pos : Point ℚ) :
    Option (List (Nat × List (Point ℚ))) :=
  match path.getLast? with
  | none => none
  | some run => some (path.dropLast ++ [(run.1, run.2 ++ [pos])])

/-- `Actuator::operator()`: the agent after the call, and the indices it pushed onto
`que`. -/
def Actuator.step (m : CMath ℚ) (W : World) (a : Actuator) : Option (Actuator × List Nat) :=
  match findVisible m W a.cIdx a.pos IdxTypeMax CPA with
  | none => none
  | some (lines, cells) =>
    match cells.getLast?, lines[0]? with
    | some lastLine, some line0 =>
      if takesStep (isExit W.susoMaps lastLine.cIdx lastLine.sIdx) (W.dummys.contains a.cIdx)
          (lineNorm m line0) then
        match findCell m W lines cells
            (stepDpt (isExit W.susoMaps lastLine.cIdx lastLine.sIdx) (lineNorm m line0) /
              lineNorm m line0) with
        | none => none
        | some loc =>
          match cells[loc.1]? with
          | none => none
          | some c =>
            match pushPos (if a.cIdx ≠ c.cIdx then a.path ++ [(c.cIdx, [])] else a.path)
                loc.2.u with
            | none => none
            | some path1 =>
              some ({ a with
                cIdx := c.cIdx, pos := loc.2.u, vel := loc.2.v,
                dpt := stepDpt (isExit W.susoMaps lastLine.cIdx lastLine.sIdx) (lineNorm m line0),
                path := path1 }, [a.idx])
      else
        some ({ a with
          dpt := stepDpt (isExit W.susoMaps lastLine.cIdx lastLine.sIdx) (lineNorm m line0) }, [])
    | _, _ => none

/-- One round of the pool on the input queue: every index is popped once and its
agent is called; the calls are taken in the order of the queue (with several workers
the pushes onto the output queue may be interleaved differently). -/
def poolRound (m : CMath ℚ) (W : World) :
    List Nat → List Actuator → List Nat → Option (List Actuator × List Nat)
  | [], actrs, oQue => some (actrs, oQue)
  | idx :: rest, actrs, oQue =>
    match actrs[idx]? with
    | none => none
    | some a =>
      match a.step m W with
      | none => none
      | some (a1, pushed) => poolRound m W rest (actrs.set idx a1) (oQue ++ pushed)

/-- The agents and the input queue of round `k` of `Simmer::Simmer`: the queue
`0 .. n - 1` at first, then the output queue of the round before (`std::swap`). -/
def simmerRound (m : CMath ℚ) (W : World) (actrs : List Actuator) :
    Nat → Option (List Actuator × List Nat)
  | 0 => some (actrs, List.range actrs.length)
  | k + 1 =>
    match simmerRound m W actrs k with
    | none => none
    | some (actrs1, iQue) => poolRound m W iQue actrs1 []

/-- A world of one triangular cell `(0,0), (4,0), (0,4)`: the bottom side is its only
non-solid edge, an exit; the two other sides are walls. -/
def worldTri : World where
  triz := [[⟨⟨0, 0⟩, ⟨4, 0⟩, ⟨0, 4⟩⟩]]
  wallz := [[⟨⟨0, 0⟩, ⟨0, 4⟩⟩, ⟨⟨0, 4⟩, ⟨4, 0⟩⟩]]
  nosoz := [[⟨⟨0, 0⟩, ⟨4, 0⟩⟩]]
  susoExtz := [[⟨0, 0, 0⟩]]
  susoMaps := [[(0, ⟨0, 0, 0⟩)]]
  blobz := [[]]
  blobMaps := [[]]
  dummys := []
  lShrtz := [[0]]
  nextz := [[⟨0, 0⟩]]
  dcts := [[]]

/-- The relation between the locals of `Router::findVisible` for the start point `pt`:
`|lines| + dmp = |cells| = |tails|`, and the first line and the first tail start at
`pt`. -/
def VisInv (pt : Point ℚ) (st : VisState) : Prop :=
  st.lines.length + st.dmp = st.cells.length ∧ st.tails.length = st.cells.length ∧
    st.tails[0]? = some pt ∧ ∃ l rest, st.lines = l :: rest ∧ l.u = pt

/-- A number of calls of `Actuator::operator()` on one agent. -/
def Actuator.steps (m : CMath ℚ) (W : World) : Nat → Actuator → Option Actuator
  | 0, a => some a
  | n + 1, a =>
    match a.step m W with
    | none => none
    | some (a1, _) => Actuator.steps m W n a1

/-- The relation between the path of an agent and its members `cIdx`, `pos`: the path
is not empty, no cell run is empty, consecutive runs are in different cells, the last
run is in the cell `cIdx` and ends at `pos`. -/
def PathInv (a : Actuator) : Prop :=
  a.path ≠ [] ∧ (∀ run ∈ a.path, run.2 ≠ []) ∧
    (a.path.map Prod.fst).Chain' (fun c1 c2 => c1 ≠ c2) ∧
    a.path.getLast?.map Prod.fst = some a.cIdx ∧
    (a.path.getLast?.bind fun run => run.2.getLast?) = some a.pos

/-- Two square cells side by side, each in its own frame `(0,0) .. (4,4)`: the right
side of cell `0` is the interface to the left side of cell `1`, whose right side is an
exit; the other sides are walls.  The transforms are translations by `(∓4, 0)`. -/
def worldPair : World where
  triz := [[⟨⟨0, 0⟩, ⟨4, 0⟩, ⟨4, 4⟩⟩, ⟨⟨0, 0⟩, ⟨4, 4⟩, ⟨0, 4⟩⟩],
    [⟨⟨0, 0⟩, ⟨4, 0⟩, ⟨4, 4⟩⟩, ⟨⟨0, 0⟩, ⟨4, 4⟩, ⟨0, 4⟩⟩]]
  wallz := [[⟨⟨0, 0⟩, ⟨4, 0⟩⟩, ⟨⟨0, 4⟩, ⟨4, 4⟩⟩, ⟨⟨0, 0⟩, ⟨0, 4⟩⟩],
    [⟨⟨0, 0⟩, ⟨4, 0⟩⟩, ⟨⟨0, 4⟩, ⟨4, 4⟩⟩]]
  nosoz := [[⟨⟨4, 0⟩, ⟨4, 4⟩⟩], [⟨⟨0, 0⟩, ⟨0, 4⟩⟩, ⟨⟨4, 0⟩, ⟨4, 4⟩⟩]]
  susoExtz := [[⟨0, 1, 0⟩], [⟨0, 0, 0⟩, ⟨1, 1, 1⟩]]
  susoMaps := [[(0, ⟨0, 1, 0⟩)], [(0, ⟨0, 0, 0⟩), (1, ⟨1, 1, 1⟩)]]
  blobz := [[[0]], [[0]]]
  blobMaps := [[(0, 0)], [(0, 0)]]
  dummys := []
  lShrtz := [[4], [4, 0]]
  nextz := [[⟨1, 1⟩], [⟨1, 1⟩, ⟨1, 1⟩]]
  dcts := [[(1, ⟨true, ⟨4, 2⟩, ⟨0, 2⟩, 0⟩)], [(0, ⟨true, ⟨0, 2⟩, ⟨4, 2⟩, 0⟩)]]

/-! ### The router over a finalized geometry: invariants of the construction -/

/-- The invariant of `Router::consolidate` on `quads` and `gEIds` after the entries
of `S` have been processed: `gEIds` lists the ids of the exits; the quad of an id
names the entry that received the id as its primary side, the cell `IdxTypeMax`
as the secondary side of an exit, and the entry that reused the id as the
secondary side of an interface; and every id below `gIdx` was given to an entry. -/
structure QInv (S : List (List TriType)) (st : Consolidated) : Prop where
  exits : ∀ e, e ∈ st.gEIds ↔ ∃ c k t, IsEntry S c k t ∧ t.cIdx = c ∧ st.gidAt c k = some e
  quadP : ∀ c k t g, IsEntry S c k t → c ≤ t.cIdx → st.gidAt c k = some g →
    ∃ q, st.quads[g]? = some q ∧ q.cIdxP = c ∧ q.sIdxP = t.sIdx
  quadX : ∀ c k t g, IsEntry S c k t → t.cIdx = c → st.gidAt c k = some g →
    ∃ q, st.quads[g]? = some q ∧ q.cIdxS = IdxTypeMax
  quadS : ∀ c k t g, IsEntry S c k t → t.cIdx < c → st.gidAt c k = some g →
    ∃ q, st.quads[g]? = some q ∧ q.cIdxS = c ∧ q.sIdxS = t.sIdx
  surj : ∀ g, g < st.gIdx → ∃ c k t, IsEntry S c k t ∧ c ≤ t.cIdx ∧ st.gidAt c k = some g

/-- The triple `(c, j, k)` of a cell and two positions of its subsolid entries is
visited by the loops of `Router::patchUp` before the triple `(C, J, K)`. -/
def Before (S : List (List TriType)) (C J K c j k : Nat) : Prop :=
  (∃ ext, S[c]? = some ext ∧ j < ext.length ∧ k < ext.length) ∧
    (c < C ∨ (c = C ∧ (j < J ∨ (j = J ∧ k < K))))

/-- The invariant of the loops of `Router::patchUp` that build the graph `g`, when
the triples before `(C, J, K)` have been visited; `gid c j` is `gIdz[c][j]` and
`wt c j k` is `distMCSs[c][susoExts[j].sIdx * susoExtsSize + k]`.  Every row is a
map (its keys are distinct); a visited triple has left an edge from `gid c j` to
`gid c k` of weight at most `wt c j k`; and every edge is the weight of a visited
triple. -/
structure GInv {D : Type} [LinearOrder D] (gIdx : Nat) (S : List (List TriType))
    (gid : Nat → Nat → Nat) (wt : Nat → Nat → Nat → D) (C J K : Nat) (g : GraphType D) :
    Prop where
  len : g.length = gIdx
  keys : ∀ row ∈ g, (row.map Prod.fst).Nodup
  edge : ∀ c j k, Before S C J K c j k →
    ∃ row x, g[gid c j]? = some row ∧ (gid c k, x) ∈ row ∧ x ≤ wt c j k
  real : ∀ (J0 : Nat) (row : List (Nat × D)) (K0 : Nat) (x : D), g[J0]? = some row →
    (K0, x) ∈ row → ∃ c j k, Before S C J K c j k ∧ gid c j = J0 ∧ gid c k = K0 ∧ x = wt c j k

/-- The cell `c` reaches an exit over the interfaces of the subsolid tables: it
owns an exit, or one of its subsolid lines leads to a cell that reaches an exit. -/
inductive CellReach (S : List (List TriType)) : Nat → Prop where
  | exit (c : Nat) (ext : List TriType) (t : TriType) :
      S[c]? = some ext → t ∈ ext → t.cIdx = c → CellReach S c
  | step (c : Nat) (ext : List TriType) (t : TriType) :
      S[c]? = some ext → t ∈ ext → CellReach S t.cIdx → CellReach S c

/-- A finalized geometry in which every cell reaches an exit, as `Router::Router`
reads it: `S` is `susoExtz`, `nbrz[c]` holds the four neighbour slots of every
non-solid edge of cell `c`, `nSizes[c]` is `nosoz[c].size()` and `w c a b` is the
distance between the midpoints of the edges `a` and `b` of cell `c`.  All fields
speak of this input of the router, none of its tables:

* `fin`: the subsolid tables are finalized (`Geometry::finalize`: every interface
  has its reciprocal entry, the local indices of a cell are distinct);
* `cells`: the tables have one row per cell and there are at most `IdxTypeMax`
  cells (`consolidate` writes `IdxTypeMax` for the missing side of an exit);
* `keys`: the local index of a subsolid line is an edge of its cell
  (`Geometry::processCell` finds it in `nosos`);
* `reach`: every cell reaches an exit over the interfaces (what `Geometry::validate`
  checks before it reports a cell without a route);
* `slots`: a neighbour slot names an edge of the cell that has the edge among its
  own neighbours (the slots are those of the triangles of the mesh);
* `conn`: the non-solid edges of a cell are connected through the neighbour slots.
  This is the shape of a cell in `parser.cpp` (the first polygon encloses the
  cell, the others are obstacles inside it, and the walls are sides of these
  polygons), whose triangulation is one piece; the code does not check it, and an
  edge that no subsolid line of its cell reaches lies outside the theorems below
  (its entries of `distMCSs` hold `infinity()`, see `isolated_edge_tables`);
* `weight`: the distances are symmetric, finite, and positive between different
  edges (`euclideanLLDistance` of two midpoints). -/
structure Routable {M : Type} [LinearOrderedCancelAddCommMonoid M]
    (w : Nat → Nat → Nat → WithTop M) (nbrz : List (List Nat)) (nSizes : List Nat)
    (S : List (List TriType)) : Prop where
  fin : FinalizedSusos S
  cells : nbrz.length = nSizes.length ∧ S.length = nSizes.length ∧ nSizes.length ≤ IdxTypeMax
  keys : ∀ (c : Nat) (ext : List TriType), S[c]? = some ext → ∀ t ∈ ext, t.sIdx < nSizes.getD c 0
  reach : ∀ c, c < S.length → CellReach S c
  slots : ∀ (c : Nat) (nbrs : List Nat), nbrz[c]? = some nbrs → ∀ u j v, u < nSizes.getD c 0 →
    j < 4 → nbrs.getD (u * 4 + j) 0 = v + 1 →
    v < nSizes.getD c 0 ∧ ∃ j1, j1 < 4 ∧ nbrs.getD (v * 4 + j1) 0 = u + 1
  conn : ∀ (c : Nat) (nbrs : List Nat), nbrz[c]? = some nbrs → ∀ a b, a < nSizes.getD c 0 →
    b < nSizes.getD c 0 → Reachable (localGraph (w c) nbrs (nSizes.getD c 0)) a b
  weight : ∀ c a b, a < nSizes.getD c 0 → b < nSizes.getD c 0 →
    w c a b = w c b a ∧ ∃ x : M, w c a b = (x : WithTop M) ∧ 0 ≤ x ∧ (a ≠ b → 0 < x)

/-- What the local tables of the router `r` hold after `Finder::findLocal` on the
geometry: `susoMaps` are the maps of `constructSusoMaps`, and column `j` of the
tables `pathMCSs[c]`, `distMCSs[c]` is the run of the lazy Dijkstra on the local
graph of cell `c` from its `j`-th subsolid line. -/
structure LocalBuilt {M : Type} [LinearOrderedCancelAddCommMonoid M]
    (w : Nat → Nat → Nat → WithTop M) (nbrz : List (List Nat)) (nSizes : List Nat)
    (S : List (List TriType)) (r : Router (WithTop M)) : Prop where
  maps : r.susoMaps = S.map fun e => susoMapOf 0 e []
  lens : r.pathMCSs.length = nSizes.length ∧ r.distMCSs.length = nSizes.length
  rows : ∀ (c : Nat) (ext : List TriType), S[c]? = some ext →
    ((r.distMCSs[c]?).getD []).length = nSizes.getD c 0 * ext.length ∧
    ((r.pathMCSs[c]?).getD []).length = nSizes.getD c 0 * ext.length
  cols : ∀ (c : Nat) (ext : List TriType) (nbrs : List Nat), S[c]? = some ext →
    nbrz[c]? = some nbrs → ∀ (j : Nat) (t : TriType), ext[j]? = some t →
    ∃ d p, dijkstraCore (localGraph (w c) nbrs (nSizes.getD c 0)) t.sIdx = some (d, p) ∧
      ∀ e, e < nSizes.getD c 0 → at2 r.pathMCSs c (e * ext.length + j) = p[e]? ∧
        at2 r.distMCSs c (e * ext.length + j) = d[e]?

/-- The graph `g` that `Router::patchUp` builds from the fields of the router (the
empty graph when the construction faults). -/
def Router.graph {D : Type} [LinearOrder D] (r : Router D) (S : List (List TriType)) :
    GraphType D :=
  (globalGraph r.gIdx S r.gIdz r.distMCSs).getD []

/-- `distM[i * gIdx + s]`: the distance from the global line `s` to the global line
`i`. -/
def Router.gd {D : Type} [Top D] (r : Router D) (s i : Nat) : D :=
  r.distM.getD (i * r.gIdx + s) ⊤

/-- What the tables of the router `r` hold after `Router::Router` has run
`findLocal`, `consolidate` and `patchUp` on the geometry: the local tables are as
in `LocalBuilt`; the ids, quads and exits satisfy the invariants of `consolidate`;
the global tables hold the runs of the lazy Dijkstra on the graph of `patchUp` from
every global id; and `gShrts[i]` is an exit at the least distance from `i`. -/
structure Built {M : Type} [LinearOrderedCancelAddCommMonoid M]
    (w : Nat → Nat → Nat → WithTop M) (nbrz : List (List Nat)) (nSizes : List Nat)
    (S : List (List TriType)) (r : Router (WithTop M)) : Prop where
  loc : LocalBuilt w nbrz nSizes S r
  ids : ∃ st, CInv S st ∧ QInv S st ∧ r.gIdx = st.gIdx ∧ r.quads = st.quads ∧
    r.gEIds = st.gEIds ∧ r.gIdz = st.gIdz
  lens : r.pathM.length = r.gIdx * r.gIdx ∧ r.distM.length = r.gIdx * r.gIdx ∧
    r.gShrts.length = r.gIdx
  glob : GInv r.gIdx S r.gid (fun c j k => r.ld c (r.key c j) k) S.length 0 0 (r.graph S) ∧
    ∀ s, s < r.gIdx → ∃ d p, dijkstraCore (r.graph S) s = some (d, p) ∧
      ∀ i, i < r.gIdx → r.pathM[i * r.gIdx + s]? = p[i]? ∧ r.distM[i * r.gIdx + s]? = d[i]?
  shrt : ∀ i, i < r.gIdx → ∃ e v, r.gShrts[i]? = some (e, v) ∧ e ∈ r.gEIds ∧
    r.distM[i * r.gIdx + e]? = some v ∧
    ∀ e2 ∈ r.gEIds, ∃ v2, r.distM[i * r.gIdx + e2]? = some v2 ∧ v ≤ v2

/-- Two cells.  Cell 0 has three non-solid edges: the exit `0`, the interior edge
`1` and the interface `2` to cell 1; cell 1 has two: the other side `0` of the
interface and the interior edge `1`. -/
def susosAnnex : List (List TriType) :=
  [[⟨0, 0, 0⟩, ⟨2, 1, 0⟩], [⟨0, 0, 2⟩]]

/-- The neighbour slots of the cells of `susosAnnex`: in cell 0 the interior edge
`1` lies between the exit `0` and the interface `2`; in cell 1 the two edges are
neighbours of each other. -/
def nbrzAnnex : List (List Nat) :=
  [[2, 0, 0, 0, 1, 3, 0, 0, 2, 0, 0, 0], [2, 0, 0, 0, 1, 0, 0, 0]]

/-- The distances between the midpoints in the cells of `susosAnnex`. -/
def wAnnex (_ a b : Nat) : WithTop Nat :=
  if a = b then 0 else ((3 + a + b : Nat) : WithTop Nat)

/-- `euclideanLLDistance` of `support.hpp`: the distance between the midpoints of
two lines. -/
def euclideanLLDistance (m : CMath ℚ) (a b : Line) : ℚ :=
  m.sqrt (((a.u.x + a.v.x) / 2 - (b.u.x + b.v.x) / 2) ^ 2 +
    ((a.u.y + a.v.y) / 2 - (b.u.y + b.v.y) / 2) ^ 2)

/-- The weight `euclideanLLDistance(nosoz[c][a], nosoz[c][b])` that `Finder::formMCS`
gives to the neighbours `a`, `b` of cell `c`. -/
def llWeight (m : CMath ℚ) (nosoz : List (List Line)) (c a b : Nat) : WithTop ℚ :=
  ((euclideanLLDistance m (((nosoz[c]?).getD []).getD a ⟨⟨0, 0⟩, ⟨0, 0⟩⟩)
    (((nosoz[c]?).getD []).getD b ⟨⟨0, 0⟩, ⟨0, 0⟩⟩) : ℚ) : WithTop ℚ)

/-- A world of one square cell `(0,0), (4,0), (4,4), (0,4)` cut along the diagonal
from `(0,0)` to `(4,4)`.  Its non-solid edges are the bottom side (edge `0`, an
exit), the diagonal (edge `1`, interior) and the left side (edge `2`, an exit); its
walls are the right side, the top side and the obstacle `(1,1/2)-(3,1/2)`, which
lies between the point `(2,1)` and the midpoint of the bottom side.  The tables
`lShrtz` and `nextz` are those of the router for the squared distances of
`mathId`. -/
def worldRoom : World where
  triz := [[]]
  wallz := [[⟨⟨4, 0⟩, ⟨4, 4⟩⟩, ⟨⟨4, 4⟩, ⟨0, 4⟩⟩, ⟨⟨1, 1 / 2⟩, ⟨3, 1 / 2⟩⟩]]
  nosoz := [[⟨⟨0, 0⟩, ⟨4, 0⟩⟩, ⟨⟨0, 0⟩, ⟨4, 4⟩⟩, ⟨⟨0, 0⟩, ⟨0, 4⟩⟩]]
  susoExtz := [[⟨0, 0, 0⟩, ⟨2, 0, 0⟩]]
  susoMaps := [[(0, ⟨0, 0, 0⟩), (2, ⟨1, 0, 0⟩)]]
  blobz := [[]]
  blobMaps := [[]]
  dummys := []
  lShrtz := [[0, 4, 0]]
  nextz := [[⟨0, 0⟩, ⟨0, 0⟩, ⟨0, 2⟩]]
  dcts := [[]]

/-- The neighbour slots of the cell of `worldRoom`: the diagonal lies between the
bottom side and the left side. -/
def nbrzRoom : List (List Nat) :=
  [[2, 0, 0, 0, 1, 3, 0, 0, 2, 0, 0, 0]]

/-! ## Part II: theorems -/

/-! ### Reciprocity of interfaces after `finalize` -/


theorem IdxMap.find_key_unique (l : List (Nat × Nat)) (hn : (l.map Prod.fst).Nodup)
    (p : Nat × Nat) (hp : p ∈ l) : l.find? (fun q => q.1 == p.1) = some p := by
  induction l with
  | nil => cases hp
  | cons a l ih =>
    simp only [List.map_cons, List.nodup_cons] at hn
    rcases List.mem_cons.1 hp with rfl | hp
    · simp
    · have : a.1 ≠ p.1 := by
        intro h
        exact hn.1 (h ▸ List.mem_map_of_mem Prod.fst hp)
      rw [List.find?_cons_of_neg]
      · exact ih hn.2 hp
      · simpa using this

theorem IdxMap.at_keyOf (m : IdxMap) (v k : Nat) (h : m.keyOf? v = some k) :
    m.at? k = some v := by
  unfold IdxMap.keyOf? at h
  unfold IdxMap.at?
  cases hf : m.entries.find? (fun p => p.2 == v) with
  | none => simp [hf] at h
  | some p =>
    simp [hf] at h
    have hmem := List.mem_of_find?_eq_some hf
    have hv := List.find?_some hf
    simp at hv
    subst h
    rw [IdxMap.find_key_unique m.entries m.nodup p hmem]
    simp [hv]

theorem checkTrio_ok (g : Geometry) (i : Nat) (sMap : IdxMap) (t : TriType) (o : Option Nat)
    (h : checkTrio g i sMap t = Except.ok o) :
    (o = none ∧ g.cMap.at? t.cIdx = some i) ∨ (∃ cS, o = some cS ∧ TrioChecked g i sMap t cS) := by
  unfold checkTrio at h
  cases h1 : g.cMap.at? t.cIdx with
  | none => simp [h1] at h
  | some cS =>
    simp only [h1] at h
    by_cases hc : cS = i
    · simp [hc] at h
      left; exact ⟨h.symm, by rw [hc]⟩
    · simp only [hc, if_false] at h
      cases h2 : sMap.keyOf? t.sIdx with
      | none => simp [h2] at h
      | some sPF =>
        simp only [h2] at h
        cases h3 : g.sMaps[cS]? with
        | none => simp [h3] at h
        | some sMapS =>
          simp only [h3] at h
          cases h4 : sMapS.at? t.oIdx with
          | none => simp [h4] at h
          | some sS =>
            simp only [h4] at h
            cases h5 : g.susoExtz[cS]? with
            | none => simp [h5] at h
            | some extS =>
              simp only [h5] at h
              cases h6 : extS.find? (fun trio => trio.sIdx == sS) with
              | none => simp [h6] at h
              | some trioS =>
                simp only [h6] at h
                cases h7 : g.cMap.at? trioS.cIdx with
                | none => simp [h7] at h
                | some cBack =>
                  simp only [h7] at h
                  by_cases h8 : i ≠ cBack ∨ trioS.oIdx ≠ sPF
                  · simp [h8] at h
                  · simp only [h8, if_false] at h
                    push_neg at h8
                    right
                    refine ⟨cS, ?_, ⟨h1, hc, ?_⟩⟩
                    · cases h; rfl
                    · refine ⟨sPF, sMapS, sS, extS, trioS, h2, h3, h4, h5,
                        List.mem_of_find?_eq_some h6, ?_, ?_, h8.2⟩
                      · have := List.find?_some h6
                        simpa using this
                      · rw [h8.1]; exact h7

theorem checkTrios_ok (g : Geometry) (i : Nat) (sMap : IdxMap) (l : List TriType)
    (acc r : Bool × List Nat) (h : checkTrios g i sMap l acc = Except.ok r) :
    ∀ t ∈ l, ∃ o, checkTrio g i sMap t = Except.ok o := by
  induction l generalizing acc with
  | nil => intro t ht; cases ht
  | cons a l ih =>
    obtain ⟨d, nbrs⟩ := acc
    intro t ht
    unfold checkTrios at h
    cases ha : checkTrio g i sMap a with
    | error e => simp [ha] at h
    | ok o =>
      rcases List.mem_cons.1 ht with rfl | ht
      · exact ⟨o, ha⟩
      · cases o with
        | none => simp only [ha] at h; exact ih _ h t ht
        | some c => simp only [ha] at h; exact ih _ h t ht

theorem checkCells_ok (g : Geometry) (n i : Nat) (r : List (List Nat) × List Nat)
    (h : checkCells g i n = Except.ok r) :
    ∀ k, k < n → ∃ r', checkCell g (i + k) = Except.ok r' := by
  induction n generalizing i r with
  | zero => intro k hk; omega
  | succ n ih =>
    intro k hk
    unfold checkCells at h
    cases hc : checkCell g i with
    | error e => simp [hc] at h
    | ok p =>
      obtain ⟨d, nbrs⟩ := p
      simp only [hc] at h
      cases hr : checkCells g (i + 1) n with
      | error e => simp [hr] at h
      | ok q =>
        cases k with
        | zero => exact ⟨_, hc⟩
        | succ k =>
          have := ih (i + 1) q hr k (by omega)
          rw [show i + (k + 1) = i + 1 + k by omega]
          exact this

theorem validate_none_checkCells (fuel : Nat) (g : Geometry) (h : validate fuel g = none) :
    ∃ r, checkCells g 0 g.cellIdx = Except.ok r := by
  unfold validate at h
  cases hc : checkCells g 0 g.cellIdx with
  | error e => simp [hc] at h
  | ok r => exact ⟨r, rfl⟩

theorem checkCell_sMap (g : Geometry) (i : Nat) (r : Bool × List Nat)
    (h : checkCell g i = Except.ok r) :
    ∃ ext sMap, g.susoExtz[i]? = some ext ∧ g.sMaps[i]? = some sMap ∧
      checkTrios g i sMap ext (false, []) = Except.ok r := by
  unfold checkCell at h
  cases h1 : g.susoExtz[i]? with
  | none => simp [h1] at h
  | some ext =>
    cases h2 : g.sMaps[i]? with
    | none => simp [h1, h2] at h
    | some sMap =>
      simp only [h1, h2] at h
      exact ⟨ext, sMap, rfl, rfl, h⟩

theorem IdxMap.get_of_at (m : IdxMap) (k v : Nat) (h : m.at? k = some v) : m.get k = v := by
  simp [IdxMap.get, h]

/-- Claim C1.  If `Geometry::finalize`, with validation enabled, returns no error on
a geometry that has no row of `susoExtz` beyond the registered cells, then in the
finalized geometry every entry `(s, c', o)` of a cell `c` with `c' ≠ c` has its
reciprocal: cell `c'` exists and holds an entry whose trio is exactly
`(o, c, s)`. -/
theorem finalize_reciprocal (fuel : Nat) (g g' : Geometry)
    (hv : g.vFlg = true) (hsz : g.susoExtz.length ≤ g.cellIdx)
    (h : finalize fuel g = (none, g')) :
    ∀ (c : Nat) (susoExts : List TriType), g'.susoExtz[c]? = some susoExts →
      ∀ t ∈ susoExts, t.cIdx ≠ c →
        ∃ susoExtsS, g'.susoExtz[t.cIdx]? = some susoExtsS ∧
          (⟨t.oIdx, c, t.sIdx⟩ : TriType) ∈ susoExtsS := by
  unfold finalize at h
  simp only [hv, if_true] at h
  cases hval : validate fuel g with
  | some e => simp [hval] at h
  | none =>
    simp only [hval, Prod.mk.injEq, true_and] at h
    subst h
    obtain ⟨r, hr⟩ := validate_none_checkCells fuel g hval
    intro c susoExts hc t ht hne
    simp only [constructSusoMaps, shrink, patchUp, List.getElem?_map] at hc ⊢
    cases hgc : g.susoExtz[c]? with
    | none => simp [hgc] at hc
    | some ext =>
      simp only [hgc, Option.map_some', Option.some.injEq] at hc
      subst hc
      obtain ⟨tP, htP, rfl⟩ := List.mem_map.1 ht
      have hclt : c < g.cellIdx := by
        have := (List.getElem?_eq_some.1 hgc).1
        omega
      obtain ⟨r', hr'⟩ := checkCells_ok g g.cellIdx 0 r hr c hclt
      rw [Nat.zero_add] at hr'
      obtain ⟨ext', sMap, he, hs, hts⟩ := checkCell_sMap g c r' hr'
      rw [hgc] at he
      cases he
      obtain ⟨o, ho⟩ := checkTrios_ok g c sMap ext _ _ hts tP htP
      rcases checkTrio_ok g c sMap tP o ho with ⟨-, hexit⟩ | ⟨cS, -, hchk⟩
      · exfalso
        apply hne
        simp [patchTrio, IdxMap.get, hexit]
      · obtain ⟨sPF, sMapS, sS, extS, trioS, h2, h3, h4, h5, hmem, h6, h7, h8⟩ := hchk.dual
        have e1 : (patchTrio g tP).cIdx = cS := by
          simp [patchTrio, IdxMap.get, hchk.cmap]
        have e2 : (patchTrio g tP).oIdx = sS := by
          simp [patchTrio, IdxMap.get, hchk.cmap, h3, h4]
        have e3 : (patchTrio g tP).sIdx = tP.sIdx := rfl
        rw [e1, e2, e3]
        refine ⟨extS.map (patchTrio g), by simp [h5], ?_⟩
        refine List.mem_map.2 ⟨trioS, hmem, ?_⟩
        have hk := IdxMap.at_keyOf sMap _ _ h2
        simp [patchTrio, IdxMap.get, h7, hs, h8, hk, h6]

/-- Witness for C1 on `geoPair`: the interface entry `(2, 1, 3)` of cell 0 has its
reciprocal `(3, 0, 2)` in cell 1. -/
theorem finalize_reciprocal_witness :
    ∃ susoExtsS, (finalize 8 geoPair).2.susoExtz[1]? = some susoExtsS ∧
      (⟨3, 0, 2⟩ : TriType) ∈ susoExtsS :=
  finalize_reciprocal 8 geoPair (finalize 8 geoPair).2 rfl (by decide)
    (Prod.ext (by decide) rfl)
    0 [⟨2, 1, 3⟩, ⟨0, 0, 0⟩] (by decide) ⟨2, 1, 3⟩ (by decide) (by decide)

/-! ### The breadth-first search of `validate` -/


theorem pushNbrs_ok (mask : List Bool) (nbrs : List Nat) (h : ∀ v ∈ nbrs, v < mask.length) :
    ∃ l, pushNbrs mask nbrs = Except.ok l ∧
      ∀ v, v ∈ l ↔ (v ∈ nbrs ∧ mask[v]? = some false) := by
  induction nbrs with
  | nil => exact ⟨[], rfl, by simp⟩
  | cons a rest ih =>
    obtain ⟨l, hl, hm⟩ := ih (fun v hv => h v (List.mem_cons_of_mem _ hv))
    have ha : a < mask.length := h a (List.mem_cons_self _ _)
    have hget : mask[a]? = some mask[a] := List.getElem?_eq_getElem ha
    unfold pushNbrs
    simp only [hget, hl]
    cases hb : mask[a] with
    | true =>
      refine ⟨l, by simp, ?_⟩
      intro v
      rw [hm v]
      constructor
      · rintro ⟨h1, h2⟩; exact ⟨List.mem_cons_of_mem _ h1, h2⟩
      · rintro ⟨h1, h2⟩
        rcases List.mem_cons.1 h1 with rfl | h1
        · rw [hget, hb] at h2; cases h2
        · exact ⟨h1, h2⟩
    | false =>
      refine ⟨a :: l, by simp, ?_⟩
      intro v
      simp only [List.mem_cons, hm v]
      constructor
      · rintro (rfl | ⟨h1, h2⟩)
        · exact ⟨Or.inl rfl, by rw [hget, hb]⟩
        · exact ⟨Or.inr h1, h2⟩
      · rintro ⟨rfl | h1, h2⟩
        · exact Or.inl rfl
        · exact Or.inr ⟨h1, h2⟩

theorem getElem?_set_true (mask : List Bool) (u v : Nat) (hu : u < mask.length) :
    (mask.set u true)[v]? = some true ↔ (v = u ∨ mask[v]? = some true) := by
  rw [List.getElem?_set]
  by_cases h : u = v
  · subst h; simp [hu]
  · simp [h]; intro h'; exact absurd h'.symm h

theorem getElem?_set_false (mask : List Bool) (u v : Nat) :
    (mask.set u true)[v]? = some false ↔ (v ≠ u ∧ mask[v]? = some false) := by
  rw [List.getElem?_set]
  by_cases h : u = v
  · subst h
    by_cases hu : u < mask.length <;> simp [hu]
  · simp [h]; intro _ h'; exact h h'.symm

theorem BfsInv.step {nbrz : List (List Nat)} {n : Nat} {que0 : List Nat}
    {mask : List Bool} {isos que : List Nat} {u : Nat} {nbrs pushed : List Nat}
    (inv : BfsInv nbrz n que0 mask isos (u :: que))
    (hrow : nbrz[u]? = some nbrs) (hlt : ∀ v ∈ nbrs, v < n)
    (hp : ∀ v, v ∈ pushed ↔ (v ∈ nbrs ∧ (mask.set u true)[v]? = some false)) :
    BfsInv nbrz n que0 (mask.set u true) (isos.erase u) (que ++ pushed) := by
  have hu : u < mask.length := by
    rw [inv.len]; exact inv.que_lt u (List.mem_cons_self _ _)
  refine ⟨by rw [List.length_set]; exact inv.len, ?_, ?_, ?_, ?_, ?_, ?_, inv.isos_nodup.erase u⟩
  · intro v hv
    rcases List.mem_append.1 hv with hv | hv
    · exact inv.que_lt v (List.mem_cons_of_mem _ hv)
    · exact hlt v ((hp v).1 hv).1
  · intro v hv
    rcases List.mem_append.1 hv with hv | hv
    · exact inv.que_reach v (List.mem_cons_of_mem _ hv)
    · exact Closure.step u v (inv.que_reach u (List.mem_cons_self _ _)) ⟨nbrs, hrow, ((hp v).1 hv).1⟩
  · intro v hv
    rcases (getElem?_set_true mask u v hu).1 hv with rfl | hv
    · exact inv.que_reach _ (List.mem_cons_self _ _)
    · exact inv.mask_reach v hv
  · intro v hv
    rcases inv.init v hv with h | h
    · exact Or.inl ((getElem?_set_true mask u v hu).2 (Or.inr h))
    · rcases List.mem_cons.1 h with rfl | h
      · exact Or.inl ((getElem?_set_true mask _ _ hu).2 (Or.inl rfl))
      · exact Or.inr (List.mem_append_left _ h)
  · intro a b ha hab
    have old : mask[b]? = some true ∨ b ∈ u :: que →
        (mask.set u true)[b]? = some true ∨ b ∈ que ++ pushed := by
      rintro (h | h)
      · exact Or.inl ((getElem?_set_true mask u b hu).2 (Or.inr h))
      · rcases List.mem_cons.1 h with rfl | h
        · exact Or.inl ((getElem?_set_true mask _ _ hu).2 (Or.inl rfl))
        · exact Or.inr (List.mem_append_left _ h)
    rcases (getElem?_set_true mask u a hu).1 ha with rfl | ha
    · obtain ⟨nbrs', hrow', hb⟩ := hab
      rw [hrow] at hrow'
      cases hrow'
      have hbn : b < (mask.set a true).length := by
        rw [List.length_set, inv.len]; exact hlt b hb
      have hget : (mask.set a true)[b]? = some (mask.set a true)[b] :=
        List.getElem?_eq_getElem hbn
      cases hval : (mask.set a true)[b] with
      | true => left; rw [hget, hval]
      | false =>
        right
        exact List.mem_append_right _ ((hp b).2 ⟨hb, by rw [hget, hval]⟩)
    · exact old (inv.closed a b ha hab)
  · intro v
    rw [inv.isos_nodup.mem_erase_iff, inv.isos_mem v, getElem?_set_false]
    tauto

theorem BfsInv.final {nbrz : List (List Nat)} {n : Nat} {que0 : List Nat}
    {mask : List Bool} {isos : List Nat}
    (inv : BfsInv nbrz n que0 mask isos []) :
    ∀ v, v ∈ isos ↔ (v < n ∧ ¬ Closure nbrz que0 v) := by
  have hcl : ∀ v, Closure nbrz que0 v → mask[v]? = some true := by
    intro v hv
    induction hv with
    | base v hv =>
      rcases inv.init v hv with h | h
      · exact h
      · cases h
    | step u v _ huv ih =>
      rcases inv.closed u v ih huv with h | h
      · exact h
      · cases h
  intro v
  rw [inv.isos_mem v]
  constructor
  · rintro ⟨h1, h2⟩
    refine ⟨h1, fun hc => ?_⟩
    rw [hcl v hc] at h2
    cases h2
  · rintro ⟨h1, h2⟩
    refine ⟨h1, ?_⟩
    have hlt : v < mask.length := by rw [inv.len]; exact h1
    have hget : mask[v]? = some mask[v] := List.getElem?_eq_getElem hlt
    cases hval : mask[v] with
    | false => rw [hget, hval]
    | true => exact absurd (inv.mask_reach v (by rw [hget, hval])) h2

theorem bfs_result (nbrz : List (List Nat)) (n : Nat) (que0 : List Nat)
    (hrows : ∀ (u : Nat) (nbrs : List Nat), nbrz[u]? = some nbrs → ∀ v ∈ nbrs, v < n)
    (fuel : Nat) (mask : List Bool) (isos que r : List Nat)
    (inv : BfsInv nbrz n que0 mask isos que)
    (h : bfs nbrz fuel mask isos que = Except.ok r) :
    ∀ v, v ∈ r ↔ (v < n ∧ ¬ Closure nbrz que0 v) := by
  induction fuel generalizing mask isos que with
  | zero =>
    cases que with
    | nil =>
      simp only [bfs, Except.ok.injEq] at h
      subst h
      exact inv.final
    | cons u que => simp [bfs] at h
  | succ fuel ih =>
    cases que with
    | nil =>
      simp only [bfs, Except.ok.injEq] at h
      subst h
      exact inv.final
    | cons u que =>
      have hu : u < mask.length := by
        rw [inv.len]; exact inv.que_lt u (List.mem_cons_self _ _)
      simp only [bfs, hu, if_true] at h
      cases hrow : nbrz[u]? with
      | none => simp [hrow] at h
      | some nbrs =>
        simp only [hrow] at h
        have hlt := hrows u nbrs hrow
        obtain ⟨pushed, hpush, hp⟩ := pushNbrs_ok (mask.set u true) nbrs
          (by intro v hv; rw [List.length_set, inv.len]; exact hlt v hv)
        simp only [hpush] at h
        exact ih _ _ _ (inv.step hrow hlt hp) h

theorem count_false_set (mask : List Bool) (u : Nat) (hu : u < mask.length)
    (hf : mask[u]? = some false) :
    (mask.set u true).count false + 1 = mask.count false := by
  induction mask generalizing u with
  | nil => simp at hu
  | cons b mask ih =>
    cases u with
    | zero =>
      simp at hf
      subst hf
      simp
    | succ u =>
      simp only [List.set_cons_succ, List.count_cons]
      have := ih u (by simpa using hu) (by simpa using hf)
      omega

theorem set_true_of_true (mask : List Bool) (u : Nat) (hf : mask[u]? = some true) :
    mask.set u true = mask := by
  induction mask generalizing u with
  | nil => simp
  | cons b mask ih =>
    cases u with
    | zero => simp at hf; subst hf; rfl
    | succ u =>
      simp only [List.set_cons_succ]
      rw [ih u (by simpa using hf)]

theorem bfs_terminates (nbrz : List (List Nat)) (n : Nat)
    (hlen : nbrz.length = n)
    (hrows : ∀ (u : Nat) (nbrs : List Nat), nbrz[u]? = some nbrs → ∀ v ∈ nbrs, v < n) :
    ∀ (U : Nat) (mask : List Bool), mask.count false = U → mask.length = n →
      ∀ (M : Nat) (que : List Nat), maskedIn mask que = M → (∀ v ∈ que, v < n) →
        ∃ N, ∀ fuel, N ≤ fuel → ∀ isos, ∃ r, bfs nbrz fuel mask isos que = Except.ok r := by
  intro U
  induction U using Nat.strong_induction_on with
  | _ U ihU =>
    intro mask hU hmask M
    induction M with
    | zero =>
      intro que hM hq
      cases que with
      | nil => exact ⟨0, fun fuel _ isos => ⟨isos, by cases fuel <;> rfl⟩⟩
      | cons u que =>
        have hu : u < mask.length := by rw [hmask]; exact hq u (List.mem_cons_self _ _)
        have hget : mask[u]? = some mask[u] := List.getElem?_eq_getElem hu
        have hfalse : mask[u]? = some false := by
          cases hval : mask[u] with
          | false => rw [hget, hval]
          | true =>
            exfalso
            simp [maskedIn, List.countP_cons, hget, hval] at hM
        obtain ⟨nbrs, hrow⟩ : ∃ nbrs, nbrz[u]? = some nbrs :=
          ⟨nbrz[u], List.getElem?_eq_getElem (by rw [hlen, ← hmask]; exact hu)⟩
        have hlt := hrows u nbrs hrow
        obtain ⟨pushed, hpush, hp⟩ := pushNbrs_ok (mask.set u true) nbrs
          (by intro v hv; rw [List.length_set, hmask]; exact hlt v hv)
        have hcnt := count_false_set mask u hu hfalse
        obtain ⟨N, hN⟩ := ihU ((mask.set u true).count false) (by omega) (mask.set u true) rfl
          (by rw [List.length_set]; exact hmask) _ (que ++ pushed) rfl
          (by
            intro v hv
            rcases List.mem_append.1 hv with hv | hv
            · exact hq v (List.mem_cons_of_mem _ hv)
            · exact hlt v ((hp v).1 hv).1)
        refine ⟨N + 1, fun fuel hfuel isos => ?_⟩
        obtain ⟨f, rfl⟩ : ∃ f, fuel = f + 1 := ⟨fuel - 1, by omega⟩
        simp only [bfs, hu, if_true, hrow, hpush]
        exact hN f (by omega) _
    | succ M ihM =>
      intro que hM hq
      cases que with
      | nil => exact ⟨0, fun fuel _ isos => ⟨isos, by cases fuel <;> rfl⟩⟩
      | cons u que =>
        have hu : u < mask.length := by rw [hmask]; exact hq u (List.mem_cons_self _ _)
        have hget : mask[u]? = some mask[u] := List.getElem?_eq_getElem hu
        obtain ⟨nbrs, hrow⟩ : ∃ nbrs, nbrz[u]? = some nbrs :=
          ⟨nbrz[u], List.getElem?_eq_getElem (by rw [hlen, ← hmask]; exact hu)⟩
        have hlt := hrows u nbrs hrow
        obtain ⟨pushed, hpush, hp⟩ := pushNbrs_ok (mask.set u true) nbrs
          (by intro v hv; rw [List.length_set, hmask]; exact hlt v hv)
        have hq' : ∀ v ∈ que ++ pushed, v < n := by
          intro v hv
          rcases List.mem_append.1 hv with hv | hv
          · exact hq v (List.mem_cons_of_mem _ hv)
          · exact hlt v ((hp v).1 hv).1
        cases hval : mask[u] with
        | false =>
          have hfalse : mask[u]? = some false := by rw [hget, hval]
          have hcnt := count_false_set mask u hu hfalse
          obtain ⟨N, hN⟩ := ihU ((mask.set u true).count false) (by omega) (mask.set u true) rfl
            (by rw [List.length_set]; exact hmask) _ (que ++ pushed) rfl hq'
          refine ⟨N + 1, fun fuel hfuel isos => ?_⟩
          obtain ⟨f, rfl⟩ : ∃ f, fuel = f + 1 := ⟨fuel - 1, by omega⟩
          simp only [bfs, hu, if_true, hrow, hpush]
          exact hN f (by omega) _
        | true =>
          have htrue : mask[u]? = some true := by rw [hget, hval]
          have hset := set_true_of_true mask u htrue
          rw [hset] at hpush hp
          have hM' : maskedIn mask (que ++ pushed) = M := by
            have h1 : maskedIn mask (u :: que) = maskedIn mask que + 1 := by
              simp [maskedIn, List.countP_cons, htrue]
            have h2 : maskedIn mask pushed = 0 := by
              simp only [maskedIn, List.countP_eq_zero]
              intro v hv
              rw [((hp v).1 hv).2]
              simp
            have h3 : maskedIn mask (que ++ pushed) = maskedIn mask que + maskedIn mask pushed := by
              simp [maskedIn, List.countP_append]
            omega
          obtain ⟨N, hN⟩ := ihM (que ++ pushed) hM' hq'
          refine ⟨N + 1, fun fuel hfuel isos => ?_⟩
          obtain ⟨f, rfl⟩ : ∃ f, fuel = f + 1 := ⟨fuel - 1, by omega⟩
          simp only [bfs, hu, if_true, hrow, hset, hpush]
          exact hN f (by omega) _

theorem checkTrios_spec (g : Geometry) (i : Nat) (sMap : IdxMap) (l : List TriType)
    (d0 : Bool) (n0 : List Nat) (d : Bool) (nb : List Nat)
    (h : checkTrios g i sMap l (d0, n0) = Except.ok (d, nb)) :
    (d = true ↔ (d0 = true ∨ ∃ t ∈ l, g.cMap.at? t.cIdx = some i)) ∧
    (∀ k, k ∈ nb ↔ (k ∈ n0 ∨ ∃ t ∈ l, g.cMap.at? t.cIdx = some k ∧ k ≠ i)) ∧
    (∀ k ∈ nb, k ∈ n0 ∨ k < g.susoExtz.length) := by
  induction l generalizing d0 n0 with
  | nil =>
    simp only [checkTrios, Except.ok.injEq, Prod.mk.injEq] at h
    obtain ⟨rfl, rfl⟩ := h
    exact ⟨by simp, by simp, fun k hk => Or.inl hk⟩
  | cons a l ih =>
    unfold checkTrios at h
    cases ha : checkTrio g i sMap a with
    | error e => simp [ha] at h
    | ok o =>
      rcases checkTrio_ok g i sMap a o ha with ⟨rfl, hexit⟩ | ⟨cS, rfl, hchk⟩
      · simp only [ha] at h
        obtain ⟨h1, h2, h3⟩ := ih _ _ h
        refine ⟨?_, ?_, h3⟩
        · rw [h1]
          constructor
          · intro _; exact Or.inr ⟨a, List.mem_cons_self _ _, hexit⟩
          · intro _; exact Or.inl rfl
        · intro k
          rw [h2 k]
          constructor
          · rintro (hk | ⟨t, ht, hk⟩)
            · exact Or.inl hk
            · exact Or.inr ⟨t, List.mem_cons_of_mem _ ht, hk⟩
          · rintro (hk | ⟨t, ht, hk⟩)
            · exact Or.inl hk
            · rcases List.mem_cons.1 ht with rfl | ht
              · rw [hexit] at hk
                exact absurd (Option.some.inj hk.1).symm hk.2
              · exact Or.inr ⟨t, ht, hk⟩
      · simp only [ha] at h
        obtain ⟨h1, h2, h3⟩ := ih _ _ h
        have hmem : ∀ k, k ∈ (if cS ∈ n0 then n0 else n0 ++ [cS]) ↔ (k ∈ n0 ∨ k = cS) := by
          intro k
          by_cases hc : cS ∈ n0
          · simp only [hc, if_true]
            constructor
            · exact Or.inl
            · rintro (hk | rfl)
              · exact hk
              · exact hc
          · simp [hc]
        have hlt : cS < g.susoExtz.length := by
          obtain ⟨_, _, _, extS, _, _, _, _, h5, _⟩ := hchk.dual
          exact (List.getElem?_eq_some.1 h5).1
        refine ⟨?_, ?_, ?_⟩
        · rw [h1]
          constructor
          · rintro (hd | ⟨t, ht, hk⟩)
            · exact Or.inl hd
            · exact Or.inr ⟨t, List.mem_cons_of_mem _ ht, hk⟩
          · rintro (hd | ⟨t, ht, hk⟩)
            · exact Or.inl hd
            · rcases List.mem_cons.1 ht with rfl | ht
              · rw [hchk.cmap] at hk
                exact absurd (Option.some.inj hk) hchk.ne
              · exact Or.inr ⟨t, ht, hk⟩
        · intro k
          rw [h2 k, hmem k]
          constructor
          · rintro ((hk | rfl) | ⟨t, ht, hk⟩)
            · exact Or.inl hk
            · exact Or.inr ⟨a, List.mem_cons_self _ _, hchk.cmap, hchk.ne⟩
            · exact Or.inr ⟨t, List.mem_cons_of_mem _ ht, hk⟩
          · rintro (hk | ⟨t, ht, hk⟩)
            · exact Or.inl (Or.inl hk)
            · rcases List.mem_cons.1 ht with rfl | ht
              · rw [hchk.cmap] at hk
                exact Or.inl (Or.inr (Option.some.inj hk.1).symm)
              · exact Or.inr ⟨t, ht, hk⟩
        · intro k hk
          rcases h3 k hk with hk | hk
          · rcases (hmem k).1 hk with hk | rfl
            · exact Or.inl hk
            · exact Or.inr hlt
          · exact Or.inr hk

theorem checkCell_spec (g : Geometry) (i : Nat) (d : Bool) (nb : List Nat)
    (h : checkCell g i = Except.ok (d, nb)) :
    (d = true ↔ OwnsExit g i) ∧ (∀ k, k ∈ nb ↔ CellNbr g i k) ∧
    (∀ k ∈ nb, k < g.susoExtz.length) := by
  obtain ⟨ext, sMap, he, hs, hts⟩ := checkCell_sMap g i _ h
  obtain ⟨h1, h2, h3⟩ := checkTrios_spec g i sMap ext _ _ _ _ hts
  refine ⟨?_, ?_, ?_⟩
  · rw [h1]
    constructor
    · rintro (hd | ⟨t, ht, hk⟩)
      · cases hd
      · exact ⟨ext, t, he, ht, hk⟩
    · rintro ⟨ext', t, he', ht, hk⟩
      rw [he] at he'; cases he'
      exact Or.inr ⟨t, ht, hk⟩
  · intro k
    rw [h2 k]
    constructor
    · rintro (hd | ⟨t, ht, hk⟩)
      · cases hd
      · exact ⟨ext, t, he, ht, hk.1, hk.2⟩
    · rintro ⟨ext', t, he', ht, hk⟩
      rw [he] at he'; cases he'
      exact Or.inr ⟨t, ht, hk⟩
  · intro k hk
    rcases h3 k hk with hk | hk
    · cases hk
    · exact hk

theorem checkCells_spec (g : Geometry) (n i : Nat) (nbrz : List (List Nat)) (que : List Nat)
    (h : checkCells g i n = Except.ok (nbrz, que)) :
    nbrz.length = n ∧
    (∀ j, j < n → ∃ nbrs, nbrz[j]? = some nbrs ∧ (∀ k, k ∈ nbrs ↔ CellNbr g (i + j) k) ∧
      ∀ k ∈ nbrs, k < g.susoExtz.length) ∧
    (∀ v, v ∈ que ↔ (i ≤ v ∧ v < i + n ∧ OwnsExit g v)) := by
  induction n generalizing i nbrz que with
  | zero =>
    simp only [checkCells, Except.ok.injEq, Prod.mk.injEq] at h
    obtain ⟨rfl, rfl⟩ := h
    refine ⟨rfl, fun j hj => by omega, fun v => ?_⟩
    simp only [List.not_mem_nil, false_iff]
    rintro ⟨h1, h2, _⟩
    omega
  | succ n ih =>
    unfold checkCells at h
    cases hc : checkCell g i with
    | error e => simp [hc] at h
    | ok p =>
      obtain ⟨d, nbrs⟩ := p
      simp only [hc] at h
      cases hr : checkCells g (i + 1) n with
      | error e => simp [hr] at h
      | ok q =>
        obtain ⟨nbrz', que'⟩ := q
        simp only [hr, Except.ok.injEq, Prod.mk.injEq] at h
        obtain ⟨rfl, rfl⟩ := h
        obtain ⟨l1, l2, l3⟩ := ih _ _ _ hr
        obtain ⟨c1, c2, c3⟩ := checkCell_spec g i d nbrs hc
        refine ⟨by simp [l1], ?_, ?_⟩
        · intro j hj
          cases j with
          | zero => exact ⟨nbrs, by simp, c2, c3⟩
          | succ j =>
            obtain ⟨nb, e1, e2, e3⟩ := l2 j (by omega)
            refine ⟨nb, by simpa using e1, ?_, e3⟩
            intro k
            rw [e2 k, show i + 1 + j = i + (j + 1) by omega]
        · intro v
          by_cases hd : d = true
          · simp only [hd, if_true, List.mem_cons, l3 v]
            constructor
            · rintro (rfl | ⟨h1, h2, h3⟩)
              · exact ⟨le_refl _, by omega, c1.1 hd⟩
              · exact ⟨by omega, by omega, h3⟩
            · rintro ⟨h1, h2, h3⟩
              by_cases hv : v = i
              · exact Or.inl hv
              · exact Or.inr ⟨by omega, by omega, h3⟩
          · have hd' : d = false := by cases d <;> simp_all
            subst hd'
            simp only [Bool.false_eq_true, if_false, l3 v]
            constructor
            · rintro ⟨h1, h2, h3⟩
              exact ⟨by omega, by omega, h3⟩
            · rintro ⟨h1, h2, h3⟩
              by_cases hv : v = i
              · subst hv
                exact absurd (c1.2 h3) hd
              · exact ⟨by omega, by omega, h3⟩

theorem isoNames_spec (g : Geometry) (l : List Nat)
    (h : ∀ c ∈ l, ∃ m, g.cMapR.at? c = some m) :
    ∃ names, isoNames g l = some names ∧
      ∀ m, m ∈ names ↔ ∃ c ∈ l, g.cMapR.at? c = some m := by
  induction l with
  | nil => exact ⟨[], rfl, by simp⟩
  | cons a l ih =>
    obtain ⟨names, hn, hm⟩ := ih (fun c hc => h c (List.mem_cons_of_mem _ hc))
    obtain ⟨ma, hma⟩ := h a (List.mem_cons_self _ _)
    refine ⟨ma :: names, by simp [isoNames, hma, hn], ?_⟩
    intro m
    simp only [List.mem_cons, hm m]
    constructor
    · rintro (rfl | ⟨c, hc, hcm⟩)
      · exact ⟨a, Or.inl rfl, hma⟩
      · exact ⟨c, Or.inr hc, hcm⟩
    · rintro ⟨c, rfl | hc, hcm⟩
      · rw [hma] at hcm
        exact Or.inl (Option.some.inj hcm).symm
      · exact Or.inr ⟨c, hc, hcm⟩

theorem bfsInv_init (nbrz : List (List Nat)) (n : Nat) (que : List Nat)
    (hq : ∀ v ∈ que, v < n) :
    BfsInv nbrz n que (List.replicate n false) (List.range n) que := by
  refine ⟨by simp, hq, fun v hv => Closure.base v hv, ?_, fun v hv => Or.inr hv, ?_, ?_,
    List.nodup_range n⟩
  · intro v hv
    rw [List.getElem?_replicate] at hv
    split at hv <;> simp at hv
  · intro u v hu
    rw [List.getElem?_replicate] at hu
    split at hu <;> simp at hu
  · intro v
    rw [List.mem_range, List.getElem?_replicate]
    by_cases hv : v < n <;> simp [hv]

theorem closure_iff_reached (g : Geometry) (nbrz : List (List Nat)) (que : List Nat)
    (hsz : g.susoExtz.length ≤ g.cellIdx)
    (hchk : checkCells g 0 g.cellIdx = Except.ok (nbrz, que)) (v : Nat) :
    Closure nbrz que v ↔ ReachedFromExit g v := by
  obtain ⟨l1, l2, l3⟩ := checkCells_spec g _ _ _ _ hchk
  constructor
  · intro h
    induction h with
    | base v hv =>
      obtain ⟨_, h2, h3⟩ := (l3 v).1 hv
      exact ReachedFromExit.exit v (by omega) h3
    | step u v _ huv ih =>
      obtain ⟨nbrs, hrow, hv⟩ := huv
      have hu : u < g.cellIdx := by
        rw [← l1]; exact (List.getElem?_eq_some.1 hrow).1
      obtain ⟨nbrs', hrow', e2, _⟩ := l2 u hu
      rw [hrow] at hrow'; cases hrow'
      rw [Nat.zero_add] at e2
      exact ReachedFromExit.step u v ih ((e2 v).1 hv)
  · intro h
    have key : ∀ w, ReachedFromExit g w → Closure nbrz que w ∧ w < g.cellIdx := by
      intro w hw
      induction hw with
      | exit i hi hex =>
        exact ⟨Closure.base i ((l3 i).2 ⟨Nat.zero_le _, by omega, hex⟩), hi⟩
      | step i k _ hik ih =>
        obtain ⟨nbrs, hrow, e2, e3⟩ := l2 i ih.2
        rw [Nat.zero_add] at e2
        have hk := (e2 k).2 hik
        exact ⟨Closure.step i k ih.1 ⟨nbrs, hrow, hk⟩, lt_of_lt_of_le (e3 k hk) hsz⟩
    exact (key v h).1

/-- Claim C2.  On a geometry whose per-interface checks all pass (`checkCells`
succeeds), with no row of `susoExtz` beyond the registered cells and a nominal
index recorded in `cMapR` for every registered cell, `Geometry::validate` (given
enough iterations for its search loop) returns the "no route to an exit" error
if and only if some registered cell is not reached, over the cell-neighbour
graph induced by the interface trios, from a cell that owns an exit edge; the
cells named in the message are exactly the nominal indices of the unreached
cells; and when every cell is reached the function returns no error. -/
theorem validate_noRoute_iff (g : Geometry)
    (hsz : g.susoExtz.length ≤ g.cellIdx)
    (hR : ∀ c, c < g.cellIdx → ∃ m, g.cMapR.at? c = some m)
    (hchk : ∃ r, checkCells g 0 g.cellIdx = Except.ok r) :
    ∃ N, ∀ fuel, N ≤ fuel →
      ((∃ names, validate fuel g = some (VError.noRoute names)) ↔
        ∃ c, c < g.cellIdx ∧ ¬ ReachedFromExit g c) ∧
      (∀ names, validate fuel g = some (VError.noRoute names) →
        ∀ m, m ∈ names ↔
          ∃ c, c < g.cellIdx ∧ ¬ ReachedFromExit g c ∧ g.cMapR.at? c = some m) ∧
      ((∀ c, c < g.cellIdx → ReachedFromExit g c) → validate fuel g = none) := by
  obtain ⟨⟨nbrz, que⟩, hchk⟩ := hchk
  obtain ⟨l1, l2, l3⟩ := checkCells_spec g _ _ _ _ hchk
  have hrows : ∀ (u : Nat) (nbrs : List Nat), nbrz[u]? = some nbrs →
      ∀ v ∈ nbrs, v < g.cellIdx := by
    intro u nbrs hrow v hv
    have hu : u < g.cellIdx := by
      rw [← l1]; exact (List.getElem?_eq_some.1 hrow).1
    obtain ⟨nbrs', hrow', _, e3⟩ := l2 u hu
    rw [hrow] at hrow'; cases hrow'
    exact lt_of_lt_of_le (e3 v hv) hsz
  have hq : ∀ v ∈ que, v < g.cellIdx := by
    intro v hv
    have := ((l3 v).1 hv).2.1
    omega
  obtain ⟨N, hN⟩ := bfs_terminates nbrz g.cellIdx l1 hrows _ (List.replicate g.cellIdx false)
    rfl (by simp) _ que rfl hq
  refine ⟨N, fun fuel hfuel => ?_⟩
  obtain ⟨r, hr⟩ := hN fuel hfuel (List.range g.cellIdx)
  have hres := bfs_result nbrz g.cellIdx que hrows fuel _ _ _ r
    (bfsInv_init nbrz g.cellIdx que hq) hr
  have hres' : ∀ v, v ∈ r ↔ (v < g.cellIdx ∧ ¬ ReachedFromExit g v) := by
    intro v
    rw [hres v, closure_iff_reached g nbrz que hsz hchk v]
  cases r with
  | nil =>
    have hval : validate fuel g = none := by
      simp [validate, hchk, hr]
    have hall : ∀ c, c < g.cellIdx → ReachedFromExit g c := by
      intro c hc
      by_contra hn
      have := (hres' c).2 ⟨hc, hn⟩
      cases this
    refine ⟨?_, ?_, fun _ => hval⟩
    · rw [hval]
      constructor
      · rintro ⟨names, hn⟩; cases hn
      · rintro ⟨c, hc, hn⟩; exact absurd (hall c hc) hn
    · intro names hn
      rw [hval] at hn; cases hn
  | cons iso isos =>
    obtain ⟨names, hnames, hmem⟩ := isoNames_spec g (iso :: isos)
      (fun c hc => hR c ((hres' c).1 hc).1)
    have hval : validate fuel g = some (VError.noRoute names) := by
      simp [validate, hchk, hr, hnames]
    have hex : ∃ c, c < g.cellIdx ∧ ¬ ReachedFromExit g c :=
      ⟨iso, (hres' iso).1 (List.mem_cons_self _ _)⟩
    refine ⟨?_, ?_, ?_⟩
    · exact ⟨fun _ => hex, fun _ => ⟨names, hval⟩⟩
    · intro names' hn m
      rw [hval] at hn
      cases hn
      rw [hmem m]
      constructor
      · rintro ⟨c, hc, hcm⟩
        exact ⟨c, ((hres' c).1 hc).1, ((hres' c).1 hc).2, hcm⟩
      · rintro ⟨c, hc, hn, hcm⟩
        exact ⟨c, (hres' c).2 ⟨hc, hn⟩, hcm⟩
    · intro hall
      obtain ⟨c, hc, hn⟩ := hex
      exact absurd (hall c hc) hn

/-- Witness for C2 on `geoLone`, where cell 1 (nominal index 20) has no subsolid
line at all. -/
theorem validate_noRoute_iff_witness :
    geoLone.susoExtz.length ≤ geoLone.cellIdx ∧
    (∃ N, ∀ fuel, N ≤ fuel →
      ((∃ names, validate fuel geoLone = some (VError.noRoute names)) ↔
        ∃ c, c < geoLone.cellIdx ∧ ¬ ReachedFromExit geoLone c) ∧
      (∀ names, validate fuel geoLone = some (VError.noRoute names) →
        ∀ m, m ∈ names ↔
          ∃ c, c < geoLone.cellIdx ∧ ¬ ReachedFromExit geoLone c ∧
            geoLone.cMapR.at? c = some m) ∧
      ((∀ c, c < geoLone.cellIdx → ReachedFromExit geoLone c) →
        validate fuel geoLone = none)) :=
  ⟨by decide,
    validate_noRoute_iff geoLone (by decide)
      (by
        intro c hc
        have h2 : c < 2 := hc
        interval_cases c
        · exact ⟨10, rfl⟩
        · exact ⟨20, rfl⟩)
      ⟨([[], []], [0]), rfl⟩⟩

/-- The run of `validate` on `geoLone`: the unreachable cell is reported under its
nominal index 20. -/
theorem validate_geoLone : validate 4 geoLone = some (VError.noRoute [20]) := by
  decide

/-- The run of `validate` on `geoPair`: no error. -/
theorem validate_geoPair : validate 8 geoPair = none := by
  decide

/-! ### Correctness of the lazy Dijkstra -/


theorem pqTop_none {D : Type} [LinearOrderedAddCommMonoidWithTop D] (q : List (D × Nat)) : pqTop q = none ↔ q = [] := by
  cases q with
  | nil => simp [pqTop]
  | cons x rest =>
    simp only [pqTop]
    cases pqTop rest with
    | none => simp
    | some y => by_cases h : pairLt y x = true <;> simp [h]

theorem pqTop_some {D : Type} [LinearOrderedAddCommMonoidWithTop D] (q : List (D × Nat)) (t : D × Nat) (h : pqTop q = some t) :
    t ∈ q ∧ ∀ e ∈ q, t.1 ≤ e.1 := by
  induction q generalizing t with
  | nil => simp [pqTop] at h
  | cons x rest ih =>
    simp only [pqTop] at h
    cases hr : pqTop rest with
    | none =>
      rw [hr] at h
      simp only [Option.some.injEq] at h
      subst h
      have : rest = [] := (pqTop_none rest).1 hr
      subst this
      simp
    | some y =>
      rw [hr] at h
      dsimp only at h
      obtain ⟨hy, hmin⟩ := ih y hr
      by_cases hlt : pairLt y x = true
      · rw [if_pos hlt] at h
        simp only [Option.some.injEq] at h
        subst h
        refine ⟨List.mem_cons_of_mem _ hy, ?_⟩
        intro e he
        rcases List.mem_cons.1 he with rfl | he
        · simp only [pairLt, Bool.or_eq_true, decide_eq_true_eq, Bool.and_eq_true] at hlt
          rcases hlt with h1 | ⟨h1, _⟩
          · exact le_of_lt h1
          · exact le_of_eq h1
        · exact hmin e he
      · rw [if_neg hlt] at h
        simp only [Option.some.injEq] at h
        subst h
        refine ⟨List.mem_cons_self _ _, ?_⟩
        intro e he
        rcases List.mem_cons.1 he with rfl | he
        · exact le_refl _
        · have h2 := hmin e he
          simp only [pairLt, Bool.or_eq_true, decide_eq_true_eq, Bool.and_eq_true, not_or,
            not_and, not_lt] at hlt
          exact le_trans hlt.1 h2

theorem maskCost_set {D : Type} (g : GraphType D) (m : List Bool) (u : Nat) (row : List (Nat × D))
    (hm : m[u]? = some false) (hg : g[u]? = some row) :
    (List.zipWith (fun (b : Bool) (row : List (Nat × D)) =>
        if b then 0 else 1 + row.length) (m.set u true) g).sum + (1 + row.length) =
    (List.zipWith (fun (b : Bool) (row : List (Nat × D)) =>
        if b then 0 else 1 + row.length) m g).sum := by
  induction m generalizing g u with
  | nil => simp at hm
  | cons b m ih =>
    cases g with
    | nil => simp at hg
    | cons r g =>
      cases u with
      | zero =>
        simp at hm hg
        subst hm hg
        simp
        omega
      | succ u =>
        simp only [List.set_cons_succ, List.zipWith_cons_cons, List.sum_cons]
        have := ih g u (by simpa using hm) (by simpa using hg)
        omega

theorem maskCost_init {D : Type} (g : GraphType D) :
    (List.zipWith (fun (b : Bool) (row : List (Nat × D)) =>
        if b then 0 else 1 + row.length) (List.replicate g.length false) g).sum =
    (g.map fun row => 1 + row.length).sum := by
  induction g with
  | nil => simp
  | cons r g ih => simp [List.replicate_succ, ih]

theorem dOf_set {D : Type} [LinearOrderedAddCommMonoidWithTop D] (st : DState D) (v w : Nat) (x : D) (hv : v < st.d.length) :
    ({ st with d := st.d.set v x } : DState D).dOf w = if w = v then x else st.dOf w := by
  simp only [DState.dOf, List.getD_eq_getElem?_getD, List.getElem?_set]
  by_cases h : v = w
  · subst h; simp [hv]
  · simp [h, Ne.symm h]

theorem dOf_get {D : Type} [LinearOrderedAddCommMonoidWithTop D] (st : DState D) (v : Nat) (hv : v < st.d.length) :
    st.d[v]? = some (st.dOf v) := by
  simp [DState.dOf, List.getD_eq_getElem?_getD, List.getElem?_eq_getElem hv]

theorem dOf_mk_set {D : Type} [LinearOrderedAddCommMonoidWithTop D] (d : List D) (p : List Nat)
    (m : List Bool) (q : List (D × Nat)) (v w : Nat) (x : D) (hv : v < d.length) :
    (DState.mk (d.set v x) p m q).dOf w = if w = v then x else d.getD w ⊤ := by
  simp only [DState.dOf, List.getD_eq_getElem?_getD, List.getElem?_set]
  by_cases h : v = w
  · subst h; simp [hv]
  · simp [h, Ne.symm h]

theorem relax_inv {D : Type} [LinearOrderedAddCommMonoidWithTop D] (g : GraphType D) (s : Nat)
    (hwf : ∀ (u : Nat) (row : List (Nat × D)), g[u]? = some row → ∀ e ∈ row, e.1 < g.length)
    (hnn : ∀ (u : Nat) (row : List (Nat × D)), g[u]? = some row → ∀ e ∈ row, 0 ≤ e.2)
    (u : Nat) (hu : u < g.length) (row : List (Nat × D)) (hrow : g[u]? = some row) :
    ∀ (todo : List (Nat × D)) (st : DState D), (∀ e ∈ todo, e ∈ row) →
      DInv g s u todo st → st.m[u]? = some true →
      (∀ v, st.m[v]? = some true → st.dOf v ≤ st.dOf u) →
      ∃ st1, relax u todo st = some st1 ∧ DInv g s u [] st1 ∧ st1.m = st.m ∧
        st1.q.length ≤ st.q.length + todo.length := by
  intro todo
  induction todo with
  | nil =>
    intro st _ inv _ _
    exact ⟨st, rfl, inv, rfl, by simp⟩
  | cons e rest ih =>
    obtain ⟨v, w⟩ := e
    intro st hsub inv hmu hle
    have hvw : (v, w) ∈ row := hsub _ (List.mem_cons_self _ _)
    have hv : v < g.length := hwf u row hrow _ hvw
    have hw : 0 ≤ w := hnn u row hrow _ hvw
    have hud : u < st.d.length := by rw [inv.len_d]; exact hu
    have hvd : v < st.d.length := by rw [inv.len_d]; exact hv
    have hsub' : ∀ e ∈ rest, e ∈ row := fun e he => hsub e (List.mem_cons_of_mem _ he)
    simp only [relax, dOf_get st u hud, dOf_get st v hvd]
    by_cases hlt : st.dOf u + w < st.dOf v
    · rw [if_pos hlt]
      have hvm : st.m[v]? ≠ some true := by
        intro hm
        have h1 := hle v hm
        have h2 : st.dOf u ≤ st.dOf u + w := le_add_of_nonneg_right hw
        exact absurd (lt_of_lt_of_le hlt (le_trans h1 h2)) (lt_irrefl _)
      have hvu : v ≠ u := by
        intro h; subst h; exact hvm hmu
      have hdu : st.dOf u ≠ ⊤ := by
        intro h
        rw [h, top_add] at hlt
        exact absurd hlt (not_lt.2 le_top)
      have hnew : st.dOf u + w ≠ ⊤ := ne_top_of_lt hlt
      have hvs : v ≠ s := by
        intro h
        rw [h, inv.zero] at hlt
        exact absurd hlt (not_lt.2 (add_nonneg (inv.nonneg u) hw))
      -- the updated state
      have hdOf : ∀ x, (DState.mk (st.d.set v (st.dOf u + w)) (st.p.set v u) st.m
            (st.q ++ [(st.dOf u + w, v)])).dOf x =
          if x = v then st.dOf u + w else st.dOf x := by
        intro x
        exact dOf_mk_set st.d _ _ _ v x _ hvd
      have hdle : ∀ x, (DState.mk (st.d.set v (st.dOf u + w)) (st.p.set v u) st.m
            (st.q ++ [(st.dOf u + w, v)])).dOf x ≤ st.dOf x := by
        intro x
        rw [hdOf x]
        by_cases hx : x = v
        · subst hx; simp only [if_true]; exact le_of_lt hlt
        · simp only [hx, if_false]; exact le_refl _
      have hmask : ∀ x, st.m[x]? = some true →
          (DState.mk (st.d.set v (st.dOf u + w)) (st.p.set v u) st.m
            (st.q ++ [(st.dOf u + w, v)])).dOf x = st.dOf x := by
        intro x hx
        rw [hdOf x]
        have : x ≠ v := by intro h; subst h; exact hvm hx
        simp [this]
      have inv1 : DInv g s u rest (DState.mk (st.d.set v (st.dOf u + w)) (st.p.set v u) st.m
            (st.q ++ [(st.dOf u + w, v)])) := by
        refine ⟨by simp [inv.len_d], by simp [inv.len_p], inv.len_m, ?_, ?_, ?_, ?_, ?_, ?_, ?_,
          ?_, ?_, ?_⟩
        · intro e he
          rcases List.mem_append.1 he with he | he
          · exact inv.q_lt e he
          · simp only [List.mem_singleton] at he
            subst he; exact hv
        · rw [hdOf s]; simp [Ne.symm hvs, inv.zero]
        · intro x
          rw [hdOf x]
          by_cases hx : x = v
          · simp only [hx, if_true]; exact add_nonneg (inv.nonneg u) hw
          · simp only [hx, if_false]; exact inv.nonneg x
        · intro x hx
          rw [hdOf x]
          by_cases hxv : x = v
          · subst hxv
            simp only [if_true]
            right
            rcases inv.real u hu with h | h
            · exact absurd h hdu
            · exact Walk.snoc u x _ w row h hrow hvw
          · simp only [hxv, if_false]; exact inv.real x hx
        · intro x hxs hx htop
          rw [hdOf x] at htop
          by_cases hxv : x = v
          · subst hxv
            simp only [if_true] at htop
            exact absurd htop hnew
          · simp only [hxv, if_false] at htop
            have := inv.par x hxs hx htop
            simpa [List.getElem?_set, Ne.symm hxv] using this
        · intro e he
          rcases List.mem_append.1 he with he | he
          · exact le_trans (hdle e.2) (inv.keyA e he)
          · simp only [List.mem_singleton] at he
            subst he
            rw [hdOf v]; simp
        · intro x hx e he
          rw [hmask x hx]
          rcases List.mem_append.1 he with he | he
          · exact inv.keyB x hx e he
          · simp only [List.mem_singleton] at he
            subst he
            exact le_trans (hle x hx) (le_add_of_nonneg_right hw)
        · intro x r a b hx hr hab
          rw [hmask x hx]
          rcases inv.relaxed x r a b hx hr hab with ⟨hxu, hmem⟩ | h
          · rcases List.mem_cons.1 hmem with heq | hmem
            · right
              cases heq
              subst hxu
              rw [hdOf v]; simp
            · exact Or.inl ⟨hxu, hmem⟩
          · exact Or.inr (le_trans (hdle a) h)
        · intro x hx hne
          rw [hdOf x] at hne ⊢
          by_cases hxv : x = v
          · subst hxv
            simp only [if_true]
            exact List.mem_append_right _ (List.mem_singleton_self _)
          · simp only [hxv, if_false] at hne ⊢
            exact List.mem_append_left _ (inv.pending x hx hne)
        · intro x hx hxs hne
          by_cases hxv : x = v
          · subst hxv
            refine ⟨u, w, row, ?_, Ne.symm hvu, hmu, hrow, hvw, ?_⟩
            · show (st.p.set x u)[x]? = some u
              rw [List.getElem?_set]
              simp [inv.len_p, hv]
            · rw [hdOf x, hmask u hmu]; simp
          · rw [hdOf x] at hne
            simp only [hxv, if_false] at hne
            obtain ⟨u0, w0, row0, a1, a2, a3, a4, a5, a6⟩ := inv.tree x hx hxs hne
            refine ⟨u0, w0, row0, ?_, a2, a3, a4, a5, ?_⟩
            · show (st.p.set v u)[x]? = some u0
              rw [List.getElem?_set]
              simp [Ne.symm hxv, a1]
            · rw [hdOf x, hmask u0 a3]
              simp only [hxv, if_false]
              exact a6
      obtain ⟨st1, h1, h2, h3, h4⟩ := ih _ hsub' inv1 hmu (by
        intro x hx
        rw [hmask x hx, hmask u hmu]
        exact hle x hx)
      refine ⟨st1, h1, h2, h3, ?_⟩
      simp only [List.length_append, List.length_singleton, List.length_cons,
        List.length_nil] at h4 ⊢
      omega
    · rw [if_neg hlt]
      have inv1 : DInv g s u rest st := by
        refine ⟨inv.len_d, inv.len_p, inv.len_m, inv.q_lt, inv.zero, inv.nonneg, inv.real,
          inv.par, inv.keyA, inv.keyB, ?_, inv.pending, inv.tree⟩
        intro x r a b hx hr hab
        rcases inv.relaxed x r a b hx hr hab with ⟨hxu, hmem⟩ | h
        · rcases List.mem_cons.1 hmem with heq | hmem
          · right
            cases heq
            subst hxu
            exact not_lt.1 hlt
          · exact Or.inl ⟨hxu, hmem⟩
        · exact Or.inr h
      obtain ⟨st1, h1, h2, h3, h4⟩ := ih st hsub' inv1 hmu hle
      refine ⟨st1, h1, h2, h3, ?_⟩
      simp only [List.length_cons]
      omega

theorem DInv.retarget {D : Type} [LinearOrderedAddCommMonoidWithTop D] {g : GraphType D}
    {s cur : Nat} {st : DState D} (inv : DInv g s cur [] st) (cur1 : Nat) :
    DInv g s cur1 [] st := by
  refine ⟨inv.len_d, inv.len_p, inv.len_m, inv.q_lt, inv.zero, inv.nonneg, inv.real,
    inv.par, inv.keyA, inv.keyB, ?_, inv.pending, inv.tree⟩
  intro x r a b hx hr hab
  rcases inv.relaxed x r a b hx hr hab with ⟨_, hmem⟩ | h
  · cases hmem
  · exact Or.inr h

theorem dijkstraLoop_inv {D : Type} [LinearOrderedAddCommMonoidWithTop D] (g : GraphType D)
    (s : Nat)
    (hwf : ∀ (u : Nat) (row : List (Nat × D)), g[u]? = some row → ∀ e ∈ row, e.1 < g.length)
    (hnn : ∀ (u : Nat) (row : List (Nat × D)), g[u]? = some row → ∀ e ∈ row, 0 ≤ e.2) :
    ∀ (fuel : Nat) (st : DState D), DInv g s 0 [] st → budget g st.m st.q ≤ fuel →
      ∃ st1, dijkstraLoop g fuel st = some st1 ∧ DInv g s 0 [] st1 ∧ st1.q = [] := by
  intro fuel
  induction fuel with
  | zero =>
    intro st inv hb
    have hq : st.q = [] := by
      have : st.q.length = 0 := by
        simp only [budget] at hb
        omega
      exact List.length_eq_zero.1 this
    exact ⟨st, by simp [dijkstraLoop, hq], inv, hq⟩
  | succ fuel ih =>
    intro st inv hb
    simp only [dijkstraLoop]
    cases htop : pqTop st.q with
    | none => exact ⟨st, rfl, inv, (pqTop_none st.q).1 htop⟩
    | some top =>
      obtain ⟨hmem, hmin⟩ := pqTop_some st.q top htop
      have hu : top.2 < g.length := inv.q_lt top hmem
      have hum : top.2 < st.m.length := by rw [inv.len_m]; exact hu
      have hlen : (st.q.erase top).length + 1 = st.q.length := by
        rw [List.length_erase_of_mem hmem]
        have : 0 < st.q.length := List.length_pos_of_mem hmem
        omega
      have hsubq : ∀ e ∈ st.q.erase top, e ∈ st.q := fun e he => List.mem_of_mem_erase he
      dsimp only
      rw [List.getElem?_eq_getElem hum]
      cases hb1 : st.m[top.2] with
      | true =>
        have hmt : st.m[top.2]? = some true := by rw [List.getElem?_eq_getElem hum, hb1]
        dsimp only
        apply ih
        · refine ⟨inv.len_d, inv.len_p, inv.len_m, fun e he => inv.q_lt e (hsubq e he), inv.zero,
            inv.nonneg, inv.real, inv.par, fun e he => inv.keyA e (hsubq e he),
            fun u hu e he => inv.keyB u hu e (hsubq e he), inv.relaxed, ?_, inv.tree⟩
          intro v hv hne
          have hin := inv.pending v hv hne
          refine (List.mem_erase_of_ne ?_).2 hin
          intro heq
          have : v = top.2 := by rw [← heq]
          subst this
          rw [hmt] at hv
          cases hv
        · simp only [budget] at hb ⊢
          omega
      | false =>
        have hmf : st.m[top.2]? = some false := by rw [List.getElem?_eq_getElem hum, hb1]
        dsimp only
        obtain ⟨row, hrow⟩ : ∃ row, g[top.2]? = some row :=
          ⟨g[top.2], List.getElem?_eq_getElem hu⟩
        rw [hrow]
        dsimp only
        -- the key of the popped entry is the distance of its vertex
        have hkey : st.dOf top.2 = top.1 := by
          apply le_antisymm (inv.keyA top hmem)
          by_cases htopd : st.dOf top.2 = ⊤
          · rw [htopd]; exact le_top
          · exact hmin _ (inv.pending top.2 hmf htopd)
        have hset : ∀ x, (st.m.set top.2 true)[x]? = some true ↔
            (x = top.2 ∨ st.m[x]? = some true) := fun x => getElem?_set_true st.m top.2 x hum
        have inv0 : DInv g s top.2 row
            (DState.mk st.d st.p (st.m.set top.2 true) (st.q.erase top)) := by
          refine ⟨inv.len_d, inv.len_p, by simp [inv.len_m], fun e he => inv.q_lt e (hsubq e he),
            inv.zero, inv.nonneg, inv.real, inv.par, fun e he => inv.keyA e (hsubq e he),
            ?_, ?_, ?_, ?_⟩
          · intro u hu e he
            rcases (hset u).1 hu with rfl | hu
            · show st.dOf top.2 ≤ e.1
              rw [hkey]; exact hmin e (hsubq e he)
            · exact inv.keyB u hu e (hsubq e he)
          · intro u r a b hu hr hab
            rcases (hset u).1 hu with rfl | hu
            · left
              rw [hrow] at hr
              cases hr
              exact ⟨rfl, hab⟩
            · rcases inv.relaxed u r a b hu hr hab with ⟨_, hmem⟩ | h
              · cases hmem
              · exact Or.inr h
          · intro v hv hne
            have hv' := (getElem?_set_false st.m top.2 v).1 hv
            have hin := inv.pending v hv'.2 hne
            refine (List.mem_erase_of_ne ?_).2 hin
            intro heq
            exact hv'.1 (by rw [← heq])
          · intro v hv hvs hne
            obtain ⟨u0, w0, row0, a1, a2, a3, a4, a5, a6⟩ := inv.tree v hv hvs hne
            exact ⟨u0, w0, row0, a1, a2, (hset u0).2 (Or.inr a3), a4, a5, a6⟩
        obtain ⟨st1, h1, h2, h3, h4⟩ := relax_inv g s hwf hnn top.2 hu row hrow row _
          (fun e he => he) inv0 ((hset top.2).2 (Or.inl rfl)) (by
            intro v hv
            rcases (hset v).1 hv with rfl | hv
            · exact le_refl _
            · show st.dOf v ≤ st.dOf top.2
              rw [hkey]; exact inv.keyB v hv top hmem)
        rw [h1]
        dsimp only
        apply ih st1 (h2.retarget 0)
        have hcost := maskCost_set g st.m top.2 row hmf hrow
        simp only [budget] at hb ⊢
        rw [h3]
        dsimp only at h4 ⊢
        omega

theorem dInv_init {D : Type} [LinearOrderedAddCommMonoidWithTop D] (g : GraphType D)
    (s : Nat) (hs : s < g.length) :
    DInv g s 0 [] (DState.mk ((List.replicate g.length (⊤ : D)).set s 0)
      ((List.replicate g.length IdxTypeMax).set s s) (List.replicate g.length false) [(0, s)]) := by
  have hdOf : ∀ v, (DState.mk ((List.replicate g.length (⊤ : D)).set s 0)
      ((List.replicate g.length IdxTypeMax).set s s) (List.replicate g.length false)
      [(0, s)]).dOf v = if v = s then 0 else ⊤ := by
    intro v
    rw [dOf_mk_set _ _ _ _ s v 0 (by simpa using hs)]
    by_cases hv : v = s
    · simp [hv]
    · simp only [hv, if_false, List.getD_eq_getElem?_getD, List.getElem?_replicate]
      split <;> rfl
  have hmask : ∀ u : Nat, (List.replicate g.length false)[u]? ≠ some true := by
    intro u h
    rw [List.getElem?_replicate] at h
    split at h <;> simp at h
  refine ⟨by simp, by simp, by simp, ?_, ?_, ?_, ?_, ?_, ?_, ?_, ?_, ?_, ?_⟩
  · intro e he
    simp only [List.mem_singleton] at he
    subst he; exact hs
  · rw [hdOf s]; simp
  · intro v
    rw [hdOf v]
    split
    · exact le_refl _
    · exact le_top
  · intro v _
    rw [hdOf v]
    by_cases hv : v = s
    · subst hv
      simp only [if_true]
      exact Or.inr (Walk.nil hs)
    · simp [hv]
  · intro v hvs hv _
    show ((List.replicate g.length IdxTypeMax).set s s)[v]? = some IdxTypeMax
    rw [List.getElem?_set]
    simp [Ne.symm hvs, List.getElem?_replicate, hv]
  · intro e he
    simp only [List.mem_singleton] at he
    subst he
    rw [hdOf s]; simp
  · intro u hu
    exact absurd hu (hmask u)
  · intro u r a b hu
    exact absurd hu (hmask u)
  · intro v _ hne
    rw [hdOf v] at hne ⊢
    by_cases hv : v = s
    · subst hv; simp
    · simp [hv] at hne
  · intro v _ hvs hne
    rw [hdOf v] at hne
    simp [hvs] at hne

theorem walk_lower {D : Type} [LinearOrderedAddCommMonoidWithTop D] (g : GraphType D)
    (s : Nat) (st : DState D) (inv : DInv g s 0 [] st) (hq : st.q = []) :
    ∀ v l, Walk g s v l → st.dOf v ≤ l := by
  intro v l h
  induction h with
  | nil _ => rw [inv.zero]
  | snoc u v l w row _ hrow hvw ih =>
    have hu : u < st.m.length := by
      rw [inv.len_m]; exact (List.getElem?_eq_some.1 hrow).1
    cases hb : st.m[u] with
    | true =>
      have hm : st.m[u]? = some true := by rw [List.getElem?_eq_getElem hu, hb]
      rcases inv.relaxed u row v w hm hrow hvw with ⟨_, hmem⟩ | h
      · cases hmem
      · exact le_trans h (add_le_add_right ih w)
    | false =>
      have hm : st.m[u]? = some false := by rw [List.getElem?_eq_getElem hu, hb]
      have htop : st.dOf u = ⊤ := by
        by_contra hne
        have := inv.pending u hm hne
        rw [hq] at this
        cases this
      rw [htop] at ih
      have : l = ⊤ := top_le_iff.1 ih
      rw [this, top_add]
      exact le_top

theorem dijkstraCore_spec {D : Type} [LinearOrderedAddCommMonoidWithTop D] (g : GraphType D)
    (s : Nat) (hs : s < g.length)
    (hwf : ∀ (u : Nat) (row : List (Nat × D)), g[u]? = some row → ∀ e ∈ row, e.1 < g.length)
    (hnn : ∀ (u : Nat) (row : List (Nat × D)), g[u]? = some row → ∀ e ∈ row, 0 ≤ e.2) :
    ∃ d p, dijkstraCore g s = some (d, p) ∧ d.length = g.length ∧ p.length = g.length ∧
      ∀ i, i < g.length →
        (Reachable g s i → IsShortest g s i (d.getD i ⊤)) ∧
        (i = s → d.getD i ⊤ = 0) ∧
        (¬ Reachable g s i → d.getD i ⊤ = ⊤ ∧ p[i]? = some IdxTypeMax) := by
  obtain ⟨st1, h1, inv, hq⟩ := dijkstraLoop_inv g s hwf hnn
    (1 + (g.map fun row => 1 + row.length).sum) _ (dInv_init g s hs)
    (by simp only [budget, maskCost_init, List.length_singleton]; exact le_refl _)
  refine ⟨st1.d, st1.p, ?_, inv.len_d, inv.len_p, ?_⟩
  · simp only [dijkstraCore, hs, if_true, h1]
  · intro i hi
    have hlow := walk_lower g s st1 inv hq i
    refine ⟨?_, ?_, ?_⟩
    · rintro ⟨l, hl⟩
      refine ⟨?_, hlow⟩
      rcases inv.real i hi with h | h
      · have h2 := hlow l hl
        have h3 : st1.dOf i = ⊤ := h
        rw [h3] at h2
        have : l = ⊤ := top_le_iff.1 h2
        show Walk g s i (st1.dOf i)
        rw [h3, ← this]
        exact hl
      · exact h
    · intro his
      subst his
      exact inv.zero
    · intro hnr
      have htop : st1.dOf i = ⊤ := by
        rcases inv.real i hi with h | h
        · exact h
        · exact absurd ⟨_, h⟩ hnr
      refine ⟨htop, inv.par i ?_ hi htop⟩
      intro his
      subst his
      exact hnr ⟨0, Walk.nil hs⟩

theorem dijkstraCore_tree {D : Type} [LinearOrderedAddCommMonoidWithTop D] (g : GraphType D)
    (s : Nat) (hs : s < g.length)
    (hwf : ∀ (u : Nat) (row : List (Nat × D)), g[u]? = some row → ∀ e ∈ row, e.1 < g.length)
    (hnn : ∀ (u : Nat) (row : List (Nat × D)), g[u]? = some row → ∀ e ∈ row, 0 ≤ e.2) :
    ∃ d p, dijkstraCore g s = some (d, p) ∧ d.length = g.length ∧ p.length = g.length ∧
      d.getD s ⊤ = 0 ∧
      (∀ i l, Walk g s i l → d.getD i ⊤ ≤ l) ∧
      (∀ i, i < g.length → d.getD i ⊤ = ⊤ ∨ Walk g s i (d.getD i ⊤)) ∧
      ∀ v, v < g.length → v ≠ s → d.getD v ⊤ ≠ ⊤ →
        ∃ (u : Nat) (w : D) (row : List (Nat × D)), p[v]? = some u ∧ u ≠ v ∧
          g[u]? = some row ∧ (v, w) ∈ row ∧ d.getD v ⊤ = d.getD u ⊤ + w := by
  obtain ⟨st1, h1, inv, hq⟩ := dijkstraLoop_inv g s hwf hnn
    (1 + (g.map fun row => 1 + row.length).sum) _ (dInv_init g s hs)
    (by simp only [budget, maskCost_init, List.length_singleton]; exact le_refl _)
  refine ⟨st1.d, st1.p, ?_, inv.len_d, inv.len_p, inv.zero, walk_lower g s st1 inv hq,
    inv.real, ?_⟩
  · simp only [dijkstraCore, hs, if_true, h1]
  · intro v hv hvs hne
    obtain ⟨u, w, row, a1, a2, -, a4, a5, a6⟩ := inv.tree v hv hvs hne
    exact ⟨u, w, row, a1, a2, a4, a5, a6⟩

theorem writeColumn_spec {D : Type} (ySize t : Nat) (ht : t < ySize) :
    ∀ (ds : List D) (ps : List Nat) (i : Nat) (path : List Nat) (dist : List D),
      ds.length = ps.length →
      (∀ j, j < ds.length → (i + j) * ySize + t < path.length ∧
        (i + j) * ySize + t < dist.length) →
      ∃ path1 dist1, writeColumn ySize t i ds ps (path, dist) = some (path1, dist1) ∧
        (∀ j, j < ds.length → path1[(i + j) * ySize + t]? = ps[j]? ∧
          dist1[(i + j) * ySize + t]? = ds[j]?) ∧
        (∀ idx, (∀ j, j < ds.length → idx ≠ (i + j) * ySize + t) →
          path1[idx]? = path[idx]? ∧ dist1[idx]? = dist[idx]?) ∧
        path1.length = path.length ∧ dist1.length = dist.length := by
  intro ds
  induction ds with
  | nil =>
    intro ps i path dist _ _
    exact ⟨path, dist, rfl, fun j hj => by simp at hj, fun idx _ => ⟨rfl, rfl⟩, rfl, rfl⟩
  | cons di ds ih =>
    intro ps i path dist hlen hb
    cases ps with
    | nil => simp at hlen
    | cons pi ps =>
      have h0 := hb 0 (by simp)
      rw [Nat.add_zero] at h0
      simp only [writeColumn, h0.1, h0.2, and_self, if_true]
      obtain ⟨path1, dist1, hw, hcol, hframe, hl1, hl2⟩ := ih ps (i + 1)
        (path.set (i * ySize + t) pi) (dist.set (i * ySize + t) di)
        (by simpa using hlen)
        (by
          intro j hj
          have := hb (j + 1) (by simpa using hj)
          rw [show i + (j + 1) = i + 1 + j by omega] at this
          simpa using this)
      refine ⟨path1, dist1, hw, ?_, ?_, by simpa using hl1, by simpa using hl2⟩
      · intro j hj
        cases j with
        | zero =>
          rw [Nat.add_zero]
          have hne : ∀ j, j < ds.length → i * ySize + t ≠ (i + 1 + j) * ySize + t := by
            intro j _ h
            have h1 : i * ySize < (i + 1 + j) * ySize :=
              Nat.mul_lt_mul_of_pos_right (by omega) (by omega)
            omega
          obtain ⟨f1, f2⟩ := hframe _ hne
          rw [f1, f2]
          simp [List.getElem?_set, h0.1, h0.2]
        | succ j =>
          have := hcol j (by simpa using hj)
          rw [show i + (j + 1) = i + 1 + j by omega]
          simpa using this
      · intro idx hidx
        have hne : ∀ j, j < ds.length → idx ≠ (i + 1 + j) * ySize + t := by
          intro j hj
          have := hidx (j + 1) (by simpa using hj)
          rw [show i + (j + 1) = i + 1 + j by omega] at this
          exact this
        obtain ⟨f1, f2⟩ := hframe idx hne
        have h00 := hidx 0 (by simp)
        rw [Nat.add_zero] at h00
        rw [f1, f2]
        simp [List.getElem?_set, Ne.symm h00]

/-- Claim C5.  For every graph `g` whose edge targets are vertices and whose edge
weights are non-negative, every source `s < |g|`, tables `pathM`, `distM` of
`|g| * |g|` entries and tables `pathMCS`, `distMCS` of `|g| * ySize` entries with
`t < ySize`: `dijkstraPQ` and `dijkstraPQCS` both return, and for every vertex
`i` the entries `distM[i * |g| + s]` and `distMCS[i * ySize + t]` hold the same
number `di` (and the parent entries the same `pi`), where `di` is the length of
a shortest walk from `s` to `i` when `i` is reachable from `s`, `di = 0` for
`i = s`, and `di = ⊤` (infinity) with `pi = IdxTypeMax` when `i` is not
reachable. -/
theorem dijkstra_shortest {D : Type} [LinearOrderedAddCommMonoidWithTop D] (g : GraphType D)
    (s : Nat) (hs : s < g.length)
    (hwf : ∀ row ∈ g, ∀ e ∈ row, e.1 < g.length)
    (hnn : ∀ row ∈ g, ∀ e ∈ row, 0 ≤ e.2)
    (pathM : List Nat) (distM : List D)
    (hpM : pathM.length = g.length * g.length) (hdM : distM.length = g.length * g.length)
    (ySize t : Nat) (ht : t < ySize) (pathMCS : List Nat) (distMCS : List D)
    (hpC : pathMCS.length = g.length * ySize) (hdC : distMCS.length = g.length * ySize) :
    ∃ pathM1 distM1 pathMCS1 distMCS1,
      dijkstraPQ g pathM distM s = some (pathM1, distM1) ∧
      dijkstraPQCS pathMCS distMCS g (s, t) = some (pathMCS1, distMCS1) ∧
      ∀ i, i < g.length → ∃ di pi,
        distM1[i * g.length + s]? = some di ∧ pathM1[i * g.length + s]? = some pi ∧
        distMCS1[i * ySize + t]? = some di ∧ pathMCS1[i * ySize + t]? = some pi ∧
        (Reachable g s i → IsShortest g s i di) ∧
        (i = s → di = 0) ∧
        (¬ Reachable g s i → di = ⊤ ∧ pi = IdxTypeMax) := by
  obtain ⟨d, p, hcore, hd, hp, hspec⟩ := dijkstraCore_spec g s hs
    (fun u row hrow => hwf row (List.getElem?_mem hrow))
    (fun u row hrow => hnn row (List.getElem?_mem hrow))
  have hidx : ∀ (y c : Nat), c < y → ∀ j, j < d.length → (0 + j) * y + c < g.length * y := by
    intro y c hc j hj
    rw [hd] at hj
    rw [Nat.zero_add]
    calc j * y + c < j * y + y := by omega
      _ = (j + 1) * y := by ring
      _ ≤ g.length * y := Nat.mul_le_mul_right y hj
  obtain ⟨pathM1, distM1, hw1, hcol1, -, -, -⟩ := writeColumn_spec g.length s hs d p 0 pathM distM
    (by rw [hd, hp]) (fun j hj => ⟨by rw [hpM]; exact hidx _ _ hs j hj,
      by rw [hdM]; exact hidx _ _ hs j hj⟩)
  have hy : pathMCS.length / g.length = ySize := by
    rw [hpC, Nat.mul_div_cancel_left ySize (by omega)]
  obtain ⟨pathC1, distC1, hw2, hcol2, -, -, -⟩ := writeColumn_spec ySize t ht d p 0 pathMCS distMCS
    (by rw [hd, hp]) (fun j hj => ⟨by rw [hpC]; exact hidx _ _ ht j hj,
      by rw [hdC]; exact hidx _ _ ht j hj⟩)
  refine ⟨pathM1, distM1, pathC1, distC1, ?_, ?_, ?_⟩
  · simp only [dijkstraPQ, hcore, hw1]
  · simp only [dijkstraPQCS, hcore, hy, hw2]
  · intro i hi
    have hid : i < d.length := by rw [hd]; exact hi
    have hip : i < p.length := by rw [hp]; exact hi
    have c1 := hcol1 i hid
    have c2 := hcol2 i hid
    rw [Nat.zero_add] at c1 c2
    have hdi : d[i]? = some (d.getD i ⊤) := by
      simp [List.getD_eq_getElem?_getD, List.getElem?_eq_getElem hid]
    obtain ⟨r1, r2, r3⟩ := hspec i hi
    refine ⟨d.getD i ⊤, p[i], by rw [c1.2, hdi], by rw [c1.1, List.getElem?_eq_getElem hip],
      by rw [c2.2, hdi], by rw [c2.1, List.getElem?_eq_getElem hip], r1, r2, ?_⟩
    intro hnr
    obtain ⟨h1, h2⟩ := r3 hnr
    refine ⟨h1, ?_⟩
    rw [List.getElem?_eq_getElem hip] at h2
    exact Option.some.inj h2


/-- Witness for C5 on `graphTri` with source 0, a 3 x 3 global table and a
3 x 2 local table written in column 1. -/
theorem dijkstra_shortest_witness :
    (0 < graphTri.length ∧ (∀ row ∈ graphTri, ∀ e ∈ row, e.1 < graphTri.length)) ∧
    ∃ pathM1 distM1 pathMCS1 distMCS1,
      dijkstraPQ graphTri (List.replicate 9 0) (List.replicate 9 0) 0 = some (pathM1, distM1) ∧
      dijkstraPQCS (List.replicate 6 0) (List.replicate 6 0) graphTri (0, 1) =
        some (pathMCS1, distMCS1) ∧
      ∀ i, i < graphTri.length → ∃ di pi,
        distM1[i * graphTri.length + 0]? = some di ∧
        pathM1[i * graphTri.length + 0]? = some pi ∧
        distMCS1[i * 2 + 1]? = some di ∧ pathMCS1[i * 2 + 1]? = some pi ∧
        (Reachable graphTri 0 i → IsShortest graphTri 0 i di) ∧
        (i = 0 → di = 0) ∧
        (¬ Reachable graphTri 0 i → di = ⊤ ∧ pi = IdxTypeMax) :=
  ⟨⟨by decide, by decide⟩,
    dijkstra_shortest graphTri 0 (by decide) (by decide) (by decide)
      (List.replicate 9 0) (List.replicate 9 0) rfl rfl 2 1 (by decide)
      (List.replicate 6 0) (List.replicate 6 0) rfl rfl⟩

/-- The run of `dijkstraPQ` on `graphTri` from source 2: vertex 0 is unreachable and
keeps distance `⊤` and parent `IdxTypeMax`. -/
theorem dijkstraPQ_graphTri :
    dijkstraPQ graphTri (List.replicate 9 0) (List.replicate 9 0) 2 =
      some ([0, 0, IdxTypeMax, 0, 0, 2, 0, 0, 2], [0, 0, ⊤, 0, 0, 2, 0, 0, 0]) := by
  decide

/-! ### `subtractLines` -/


theorem SlotsCleared.refl (e : Edge) : SlotsCleared e e :=
  ⟨rfl, rfl, rfl, fun _ => Or.inr rfl⟩

theorem Nbrs.get_set_low (n : Nbrs) (s : Nat) (hs : s < 2) (j : Nat) :
    (n.set s 0).get j = 0 ∨ (n.set s 0).get j = n.get j := by
  have h01 : s = 0 ∨ s = 1 := by omega
  rcases h01 with rfl | rfl
  · match j with
    | 0 => exact Or.inl rfl
    | 1 => exact Or.inr rfl
    | 2 => exact Or.inr rfl
    | _ + 3 => exact Or.inr rfl
  · match j with
    | 0 => exact Or.inr rfl
    | 1 => exact Or.inl rfl
    | 2 => exact Or.inr rfl
    | _ + 3 => exact Or.inr rfl

theorem clearSlot_spec (edgesC : List Edge) (k j : Nat) (hk : k < edgesC.length)
    (hn : ∀ e ∈ edgesC, e.nbrs.get j ≤ edgesC.length) :
    ∃ edges1, clearSlot edgesC k j = some edges1 ∧ edges1.length = edgesC.length ∧
      ∀ (i : Nat) (e : Edge), edgesC[i]? = some e → ∃ e1, edges1[i]? = some e1 ∧ SlotsCleared e e1 := by
  unfold clearSlot
  rw [List.getElem?_eq_getElem hk]
  dsimp only
  by_cases h0 : edgesC[k].nbrs.get j = 0
  · rw [if_pos h0]
    exact ⟨edgesC, rfl, rfl, fun i e he => ⟨e, he, SlotsCleared.refl e⟩⟩
  · rw [if_neg h0]
    have hle := hn _ (List.getElem_mem hk)
    have hlt : edgesC[k].nbrs.get j - 1 < edgesC.length := by omega
    rw [List.getElem?_eq_getElem hlt]
    dsimp only
    refine ⟨_, rfl, by simp, ?_⟩
    intro i e he
    rw [List.getElem?_set]
    by_cases hi : edgesC[k].nbrs.get j - 1 = i
    · subst hi
      rw [List.getElem?_eq_getElem hlt] at he
      cases he
      simp only [hlt, if_true]
      refine ⟨_, rfl, rfl, rfl, rfl, ?_⟩
      intro j1
      exact Nbrs.get_set_low _ _ (Nat.mod_lt _ (by omega)) j1
    · simp only [hi, if_false]
      exact ⟨e, he, SlotsCleared.refl e⟩

theorem findIdx_unique (p : Edge → Bool) (l : List Edge) (h : l.countP p = 1) :
    l.findIdx p < l.length ∧
      ∀ (i : Nat) (e : Edge), l[i]? = some e → (p e = true ↔ i = l.findIdx p) := by
  induction l with
  | nil => simp at h
  | cons a l ih =>
    by_cases ha : p a = true
    · have hc : l.countP p = 0 := by
        rw [List.countP_cons_of_pos _ _ ha] at h
        omega
      have hnone : ∀ e ∈ l, ¬ p e = true := List.countP_eq_zero.1 hc
      rw [List.findIdx_cons, ha]
      refine ⟨by simp, ?_⟩
      intro i e he
      cases i with
      | zero =>
        simp at he
        subst he
        simp [ha]
      | succ i =>
        simp only [List.getElem?_cons_succ] at he
        have := hnone e (List.getElem?_mem he)
        simp [this]
    · have hc : l.countP p = 1 := by
        rw [List.countP_cons_of_neg _ _ ha] at h
        exact h
      obtain ⟨h1, h2⟩ := ih hc
      have hfa : p a = false := by simpa using ha
      rw [List.findIdx_cons, hfa]
      refine ⟨by simpa using h1, ?_⟩
      intro i e he
      cases i with
      | zero =>
        simp at he
        subst he
        simp [hfa]
      | succ i =>
        simp only [List.getElem?_cons_succ] at he
        rw [h2 i e he]
        simp

theorem findIdx_congr (p : Edge → Bool) (l l1 : List Edge) (hlen : l1.length = l.length)
    (h : ∀ (i : Nat) (e : Edge), l[i]? = some e → ∃ e1, l1[i]? = some e1 ∧ p e1 = p e) :
    l1.findIdx p = l.findIdx p := by
  induction l generalizing l1 with
  | nil =>
    have : l1 = [] := List.length_eq_zero.1 (by simpa using hlen)
    subst this
    rfl
  | cons a l ih =>
    cases l1 with
    | nil => simp at hlen
    | cons a1 l1 =>
      obtain ⟨e1, he1, hp⟩ := h 0 a (by simp)
      simp at he1
      subst he1
      rw [List.findIdx_cons, List.findIdx_cons, hp]
      have := ih l1 (by simpa using hlen) (by
        intro i e he
        have := h (i + 1) e (by simpa using he)
        simpa using this)
      rw [this]

theorem filter_map_congr_idx {β : Type} (key : Edge → β) (p p1 : Edge → Bool)
    (l l1 : List Edge) (hlen : l1.length = l.length)
    (h : ∀ (i : Nat) (e : Edge), l[i]? = some e →
      ∃ e1, l1[i]? = some e1 ∧ p1 e1 = p e ∧ (p e = true → key e1 = key e)) :
    (l1.filter p1).map key = (l.filter p).map key := by
  induction l generalizing l1 with
  | nil =>
    have : l1 = [] := List.length_eq_zero.1 (by simpa using hlen)
    subst this
    rfl
  | cons a l ih =>
    cases l1 with
    | nil => simp at hlen
    | cons a1 l1 =>
      obtain ⟨e1, he1, hp, hk⟩ := h 0 a (by simp)
      simp at he1
      subst he1
      have := ih l1 (by simpa using hlen) (by
        intro i e he
        have := h (i + 1) e (by simpa using he)
        simpa using this)
      simp only [List.filter_cons, hp]
      by_cases hpa : p a = true
      · simp [hpa, hk hpa, this]
      · simp [hpa, this]

theorem Edge.eqv_congr (e e0 q : Edge) (hu : e.u = e0.u) (hv : e.v = e0.v) :
    e.eqv q = e0.eqv q := by
  simp only [Edge.eqv, hu, hv]

theorem subtractWall_spec (edges0 : List Edge) (done : List Line) (cur : List Edge)
    (w : Line)
    (hnbr : ∀ e ∈ edges0, ∀ j, j < 2 → e.nbrs.get j ≤ edges0.length)
    (hone : edges0.countP (fun e => e.eqv (wallQuery w)) = 1)
    (inv : Subtracted edges0 done cur) :
    ∃ cur1, subtractWall cur w = some cur1 ∧ Subtracted edges0 (w :: done) cur1 := by
  obtain ⟨hlen, hpt⟩ := inv
  obtain ⟨hk, huniq⟩ := findIdx_unique (fun e => e.eqv (wallQuery w)) edges0 hone
  have hfind : cur.findIdx (fun e => e.eqv (wallQuery w)) =
      edges0.findIdx (fun e => e.eqv (wallQuery w)) := by
    apply findIdx_congr _ edges0 cur hlen
    intro i e0 he0
    obtain ⟨e, he, hu, hv, -, -⟩ := hpt i e0 he0
    exact ⟨e, he, Edge.eqv_congr e e0 _ hu hv⟩
  generalize hkdef : edges0.findIdx (fun e => e.eqv (wallQuery w)) = k at hk huniq hfind
  have hkc : k < cur.length := by rw [hlen]; exact hk
  -- slots stay within the list
  have hslots : ∀ (l : List Edge), l.length = edges0.length →
      (∀ (i : Nat) (e0 : Edge), edges0[i]? = some e0 → ∃ e, l[i]? = some e ∧
        ∀ j, e.nbrs.get j = 0 ∨ e.nbrs.get j = e0.nbrs.get j) →
      ∀ j, j < 2 → ∀ e ∈ l, e.nbrs.get j ≤ l.length := by
    intro l hl hrel j hj e he
    obtain ⟨i, hi⟩ := List.mem_iff_getElem?.1 he
    have hil : i < edges0.length := by
      rw [← hl]; exact (List.getElem?_eq_some.1 hi).1
    obtain ⟨e1, he1, hs⟩ := hrel i edges0[i] (List.getElem?_eq_getElem hil)
    rw [hi] at he1
    cases he1
    rcases hs j with h | h
    · rw [h]; exact Nat.zero_le _
    · rw [h, hl]
      exact hnbr _ (List.getElem_mem hil) j hj
  -- the list after `edge.idx = 0`
  have hrel1 : ∀ (i : Nat) (e0 : Edge), edges0[i]? = some e0 →
      ∃ e, (cur.set k { cur[k] with idx := 0 })[i]? = some e ∧ e.u = e0.u ∧ e.v = e0.v ∧
        e.idx = (if (w :: done).any (fun w => e0.eqv (wallQuery w)) then 0 else e0.idx) ∧
        ∀ j, e.nbrs.get j = 0 ∨ e.nbrs.get j = e0.nbrs.get j := by
    intro i e0 he0
    obtain ⟨e, he, hu, hv, hidx, hs⟩ := hpt i e0 he0
    rw [List.getElem?_set]
    by_cases hik : k = i
    · subst hik
      simp only [hkc, if_true]
      rw [List.getElem?_eq_getElem hkc] at he
      cases he
      refine ⟨_, rfl, hu, hv, ?_, hs⟩
      have : e0.eqv (wallQuery w) = true := (huniq k e0 he0).2 rfl
      simp [this]
    · simp only [hik, if_false]
      refine ⟨e, he, hu, hv, ?_, hs⟩
      have : ¬ e0.eqv (wallQuery w) = true := fun h => hik ((huniq i e0 he0).1 h).symm
      rw [hidx]
      simp [this]
  have hlen1 : (cur.set k { cur[k] with idx := 0 }).length = edges0.length := by
    simpa using hlen
  obtain ⟨cur2, hc2, hlen2, hrel2⟩ := clearSlot_spec (cur.set k { cur[k] with idx := 0 }) k 0
    (by simpa using hkc)
    (hslots _ hlen1 (fun i e0 he0 => by
      obtain ⟨e, he, -, -, -, hs⟩ := hrel1 i e0 he0
      exact ⟨e, he, hs⟩) 0 (by omega))
  have hrel2' : ∀ (i : Nat) (e0 : Edge), edges0[i]? = some e0 →
      ∃ e, cur2[i]? = some e ∧ e.u = e0.u ∧ e.v = e0.v ∧
        e.idx = (if (w :: done).any (fun w => e0.eqv (wallQuery w)) then 0 else e0.idx) ∧
        ∀ j, e.nbrs.get j = 0 ∨ e.nbrs.get j = e0.nbrs.get j := by
    intro i e0 he0
    obtain ⟨e, he, hu, hv, hidx, hs⟩ := hrel1 i e0 he0
    obtain ⟨e2, he2, h1, h2, h3, h4⟩ := hrel2 i e he
    refine ⟨e2, he2, h1.trans hu, h2.trans hv, h3.trans hidx, ?_⟩
    intro j
    rcases h4 j with h | h
    · exact Or.inl h
    · rw [h]; exact hs j
  obtain ⟨cur3, hc3, hlen3, hrel3⟩ := clearSlot_spec cur2 k 1
    (by rw [hlen2]; simpa using hkc)
    (hslots _ (hlen2.trans hlen1) (fun i e0 he0 => by
      obtain ⟨e, he, -, -, -, hs⟩ := hrel2' i e0 he0
      exact ⟨e, he, hs⟩) 1 (by omega))
  refine ⟨cur3, ?_, hlen3.trans (hlen2.trans hlen1), ?_⟩
  · have hfe : findEdge cur (Edge.ctor w.u w.v 0 0 0) = some k := by
      have : (fun e : Edge => e.eqv (Edge.ctor w.u w.v 0 0 0)) =
          (fun e : Edge => e.eqv (wallQuery w)) := rfl
      simp only [findEdge, this, hfind, hkc, if_true]
    simp only [subtractWall, hfe, List.getElem?_eq_getElem hkc, hc2, hc3]
  · intro i e0 he0
    obtain ⟨e, he, hu, hv, hidx, hs⟩ := hrel2' i e0 he0
    obtain ⟨e3, he3, h1, h2, h3, h4⟩ := hrel3 i e he
    refine ⟨e3, he3, h1.trans hu, h2.trans hv, h3.trans hidx, ?_⟩
    intro j
    rcases h4 j with h | h
    · exact Or.inl h
    · rw [h]; exact hs j

theorem subtractWalls_spec (edges0 : List Edge)
    (hnbr : ∀ e ∈ edges0, ∀ j, j < 2 → e.nbrs.get j ≤ edges0.length) :
    ∀ (walls done : List Line) (cur : List Edge),
      (∀ w ∈ walls, edges0.countP (fun e => e.eqv (wallQuery w)) = 1) →
      Subtracted edges0 done cur →
      ∃ cur1, subtractWalls cur walls = some cur1 ∧
        Subtracted edges0 (walls.reverse ++ done) cur1 := by
  intro walls
  induction walls with
  | nil =>
    intro done cur _ inv
    exact ⟨cur, rfl, by simpa using inv⟩
  | cons w walls ih =>
    intro done cur hone inv
    obtain ⟨cur1, h1, inv1⟩ := subtractWall_spec edges0 done cur w hnbr
      (hone w (List.mem_cons_self _ _)) inv
    obtain ⟨cur2, h2, inv2⟩ := ih (w :: done) cur1
      (fun w1 hw1 => hone w1 (List.mem_cons_of_mem _ hw1)) inv1
    refine ⟨cur2, by simp only [subtractWalls, h1, h2], ?_⟩
    simpa using inv2

theorem countP_walls (edges0 : List Edge) :
    ∀ (walls : List Line),
      (∀ w ∈ walls, edges0.countP (fun e => e.eqv (wallQuery w)) = 1) →
      walls.Pairwise (fun w1 w2 => ∀ e ∈ edges0,
        ¬ (e.eqv (wallQuery w1) = true ∧ e.eqv (wallQuery w2) = true)) →
      edges0.countP (fun e => walls.any fun w => e.eqv (wallQuery w)) = walls.length := by
  intro walls
  induction walls with
  | nil => intro _ _; simp
  | cons w walls ih =>
    intro hone hpair
    have h1 := hone w (List.mem_cons_self _ _)
    have h2 := ih (fun w1 hw1 => hone w1 (List.mem_cons_of_mem _ hw1)) (List.Pairwise.of_cons hpair)
    have hdis : ∀ e ∈ edges0, e.eqv (wallQuery w) = true →
        (walls.any fun w1 => e.eqv (wallQuery w1)) = false := by
      intro e he hw
      rw [Bool.eq_false_iff]
      intro hany
      obtain ⟨w1, hw1, hew1⟩ := List.any_eq_true.1 hany
      exact (List.rel_of_pairwise_cons hpair hw1) e he ⟨hw, hew1⟩
    have key : ∀ (l : List Edge), (∀ e ∈ l, e.eqv (wallQuery w) = true →
          (walls.any fun w1 => e.eqv (wallQuery w1)) = false) →
        l.countP (fun e => (w :: walls).any fun w => e.eqv (wallQuery w)) =
          l.countP (fun e => e.eqv (wallQuery w)) +
          l.countP (fun e => walls.any fun w => e.eqv (wallQuery w)) := by
      intro l
      induction l with
      | nil => intro _; rfl
      | cons a l ihl =>
        intro hd
        have iha := ihl (fun e he => hd e (List.mem_cons_of_mem _ he))
        have ha := hd a (List.mem_cons_self _ _)
        simp only [List.countP_cons, List.any_cons] at iha ⊢
        rw [iha]
        by_cases hw : a.eqv (wallQuery w) = true
        · simp [hw, ha hw]
          omega
        · have hwf : a.eqv (wallQuery w) = false := by simpa using hw
          simp [hwf]
          omega
    rw [key edges0 hdis, h1, h2, List.length_cons]
    omega

/-- Claim C7, amended.  For every edge list whose indices are non-zero and whose
first two neighbour slots are `0` or name an edge of the list, and every wall
list in which each wall is equal (by the tolerant `operator==` on end points) to
exactly one edge and no edge is equal to two walls: `subtractLines` returns, and
the returned list is the input list with the `|walls|` matched edges removed,
the order, end points and index of the others kept (their neighbour slots may
have been cleared); no returned edge is equal to a wall. -/
theorem subtractLines_removes (edges : List Edge) (walls : List Line)
    (hidx : ∀ e ∈ edges, e.idx ≠ 0)
    (hnbr : ∀ e ∈ edges, ∀ j, j < 2 → e.nbrs.get j ≤ edges.length)
    (hone : ∀ w ∈ walls, edges.countP (fun e => e.eqv (wallQuery w)) = 1)
    (hpair : walls.Pairwise (fun w1 w2 => ∀ e ∈ edges,
      ¬ (e.eqv (wallQuery w1) = true ∧ e.eqv (wallQuery w2) = true))) :
    ∃ res, subtractLines edges walls = some res ∧
      res.map edgeKey =
        (edges.filter fun e => !(walls.any fun w => e.eqv (wallQuery w))).map edgeKey ∧
      res.length + walls.length = edges.length ∧
      ∀ e ∈ res, ∀ w ∈ walls, e.eqv (wallQuery w) = false := by
  have inv0 : Subtracted edges [] edges :=
    ⟨rfl, fun i e0 he0 => ⟨e0, he0, rfl, rfl, by simp, fun _ => Or.inr rfl⟩⟩
  obtain ⟨cur, hcur, hlen, hpt⟩ := subtractWalls_spec edges hnbr walls [] edges hone inv0
  have hany : ∀ e0 : Edge, ((walls.reverse ++ []).any fun w => e0.eqv (wallQuery w)) =
      (walls.any fun w => e0.eqv (wallQuery w)) := by
    intro e0
    rw [Bool.eq_iff_iff]
    simp [List.any_eq_true]
  have hmap : (cur.filter fun edge => edge.idx != 0).map edgeKey =
      (edges.filter fun e => !(walls.any fun w => e.eqv (wallQuery w))).map edgeKey := by
    apply filter_map_congr_idx edgeKey _ _ edges cur hlen
    intro i e0 he0
    obtain ⟨e, he, hu, hv, hi, -⟩ := hpt i e0 he0
    rw [hany e0] at hi
    have h0 := hidx e0 (List.getElem?_mem he0)
    refine ⟨e, he, ?_, ?_⟩
    · cases hb : (walls.any fun w => e0.eqv (wallQuery w)) with
      | true => simp [hi, hb]
      | false => simp [hi, hb, h0]
    · intro hp
      have hb : (walls.any fun w => e0.eqv (wallQuery w)) = false := by simpa using hp
      simp only [edgeKey, hu, hv, hi, hb]
      rfl
  refine ⟨cur.filter fun edge => edge.idx != 0, by simp only [subtractLines, hcur], hmap, ?_, ?_⟩
  · have h1 : (cur.filter fun edge => edge.idx != 0).length =
        (edges.filter fun e => !(walls.any fun w => e.eqv (wallQuery w))).length := by
      have := congrArg List.length hmap
      simpa using this
    have h2 := countP_walls edges walls hone hpair
    have h3 := List.length_eq_countP_add_countP
      (fun e : Edge => walls.any fun w => e.eqv (wallQuery w)) edges
    rw [h1, ← List.countP_eq_length_filter]
    have h4 : edges.countP (fun e => !(walls.any fun w => e.eqv (wallQuery w))) =
        edges.countP (fun a => ¬ (walls.any fun w => a.eqv (wallQuery w)) = true) := by
      apply List.countP_congr
      intro e _
      simp
    omega
  · intro e he w hw
    obtain ⟨hmem, hne⟩ := List.mem_filter.1 he
    obtain ⟨i, hi⟩ := List.mem_iff_getElem?.1 hmem
    have hil : i < edges.length := by
      rw [← hlen]; exact (List.getElem?_eq_some.1 hi).1
    obtain ⟨e1, he1, hu, hv, hidx1, -⟩ := hpt i edges[i] (List.getElem?_eq_getElem hil)
    rw [hi] at he1
    cases he1
    rw [hany] at hidx1
    rw [Edge.eqv_congr e edges[i] _ hu hv]
    cases hb : (walls.any fun w => edges[i].eqv (wallQuery w)) with
    | true =>
      rw [hb] at hidx1
      simp [hidx1] at hne
    | false =>
      rw [Bool.eq_false_iff]
      intro hw1
      have : (walls.any fun w => edges[i].eqv (wallQuery w)) = true :=
        List.any_eq_true.2 ⟨w, hw, hw1⟩
      rw [hb] at this
      cases this

/-- Witness for C7 (amended): the three edges of `triNear` and the first wall of
`wallsNear`. -/
theorem subtractLines_removes_witness :
    (∀ w ∈ (wallsNear.take 1),
      (meshEdges [triNear]).countP (fun e => e.eqv (wallQuery w)) = 1) ∧
    ∃ res, subtractLines (meshEdges [triNear]) (wallsNear.take 1) = some res ∧
      res.map edgeKey =
        ((meshEdges [triNear]).filter fun e =>
          !((wallsNear.take 1).any fun w => e.eqv (wallQuery w))).map edgeKey ∧
      res.length + (wallsNear.take 1).length = (meshEdges [triNear]).length ∧
      ∀ e ∈ res, ∀ w ∈ (wallsNear.take 1), e.eqv (wallQuery w) = false :=
  ⟨by decide!,
    subtractLines_removes (meshEdges [triNear]) (wallsNear.take 1) (by decide!) (by decide!)
      (by decide!) (by decide!)⟩

/-- Counterexample to C7 as stated.  The walls of `wallsNear` are distinct (also
under `operator==`) and each is equal to exactly one of the three edges of
`triNear`, the same one for both, because `fEqual` is not transitive; the call
removes that single edge, so two edges are returned, not `3 - |walls| = 1`. -/
theorem subtractLines_tolerance_counterexample :
    (∀ e ∈ meshEdges [triNear], e.idx ≠ 0) ∧
    wallsNear.Pairwise (fun a b => a ≠ b ∧ (wallQuery a).eqv (wallQuery b) = false) ∧
    (∀ w ∈ wallsNear, (meshEdges [triNear]).countP (fun e => e.eqv (wallQuery w)) = 1) ∧
    (subtractLines (meshEdges [triNear]) wallsNear).map
      (fun res => res.length + wallsNear.length) = some 4 ∧
    (meshEdges [triNear]).length = 3 := by
  decide!

/-! ### The augmenter pipeline on small inputs -/

/-- Evaluation for claim C6 (a defect of the code).  The single triangle `triUnit`
with its two legs as walls satisfies the premises of the claim (each side occurs
once, each wall is equal to exactly one of the three edges), and one edge is left
after `subtractLines`; `formUniques` then reads `*(last - 1)` before the start of
the vector, so the pipeline has no defined result. -/
theorem augment_single_triangle_fault :
    (∀ w ∈ wallsLegs, (meshEdges [triUnit]).countP (fun e => e.eqv (wallQuery w)) = 1) ∧
    (subtractLines (meshEdges [triUnit]) wallsLegs).map List.length = some 1 ∧
    augmentEdges [triUnit] wallsLegs = none := by
  decide!

/-- With all three sides of `triUnit` as walls no edge is left, and
`sortNCorrectNbrs` already reads `edges[0]` of an empty vector. -/
theorem augment_closed_triangle_fault :
    (subtractLines (meshEdges [triUnit]) (wallsLegs ++ [⟨⟨0, 1⟩, ⟨1, 0⟩⟩])).map List.length =
      some 0 ∧
    augmentEdges [triUnit] (wallsLegs ++ [⟨⟨0, 1⟩, ⟨1, 0⟩⟩]) = none := by
  decide!

/-- On the unit square cut along a diagonal, without walls, the pipeline returns
five edges with dense indices and mutual neighbour references. -/
theorem augment_square_backRefs :
    (augmentEdges trisSquare []).map (fun E => (E.length, backRefs E)) = some (5, true) := by
  decide!

/-! ### `Router::consolidate`: one global id per exit and per interface -/


theorem isEntry_iff (S : List (List TriType)) (c k : Nat) (t : TriType) :
    IsEntry S c k t ↔ ∃ ext, S[c]? = some ext ∧ ext[k]? = some t := by
  unfold IsEntry at2
  constructor
  · intro h
    cases hc : S[c]? with
    | none => rw [hc] at h; cases h
    | some ext => rw [hc] at h; exact ⟨ext, rfl, h⟩
  · rintro ⟨ext, h1, h2⟩
    rw [h1]; exact h2

theorem at2_snoc {α : Type} (L : List (List α)) (row : List α) (a : α) (c k : Nat) (x : α) :
    at2 (L ++ [row ++ [a]]) c k = some x ↔
      (at2 (L ++ [row]) c k = some x ∨ (c = L.length ∧ k = row.length ∧ x = a)) := by
  unfold at2
  by_cases hc : c < L.length
  · rw [List.getElem?_append_left hc, List.getElem?_append_left hc]
    constructor
    · exact Or.inl
    · rintro (h | ⟨h, -, -⟩)
      · exact h
      · omega
  · by_cases hc2 : c = L.length
    · subst hc2
      simp only [List.getElem?_append_right (le_refl _), Nat.sub_self, List.getElem?_cons_zero]
      by_cases hk : k < row.length
      · rw [List.getElem?_append_left hk]
        constructor
        · exact Or.inl
        · rintro (h | ⟨-, h, -⟩)
          · exact h
          · omega
      · by_cases hk2 : k = row.length
        · subst hk2
          simp
          exact eq_comm
        · have h1 : (row ++ [a])[k]? = none := by
            apply List.getElem?_eq_none
            simp; omega
          have h2 : row[k]? = none := List.getElem?_eq_none (by omega)
          rw [h1, h2]
          simp
          omega
    · have h1 : (L ++ [row ++ [a]])[c]? = none := by
        apply List.getElem?_eq_none
        simp; omega
      have h2 : (L ++ [row])[c]? = none := by
        apply List.getElem?_eq_none
        simp; omega
      rw [h1, h2]
      simp
      omega

theorem at2_lt {α : Type} (L : List (List α)) (c k : Nat) (x : α) (h : at2 L c k = some x) :
    c < L.length := by
  unfold at2 at h
  cases hc : L[c]? with
  | none => rw [hc] at h; cases h
  | some row => exact (List.getElem?_eq_some.1 hc).1

theorem at2_append_left {α : Type} (L R : List (List α)) (c k : Nat) (hc : c < L.length) :
    at2 (L ++ R) c k = at2 L c k := by
  unfold at2
  rw [List.getElem?_append_left hc]

theorem at2_open {α : Type} (L : List (List α)) (c k : Nat) :
    at2 (L ++ [[]]) c k = at2 L c k := by
  unfold at2
  by_cases hc : c < L.length
  · rw [List.getElem?_append_left hc]
  · have h2 : L[c]? = none := List.getElem?_eq_none (by omega)
    rw [h2]
    by_cases hc2 : c = L.length
    · subst hc2
      simp
    · have h1 : (L ++ [[]])[c]? = none := by
        apply List.getElem?_eq_none
        simp; omega
      rw [h1]

theorem countEntries_append (p : Nat → TriType → Bool) (L R : List (List TriType)) (i : Nat) :
    countEntries p i (L ++ R) = countEntries p i L + countEntries p (i + L.length) R := by
  induction L generalizing i with
  | nil => simp [countEntries]
  | cons a L ih =>
    show a.countP (p i) + countEntries p (i + 1) (L ++ R) =
      a.countP (p i) + countEntries p (i + 1) L + countEntries p (i + (L.length + 1)) R
    rw [ih (i + 1), show i + 1 + L.length = i + (L.length + 1) by omega]
    omega

theorem lookup_append_some {α : Type} (cl r : List (Nat × α)) (s : Nat) (g : α)
    (h : cl.lookup s = some g) : (cl ++ r).lookup s = some g := by
  induction cl with
  | nil => simp [List.lookup] at h
  | cons a cl ih =>
    obtain ⟨a1, a2⟩ := a
    rw [List.cons_append]
    simp only [List.lookup] at h ⊢
    cases hk : (s == a1) with
    | true => rw [hk] at h; exact h
    | false => rw [hk] at h; exact ih h

theorem lookup_append_none {α : Type} (cl r : List (Nat × α)) (s : Nat)
    (h : cl.lookup s = none) : (cl ++ r).lookup s = r.lookup s := by
  induction cl with
  | nil => rfl
  | cons a cl ih =>
    obtain ⟨a1, a2⟩ := a
    rw [List.cons_append]
    simp only [List.lookup] at h ⊢
    cases hk : (s == a1) with
    | true => rw [hk] at h; cases h
    | false => rw [hk] at h; exact ih h

theorem lookup_insertFirst_self (cl : List (Nat × Nat)) (k v : Nat) (h : cl.lookup k = none) :
    (insertFirst cl k v).lookup k = some v := by
  unfold insertFirst
  rw [h]
  simp only [Option.isSome_none, Bool.false_eq_true, if_false]
  rw [lookup_append_none cl _ k h]
  simp [List.lookup]

theorem lookup_insertFirst_old (cl : List (Nat × Nat)) (k v s g : Nat)
    (h : cl.lookup s = some g) : (insertFirst cl k v).lookup s = some g := by
  unfold insertFirst
  split
  · exact h
  · exact lookup_append_some cl _ s g h

theorem lookup_insertFirst_inv (cl : List (Nat × Nat)) (k v s g : Nat)
    (h : (insertFirst cl k v).lookup s = some g) : cl.lookup s = some g ∨ s = k := by
  unfold insertFirst at h
  split at h
  · exact Or.inl h
  · cases hs : cl.lookup s with
    | some g1 =>
      rw [lookup_append_some cl _ s g1 hs] at h
      exact Or.inl h
    | none =>
      rw [lookup_append_none cl _ s hs] at h
      right
      simp only [List.lookup] at h
      cases hk : (s == k) with
      | true => simpa using hk
      | false => rw [hk] at h; cases h

theorem countEntries_snoc (p : Nat → TriType → Bool) (L : List (List TriType))
    (row : List TriType) (t : TriType) :
    countEntries p 0 (L ++ [row ++ [t]]) =
      countEntries p 0 (L ++ [row]) + (if p L.length t then 1 else 0) := by
  rw [countEntries_append, countEntries_append]
  simp only [countEntries, List.countP_append, List.countP_cons, List.countP_nil, Nat.zero_add,
    Nat.add_zero]
  omega

theorem at2_end {α : Type} (L : List (List α)) (row : List α) :
    at2 (L ++ [row]) L.length row.length = none := by
  unfold at2
  simp

theorem entry_gid_snoc (pre : List (List TriType)) (done : List TriType) (t : TriType)
    (gz : List (List Nat)) (gIds : List Nat) (g : Nat)
    (hlen : gz.length = pre.length) (hrow : gIds.length = done.length)
    (c k : Nat) (t1 : TriType) (g1 : Nat)
    (h1 : IsEntry (pre ++ [done ++ [t]]) c k t1)
    (h2 : at2 (gz ++ [gIds ++ [g]]) c k = some g1) :
    (IsEntry (pre ++ [done]) c k t1 ∧ at2 (gz ++ [gIds]) c k = some g1) ∨
      (c = pre.length ∧ k = done.length ∧ t1 = t ∧ g1 = g) := by
  unfold IsEntry at h1 ⊢
  rcases (at2_snoc _ _ _ _ _ _).1 h1 with a | ⟨a1, a2, a3⟩
  · rcases (at2_snoc _ _ _ _ _ _).1 h2 with b | ⟨b1, b2, b3⟩
    · exact Or.inl ⟨a, b⟩
    · exfalso
      rw [b1, b2, hlen, hrow, at2_end] at a
      cases a
  · rcases (at2_snoc _ _ _ _ _ _).1 h2 with b | ⟨b1, b2, b3⟩
    · exfalso
      rw [a1, a2, ← hlen, ← hrow, at2_end] at b
      cases b
    · exact Or.inr ⟨a1, a2, a3, b3⟩

theorem getElem?_snoc_cases {α : Type} (L : List α) (a b : α) (c : Nat) (x : α)
    (h : (L ++ [a])[c]? = some x) :
    (c < L.length ∧ L[c]? = some x ∧ (L ++ [b])[c]? = some x) ∨ (c = L.length ∧ x = a) := by
  by_cases hc : c < L.length
  · rw [List.getElem?_append_left hc] at h
    exact Or.inl ⟨hc, h, by rw [List.getElem?_append_left hc]; exact h⟩
  · have hc2 : c = L.length := by
      have := (List.getElem?_eq_some.1 h).1
      simp at this
      omega
    subst hc2
    simp at h
    exact Or.inr ⟨rfl, h.symm⟩


theorem consEntry_fresh (pre : List (List TriType)) (done : List TriType) (t : TriType)
    (st : Consolidated) (clons : List (Nat × Nat)) (gIds : List Nat) (q : List QudType)
    (ge : List Nat)
    (inv : CInv (pre ++ [done]) (st.push clons gIds))
    (hU : ∀ t1 ∈ done, t1.sIdx ≠ t.sIdx)
    (hf : pre.length ≤ t.cIdx) (hq : q.length = st.gIdx + 1) :
    CInv (pre ++ [done ++ [t]])
      (Consolidated.push ⟨st.gIdx + 1, q, ge, st.gIdz, st.clonz⟩
        (insertFirst clons t.sIdx st.gIdx) (gIds ++ [st.gIdx])) := by
  have hlg : st.gIdz.length = pre.length := by
    have := inv.len_g
    simpa [Consolidated.push] using this
  have hlc : st.clonz.length = pre.length := by
    have := inv.len_c
    simpa [Consolidated.push] using this
  have hrow : gIds.length = done.length :=
    inv.row pre.length done gIds (by simp) (by simp [Consolidated.push, hlg])
  have hlt : ∀ c k g, at2 (st.gIdz ++ [gIds]) c k = some g → g < st.gIdx := inv.lt
  have hnone : clons.lookup t.sIdx = none := by
    cases hl : clons.lookup t.sIdx with
    | none => rfl
    | some g =>
      exfalso
      obtain ⟨k, t1, h1, h2⟩ := inv.keys pre.length clons t.sIdx g
        (by simp [Consolidated.push, hlc]) hl
      have : t1 ∈ done := by
        unfold IsEntry at2 at h1
        simp at h1
        exact List.getElem?_mem h1
      exact hU t1 this h2
  have hold : ∀ c k t1, IsEntry (pre ++ [done]) c k t1 → IsEntry (pre ++ [done ++ [t]]) c k t1 :=
    fun c k t1 h => (at2_snoc _ _ _ _ _ _).2 (Or.inl h)
  have holdg : ∀ c k g, at2 (st.gIdz ++ [gIds]) c k = some g →
      at2 (st.gIdz ++ [gIds ++ [st.gIdx]]) c k = some g :=
    fun c k g h => (at2_snoc _ _ _ _ _ _).2 (Or.inl h)
  have hnew : IsEntry (pre ++ [done ++ [t]]) pre.length done.length t :=
    (at2_snoc _ _ _ _ _ _).2 (Or.inr ⟨rfl, rfl, rfl⟩)
  refine ⟨?_, ?_, hq, ?_, ?_, ?_, ?_, ?_, ?_, ?_⟩
  · simp [Consolidated.push, hlg]
  · simp [Consolidated.push, hlc]
  · intro c ext gIds1 h1 h2
    have h2 : (st.gIdz ++ [gIds ++ [st.gIdx]])[c]? = some gIds1 := h2
    rcases getElem?_snoc_cases pre _ done c ext h1 with ⟨hc, -, a⟩ | ⟨hc, a⟩
    · rw [List.getElem?_append_left (by omega)] at h2
      exact inv.row c ext gIds1 a (by
        show (st.gIdz ++ [gIds])[c]? = some gIds1
        rw [List.getElem?_append_left (by omega)]; exact h2)
    · subst hc
      rw [← hlg] at h2
      simp at h2
      subst h2
      subst a
      simp [hrow]
  · intro c k g h
    have h : at2 (st.gIdz ++ [gIds ++ [st.gIdx]]) c k = some g := h
    show g < st.gIdx + 1
    rcases (at2_snoc _ _ _ _ _ _).1 h with a | ⟨-, -, a⟩
    · have := hlt c k g a
      omega
    · omega
  · intro c k t1 g h1 hc h2
    show ∃ cl, (st.clonz ++ [insertFirst clons t.sIdx st.gIdx])[c]? = some cl ∧ _
    rcases entry_gid_snoc pre done t st.gIdz gIds st.gIdx hlg hrow c k t1 g h1 h2 with
      ⟨a, b⟩ | ⟨a1, a2, a3, a4⟩
    · obtain ⟨cl, hcl, hlk⟩ := inv.clon c k t1 g a hc b
      have hcl : (st.clonz ++ [clons])[c]? = some cl := hcl
      rcases getElem?_snoc_cases st.clonz _ (insertFirst clons t.sIdx st.gIdx) c cl hcl with
        ⟨-, -, x⟩ | ⟨x1, x2⟩
      · exact ⟨cl, x, hlk⟩
      · subst x1 x2
        exact ⟨insertFirst cl t.sIdx st.gIdx, by simp, lookup_insertFirst_old _ _ _ _ _ hlk⟩
    · subst a1 a3 a4
      refine ⟨insertFirst clons t1.sIdx st.gIdx, by rw [← hlc]; simp,
        lookup_insertFirst_self _ _ _ hnone⟩
  · intro c cl s g h1 h2
    have h1 : (st.clonz ++ [insertFirst clons t.sIdx st.gIdx])[c]? = some cl := h1
    rcases getElem?_snoc_cases st.clonz _ clons c cl h1 with ⟨-, -, x⟩ | ⟨x1, x2⟩
    · obtain ⟨k, t1, a, b⟩ := inv.keys c cl s g x h2
      exact ⟨k, t1, hold _ _ _ a, b⟩
    · subst x2
      rcases lookup_insertFirst_inv _ _ _ _ _ h2 with y | y
      · obtain ⟨k, t1, a, b⟩ := inv.keys c clons s g
          (by show (st.clonz ++ [clons])[c]? = some clons; rw [x1]; simp) y
        exact ⟨k, t1, hold _ _ _ a, b⟩
      · rw [x1, hlc]
        exact ⟨done.length, t, hnew, y.symm⟩
  · intro c k t1 c1 k1 t2 g h1 h2 hc hc1 h3 h4
    rcases entry_gid_snoc pre done t st.gIdz gIds st.gIdx hlg hrow c k t1 g h1 h3 with
      ⟨a, b⟩ | ⟨a1, a2, a3, a4⟩
    · rcases entry_gid_snoc pre done t st.gIdz gIds st.gIdx hlg hrow c1 k1 t2 g h2 h4 with
        ⟨a', b'⟩ | ⟨a1', a2', a3', a4'⟩
      · exact inv.inj c k t1 c1 k1 t2 g a a' hc hc1 b b'
      · have := hlt c k g b
        omega
    · rcases entry_gid_snoc pre done t st.gIdz gIds st.gIdx hlg hrow c1 k1 t2 g h2 h4 with
        ⟨a', b'⟩ | ⟨a1', a2', a3', a4'⟩
      · have := hlt c1 k1 g b'
        omega
      · omega
  · intro c k t1 g h1 hc h2
    rcases entry_gid_snoc pre done t st.gIdz gIds st.gIdx hlg hrow c k t1 g h1 h2 with
      ⟨a, b⟩ | ⟨a1, a2, a3, a4⟩
    · obtain ⟨k1, t2, x1, x2, x3, x4⟩ := inv.sec c k t1 g a hc b
      exact ⟨k1, t2, hold _ _ _ x1, x2, x3, holdg _ _ _ x4⟩
    · subst a3
      omega
  · show st.gIdx + 1 = _
    rw [countEntries_snoc]
    have := inv.count
    have h0 : (st.push clons gIds).gIdx = st.gIdx := rfl
    rw [h0] at this
    rw [← this]
    simp [hf]


theorem consEntry_reuse (pre : List (List TriType)) (done : List TriType) (t : TriType)
    (st : Consolidated) (clons : List (Nat × Nat)) (gIds : List Nat) (q : List QudType)
    (g0 k0 : Nat) (t0 : TriType)
    (inv : CInv (pre ++ [done]) (st.push clons gIds))
    (hr : t.cIdx < pre.length) (hq : q.length = st.gIdx)
    (h0 : IsEntry (pre ++ [done]) t.cIdx k0 t0) (hs : t0.sIdx = t.oIdx)
    (hc0 : t.cIdx ≤ t0.cIdx) (hg0 : at2 (st.gIdz ++ [gIds]) t.cIdx k0 = some g0) :
    CInv (pre ++ [done ++ [t]])
      (Consolidated.push ⟨st.gIdx, q, st.gEIds, st.gIdz, st.clonz⟩ clons (gIds ++ [g0])) := by
  have hlg : st.gIdz.length = pre.length := by
    have := inv.len_g
    simpa [Consolidated.push] using this
  have hlc : st.clonz.length = pre.length := by
    have := inv.len_c
    simpa [Consolidated.push] using this
  have hrow : gIds.length = done.length :=
    inv.row pre.length done gIds (by simp) (by simp [Consolidated.push, hlg])
  have hlt : ∀ c k g, at2 (st.gIdz ++ [gIds]) c k = some g → g < st.gIdx := inv.lt
  have hold : ∀ c k t1, IsEntry (pre ++ [done]) c k t1 → IsEntry (pre ++ [done ++ [t]]) c k t1 :=
    fun c k t1 h => (at2_snoc _ _ _ _ _ _).2 (Or.inl h)
  have holdg : ∀ c k g, at2 (st.gIdz ++ [gIds]) c k = some g →
      at2 (st.gIdz ++ [gIds ++ [g0]]) c k = some g :=
    fun c k g h => (at2_snoc _ _ _ _ _ _).2 (Or.inl h)
  refine ⟨?_, ?_, hq, ?_, ?_, ?_, ?_, ?_, ?_, ?_⟩
  · simp [Consolidated.push, hlg]
  · simp [Consolidated.push, hlc]
  · intro c ext gIds1 h1 h2
    have h2 : (st.gIdz ++ [gIds ++ [g0]])[c]? = some gIds1 := h2
    rcases getElem?_snoc_cases pre _ done c ext h1 with ⟨hc, -, a⟩ | ⟨hc, a⟩
    · rw [List.getElem?_append_left (by omega)] at h2
      exact inv.row c ext gIds1 a (by
        show (st.gIdz ++ [gIds])[c]? = some gIds1
        rw [List.getElem?_append_left (by omega)]; exact h2)
    · subst hc
      rw [← hlg] at h2
      simp at h2
      subst h2
      subst a
      simp [hrow]
  · intro c k g h
    have h : at2 (st.gIdz ++ [gIds ++ [g0]]) c k = some g := h
    show g < st.gIdx
    rcases (at2_snoc _ _ _ _ _ _).1 h with a | ⟨-, -, a⟩
    · exact hlt c k g a
    · rw [a]
      exact hlt _ _ _ hg0
  · intro c k t1 g h1 hc h2
    rcases entry_gid_snoc pre done t st.gIdz gIds g0 hlg hrow c k t1 g h1 h2 with
      ⟨a, b⟩ | ⟨a1, a2, a3, a4⟩
    · exact inv.clon c k t1 g a hc b
    · subst a3
      omega
  · intro c cl s g h1 h2
    obtain ⟨k, t1, a, b⟩ := inv.keys c cl s g h1 h2
    exact ⟨k, t1, hold _ _ _ a, b⟩
  · intro c k t1 c1 k1 t2 g h1 h2 hc hc1 h3 h4
    rcases entry_gid_snoc pre done t st.gIdz gIds g0 hlg hrow c k t1 g h1 h3 with
      ⟨a, b⟩ | ⟨a1, a2, a3, a4⟩
    · rcases entry_gid_snoc pre done t st.gIdz gIds g0 hlg hrow c1 k1 t2 g h2 h4 with
        ⟨a', b'⟩ | ⟨a1', a2', a3', a4'⟩
      · exact inv.inj c k t1 c1 k1 t2 g a a' hc hc1 b b'
      · subst a3'
        omega
    · subst a3
      omega
  · intro c k t1 g h1 hc h2
    rcases entry_gid_snoc pre done t st.gIdz gIds g0 hlg hrow c k t1 g h1 h2 with
      ⟨a, b⟩ | ⟨a1, a2, a3, a4⟩
    · obtain ⟨k1, t2, x1, x2, x3, x4⟩ := inv.sec c k t1 g a hc b
      exact ⟨k1, t2, hold _ _ _ x1, x2, x3, holdg _ _ _ x4⟩
    · subst a3 a4
      exact ⟨k0, t0, hold _ _ _ h0, hs, hc0, holdg _ _ _ hg0⟩
  · show st.gIdx = _
    rw [countEntries_snoc]
    have := inv.count
    have h0 : (st.push clons gIds).gIdx = st.gIdx := rfl
    rw [h0] at this
    rw [← this]
    have : ¬ pre.length ≤ t.cIdx := by omega
    simp [this]

theorem CInv.gid_defined (S : List (List TriType)) (st : Consolidated) (inv : CInv S st)
    (c k : Nat) (t : TriType) (h : IsEntry S c k t) : ∃ g, st.gidAt c k = some g := by
  obtain ⟨ext, h1, h2⟩ := (isEntry_iff S c k t).1 h
  have hc : c < st.gIdz.length := by
    rw [inv.len_g]; exact (List.getElem?_eq_some.1 h1).1
  have hk : k < ext.length := (List.getElem?_eq_some.1 h2).1
  have hr := inv.row c ext st.gIdz[c] h1 (List.getElem?_eq_getElem hc)
  refine ⟨(st.gIdz[c])[k], ?_⟩
  unfold Consolidated.gidAt at2
  rw [List.getElem?_eq_getElem hc]
  exact List.getElem?_eq_getElem (by omega)

theorem consEntry_inv (pre : List (List TriType)) (done : List TriType) (t : TriType)
    (st : Consolidated) (clons : List (Nat × Nat)) (gIds : List Nat)
    (inv : CInv (pre ++ [done]) (st.push clons gIds))
    (hU : ∀ t1 ∈ done, t1.sIdx ≠ t.sIdx)
    (hR : t.cIdx < pre.length →
      ∃ k0 t0, IsEntry pre t.cIdx k0 t0 ∧ t0.sIdx = t.oIdx ∧ t.cIdx ≤ t0.cIdx) :
    ∃ st1 clons1 gIds1, consEntry pre.length st clons gIds t = some (st1, clons1, gIds1) ∧
      CInv (pre ++ [done ++ [t]]) (st1.push clons1 gIds1) := by
  by_cases hf : pre.length ≤ t.cIdx
  · refine ⟨_, _, _, by simp only [consEntry, ge_iff_le, hf, if_true]; rfl, ?_⟩
    exact consEntry_fresh pre done t st clons gIds _ _ inv hU hf
      (by have := inv.len_q; simp [Consolidated.push] at this ⊢; exact this)
  · have hr : t.cIdx < pre.length := by omega
    obtain ⟨k0, t0, e0, hs, hc0⟩ := hR hr
    have e1 : IsEntry (pre ++ [done]) t.cIdx k0 t0 := by
      unfold IsEntry at e0 ⊢
      rw [at2_append_left _ _ _ _ hr]; exact e0
    obtain ⟨g0, hg0⟩ := inv.gid_defined _ _ t.cIdx k0 t0 e1
    obtain ⟨cl, hcl, hlk⟩ := inv.clon t.cIdx k0 t0 g0 e1 hc0 hg0
    have hlc : st.clonz.length = pre.length := by
      have := inv.len_c
      simpa [Consolidated.push] using this
    have hcl : st.clonz[t.cIdx]? = some cl := by
      have hcl : (st.clonz ++ [clons])[t.cIdx]? = some cl := hcl
      rw [List.getElem?_append_left (by omega)] at hcl
      exact hcl
    have hlq : g0 < st.quads.length := by
      have h1 := inv.lt _ _ _ hg0
      have h2 := inv.len_q
      simp only [Consolidated.push] at h1 h2
      omega
    rw [hs] at hlk
    refine ⟨_, _, _, by
      simp only [consEntry, ge_iff_le, hf, if_false, hcl, hlk, List.getElem?_eq_getElem hlq]
      rfl, ?_⟩
    exact consEntry_reuse pre done t st clons gIds _ g0 k0 t0 inv hr
      (by have := inv.len_q; simp [Consolidated.push] at this ⊢; exact this) e1 hs hc0 hg0


theorem CInv.open_cell (pre : List (List TriType)) (st : Consolidated) (inv : CInv pre st) :
    CInv (pre ++ [[]]) (st.push [] []) := by
  have hE : ∀ c k t, IsEntry (pre ++ [[]]) c k t → IsEntry pre c k t := by
    intro c k t h
    unfold IsEntry at h ⊢
    rw [at2_open] at h; exact h
  have hE2 : ∀ c k t, IsEntry pre c k t → IsEntry (pre ++ [[]]) c k t := by
    intro c k t h
    unfold IsEntry at h ⊢
    rw [at2_open]; exact h
  have hG : ∀ c k, (st.push [] []).gidAt c k = st.gidAt c k := by
    intro c k
    show at2 (st.gIdz ++ [[]]) c k = at2 st.gIdz c k
    rw [at2_open]
  refine ⟨?_, ?_, inv.len_q, ?_, ?_, ?_, ?_, ?_, ?_, ?_⟩
  · simp [Consolidated.push, inv.len_g]
  · simp [Consolidated.push, inv.len_c]
  · intro c ext gIds h1 h2
    have h2 : (st.gIdz ++ [[]])[c]? = some gIds := h2
    rcases getElem?_snoc_cases pre _ [] c ext h1 with ⟨hc, a, -⟩ | ⟨hc, a⟩
    · rw [List.getElem?_append_left (by rw [inv.len_g]; exact hc)] at h2
      exact inv.row c ext gIds a h2
    · subst hc
      rw [← inv.len_g] at h2
      simp at h2
      subst h2
      subst a
      rfl
  · intro c k g h
    rw [hG] at h
    exact inv.lt c k g h
  · intro c k t g h1 hc h2
    rw [hG] at h2
    obtain ⟨cl, a, b⟩ := inv.clon c k t g (hE _ _ _ h1) hc h2
    refine ⟨cl, ?_, b⟩
    show (st.clonz ++ [[]])[c]? = some cl
    rw [List.getElem?_append_left (List.getElem?_eq_some.1 a).1]
    exact a
  · intro c cl s g h1 h2
    have h1 : (st.clonz ++ [[]])[c]? = some cl := h1
    rcases getElem?_snoc_cases st.clonz _ [] c cl h1 with ⟨-, a, -⟩ | ⟨-, a⟩
    · obtain ⟨k, t, x, y⟩ := inv.keys c cl s g a h2
      exact ⟨k, t, hE2 _ _ _ x, y⟩
    · subst a
      simp [List.lookup] at h2
  · intro c k t c1 k1 t1 g h1 h2 hc hc1 h3 h4
    rw [hG] at h3 h4
    exact inv.inj c k t c1 k1 t1 g (hE _ _ _ h1) (hE _ _ _ h2) hc hc1 h3 h4
  · intro c k t g h1 hc h2
    rw [hG] at h2
    obtain ⟨k1, t1, x1, x2, x3, x4⟩ := inv.sec c k t g (hE _ _ _ h1) hc h2
    exact ⟨k1, t1, hE2 _ _ _ x1, x2, x3, by rw [hG]; exact x4⟩
  · show st.gIdx = _
    rw [countEntries_append, inv.count]
    simp [countEntries]

theorem consCell_inv (pre : List (List TriType)) :
    ∀ (rest done : List TriType) (st : Consolidated) (clons : List (Nat × Nat))
      (gIds : List Nat),
      CInv (pre ++ [done]) (st.push clons gIds) →
      ((done ++ rest).map fun t => t.sIdx).Nodup →
      (∀ t ∈ rest, t.cIdx < pre.length →
        ∃ k0 t0, IsEntry pre t.cIdx k0 t0 ∧ t0.sIdx = t.oIdx ∧ t.cIdx ≤ t0.cIdx) →
      ∃ st1 clons1 gIds1, consCell pre.length rest st clons gIds = some (st1, clons1, gIds1) ∧
        CInv (pre ++ [done ++ rest]) (st1.push clons1 gIds1) := by
  intro rest
  induction rest with
  | nil =>
    intro done st clons gIds inv _ _
    exact ⟨st, clons, gIds, rfl, by simpa using inv⟩
  | cons t rest ih =>
    intro done st clons gIds inv hnd hR
    have hU : ∀ t1 ∈ done, t1.sIdx ≠ t.sIdx := by
      intro t1 h1 heq
      rw [List.map_append, List.nodup_append] at hnd
      exact hnd.2.2 (List.mem_map.2 ⟨t1, h1, rfl⟩)
        (List.mem_map.2 ⟨t, List.mem_cons_self _ _, heq.symm⟩)
    obtain ⟨st1, clons1, gIds1, h1, inv1⟩ := consEntry_inv pre done t st clons gIds inv hU
      (hR t (List.mem_cons_self _ _))
    obtain ⟨st2, clons2, gIds2, h2, inv2⟩ := ih (done ++ [t]) st1 clons1 gIds1 inv1
      (by simpa using hnd) (fun t1 ht1 => hR t1 (List.mem_cons_of_mem _ ht1))
    refine ⟨st2, clons2, gIds2, by simp only [consCell, h1, h2], ?_⟩
    simpa using inv2

theorem consCells_inv (S : List (List TriType)) (hfin : FinalizedSusos S) :
    ∀ (rest pre : List (List TriType)) (st : Consolidated), pre ++ rest = S → CInv pre st →
      ∃ st1, consCells pre.length rest st = some st1 ∧ CInv S st1 := by
  intro rest
  induction rest with
  | nil =>
    intro pre st hS inv
    rw [List.append_nil] at hS
    subst hS
    exact ⟨st, rfl, inv⟩
  | cons ext rest ih =>
    intro pre st hS inv
    have hext : S[pre.length]? = some ext := by
      rw [← hS, List.getElem?_append_right (le_refl _)]; simp
    have hmem : ext ∈ S := List.getElem?_mem hext
    obtain ⟨st1, clons, gIds, h1, inv1⟩ := consCell_inv pre ext [] st [] []
      (inv.open_cell) (by simpa using hfin.distinct ext hmem) (by
        intro t ht hlt
        obtain ⟨extS, hS1, hin⟩ := hfin.recip pre.length ext hext t ht (by omega)
        obtain ⟨k0, hk0⟩ := List.mem_iff_getElem?.1 hin
        refine ⟨k0, ⟨t.oIdx, pre.length, t.sIdx⟩, ?_, rfl, ?_⟩
        · rw [isEntry_iff]
          refine ⟨extS, ?_, hk0⟩
          rw [← hS, List.getElem?_append_left hlt] at hS1
          exact hS1
        · show t.cIdx ≤ pre.length
          omega)
    obtain ⟨st2, h2, inv2⟩ := ih (pre ++ [ext]) (st1.push clons gIds) (by simpa using hS)
      (by simpa using inv1)
    refine ⟨st2, ?_, inv2⟩
    simp only [consCells, h1]
    simpa using h2

theorem cInv_init : CInv [] ⟨0, [], [], [], []⟩ := by
  refine ⟨rfl, rfl, rfl, ?_, ?_, ?_, ?_, ?_, ?_, rfl⟩
  · intro c ext gIds h; simp at h
  · intro c k g h; simp [Consolidated.gidAt, at2] at h
  · intro c k t g h; simp [IsEntry, at2] at h
  · intro c cl s g h; simp at h
  · intro c k t c1 k1 t1 g h; simp [IsEntry, at2] at h
  · intro c k t g h; simp [IsEntry, at2] at h

theorem consolidate_inv (S : List (List TriType)) (hfin : FinalizedSusos S) :
    ∃ st, consolidate S = some st ∧ CInv S st :=
  consCells_inv S hfin S [] _ rfl cInv_init


theorem countEntries_split (p p1 p2 : Nat → TriType → Bool)
    (h : ∀ c t, (if p c t then 1 else 0) = (if p1 c t then 1 else 0) + (if p2 c t then 1 else 0)) :
    ∀ (L : List (List TriType)) (i : Nat),
      countEntries p i L = countEntries p1 i L + countEntries p2 i L := by
  have hrow : ∀ (row : List TriType) (i : Nat),
      row.countP (p i) = row.countP (p1 i) + row.countP (p2 i) := by
    intro row i
    induction row with
    | nil => rfl
    | cons a row ih =>
      simp only [List.countP_cons, ih]
      have := h i a
      omega
  intro L
  induction L with
  | nil => intro i; rfl
  | cons row L ih =>
    intro i
    simp only [countEntries, ih (i + 1), hrow row i]
    omega

theorem FinalizedSusos.entry_unique (S : List (List TriType)) (hfin : FinalizedSusos S)
    (c k k1 : Nat) (t t1 : TriType) (h : IsEntry S c k t) (h1 : IsEntry S c k1 t1)
    (hs : t.sIdx = t1.sIdx) : k = k1 ∧ t = t1 := by
  obtain ⟨ext, a1, a2⟩ := (isEntry_iff S c k t).1 h
  obtain ⟨ext1, b1, b2⟩ := (isEntry_iff S c k1 t1).1 h1
  rw [a1] at b1
  cases b1
  have hnd := hfin.distinct ext (List.getElem?_mem a1)
  obtain ⟨hk, e⟩ := List.getElem?_eq_some.1 a2
  obtain ⟨hk1, e1⟩ := List.getElem?_eq_some.1 b2
  have hkk : k = k1 := by
    have hk2 : k < (ext.map fun t => t.sIdx).length := by simpa using hk
    have hk3 : k1 < (ext.map fun t => t.sIdx).length := by simpa using hk1
    exact (@List.Nodup.getElem_inj_iff _ _ hnd k hk2 k1 hk3).1
      (by simp only [List.getElem_map, e, e1]; exact hs)
  subst hkk
  rw [a2] at b2
  cases b2
  exact ⟨rfl, rfl⟩

theorem FinalizedSusos.recip_entry (S : List (List TriType)) (hfin : FinalizedSusos S)
    (c k : Nat) (t : TriType) (h : IsEntry S c k t) (hne : t.cIdx ≠ c) :
    ∃ k1, IsEntry S t.cIdx k1 ⟨t.oIdx, c, t.sIdx⟩ := by
  obtain ⟨ext, a1, a2⟩ := (isEntry_iff S c k t).1 h
  obtain ⟨extS, b1, b2⟩ := hfin.recip c ext a1 t (List.getElem?_mem a2) hne
  obtain ⟨k1, hk1⟩ := List.mem_iff_getElem?.1 b2
  exact ⟨k1, (isEntry_iff _ _ _ _).2 ⟨extS, b1, hk1⟩⟩

theorem Reciprocal.symm (c : Nat) (t : TriType) (c1 : Nat) (t1 : TriType)
    (h : Reciprocal c t c1 t1) : Reciprocal c1 t1 c t := by
  obtain ⟨h1, h2, h3, h4, h5⟩ := h
  exact ⟨fun e => h1 e.symm, h3, h2, h5.symm, h4.symm⟩

theorem CInv.rep (S : List (List TriType)) (hfin : FinalizedSusos S) (st : Consolidated)
    (inv : CInv S st) (c k : Nat) (t : TriType) (g : Nat) (h : IsEntry S c k t)
    (hg : st.gidAt c k = some g) :
    ∃ c0 k0 t0, IsEntry S c0 k0 t0 ∧ c0 ≤ t0.cIdx ∧ st.gidAt c0 k0 = some g ∧
      ((c0 = c ∧ k0 = k ∧ t0 = t) ∨ Reciprocal c t c0 t0) := by
  by_cases hc : c ≤ t.cIdx
  · exact ⟨c, k, t, h, hc, hg, Or.inl ⟨rfl, rfl, rfl⟩⟩
  · have hlt : t.cIdx < c := by omega
    obtain ⟨k1, t1, x1, x2, x3, x4⟩ := inv.sec c k t g h hlt hg
    obtain ⟨k2, y⟩ := hfin.recip_entry S c k t h (by omega)
    obtain ⟨-, e⟩ := hfin.entry_unique S t.cIdx k1 k2 t1 _ x1 y x2
    refine ⟨t.cIdx, k1, t1, x1, x3, x4, Or.inr ?_⟩
    subst e
    exact ⟨by omega, rfl, rfl, rfl, rfl⟩


theorem isEntry_inj (S : List (List TriType)) (c k : Nat) (t t1 : TriType)
    (h : IsEntry S c k t) (h1 : IsEntry S c k t1) : t = t1 := by
  unfold IsEntry at h h1
  rw [h] at h1
  exact Option.some.inj h1

theorem finalizedSusos_pair : FinalizedSusos susosPair := by
  refine ⟨?_, by decide⟩
  intro c ext h t ht hne
  match c, h with
  | 0, h =>
    have : ext = [⟨2, 1, 3⟩, ⟨0, 0, 0⟩] := by simpa [susosPair] using h.symm
    subst this
    simp only [List.mem_cons, List.mem_singleton, List.not_mem_nil, or_false] at ht
    rcases ht with rfl | rfl
    · exact ⟨[⟨3, 0, 2⟩], rfl, by decide⟩
    · exact absurd rfl hne
  | 1, h =>
    have : ext = [⟨3, 0, 2⟩] := by simpa [susosPair] using h.symm
    subst this
    simp only [List.mem_cons, List.mem_singleton, List.not_mem_nil, or_false] at ht
    subst ht
    exact ⟨[⟨2, 1, 3⟩, ⟨0, 0, 0⟩], rfl, by decide⟩
  | c + 2, h => simp [susosPair] at h

/-- C8: on the subsolid tables of a finalized geometry `Router::consolidate`
returns, every entry has a global id, two entries have the same global id
exactly when they are the same entry or the two reciprocal sides of one
interface, and `gIdx` is the number of exits plus the number of interfaces
(each interface counted at its side in the cell of lower index). -/
theorem consolidate_gid_iff (S : List (List TriType)) (hfin : FinalizedSusos S) :
    ∃ st, consolidate S = some st ∧
      (∀ c k t, IsEntry S c k t → ∃ g, st.gidAt c k = some g) ∧
      (∀ c k t c1 k1 t1 g g1, IsEntry S c k t → IsEntry S c1 k1 t1 →
        st.gidAt c k = some g → st.gidAt c1 k1 = some g1 →
        (g = g1 ↔ ((c = c1 ∧ k = k1) ∨ Reciprocal c t c1 t1))) ∧
      st.gIdx = exitCount S + primaryCount S := by
  obtain ⟨st, hst, inv⟩ := consolidate_inv S hfin
  refine ⟨st, hst, inv.gid_defined S st, ?_, ?_⟩
  · intro c k t c1 k1 t1 g g1 h h1 hg hg1
    constructor
    · intro e
      subst e
      obtain ⟨c0, k0, t0, a1, a2, a3, a4⟩ := inv.rep S hfin st c k t g h hg
      obtain ⟨c0', k0', t0', b1, b2, b3, b4⟩ := inv.rep S hfin st c1 k1 t1 g h1 hg1
      obtain ⟨e1, e2⟩ := inv.inj c0 k0 t0 c0' k0' t0' g a1 b1 a2 b2 a3 b3
      subst e1 e2
      have e3 := isEntry_inj S c0 k0 t0 t0' a1 b1
      subst e3
      rcases a4 with ⟨x1, x2, x3⟩ | x
      · rcases b4 with ⟨y1, y2, y3⟩ | y
        · left; exact ⟨x1.symm.trans y1, x2.symm.trans y2⟩
        · right
          subst x1 x3
          exact Reciprocal.symm _ _ _ _ y
      · rcases b4 with ⟨y1, y2, y3⟩ | y
        · right
          subst y1 y3
          exact x
        · left
          obtain ⟨-, -, x3, -, x5⟩ := x
          obtain ⟨-, -, y3, -, y5⟩ := y
          have hc : c = c1 := x3.symm.trans y3
          subst hc
          exact ⟨rfl, (hfin.entry_unique S c k k1 t t1 h h1 (x5.symm.trans y5)).1⟩
    · rintro (⟨e1, e2⟩ | r)
      · subst e1 e2
        rw [hg] at hg1
        exact Option.some.inj hg1
      · obtain ⟨r1, r2, r3, r4, r5⟩ := r
        by_cases hlt : c1 < c
        · obtain ⟨k2, t2, x1, x2, -, x4⟩ := inv.sec c k t g h (by omega) hg
          rw [r2] at x1 x4
          obtain ⟨e, -⟩ := hfin.entry_unique S c1 k2 k1 t2 t1 x1 h1 (x2.trans r4.symm)
          subst e
          rw [x4] at hg1
          exact Option.some.inj hg1
        · obtain ⟨k2, t2, x1, x2, -, x4⟩ := inv.sec c1 k1 t1 g1 h1 (by omega) hg1
          rw [r3] at x1 x4
          obtain ⟨e, -⟩ := hfin.entry_unique S c k2 k t2 t x1 h (x2.trans r5)
          subst e
          rw [x4] at hg
          exact (Option.some.inj hg).symm
  · rw [inv.count]
    exact countEntries_split _ _ _ (by
      intro c t
      by_cases h1 : t.cIdx = c
      · simp [h1]
      · by_cases h2 : c < t.cIdx
        · have : c ≤ t.cIdx := by omega
          simp [h1, h2, this]
        · have : ¬ c ≤ t.cIdx := by omega
          simp [h1, h2, this]) S 0

theorem consolidate_gid_iff_witness :
    FinalizedSusos susosPair ∧
    (consolidate susosPair).map (fun st => (st.gIdx, st.gIdz)) = some (2, [[0, 1], [0]]) ∧
    ∃ st, consolidate susosPair = some st ∧
      (∀ c k t, IsEntry susosPair c k t → ∃ g, st.gidAt c k = some g) ∧
      (∀ c k t c1 k1 t1 g g1, IsEntry susosPair c k t → IsEntry susosPair c1 k1 t1 →
        st.gidAt c k = some g → st.gidAt c1 k1 = some g1 →
        (g = g1 ↔ ((c = c1 ∧ k = k1) ∨ Reciprocal c t c1 t1))) ∧
      st.gIdx = exitCount susosPair + primaryCount susosPair :=
  ⟨finalizedSusos_pair, by decide, consolidate_gid_iff susosPair finalizedSusos_pair⟩

/-- The hypothesis `FinalizedSusos.distinct` of `consolidate_gid_iff` cannot be
dropped: when two interface entries of a cell carry the same local index (two
coincident subsolid lines), both entries of the other cell receive the id of
the first one. -/
theorem consolidate_twin_lines :
    (consolidate susosTwin).map (fun st => (st.gIdx, st.gIdz)) = some (2, [[0, 1], [0, 0]]) := by
  decide

/-! ### `Router::consolidate`: the shape of `gIdz` -/

/-- C9, counterexample: the unit square with three walls and the top side as its
exit has two non-solid edges, the diagonal (local index 0) and the exit (local
index 1); `finalize` accepts the cell and `consolidate` returns `gIdz = [[0]]`,
so `gIdz[0][1]` is not defined although `1 < |nosoz[0]| = 2` and although the
local edge 1 is the exit. -/
theorem gIdz_local_index_counterexample :
    (augmentEdges trisSquare wallsSquare).map
        (fun E => ((nososOf E).length, localIndex (nososOf E) exitSquare)) = some (2, 1) ∧
      (finalize 4 geoSquare).1 = none ∧
      (finalize 4 geoSquare).2.susoExtz = [[⟨1, 0, 0⟩]] ∧
      (consolidate (finalize 4 geoSquare).2.susoExtz).map
        (fun st => (st.gIdz, st.gidAt 0 0, st.gidAt 0 1)) = some ([[0]], some 0, none) := by
  decide!

theorem susoMapOf_pos : ∀ (ext : List TriType) (i : Nat) (acc : List (Nat × TriType)),
    (∀ p ∈ acc, p.2.sIdx < i) → ∀ p ∈ susoMapOf i ext acc, p.2.sIdx < i + ext.length := by
  intro ext
  induction ext with
  | nil =>
    intro i acc h p hp
    exact h p hp
  | cons t rest ih =>
    intro i acc h p hp
    have := ih (i + 1)
      (if acc.any (fun p => p.1 == t.sIdx) then acc
        else acc ++ [(t.sIdx, (⟨i, t.cIdx, t.oIdx⟩ : TriType))])
      (by
        intro q hq
        split at hq
        · have := h q hq; omega
        · rcases List.mem_append.1 hq with hq | hq
          · have := h q hq; omega
          · simp at hq
            subst hq
            show i < i + 1
            omega) p hp
    simp only [List.length_cons]
    omega

/-- C9, amended: on the subsolid tables of a finalized geometry
`Router::consolidate` returns, `gIdz` has one row per cell, `gIdz[c][j]` is
defined exactly for the positions `j < |susoExtz[c]|` of the subsolid entries of
the cell, and the position `susoMaps[c].at(s).sIdx` that `Router::nextMark` uses
for a subsolid local edge `s` is such a position. -/
theorem consolidate_gIdz_rows (S : List (List TriType)) (hfin : FinalizedSusos S) :
    ∃ st, consolidate S = some st ∧ st.gIdz.length = S.length ∧
      ∀ (c : Nat) (ext : List TriType), S[c]? = some ext →
        (∀ j, (∃ g, st.gidAt c j = some g) ↔ j < ext.length) ∧
        ∀ p ∈ susoMapOf 0 ext [], ∃ g, st.gidAt c p.2.sIdx = some g := by
  obtain ⟨st, hst, inv⟩ := consolidate_inv S hfin
  refine ⟨st, hst, inv.len_g, ?_⟩
  intro c ext hc
  have hcl : c < st.gIdz.length := by
    rw [inv.len_g]; exact (List.getElem?_eq_some.1 hc).1
  have hr := inv.row c ext st.gIdz[c] hc (List.getElem?_eq_getElem hcl)
  have hiff : ∀ j, (∃ g, st.gidAt c j = some g) ↔ j < ext.length := by
    intro j
    unfold Consolidated.gidAt at2
    rw [List.getElem?_eq_getElem hcl]
    constructor
    · rintro ⟨g, hg⟩
      have := (List.getElem?_eq_some.1 hg).1
      omega
    · intro hj
      exact ⟨_, List.getElem?_eq_getElem (by omega)⟩
  refine ⟨hiff, ?_⟩
  intro p hp
  have := susoMapOf_pos ext 0 [] (by intro q hq; cases hq) p hp
  exact (hiff _).2 (by omega)

theorem consolidate_gIdz_rows_witness :
    FinalizedSusos susosPair ∧
    ∃ st, consolidate susosPair = some st ∧ st.gIdz.length = susosPair.length ∧
      ∀ (c : Nat) (ext : List TriType), susosPair[c]? = some ext →
        (∀ j, (∃ g, st.gidAt c j = some g) ↔ j < ext.length) ∧
        ∀ p ∈ susoMapOf 0 ext [], ∃ g, st.gidAt c p.2.sIdx = some g :=
  ⟨finalizedSusos_pair, consolidate_gIdz_rows susosPair finalizedSusos_pair⟩

/-! ### `Router::translate` is an isometry -/

theorem translate_sq_dist {K : Type} [CommRing K] (m : CMath K)
    (hcs : ∀ a, m.cos a ^ 2 + m.sin a ^ 2 = 1)
    (dcts : List (List (Nat × DctType K))) (cIdxP cIdxS : Nat) (d : DctType K)
    (hd : dctAt dcts cIdxP cIdxS = some d) (p q : Point K) :
    ∃ p1 q1, translate m dcts cIdxP cIdxS p = some p1 ∧
      translate m dcts cIdxP cIdxS q = some q1 ∧
      (p1.x - q1.x) ^ 2 + (p1.y - q1.y) ^ 2 = (p.x - q.x) ^ 2 + (p.y - q.y) ^ 2 := by
  refine ⟨(rotate m (p.sub d.tP) d.a).add d.tS, (rotate m (q.sub d.tP) d.a).add d.tS,
    by simp only [translate, hd], by simp only [translate, hd], ?_⟩
  simp only [rotate, Point.add, Point.sub]
  have h := hcs d.a
  have e : (m.cos d.a * (p.x - d.tP.x) - m.sin d.a * (p.y - d.tP.y) + d.tS.x -
        (m.cos d.a * (q.x - d.tP.x) - m.sin d.a * (q.y - d.tP.y) + d.tS.x)) ^ 2 +
      (m.sin d.a * (p.x - d.tP.x) + m.cos d.a * (p.y - d.tP.y) + d.tS.y -
        (m.sin d.a * (q.x - d.tP.x) + m.cos d.a * (q.y - d.tP.y) + d.tS.y)) ^ 2 =
      (m.cos d.a ^ 2 + m.sin d.a ^ 2) * ((p.x - q.x) ^ 2 + (p.y - q.y) ^ 2) := by ring
  rw [e, h, one_mul]

/-- C10: `Router::translate` is an isometry in exact real arithmetic: for every
entry `d = dcts[cIdxP].at(cIdxS)` and all points `p`, `q`, both translations
return and the `euclideanDistance` of the images equals that of `p` and `q`. -/
theorem translate_isometry (dcts : List (List (Nat × DctType ℝ))) (cIdxP cIdxS : Nat)
    (d : DctType ℝ) (hd : dctAt dcts cIdxP cIdxS = some d) (p q : Point ℝ) :
    ∃ p1 q1, translate ⟨Real.cos, Real.sin, Real.sqrt⟩ dcts cIdxP cIdxS p = some p1 ∧
      translate ⟨Real.cos, Real.sin, Real.sqrt⟩ dcts cIdxP cIdxS q = some q1 ∧
      euclideanDistance ⟨Real.cos, Real.sin, Real.sqrt⟩ p1 q1 =
        euclideanDistance ⟨Real.cos, Real.sin, Real.sqrt⟩ p q := by
  obtain ⟨p1, q1, h1, h2, h3⟩ := translate_sq_dist ⟨Real.cos, Real.sin, Real.sqrt⟩
    (fun a => Real.cos_sq_add_sin_sq a) dcts cIdxP cIdxS d hd p q
  refine ⟨p1, q1, h1, h2, ?_⟩
  simp only [euclideanDistance]
  rw [h3]

theorem translate_isometry_witness :
    dctAt [[(1, (⟨true, ⟨1, 2⟩, ⟨-3, 5⟩, Real.pi / 2⟩ : DctType ℝ))]] 0 1 =
      some ⟨true, ⟨1, 2⟩, ⟨-3, 5⟩, Real.pi / 2⟩ ∧
    ∃ p1 q1,
      translate ⟨Real.cos, Real.sin, Real.sqrt⟩
        [[(1, (⟨true, ⟨1, 2⟩, ⟨-3, 5⟩, Real.pi / 2⟩ : DctType ℝ))]] 0 1 ⟨0, 0⟩ = some p1 ∧
      translate ⟨Real.cos, Real.sin, Real.sqrt⟩
        [[(1, (⟨true, ⟨1, 2⟩, ⟨-3, 5⟩, Real.pi / 2⟩ : DctType ℝ))]] 0 1 ⟨3, 4⟩ = some q1 ∧
      euclideanDistance ⟨Real.cos, Real.sin, Real.sqrt⟩ p1 q1 =
        euclideanDistance ⟨Real.cos, Real.sin, Real.sqrt⟩ ⟨0, 0⟩ ⟨3, 4⟩ :=
  ⟨rfl, translate_isometry [[(1, ⟨true, ⟨1, 2⟩, ⟨-3, 5⟩, Real.pi / 2⟩)]] 0 1
    ⟨true, ⟨1, 2⟩, ⟨-3, 5⟩, Real.pi / 2⟩ rfl ⟨0, 0⟩ ⟨3, 4⟩⟩

/-- On the rational table `dctsRat` the images of `(0, 0)` and `(5, 0)` are `(-2, 3)`
and `(1, 7)`, at the same squared distance `25`. -/
theorem translate_rat_example :
    (translate mathRat dctsRat 0 1 ⟨0, 0⟩, translate mathRat dctsRat 0 1 ⟨5, 0⟩) =
      (some ⟨-2, 3⟩, some ⟨1, 7⟩) ∧
    ((-2 : ℚ) - 1) ^ 2 + (3 - 7) ^ 2 = (0 - 5) ^ 2 + (0 - 0) ^ 2 := by
  decide!

/-! ### `Router::nextMark`: the distance written for an interface edge -/


/-- C4, divergence: on the two cells of `susosDuo` (a finalized table) the interface
edge `1` of cell 0 is at distance `5` from the nearest exit (`gShrts[1] = (0, 5)`,
and the chain of `nextz` from it has length `5`), but `Router::nextMark` writes
`lShrtz[0][1] = gShrts[gIdxD].second = 0`, the distance of the next global hop
`gIdxD`, which here is the exit itself; the same holds for the other side of
the interface, edge `0` of cell 1. -/
theorem nextMark_interface_lShrtz :
    FinalizedSusos susosDuo ∧
    ((routerTables wDuo nbrzDuo [2, 2] susosDuo (susosDuo.map fun e => susoMapOf 0 e [])).bind
      fun r => (populateNexts r [2, 2]).map fun t => (r.gIdz, t.1)) =
      some ([[0, 1], [1, 2]], [[⟨0, 0⟩, ⟨0, 0⟩], [⟨0, 0⟩, ⟨1, 1⟩]]) ∧
    ((routerTables wDuo nbrzDuo [2, 2] susosDuo (susosDuo.map fun e => susoMapOf 0 e [])).bind
      fun r => (populateNexts r [2, 2]).map fun t => (r.gShrts, t.2)) =
      some ([(0, 0), (0, 5), (2, 0)], [[0, 0], [0, 0]]) ∧
    ((routerTables wDuo nbrzDuo [2, 2] susosDuo (susosDuo.map fun e => susoMapOf 0 e [])).bind
      fun r => (populateNexts r [2, 2]).map fun t =>
        (chainLength wDuo r.susoMaps t.1 4 0 1, chainLength wDuo r.susoMaps t.1 4 1 0)) =
      some (some 5, some 5) := by
  refine ⟨⟨?_, by decide⟩, by decide, by decide, by decide⟩
  intro c ext h t ht hne
  match c, h with
  | 0, h =>
    have : ext = [⟨0, 0, 0⟩, ⟨1, 1, 0⟩] := by simpa [susosDuo] using h.symm
    subst this
    simp only [List.mem_cons, List.mem_singleton, List.not_mem_nil, or_false] at ht
    rcases ht with rfl | rfl
    · exact absurd rfl hne
    · exact ⟨[⟨0, 0, 1⟩, ⟨1, 1, 0⟩], rfl, by decide⟩
  | 1, h =>
    have : ext = [⟨0, 0, 1⟩, ⟨1, 1, 0⟩] := by simpa [susosDuo] using h.symm
    subst this
    simp only [List.mem_cons, List.mem_singleton, List.not_mem_nil, or_false] at ht
    rcases ht with rfl | rfl
    · exact ⟨[⟨0, 0, 0⟩, ⟨1, 1, 0⟩], rfl, by decide⟩
    · exact absurd rfl hne
  | c + 2, h => simp [susosDuo] at h

/-! ### The chain of `nextz` reaches an exit -/

theorem minElementFrom_spec {D : Type} [LinearOrder D] :
    ∀ (l : List D) (best : Nat × D) (i : Nat),
      (minElementFrom best i l).2 ≤ best.2 ∧
      (∀ x ∈ l, (minElementFrom best i l).2 ≤ x) ∧
      (minElementFrom best i l = best ∨
        (i ≤ (minElementFrom best i l).1 ∧ (minElementFrom best i l).1 < i + l.length ∧
          l[(minElementFrom best i l).1 - i]? = some (minElementFrom best i l).2)) := by
  intro l
  induction l with
  | nil =>
    intro best i
    exact ⟨le_refl _, fun x hx => absurd hx (List.not_mem_nil x), Or.inl rfl⟩
  | cons x rest ih =>
    intro best i
    simp only [minElementFrom]
    by_cases hx : x < best.2
    · rw [if_pos hx]
      obtain ⟨h1, h2, h3⟩ := ih (i, x) (i + 1)
      refine ⟨le_trans h1 (le_of_lt hx), ?_, ?_⟩
      · intro y hy
        rcases List.mem_cons.1 hy with rfl | hy
        · exact h1
        · exact h2 y hy
      · right
        rcases h3 with h | ⟨a, b, c⟩
        · rw [h]
          simp
        · refine ⟨by omega, by simp only [List.length_cons]; omega, ?_⟩
          have : (minElementFrom (i, x) (i + 1) rest).1 - i =
              ((minElementFrom (i, x) (i + 1) rest).1 - (i + 1)) + 1 := by omega
          rw [this, List.getElem?_cons_succ]
          exact c
    · rw [if_neg hx]
      obtain ⟨h1, h2, h3⟩ := ih best (i + 1)
      refine ⟨h1, ?_, ?_⟩
      · intro y hy
        rcases List.mem_cons.1 hy with rfl | hy
        · exact le_trans h1 (not_lt.1 hx)
        · exact h2 y hy
      · rcases h3 with h | ⟨a, b, c⟩
        · exact Or.inl h
        · right
          refine ⟨by omega, by simp only [List.length_cons]; omega, ?_⟩
          have : (minElementFrom best (i + 1) rest).1 - i =
              ((minElementFrom best (i + 1) rest).1 - (i + 1)) + 1 := by omega
          rw [this, List.getElem?_cons_succ]
          exact c

theorem minElement_spec {D : Type} [LinearOrder D] (l : List D) (hl : l ≠ []) :
    ∃ j v, minElement l = some (j, v) ∧ l[j]? = some v ∧ ∀ x ∈ l, v ≤ x := by
  cases l with
  | nil => exact absurd rfl hl
  | cons x rest =>
    obtain ⟨h1, h2, h3⟩ := minElementFrom_spec rest (0, x) 1
    refine ⟨_, _, rfl, ?_, ?_⟩
    · rcases h3 with h | ⟨a, b, c⟩
      · rw [h]; simp
      · have : (minElementFrom (0, x) 1 rest).1 = ((minElementFrom (0, x) 1 rest).1 - 1) + 1 := by
          omega
        rw [this, List.getElem?_cons_succ]
        exact c
    · intro y hy
      rcases List.mem_cons.1 hy with rfl | hy
      · exact h1
      · exact h2 y hy

theorem mapM_option_eq {α β : Type} (f : α → Option β) (g : α → β) :
    ∀ (l : List α), (∀ x ∈ l, f x = some (g x)) → l.mapM f = some (l.map g) := by
  intro l
  induction l with
  | nil => intro _; rfl
  | cons a l ih =>
    intro h
    rw [List.mapM_cons, h a (List.mem_cons_self _ _), ih (fun x hx => h x (List.mem_cons_of_mem _ hx))]
    rfl

theorem foldr_min_le {D : Type} [LinearOrder D] [OrderTop D] (l : List D) (x : D) (hx : x ∈ l) :
    l.foldr min ⊤ ≤ x := by
  induction l with
  | nil => cases hx
  | cons a l ih =>
    simp only [List.foldr_cons]
    rcases List.mem_cons.1 hx with rfl | hx
    · exact min_le_left _ _
    · exact le_trans (min_le_right _ _) (ih hx)

theorem le_foldr_min {D : Type} [LinearOrder D] [OrderTop D] (l : List D) (v : D)
    (h : ∀ x ∈ l, v ≤ x) : v ≤ l.foldr min ⊤ := by
  induction l with
  | nil => exact le_top
  | cons a l ih =>
    simp only [List.foldr_cons]
    exact le_min (h a (List.mem_cons_self _ _)) (ih fun x hx => h x (List.mem_cons_of_mem _ hx))

theorem lookup_of_getElem {α : Type} (l : List (Nat × α)) (hn : (l.map Prod.fst).Nodup)
    (t : Nat) (s : Nat) (v : α) (h : l[t]? = some (s, v)) : l.lookup s = some v := by
  induction l generalizing t with
  | nil => simp at h
  | cons a l ih =>
    obtain ⟨a1, a2⟩ := a
    simp only [List.map_cons, List.nodup_cons] at hn
    cases t with
    | zero =>
      simp at h
      obtain ⟨rfl, rfl⟩ := h
      simp [List.lookup]
    | succ t =>
      rw [List.getElem?_cons_succ] at h
      have hne : s ≠ a1 := by
        intro e
        subst e
        exact hn.1 (List.mem_map.2 ⟨(s, v), List.getElem?_mem h, rfl⟩)
      simp only [List.lookup]
      have : (s == a1) = false := by simpa using hne
      rw [this]
      exact ih hn.2 t h

theorem getElem_of_lookup {α : Type} (l : List (Nat × α)) (s : Nat) (v : α)
    (h : l.lookup s = some v) : ∃ t : Nat, l[t]? = some (s, v) := by
  induction l with
  | nil => simp [List.lookup] at h
  | cons a l ih =>
    obtain ⟨a1, a2⟩ := a
    simp only [List.lookup] at h
    cases hk : (s == a1) with
    | true =>
      rw [hk] at h
      have : s = a1 := by simpa using hk
      subst this
      cases h
      exact ⟨0, by simp⟩
    | false =>
      rw [hk] at h
      obtain ⟨t, ht⟩ := ih h
      exact ⟨t + 1, by rw [List.getElem?_cons_succ]; exact ht⟩

theorem lookup_none_of_forall {α : Type} (l : List (Nat × α)) (s : Nat)
    (h : l.lookup s = none) : ∀ p ∈ l, p.1 ≠ s := by
  induction l with
  | nil => intro p hp; cases hp
  | cons a l ih =>
    obtain ⟨a1, a2⟩ := a
    simp only [List.lookup] at h
    cases hk : (s == a1) with
    | true => rw [hk] at h; cases h
    | false =>
      rw [hk] at h
      intro p hp
      rcases List.mem_cons.1 hp with rfl | hp
      · intro e
        have : (s == a1) = true := by simpa using e.symm
        rw [hk] at this
        cases this
      · exact ih h p hp

theorem option_eq_some_getD {α : Type} (o : Option α) (d x : α) (h : o = some x) :
    o = some (o.getD d) := by
  subst h; rfl

theorem at2_some_of_lt {α : Type} (L : List (List α)) (c k : Nat) (d : α) (hc : c < L.length)
    (hk : k < ((L[c]?).getD []).length) : at2 L c k = some ((at2 L c k).getD d) := by
  have h1 : L[c]? = some L[c] := List.getElem?_eq_getElem hc
  rw [h1] at hk
  have h2 : at2 L c k = some (L[c])[k] := by
    unfold at2
    rw [h1]
    exact List.getElem?_eq_getElem hk
  exact option_eq_some_getD _ d _ h2

theorem index_lt (e t x y : Nat) (he : e < x) (ht : t < y) : e * y + t < x * y := by
  have h1 : (e + 1) * y ≤ x * y := Nat.mul_le_mul_right y he
  have h2 : (e + 1) * y = e * y + y := by ring
  omega

theorem Sound.maps_at {D : Type} [LinearOrderedAddCommMonoidWithTop D] {r : Router D}
    {nSizes : List Nat} (h : Sound r nSizes) (c : Nat) (hc : c < nSizes.length) :
    r.susoMaps[c]? = some (r.susoMap c) := by
  have hc1 : c < r.susoMaps.length := by rw [h.maps]; exact hc
  unfold Router.susoMap
  rw [List.getElem?_eq_getElem hc1]
  rfl

theorem Sound.entry_at {D : Type} [LinearOrderedAddCommMonoidWithTop D] {r : Router D}
    {nSizes : List Nat} (_h : Sound r nSizes) (c t : Nat) (ht : t < r.ySize c) :
    (r.susoMap c)[t]? = some (r.key c t, (r.entry c t).2) := by
  have : (r.susoMap c)[t]? = some (r.susoMap c)[t] := List.getElem?_eq_getElem ht
  rw [this]
  unfold Router.key Router.entry
  rw [List.getD_eq_getElem _ _ ht]

theorem Sound.lookup_key {D : Type} [LinearOrderedAddCommMonoidWithTop D] {r : Router D}
    {nSizes : List Nat} (h : Sound r nSizes) (c t : Nat) (hc : c < nSizes.length)
    (ht : t < r.ySize c) : (r.susoMap c).lookup (r.key c t) = some (r.entry c t).2 :=
  lookup_of_getElem _ (h.rows c hc).2.2.2.1 t _ _ (h.entry_at c t ht)

theorem Sound.of_lookup {D : Type} [LinearOrderedAddCommMonoidWithTop D] {r : Router D}
    {nSizes : List Nat} (h : Sound r nSizes) (c e : Nat) (trio : TriType)
    (hl : (r.susoMap c).lookup e = some trio) :
    ∃ t, t < r.ySize c ∧ r.key c t = e ∧ (r.entry c t).2 = trio := by
  obtain ⟨t, ht⟩ := getElem_of_lookup _ _ _ hl
  have hlt : t < r.ySize c := (List.getElem?_eq_some.1 ht).1
  have := h.entry_at c t hlt
  rw [ht] at this
  have e2 := Option.some.inj this
  exact ⟨t, hlt, (congrArg Prod.fst e2).symm, (congrArg Prod.snd e2).symm⟩

theorem Sound.of_lookup_none {D : Type} [LinearOrderedAddCommMonoidWithTop D] {r : Router D}
    {nSizes : List Nat} (h : Sound r nSizes) (c e : Nat)
    (hl : (r.susoMap c).lookup e = none) : ∀ t, t < r.ySize c → r.key c t ≠ e := by
  intro t ht
  exact lookup_none_of_forall _ _ hl _ (List.getElem?_mem (h.entry_at c t ht))

theorem Sound.key_inj {D : Type} [LinearOrderedAddCommMonoidWithTop D] {r : Router D}
    {nSizes : List Nat} (h : Sound r nSizes) (c t t1 : Nat) (hc : c < nSizes.length)
    (ht : t < r.ySize c) (ht1 : t1 < r.ySize c) (hk : r.key c t = r.key c t1) : t = t1 := by
  have a := h.lookup_key c t hc ht
  have b := h.lookup_key c t1 hc ht1
  rw [hk, b] at a
  have e := congrArg TriType.sIdx (Option.some.inj a)
  rw [(h.subs c hc t ht).1, (h.subs c hc t1 ht1).1] at e
  exact e.symm

theorem Sound.ld_at {D : Type} [LinearOrderedAddCommMonoidWithTop D] {r : Router D}
    {nSizes : List Nat} (h : Sound r nSizes) (c e t : Nat) (hc : c < nSizes.length)
    (he : e < nSizes.getD c 0) (ht : t < r.ySize c) :
    at2 r.distMCSs c (e * r.ySize c + t) = some (r.ld c e t) :=
  at2_some_of_lt _ _ _ ⊤ (by rw [h.lens.1]; exact hc)
    (by rw [(h.rows c hc).1]; exact index_lt _ _ _ _ he ht)

theorem Sound.lp_at {D : Type} [LinearOrderedAddCommMonoidWithTop D] {r : Router D}
    {nSizes : List Nat} (h : Sound r nSizes) (c e t : Nat) (hc : c < nSizes.length)
    (he : e < nSizes.getD c 0) (ht : t < r.ySize c) :
    at2 r.pathMCSs c (e * r.ySize c + t) = some (r.lp c e t) :=
  at2_some_of_lt _ _ _ 0 (by rw [h.lens.2.1]; exact hc)
    (by rw [(h.rows c hc).2.1]; exact index_lt _ _ _ _ he ht)

theorem Sound.gid_at {D : Type} [LinearOrderedAddCommMonoidWithTop D] {r : Router D}
    {nSizes : List Nat} (h : Sound r nSizes) (c t : Nat) (hc : c < nSizes.length)
    (ht : t < r.ySize c) : at2 r.gIdz c t = some (r.gid c t) :=
  at2_some_of_lt _ _ _ 0 (by rw [h.lens.2.2.1]; exact hc) (by rw [(h.rows c hc).2.2.1]; exact ht)

theorem Sound.gShrts_at {D : Type} [LinearOrderedAddCommMonoidWithTop D] {r : Router D}
    {nSizes : List Nat} (h : Sound r nSizes) (g : Nat) (hg : g < r.gIdx) :
    r.gShrts[g]? = some (r.gex g, r.gsh g) := by
  have hg1 : g < r.gShrts.length := by rw [h.lens.2.2.2.1]; exact hg
  unfold Router.gex Router.gsh
  rw [List.getElem?_eq_getElem hg1]
  rfl

theorem Sound.quads_at {D : Type} [LinearOrderedAddCommMonoidWithTop D] {r : Router D}
    {nSizes : List Nat} (h : Sound r nSizes) (g : Nat) (hg : g < r.gIdx) :
    r.quads[g]? = some (r.quad g) := by
  have hg1 : g < r.quads.length := by rw [h.lens.2.2.2.2.1]; exact hg
  unfold Router.quad
  rw [List.getElem?_eq_getElem hg1]
  rfl

theorem Sound.pathM_at {D : Type} [LinearOrderedAddCommMonoidWithTop D] {r : Router D}
    {nSizes : List Nat} (h : Sound r nSizes) (g : Nat) (hg : g < r.gIdx) :
    r.pathM[g * r.gIdx + r.gex g]? = some (r.hop g) := by
  have hg1 : g * r.gIdx + r.gex g < r.pathM.length := by
    rw [h.lens.2.2.2.2.2]
    exact index_lt _ _ _ _ hg (h.fin g hg).2
  unfold Router.hop
  rw [List.getElem?_eq_getElem hg1]
  rfl

theorem Router.pot_le {D : Type} [LinearOrderedAddCommMonoidWithTop D] (r : Router D)
    (c e i : Nat) (hi : i < r.ySize c) : r.pot c e ≤ r.ld c e i + r.gsh (r.gid c i) :=
  foldr_min_le _ _ (List.mem_map.2 ⟨i, List.mem_range.2 hi, rfl⟩)

theorem Router.le_pot {D : Type} [LinearOrderedAddCommMonoidWithTop D] (r : Router D)
    (c e : Nat) (v : D) (h : ∀ i, i < r.ySize c → v ≤ r.ld c e i + r.gsh (r.gid c i)) :
    v ≤ r.pot c e := by
  apply le_foldr_min
  intro x hx
  obtain ⟨i, hi, rfl⟩ := List.mem_map.1 hx
  exact h i (List.mem_range.1 hi)

theorem nextMark_interior {D : Type} [LinearOrderedAddCommMonoidWithTop D] {r : Router D}
    {nSizes : List Nat} (h : Sound r nSizes) (c e : Nat) (hc : c < nSizes.length)
    (he : e < nSizes.getD c 0) (hl : (r.susoMap c).lookup e = none) :
    ∃ i l, i < r.ySize c ∧ nextMark r c e = some (⟨c, r.lp c e i⟩, l) ∧
      ∀ j, j < r.ySize c → r.ld c e i + r.gsh (r.gid c i) ≤ r.ld c e j + r.gsh (r.gid c j) := by
  have hy : (r.susoMap c).length = r.ySize c := rfl
  have hmap : (List.range (r.ySize c)).mapM (exitDist r c e (r.ySize c)) =
      some ((List.range (r.ySize c)).map fun i => r.ld c e i + r.gsh (r.gid c i)) := by
    apply mapM_option_eq
    intro i hi
    have hi := List.mem_range.1 hi
    simp only [exitDist, h.ld_at c e i hc he hi, h.gid_at c i hc hi,
      h.gShrts_at _ (h.subs c hc i hi).2.2.1]
  have hne : ((List.range (r.ySize c)).map fun i => r.ld c e i + r.gsh (r.gid c i)) ≠ [] := by
    intro e0
    have := congrArg List.length e0
    simp at this
    have := (h.rows c hc).2.2.2.2
    omega
  obtain ⟨i, v, hmin, hget, hle⟩ := minElement_spec _ hne
  have hi : i < r.ySize c := by
    have := (List.getElem?_eq_some.1 hget).1
    simpa using this
  have hv : v = r.ld c e i + r.gsh (r.gid c i) := by
    rw [List.getElem?_map, List.getElem?_range hi] at hget
    exact (Option.some.inj hget).symm
  refine ⟨i, some v, hi, ?_, ?_⟩
  · simp only [nextMark, h.maps_at c hc, hl, hy, hmap, hmin, h.lp_at c e i hc he hi]
  · intro j hj
    rw [← hv]
    exact hle _ (List.mem_map.2 ⟨j, List.mem_range.2 hj, rfl⟩)

theorem nextMark_exit {D : Type} [LinearOrderedAddCommMonoidWithTop D] {r : Router D}
    {nSizes : List Nat} (h : Sound r nSizes) (c e : Nat) (hc : c < nSizes.length)
    (trio : TriType) (hl : (r.susoMap c).lookup e = some trio) (hx : trio.cIdx = c) :
    nextMark r c e = some (⟨c, e⟩, none) ∧ isExit r.susoMaps c e = true := by
  constructor
  · simp only [nextMark, h.maps_at c hc, hl, hx, if_true]
  · simp only [isExit, h.maps_at c hc, hl, hx, beq_self_eq_true]

theorem nextCell_stayP {D : Type} [LinearOrder D] (r : Router D) (cIdx sIdx : Nat)
    (susoMap susoA : List (Nat × TriType)) (trio : TriType) (quad : QudType) (tD : TriType)
    (hA : r.susoMaps[trio.cIdx]? = some susoA) (hP : cIdx = quad.cIdxP)
    (hl : susoMap.lookup quad.sIdxP = some tD) (hn : trio.cIdx ≠ quad.cIdxS) :
    nextCell r cIdx sIdx susoMap trio quad = some (cIdx, sIdx, susoMap.length, tD.sIdx) := by
  simp only [nextCell, hA, if_pos hP, hl, ne_eq, hn, not_false_eq_true, if_true]

theorem nextCell_stayS {D : Type} [LinearOrder D] (r : Router D) (cIdx sIdx : Nat)
    (susoMap susoA : List (Nat × TriType)) (trio : TriType) (quad : QudType) (tD : TriType)
    (hA : r.susoMaps[trio.cIdx]? = some susoA) (hP : cIdx ≠ quad.cIdxP) (hS : cIdx = quad.cIdxS)
    (hl : susoMap.lookup quad.sIdxS = some tD) (hn : trio.cIdx ≠ quad.cIdxP) :
    nextCell r cIdx sIdx susoMap trio quad = some (cIdx, sIdx, susoMap.length, tD.sIdx) := by
  simp only [nextCell, hA, if_neg hP, if_pos hS, hl, ne_eq, hn, not_false_eq_true, if_true]

theorem nextCell_switch {D : Type} [LinearOrder D] (r : Router D) (cIdx sIdx : Nat)
    (susoMap susoA : List (Nat × TriType)) (trio : TriType) (quad : QudType) (tD : TriType)
    (hA : r.susoMaps[trio.cIdx]? = some susoA) (hP : cIdx ≠ quad.cIdxP) (hS : cIdx ≠ quad.cIdxS)
    (hl : susoA.lookup (if trio.cIdx = quad.cIdxP then quad.sIdxP else quad.sIdxS) = some tD) :
    nextCell r cIdx sIdx susoMap trio quad =
      some (trio.cIdx, trio.oIdx, susoA.length, tD.sIdx) := by
  simp only [nextCell, hA, if_neg hP, if_neg hS, hl]

theorem nextCell_cmpP {D : Type} [LinearOrder D] (r : Router D) (cIdx sIdx : Nat)
    (susoMap susoA : List (Nat × TriType)) (trio : TriType) (quad : QudType) (tD tO : TriType)
    (dstS dstO : D)
    (hA : r.susoMaps[trio.cIdx]? = some susoA) (hP : cIdx = quad.cIdxP)
    (hl : susoMap.lookup quad.sIdxP = some tD) (hn : trio.cIdx = quad.cIdxS)
    (hnP : trio.cIdx ≠ quad.cIdxP)
    (hlO : susoA.lookup quad.sIdxS = some tO)
    (hdS : at2 r.distMCSs cIdx (sIdx * susoMap.length + tD.sIdx) = some dstS)
    (hdO : at2 r.distMCSs trio.cIdx (trio.oIdx * susoA.length + tO.sIdx) = some dstO) :
    nextCell r cIdx sIdx susoMap trio quad =
      if dstS < dstO then some (cIdx, sIdx, susoMap.length, tD.sIdx)
      else some (trio.cIdx, trio.oIdx, susoA.length, tO.sIdx) := by
  unfold nextCell
  rw [hA]
  dsimp only
  rw [if_pos hP, hl]
  dsimp only
  rw [if_neg (not_not.2 hn), hlO]
  dsimp only
  rw [hdS, hdO]
  dsimp only
  rw [if_neg hnP, hlO]

theorem nextCell_cmpS {D : Type} [LinearOrder D] (r : Router D) (cIdx sIdx : Nat)
    (susoMap susoA : List (Nat × TriType)) (trio : TriType) (quad : QudType) (tD tO : TriType)
    (dstS dstO : D)
    (hA : r.susoMaps[trio.cIdx]? = some susoA) (hP : cIdx ≠ quad.cIdxP) (hS : cIdx = quad.cIdxS)
    (hl : susoMap.lookup quad.sIdxS = some tD) (hn : trio.cIdx = quad.cIdxP)
    (hlO : susoA.lookup quad.sIdxP = some tO)
    (hdS : at2 r.distMCSs cIdx (sIdx * susoMap.length + tD.sIdx) = some dstS)
    (hdO : at2 r.distMCSs trio.cIdx (trio.oIdx * susoA.length + tO.sIdx) = some dstO) :
    nextCell r cIdx sIdx susoMap trio quad =
      if dstS < dstO then some (cIdx, sIdx, susoMap.length, tD.sIdx)
      else some (trio.cIdx, trio.oIdx, susoA.length, tO.sIdx) := by
  unfold nextCell
  rw [hA]
  dsimp only
  rw [if_neg hP, if_pos hS, hl]
  dsimp only
  rw [if_neg (not_not.2 hn), hlO]
  dsimp only
  rw [hdS, hdO]
  dsimp only
  rw [if_pos hn, hlO]


theorem nextCell_spec {D : Type} [LinearOrderedAddCommMonoidWithTop D] {r : Router D}
    {nSizes : List Nat} (h : Sound r nSizes) (c t : Nat) (hc : c < nSizes.length)
    (ht : t < r.ySize c) (hx : (r.entry c t).2.cIdx ≠ c) :
    ∃ cD s1 sD, nextCell r c (r.key c t) (r.susoMap c) (r.entry c t).2
        (r.quad (r.hop (r.gid c t))) = some (cD, s1, r.ySize cD, sD) ∧
      cD < nSizes.length ∧ s1 < nSizes.getD cD 0 ∧ sD < r.ySize cD ∧ s1 ≠ r.key cD sD ∧
      r.gid cD sD = r.hop (r.gid c t) ∧
      r.gsh (r.gid c t) = r.ld cD s1 sD + r.gsh (r.hop (r.gid c t)) := by
  obtain ⟨hG, hne, hPS, ⟨t1, ht1, hk1, hg1⟩, hside, hreal⟩ := h.hop c hc t ht hx
  have hs := h.subs c hc t ht
  have hc1 : (r.entry c t).2.cIdx < nSizes.length := hs.2.2.2.1
  have hs1 := h.subs _ hc1 t1 ht1
  have sideC := hside c (by rw [h.maps]; exact hc) (Or.inl rfl)
  have sideA := hside (r.entry c t).2.cIdx (by rw [h.maps]; exact hc1) (Or.inr rfl)
  have hmA := h.maps_at _ hc1
  have hyA : (r.susoMap (r.entry c t).2.cIdx).length = r.ySize (r.entry c t).2.cIdx := rfl
  have hyC : (r.susoMap c).length = r.ySize c := rfl
  generalize hq : r.quad (r.hop (r.gid c t)) = q at hPS sideC sideA ⊢
  generalize hGd : r.hop (r.gid c t) = G at hG hne sideC sideA hreal ⊢
  generalize hc1d : (r.entry c t).2.cIdx = c1 at hx hc1 ht1 hk1 hg1 hs1 sideA hreal hmA hyA ⊢
  -- the candidates
  have goodC : ∀ p, p < r.ySize c → r.gid c p = G → r.key c t ≠ r.key c p := by
    intro p hp hgp hk
    have := h.key_inj c t p hc ht hp hk
    subst this
    exact hne hgp.symm
  have goodA : ∀ p, p < r.ySize c1 → r.gid c1 p = G → (r.entry c t).2.oIdx ≠ r.key c1 p := by
    intro p hp hgp hk
    rw [← hk1] at hk
    have := h.key_inj c1 t1 p hc1 ht1 hp hk
    subst this
    rw [hg1] at hgp
    exact hne hgp.symm
  have hoA : (r.entry c t).2.oIdx < nSizes.getD c1 0 := by rw [← hk1]; exact hs1.2.1
  have eqC : ∀ p, p < r.ySize c → r.gid c p = G →
      (∀ p1, p1 < r.ySize c1 → r.gid c1 p1 = G →
        r.ld c (r.key c t) p ≤ r.ld c1 (r.entry c t).2.oIdx p1) →
      r.gsh (r.gid c t) = r.ld c (r.key c t) p + r.gsh G := by
    intro p hp hgp hle
    rcases hreal with ⟨p0, hp0, hg0, heq⟩ | ⟨p1, hp1, hg1', heq⟩
    · have := (h.subs c hc p hp).2.2.2.2 p0 hp0 (hgp.trans hg0.symm)
      subst this
      exact heq
    · apply le_antisymm
      · have := h.tri c hc t ht p hp
        rw [hgp] at this
        exact this
      · rw [heq]
        exact add_le_add_right (hle p1 hp1 hg1') _
  have eqA : ∀ p1, p1 < r.ySize c1 → r.gid c1 p1 = G →
      (∀ p, p < r.ySize c → r.gid c p = G →
        r.ld c1 (r.entry c t).2.oIdx p1 ≤ r.ld c (r.key c t) p) →
      r.gsh (r.gid c t) = r.ld c1 (r.entry c t).2.oIdx p1 + r.gsh G := by
    intro p1 hp1 hgp hle
    rcases hreal with ⟨p0, hp0, hg0, heq⟩ | ⟨p2, hp2, hg2, heq⟩
    · apply le_antisymm
      · have := h.tri c1 hc1 t1 ht1 p1 hp1
        rw [hgp, hg1, hk1] at this
        exact this
      · rw [heq]
        exact add_le_add_right (hle p0 hp0 hg0) _
    · have := (h.subs c1 hc1 p1 hp1).2.2.2.2 p2 hp2 (hgp.trans hg2.symm)
      subst this
      exact heq
  have lkC : ∀ p, p < r.ySize c → ∀ s, r.key c p = s →
      (r.susoMap c).lookup s = some (r.entry c p).2 ∧ (r.entry c p).2.sIdx = p := by
    intro p hp s hk
    rw [← hk]
    exact ⟨h.lookup_key c p hc hp, (h.subs c hc p hp).1⟩
  have lkA : ∀ p, p < r.ySize c1 → ∀ s, r.key c1 p = s →
      (r.susoMap c1).lookup s = some (r.entry c1 p).2 ∧ (r.entry c1 p).2.sIdx = p := by
    intro p hp s hk
    rw [← hk]
    exact ⟨h.lookup_key c1 p hc1 hp, (h.subs c1 hc1 p hp).1⟩
  have uniqC : ∀ p p0, p < r.ySize c → p0 < r.ySize c → r.gid c p = G → r.gid c p0 = G → p0 = p :=
    fun p p0 hp hp0 a b => ((h.subs c hc p hp).2.2.2.2 p0 hp0 (a.trans b.symm)).symm
  have uniqA : ∀ p p0, p < r.ySize c1 → p0 < r.ySize c1 → r.gid c1 p = G → r.gid c1 p0 = G →
      p0 = p :=
    fun p p0 hp hp0 a b => ((h.subs c1 hc1 p hp).2.2.2.2 p0 hp0 (a.trans b.symm)).symm
  -- a stay in the cell, when the other cell has no side of `G`
  have stayOnly : ∀ p, p < r.ySize c → r.gid c p = G → c1 ≠ q.cIdxP → c1 ≠ q.cIdxS →
      r.gsh (r.gid c t) = r.ld c (r.key c t) p + r.gsh G := by
    intro p hp hgp n1 n2
    apply eqC p hp hgp
    intro p1 hp1 hgp1
    rcases sideA.2.2 p1 hp1 hgp1 with e | e
    · exact absurd e n1
    · exact absurd e n2
  have switchOnly : ∀ p1, p1 < r.ySize c1 → r.gid c1 p1 = G → c ≠ q.cIdxP → c ≠ q.cIdxS →
      r.gsh (r.gid c t) = r.ld c1 (r.entry c t).2.oIdx p1 + r.gsh G := by
    intro p1 hp1 hgp1 n1 n2
    apply eqA p1 hp1 hgp1
    intro p hp hgp
    rcases sideC.2.2 p hp hgp with e | e
    · exact absurd e n1
    · exact absurd e n2
  -- the comparison of the two cells
  have both : ∀ p p1, p < r.ySize c → p1 < r.ySize c1 → r.gid c p = G → r.gid c1 p1 = G →
      (r.ld c (r.key c t) p < r.ld c1 (r.entry c t).2.oIdx p1 →
        r.gsh (r.gid c t) = r.ld c (r.key c t) p + r.gsh G) ∧
      (¬ r.ld c (r.key c t) p < r.ld c1 (r.entry c t).2.oIdx p1 →
        r.gsh (r.gid c t) = r.ld c1 (r.entry c t).2.oIdx p1 + r.gsh G) := by
    intro p p1 hp hp1 hgp hgp1
    constructor
    · intro hlt
      apply eqC p hp hgp
      intro p2 hp2 hg2
      rw [uniqA p1 p2 hp1 hp2 hgp1 hg2]
      exact le_of_lt hlt
    · intro hlt
      apply eqA p1 hp1 hgp1
      intro p2 hp2 hg2
      rw [uniqC p p2 hp hp2 hgp hg2]
      exact not_lt.1 hlt
  have hA : r.susoMaps[(r.entry c t).2.cIdx]? = some (r.susoMap c1) := by rw [hc1d]; exact hmA
  have hnx : (r.entry c t).2.cIdx ≠ c := by rw [hc1d]; exact hx
  by_cases hP : c = q.cIdxP
  · obtain ⟨p, hp, hkp, hgp⟩ := sideC.1 hP
    obtain ⟨l1, l2⟩ := lkC p hp _ hkp
    have hc1P : c1 ≠ q.cIdxP := fun e => hx (e.trans hP.symm)
    by_cases hS : c1 = q.cIdxS
    · obtain ⟨p1, hp1, hkp1, hgp1⟩ := sideA.2.1 hS
      obtain ⟨m1, m2⟩ := lkA p1 hp1 _ hkp1
      obtain ⟨b1, b2⟩ := both p p1 hp hp1 hgp hgp1
      have e := nextCell_cmpP r c (r.key c t) (r.susoMap c) (r.susoMap c1) (r.entry c t).2 q
        (r.entry c p).2 (r.entry c1 p1).2 (r.ld c (r.key c t) p)
        (r.ld c1 (r.entry c t).2.oIdx p1) hA hP l1 (by rw [hc1d]; exact hS)
        (by rw [hc1d]; exact hc1P) m1
        (by rw [l2, hyC]; exact h.ld_at c _ p hc hs.2.1 hp)
        (by rw [m2, hyA, hc1d]; exact h.ld_at c1 _ p1 hc1 hoA hp1)
      by_cases hlt : r.ld c (r.key c t) p < r.ld c1 (r.entry c t).2.oIdx p1
      · refine ⟨c, r.key c t, p, ?_, hc, hs.2.1, hp, goodC p hp hgp, hgp, b1 hlt⟩
        rw [e, if_pos hlt, l2, hyC]
      · refine ⟨c1, (r.entry c t).2.oIdx, p1, ?_, hc1, hoA, hp1, goodA p1 hp1 hgp1, hgp1, b2 hlt⟩
        rw [e, if_neg hlt, m2, hyA, hc1d]
    · refine ⟨c, r.key c t, p, ?_, hc, hs.2.1, hp, goodC p hp hgp, hgp,
        stayOnly p hp hgp hc1P hS⟩
      rw [nextCell_stayP r c (r.key c t) (r.susoMap c) (r.susoMap c1) (r.entry c t).2 q
        (r.entry c p).2 hA hP l1 (by rw [hc1d]; exact hS), l2, hyC]
  · by_cases hS : c = q.cIdxS
    · obtain ⟨p, hp, hkp, hgp⟩ := sideC.2.1 hS
      obtain ⟨l1, l2⟩ := lkC p hp _ hkp
      have hc1S : c1 ≠ q.cIdxS := fun e => hx (e.trans hS.symm)
      by_cases hP1 : c1 = q.cIdxP
      · obtain ⟨p1, hp1, hkp1, hgp1⟩ := sideA.1 hP1
        obtain ⟨m1, m2⟩ := lkA p1 hp1 _ hkp1
        obtain ⟨b1, b2⟩ := both p p1 hp hp1 hgp hgp1
        have e := nextCell_cmpS r c (r.key c t) (r.susoMap c) (r.susoMap c1) (r.entry c t).2 q
          (r.entry c p).2 (r.entry c1 p1).2 (r.ld c (r.key c t) p)
          (r.ld c1 (r.entry c t).2.oIdx p1) hA hP hS l1 (by rw [hc1d]; exact hP1) m1
          (by rw [l2, hyC]; exact h.ld_at c _ p hc hs.2.1 hp)
          (by rw [m2, hyA, hc1d]; exact h.ld_at c1 _ p1 hc1 hoA hp1)
        by_cases hlt : r.ld c (r.key c t) p < r.ld c1 (r.entry c t).2.oIdx p1
        · refine ⟨c, r.key c t, p, ?_, hc, hs.2.1, hp, goodC p hp hgp, hgp, b1 hlt⟩
          rw [e, if_pos hlt, l2, hyC]
        · refine ⟨c1, (r.entry c t).2.oIdx, p1, ?_, hc1, hoA, hp1, goodA p1 hp1 hgp1, hgp1, b2 hlt⟩
          rw [e, if_neg hlt, m2, hyA, hc1d]
      · refine ⟨c, r.key c t, p, ?_, hc, hs.2.1, hp, goodC p hp hgp, hgp,
          stayOnly p hp hgp hP1 hc1S⟩
        rw [nextCell_stayS r c (r.key c t) (r.susoMap c) (r.susoMap c1) (r.entry c t).2 q
          (r.entry c p).2 hA hP hS l1 (by rw [hc1d]; exact hP1), l2, hyC]
    · -- the next global line has no side in the cell
      have hin : ∃ p1, p1 < r.ySize c1 ∧ r.gid c1 p1 = G := by
        rcases hreal with ⟨p0, hp0, hg0, -⟩ | ⟨p1, hp1, hg1', -⟩
        · rcases sideC.2.2 p0 hp0 hg0 with e | e
          · exact absurd e hP
          · exact absurd e hS
        · exact ⟨p1, hp1, hg1'⟩
      obtain ⟨p0, hp0, hg0⟩ := hin
      have hlk : ∃ p1, p1 < r.ySize c1 ∧ r.gid c1 p1 = G ∧
          (r.susoMap c1).lookup (if (r.entry c t).2.cIdx = q.cIdxP then q.sIdxP else q.sIdxS) =
            some (r.entry c1 p1).2 ∧ (r.entry c1 p1).2.sIdx = p1 := by
        rw [hc1d]
        by_cases hP1 : c1 = q.cIdxP
        · obtain ⟨p1, hp1, hkp1, hgp1⟩ := sideA.1 hP1
          obtain ⟨m1, m2⟩ := lkA p1 hp1 _ hkp1
          exact ⟨p1, hp1, hgp1, by rw [if_pos hP1]; exact m1, m2⟩
        · have hS1 : c1 = q.cIdxS := by
            rcases sideA.2.2 p0 hp0 hg0 with e | e
            · exact absurd e hP1
            · exact e
          obtain ⟨p1, hp1, hkp1, hgp1⟩ := sideA.2.1 hS1
          obtain ⟨m1, m2⟩ := lkA p1 hp1 _ hkp1
          exact ⟨p1, hp1, hgp1, by rw [if_neg hP1]; exact m1, m2⟩
      obtain ⟨p1, hp1, hgp1, m1, m2⟩ := hlk
      refine ⟨c1, (r.entry c t).2.oIdx, p1, ?_, hc1, hoA, hp1, goodA p1 hp1 hgp1, hgp1,
        switchOnly p1 hp1 hgp1 hP hS⟩
      rw [nextCell_switch r c (r.key c t) (r.susoMap c) (r.susoMap c1) (r.entry c t).2 q
        (r.entry c1 p1).2 hA hP hS m1, m2, hyA, hc1d]

theorem nextMark_interface {D : Type} [LinearOrderedAddCommMonoidWithTop D] {r : Router D}
    {nSizes : List Nat} (h : Sound r nSizes) (c t : Nat) (hc : c < nSizes.length)
    (ht : t < r.ySize c) (hx : (r.entry c t).2.cIdx ≠ c) :
    ∃ cD s1 sD l, nextMark r c (r.key c t) = some (⟨cD, r.lp cD s1 sD⟩, l) ∧
      cD < nSizes.length ∧ s1 < nSizes.getD cD 0 ∧ sD < r.ySize cD ∧ s1 ≠ r.key cD sD ∧
      r.gid cD sD = r.hop (r.gid c t) ∧
      r.gsh (r.gid c t) = r.ld cD s1 sD + r.gsh (r.hop (r.gid c t)) := by
  obtain ⟨cD, s1, sD, hn, hcD, hs1, hsD, hne, hg, heq⟩ := nextCell_spec h c t hc ht hx
  have hs := h.subs c hc t ht
  have hG := (h.hop c hc t ht hx).1
  refine ⟨cD, s1, sD, some (r.gsh (r.hop (r.gid c t))), ?_, hcD, hs1, hsD, hne, hg, heq⟩
  have e1 : at2 r.gIdz c (r.entry c t).2.sIdx = some (r.gid c t) := by
    rw [hs.1]; exact h.gid_at c t hc ht
  simp only [nextMark, h.maps_at c hc, h.lookup_key c t hc ht, if_neg hx, e1,
    h.gShrts_at _ hs.2.2.1, h.pathM_at _ hs.2.2.1, h.gShrts_at _ hG, h.quads_at _ hG, hn,
    h.lp_at cD s1 sD hcD hs1 hsD]


theorem nextMark_step {M : Type} [LinearOrderedCancelAddCommMonoid M] {r : Router (WithTop M)}
    {nSizes : List Nat} (h : Sound r nSizes) (c e : Nat) (hc : c < nSizes.length)
    (he : e < nSizes.getD c 0) :
    ∃ d l, nextMark r c e = some (d, l) ∧
      ((isExit r.susoMaps c e = true ∧ d = ⟨c, e⟩) ∨
        (isExit r.susoMaps c e = false ∧ d.cIdx < nSizes.length ∧
          d.sIdx < nSizes.getD d.cIdx 0 ∧ r.pot d.cIdx d.sIdx < r.pot c e)) := by
  cases hl : (r.susoMap c).lookup e with
  | none =>
    obtain ⟨i, l, hi, hn, hmin⟩ := nextMark_interior h c e hc he hl
    have hk : e ≠ r.key c i := fun e0 => h.of_lookup_none c e hl i hi e0.symm
    obtain ⟨p1, p2⟩ := h.par c hc i hi e he hk
    have hfin := (h.fin _ (h.subs c hc i hi).2.2.1).1
    refine ⟨_, l, hn, Or.inr ⟨?_, hc, p1, ?_⟩⟩
    · simp only [isExit, h.maps_at c hc, hl]
    · calc r.pot c (r.lp c e i) ≤ r.ld c (r.lp c e i) i + r.gsh (r.gid c i) := r.pot_le c _ i hi
        _ < r.ld c e i + r.gsh (r.gid c i) := WithTop.add_lt_add_right hfin p2
        _ ≤ r.pot c e := r.le_pot c e _ hmin
  | some trio =>
    obtain ⟨t, ht, hk, htr⟩ := h.of_lookup c e trio hl
    by_cases hx : trio.cIdx = c
    · obtain ⟨a, b⟩ := nextMark_exit h c e hc trio hl hx
      exact ⟨_, _, a, Or.inl ⟨b, rfl⟩⟩
    · rw [← htr] at hx
      obtain ⟨cD, s1, sD, l, hn, hcD, hs1, hsD, hne, hg, heq⟩ := nextMark_interface h c t hc ht hx
      rw [hk] at hn
      obtain ⟨p1, p2⟩ := h.par cD hcD sD hsD s1 hs1 hne
      have hG := (h.hop c hc t ht hx).1
      have hfin := (h.fin _ hG).1
      refine ⟨_, l, hn, Or.inr ⟨?_, hcD, p1, ?_⟩⟩
      · rw [htr] at hx
        simp only [isExit, h.maps_at c hc, hl]
        simpa using hx
      · calc r.pot cD (r.lp cD s1 sD) ≤ r.ld cD (r.lp cD s1 sD) sD + r.gsh (r.gid cD sD) :=
            r.pot_le cD _ sD hsD
          _ = r.ld cD (r.lp cD s1 sD) sD + r.gsh (r.hop (r.gid c t)) := by rw [hg]
          _ < r.ld cD s1 sD + r.gsh (r.hop (r.gid c t)) := WithTop.add_lt_add_right hfin p2
          _ = r.gsh (r.gid c t) := heq.symm
          _ ≤ r.pot c e := r.le_pot c e _ (fun i hi => by
              have := h.tri c hc t ht i hi
              rw [hk] at this
              exact this)

theorem at2_map {α β : Type} (f : α → β) (L : List (List α)) (c k : Nat) :
    at2 (L.map fun row => row.map f) c k = (at2 L c k).map f := by
  unfold at2
  rw [List.getElem?_map]
  cases L[c]? with
  | none => rfl
  | some row => simp

theorem at2_range {α : Type} (n : Nat) (m : Nat → Nat) (G : Nat → Nat → α) (c e : Nat)
    (hc : c < n) (he : e < m c) :
    at2 ((List.range n).map fun i => (List.range (m i)).map (G i)) c e = some (G c e) := by
  unfold at2
  rw [List.getElem?_map, List.getElem?_range hc]
  simp only [Option.map_some']
  rw [List.getElem?_map, List.getElem?_range he]
  rfl

theorem populateNexts_spec {D : Type} [LinearOrderedAddCommMonoidWithTop D] (r : Router D)
    (nSizes : List Nat)
    (hall : ∀ c, c < nSizes.length → ∀ e, e < nSizes.getD c 0 → ∃ res, nextMark r c e = some res) :
    ∃ nextz lShrtz, populateNexts r nSizes = some (nextz, lShrtz) ∧
      ∀ c, c < nSizes.length → ∀ e, e < nSizes.getD c 0 →
        ∃ d l, nextMark r c e = some (d, l) ∧ at2 nextz c e = some d ∧
          at2 lShrtz c e = some (l.getD 0) := by
  have h1 : (List.range nSizes.length).mapM (fun i =>
      (List.range (nSizes.getD i 0)).mapM fun j =>
        (nextMark r i j).map fun res => (res.1, res.2.getD 0)) =
      some ((List.range nSizes.length).map fun i => (List.range (nSizes.getD i 0)).map fun j =>
        (((nextMark r i j).getD (⟨0, 0⟩, none)).1,
          ((nextMark r i j).getD (⟨0, 0⟩, none)).2.getD 0)) := by
    apply mapM_option_eq
    intro c hc
    apply mapM_option_eq
    intro e he
    obtain ⟨res, hres⟩ := hall c (List.mem_range.1 hc) e (List.mem_range.1 he)
    rw [hres]
    rfl
  refine ⟨_, _, by unfold populateNexts; rw [h1]; rfl, ?_⟩
  intro c hc e he
  obtain ⟨⟨d, l⟩, hres⟩ := hall c hc e he
  refine ⟨d, l, hres, ?_, ?_⟩
  · rw [at2_map, at2_range _ _ _ c e hc he, hres]
    rfl
  · rw [at2_map, at2_range _ _ _ c e hc he, hres]
    rfl

theorem countP_lt_of_imp {α : Type} (p q : α → Bool) :
    ∀ (l : List α), (∀ x ∈ l, p x = true → q x = true) →
      ∀ a ∈ l, q a = true → p a = false → l.countP p < l.countP q := by
  intro l
  induction l with
  | nil => intro _ a ha; cases ha
  | cons x l ih =>
    intro himp a ha hq hp
    have hle : l.countP p ≤ l.countP q :=
      List.countP_mono_left (fun y hy => himp y (List.mem_cons_of_mem _ hy))
    rcases List.mem_cons.1 ha with rfl | ha
    · rw [List.countP_cons_of_pos _ _ hq, List.countP_cons_of_neg _ _ (by simp [hp])]
      omega
    · have := ih (fun y hy => himp y (List.mem_cons_of_mem _ hy)) a ha hq hp
      cases hpx : p x with
      | true =>
        rw [List.countP_cons_of_pos _ _ hpx,
          List.countP_cons_of_pos _ _ (himp x (List.mem_cons_self _ _) hpx)]
        omega
      | false =>
        rw [List.countP_cons_of_neg _ _ (by simp [hpx])]
        have := List.countP_le_length q (l := l)
        cases hqx : q x with
        | true => rw [List.countP_cons_of_pos _ _ hqx]; omega
        | false => rw [List.countP_cons_of_neg _ _ (by simp [hqx])]; omega

theorem mem_edgesOf (nSizes : List Nat) (c e : Nat) :
    (c, e) ∈ edgesOf nSizes ↔ c < nSizes.length ∧ e < nSizes.getD c 0 := by
  unfold edgesOf
  simp only [List.mem_flatMap, List.mem_range, List.mem_map, Prod.mk.injEq]
  constructor
  · rintro ⟨a, ha, b, hb, rfl, rfl⟩
    exact ⟨ha, hb⟩
  · rintro ⟨h1, h2⟩
    exact ⟨c, h1, e, h2, rfl, rfl⟩

theorem length_edgesOf (nSizes : List Nat) : (edgesOf nSizes).length = nSizes.sum := by
  unfold edgesOf
  rw [List.length_flatMap]
  have : (List.range nSizes.length).map
      (List.length ∘ fun c => (List.range (nSizes.getD c 0)).map fun e => (c, e)) = nSizes := by
    apply List.ext_getElem
    · simp
    · intro i h1 h2
      simp [List.getElem?_eq_getElem h2]
  rw [this]


theorem chain_exit {M : Type} [LinearOrderedCancelAddCommMonoid M] {r : Router (WithTop M)}
    {nSizes : List Nat} (h : Sound r nSizes) (nextz : List (List DuoType))
    (hnext : ∀ c, c < nSizes.length → ∀ e, e < nSizes.getD c 0 →
      ∃ d l, nextMark r c e = some (d, l) ∧ at2 nextz c e = some d) :
    ∀ (n c e : Nat), c < nSizes.length → e < nSizes.getD c 0 →
      (edgesOf nSizes).countP (fun u => decide (r.pot u.1 u.2 < r.pot c e)) ≤ n →
      ∃ k, 1 ≤ k ∧ k ≤ n + 1 ∧ ∃ d, follow nextz k ⟨c, e⟩ = some d ∧
        isExit r.susoMaps d.cIdx d.sIdx = true := by
  intro n
  induction n with
  | zero =>
    intro c e hc he hr
    obtain ⟨d, l, hn, hcase⟩ := nextMark_step h c e hc he
    obtain ⟨d1, l1, hn1, hat⟩ := hnext c hc e he
    rw [hn] at hn1
    have hd : d1 = d := (congrArg Prod.fst (Option.some.inj hn1)).symm
    subst hd
    rcases hcase with ⟨hex, hd⟩ | ⟨-, hdc, hds, hlt⟩
    · refine ⟨1, le_refl _, le_refl _, d1, ?_, ?_⟩
      · simp only [follow, hat, Option.some_bind]
      · rw [hd]; exact hex
    · exfalso
      have hpos : 0 < (edgesOf nSizes).countP (fun u => decide (r.pot u.1 u.2 < r.pot c e)) :=
        List.countP_pos_iff.2 ⟨(d1.cIdx, d1.sIdx), (mem_edgesOf _ _ _).2 ⟨hdc, hds⟩, by simpa using hlt⟩
      omega
  | succ n ih =>
    intro c e hc he hr
    obtain ⟨d, l, hn, hcase⟩ := nextMark_step h c e hc he
    obtain ⟨d1, l1, hn1, hat⟩ := hnext c hc e he
    rw [hn] at hn1
    have hd : d1 = d := (congrArg Prod.fst (Option.some.inj hn1)).symm
    subst hd
    rcases hcase with ⟨hex, hd⟩ | ⟨-, hdc, hds, hlt⟩
    · refine ⟨1, le_refl _, by omega, d1, ?_, ?_⟩
      · simp only [follow, hat, Option.some_bind]
      · rw [hd]; exact hex
    · have hrank := countP_lt_of_imp
        (fun u : Nat × Nat => decide (r.pot u.1 u.2 < r.pot d1.cIdx d1.sIdx))
        (fun u : Nat × Nat => decide (r.pot u.1 u.2 < r.pot c e)) (edgesOf nSizes)
        (fun x _ hx => by
          have hx : r.pot x.1 x.2 < r.pot d1.cIdx d1.sIdx := by simpa using hx
          simpa using lt_trans hx hlt)
        (d1.cIdx, d1.sIdx) ((mem_edgesOf _ _ _).2 ⟨hdc, hds⟩) (by simpa using hlt) (by simp)
      obtain ⟨k, hk1, hk2, d2, hf, hex⟩ := ih d1.cIdx d1.sIdx hdc hds (by omega)
      refine ⟨k + 1, by omega, by omega, d2, ?_, hex⟩
      simp only [follow, hat, Option.some_bind]
      exact hf

/-- For a router whose tables are sound (`Sound`), `Router::populateNexts` returns,
and from every non-solid edge `(c, e)` between one and `N` applications of `nextz`
lead to an exit, `N` being the total number of non-solid edges. -/
theorem sound_reaches_exit {M : Type} [LinearOrderedCancelAddCommMonoid M]
    (r : Router (WithTop M)) (nSizes : List Nat) (h : Sound r nSizes) :
    ∃ nextz lShrtz, populateNexts r nSizes = some (nextz, lShrtz) ∧
      ∀ c e, c < nSizes.length → e < nSizes.getD c 0 →
        ∃ k, 1 ≤ k ∧ k ≤ nSizes.sum ∧ ∃ d, follow nextz k ⟨c, e⟩ = some d ∧
          isExit r.susoMaps d.cIdx d.sIdx = true := by
  obtain ⟨nextz, lShrtz, hp, hat⟩ := populateNexts_spec r nSizes (fun c hc e he => by
    obtain ⟨d, l, hn, -⟩ := nextMark_step h c e hc he
    exact ⟨_, hn⟩)
  refine ⟨nextz, lShrtz, hp, ?_⟩
  intro c e hc he
  have hlt : (edgesOf nSizes).countP (fun u => decide (r.pot u.1 u.2 < r.pot c e)) <
      (edgesOf nSizes).countP (fun _ => true) :=
    countP_lt_of_imp _ _ _ (fun _ _ _ => rfl) (c, e) ((mem_edgesOf _ _ _).2 ⟨hc, he⟩) rfl
      (by simp)
  have hall : (edgesOf nSizes).countP (fun _ => true) = nSizes.sum := by
    rw [List.countP_true, length_edgesOf]
  obtain ⟨k, hk1, hk2, hk3⟩ := chain_exit h nextz
    (fun c hc e he => by
      obtain ⟨d, l, a, b, -⟩ := hat c hc e he
      exact ⟨d, l, a, b⟩)
    (nSizes.sum - 1) c e hc he (by omega)
  exact ⟨k, hk1, by omega, hk3⟩

/-! ### The tolerant comparisons and `orderPoints` -/

theorem epsilon_pos {K : Type} [LinearOrderedField K] : (0 : K) < epsilon := by
  unfold epsilon; positivity

theorem epsilon_lt {K : Type} [LinearOrderedField K] : (epsilon : K) * 2 < 1 := by
  unfold epsilon
  rw [div_mul_eq_mul_div, div_lt_one (by positivity)]
  norm_num

theorem minNormal_pos {K : Type} [LinearOrderedField K] : (0 : K) < minNormal := by
  unfold minNormal; positivity

theorem tol_nonneg {K : Type} [LinearOrderedField K] (x y : K) :
    0 ≤ epsilon * |x + y| * 2 :=
  mul_nonneg (mul_nonneg (le_of_lt epsilon_pos) (abs_nonneg _)) (by norm_num)

theorem fLess_lt {K : Type} [LinearOrderedField K] (x y : K) (h : fLess x y = true) : x < y := by
  simp only [fLess, Bool.or_eq_true, decide_eq_true_eq] at h
  rcases h with h | h
  · have := tol_nonneg x y
    linarith
  · have := minNormal_pos (K := K)
    linarith

theorem fELess_of_le {K : Type} [LinearOrderedField K] (x y : K) (h : x ≤ y) :
    fELess x y = true := by
  simp only [fELess, fLess, fEqual, Bool.or_eq_true, decide_eq_true_eq]
  by_cases h1 : y - x ≥ minNormal
  · exact Or.inl (Or.inr h1)
  · right; right
    rw [abs_sub_comm, abs_of_nonneg (by linarith)]
    linarith

theorem fEqual_comm {K : Type} [LinearOrderedField K] (x y : K) : fEqual x y = fEqual y x := by
  simp only [fEqual, abs_sub_comm x y, add_comm x y]

theorem tolerant_cover {K : Type} [LinearOrderedField K] (x y : K) :
    fLess x y = true ∨ fEqual x y = true ∨ fLess y x = true := by
  rcases lt_trichotomy x y with h | h | h
  · by_cases h1 : y - x ≥ minNormal
    · left
      simp only [fLess, Bool.or_eq_true, decide_eq_true_eq]
      exact Or.inr h1
    · right; left
      simp only [fEqual, Bool.or_eq_true, decide_eq_true_eq]
      right
      rw [abs_sub_comm, abs_of_nonneg (by linarith)]
      linarith
  · right; left
    subst h
    simp only [fEqual, Bool.or_eq_true, decide_eq_true_eq, sub_self, abs_zero]
    exact Or.inr minNormal_pos
  · by_cases h1 : x - y ≥ minNormal
    · right; right
      simp only [fLess, Bool.or_eq_true, decide_eq_true_eq]
      exact Or.inr h1
    · right; left
      simp only [fEqual, Bool.or_eq_true, decide_eq_true_eq]
      right
      rw [abs_of_nonneg (by linarith)]
      linarith

theorem fLess_asymm {K : Type} [LinearOrderedField K] (x y : K) (h : fLess x y = true) :
    fLess y x = false := by
  rw [Bool.eq_false_iff]
  intro h1
  have a := fLess_lt x y h
  have b := fLess_lt y x h1
  exact lt_asymm a b

theorem fELess_of_not_fLess {K : Type} [LinearOrderedField K] (x y : K)
    (h : fLess y x = false) : fELess x y = true := by
  rcases tolerant_cover x y with h1 | h1 | h1
  · simp [fELess, h1]
  · simp [fELess, h1]
  · rw [h] at h1; cases h1


/-- What remains of claim C16: at least one of `fLess(x, y)`, `fEqual(x, y)`,
`fLess(y, x)` holds, the two `fLess` never hold together, and `fELess(x, y)` holds
whenever `fLess(y, x)` does not. -/
theorem tolerant_consistency {K : Type} [LinearOrderedField K] (x y : K) :
    (fLess x y = true ∨ fEqual x y = true ∨ fLess y x = true) ∧
    ¬ (fLess x y = true ∧ fLess y x = true) ∧
    (fLess y x = false → fELess x y = true) := by
  refine ⟨tolerant_cover x y, ?_, fELess_of_not_fLess x y⟩
  rintro ⟨h1, h2⟩
  have := fLess_asymm x y h1
  rw [h2] at this
  cases this

/-- C16, divergence: for `x = 1` and `y = 1 + ε`, two neighbouring doubles,
`fLess(x, y)` and `fEqual(x, y)` are both true (the second disjunct of `fLess`
accepts every difference of at least the least normal number), and `fELess(y, x)`
is true although `fLess(x, y)` is true as well. -/
theorem fLess_fEqual_overlap :
    fLess (1 : ℚ) (1 + epsilon) = true ∧ fEqual (1 : ℚ) (1 + epsilon) = true ∧
    fELess (1 + epsilon : ℚ) 1 = true ∧ (fELess (1 + epsilon : ℚ) 1 ≠ !fLess (1 : ℚ) (1 + epsilon)) := by
  decide!

theorem Point.le_total (u v : Point ℚ) (h : u.le v = false) : v.le u = true := by
  simp only [Point.le, Bool.or_eq_false_iff, Bool.and_eq_false_iff] at h
  obtain ⟨h1, h2⟩ := h
  simp only [Point.le, Bool.or_eq_true, Bool.and_eq_true]
  rcases h2 with h2 | h2
  · rcases tolerant_cover u.x v.x with a | a | a
    · rw [h1] at a; cases a
    · rw [h2] at a; cases a
    · exact Or.inl a
  · by_cases h3 : fEqual u.x v.x = true
    · right
      refine ⟨by rw [fEqual_comm]; exact h3, ?_⟩
      simp only [fELess, Bool.or_eq_false_iff] at h2
      exact fELess_of_not_fLess _ _ h2.1
    · rcases tolerant_cover u.x v.x with a | a | a
      · rw [h1] at a; cases a
      · exact absurd a h3
      · exact Or.inl a

/-- C15: after `orderPoints` a segment (an edge or a line) satisfies `u <= v` in
the tolerant lexicographic order of `smr::Point`, and its end points are the two
end points it had, kept or swapped. -/
theorem orderPoints_le (e : Edge) (l : Line) :
    ((orderPoints e).u.le (orderPoints e).v = true ∧
      (((orderPoints e).u = e.u ∧ (orderPoints e).v = e.v) ∨
        ((orderPoints e).u = e.v ∧ (orderPoints e).v = e.u)) ∧
      (orderPoints e).idx = e.idx ∧ (orderPoints e).nbrs = e.nbrs) ∧
    ((orderPointsLine l).u.le (orderPointsLine l).v = true ∧
      (((orderPointsLine l).u = l.u ∧ (orderPointsLine l).v = l.v) ∨
        ((orderPointsLine l).u = l.v ∧ (orderPointsLine l).v = l.u))) := by
  constructor
  · unfold orderPoints
    by_cases h : e.u.le e.v = true
    · rw [if_pos h]
      exact ⟨h, Or.inl ⟨rfl, rfl⟩, rfl, rfl⟩
    · rw [if_neg h]
      exact ⟨Point.le_total _ _ (by simpa using h), Or.inr ⟨rfl, rfl⟩, rfl, rfl⟩
  · unfold orderPointsLine
    by_cases h : l.u.le l.v = true
    · rw [if_pos h]
      exact ⟨h, Or.inl ⟨rfl, rfl⟩⟩
    · rw [if_neg h]
      exact ⟨Point.le_total _ _ (by simpa using h), Or.inr ⟨rfl, rfl⟩⟩

/-! ### Exits are the fixed points of `nextz` -/

theorem mapM_option_inv {α β : Type} (f : α → Option β) :
    ∀ (l : List α) (ys : List β), l.mapM f = some ys →
      ∀ (i : Nat) (x : α), l[i]? = some x → ∃ y, f x = some y ∧ ys[i]? = some y := by
  intro l
  induction l with
  | nil => intro ys _ i x hx; simp at hx
  | cons a l ih =>
    intro ys h i x hx
    rw [List.mapM_cons] at h
    cases ha : f a with
    | none => rw [ha] at h; cases h
    | some b =>
      rw [ha] at h
      cases hl : l.mapM f with
      | none => rw [hl] at h; cases h
      | some bs =>
        rw [hl] at h
        have hy : ys = b :: bs := (Option.some.inj h).symm
        subst hy
        cases i with
        | zero =>
          simp at hx
          subst hx
          exact ⟨b, ha, by simp⟩
        | succ i =>
          rw [List.getElem?_cons_succ] at hx
          obtain ⟨y, h1, h2⟩ := ih bs hl i x hx
          exact ⟨y, h1, by rw [List.getElem?_cons_succ]; exact h2⟩

theorem populateNexts_inv {D : Type} [LinearOrderedAddCommMonoidWithTop D] (r : Router D)
    (nSizes : List Nat) (nextz : List (List DuoType)) (lShrtz : List (List D))
    (h : populateNexts r nSizes = some (nextz, lShrtz)) (c e : Nat) (hc : c < nSizes.length)
    (he : e < nSizes.getD c 0) :
    ∃ d l, nextMark r c e = some (d, l) ∧ at2 nextz c e = some d ∧
      at2 lShrtz c e = some (l.getD 0) := by
  unfold populateNexts at h
  cases hm : (List.range nSizes.length).mapM (fun i =>
      (List.range (nSizes.getD i 0)).mapM fun j =>
        (nextMark r i j).map fun res => (res.1, res.2.getD 0)) with
  | none => rw [hm] at h; cases h
  | some rows =>
    rw [hm] at h
    obtain ⟨row, h1, h2⟩ := mapM_option_inv _ _ _ hm c c (List.getElem?_range hc)
    obtain ⟨y, h3, h4⟩ := mapM_option_inv _ _ _ h1 e e (List.getElem?_range he)
    cases hn : nextMark r c e with
    | none => rw [hn] at h3; cases h3
    | some res =>
      rw [hn] at h3
      have hy : y = (res.1, res.2.getD 0) := (Option.some.inj h3).symm
      have e1 := congrArg Prod.fst (Option.some.inj h)
      have e2 := congrArg Prod.snd (Option.some.inj h)
      simp only at e1 e2
      refine ⟨res.1, res.2, rfl, ?_, ?_⟩
      · rw [← e1, at2_map]
        unfold at2
        rw [h2]
        simp only [h4, hy, Option.map_some']
      · rw [← e2, at2_map]
        unfold at2
        rw [h2]
        simp only [h4, hy, Option.map_some']

/-- C20: for an exit edge `(c, s)` `Router::nextMark(c, s)` returns `(c, s)` and
writes nothing to `lShrtz`; hence, whenever `populateNexts` returns, `nextz[c][s]`
is `(c, s)` and `lShrtz[c][s]` keeps the `0` of the resize. -/
theorem nextMark_exit_fixed {D : Type} [LinearOrderedAddCommMonoidWithTop D] (r : Router D)
    (nSizes : List Nat) (c s : Nat) (hx : isExit r.susoMaps c s = true) :
    nextMark r c s = some (⟨c, s⟩, none) ∧
      ∀ nextz lShrtz, populateNexts r nSizes = some (nextz, lShrtz) → c < nSizes.length →
        s < nSizes.getD c 0 → at2 nextz c s = some ⟨c, s⟩ ∧ at2 lShrtz c s = some 0 := by
  have hn : nextMark r c s = some (⟨c, s⟩, none) := by
    unfold isExit at hx
    cases hm : r.susoMaps[c]? with
    | none => rw [hm] at hx; cases hx
    | some susoMap =>
      rw [hm] at hx
      dsimp only at hx
      cases hl : susoMap.lookup s with
      | none => rw [hl] at hx; cases hx
      | some trio =>
        rw [hl] at hx
        dsimp only at hx
        have : trio.cIdx = c := by simpa using hx
        simp only [nextMark, hm, hl, this, if_true]
  refine ⟨hn, ?_⟩
  intro nextz lShrtz hp hc hs
  obtain ⟨d, l, h1, h2, h3⟩ := populateNexts_inv r nSizes nextz lShrtz hp c s hc hs
  rw [hn] at h1
  have e1 := congrArg Prod.fst (Option.some.inj h1)
  have e2 := congrArg Prod.snd (Option.some.inj h1)
  simp only at e1 e2
  rw [← e1] at h2
  rw [← e2] at h3
  exact ⟨h2, h3⟩

theorem nextMark_exit_fixed_witness :
    isExit routerDuo.susoMaps 0 0 = true ∧
    populateNexts routerDuo [2, 2] =
      some ([[⟨0, 0⟩, ⟨0, 0⟩], [⟨0, 0⟩, ⟨1, 1⟩]], [[0, 0], [0, 0]]) ∧
    nextMark routerDuo 0 0 = some (⟨0, 0⟩, none) ∧
      ∀ nextz lShrtz, populateNexts routerDuo [2, 2] = some (nextz, lShrtz) → 0 < [2, 2].length →
        0 < [2, 2].getD 0 0 → at2 nextz 0 0 = some ⟨0, 0⟩ ∧ at2 lShrtz 0 0 = some 0 :=
  ⟨by decide, by decide, nextMark_exit_fixed routerDuo [2, 2] 0 0 (by decide)⟩

/-! ### `isSubsolid`, `isInterface`, `isExit`, `andIsExit` -/

theorem any_key_iff {α : Type} (l : List (Nat × α)) (k : Nat) :
    l.any (fun p => p.1 == k) = (l.lookup k).isSome := by
  induction l with
  | nil => rfl
  | cons a l ih =>
    obtain ⟨a1, a2⟩ := a
    simp only [List.any_cons, List.lookup]
    cases hk : (k == a1) with
    | true =>
      have : a1 = k := by simpa using (beq_iff_eq).1 hk |>.symm
      simp [this]
    | false =>
      have : (a1 == k) = false := by
        rw [Bool.eq_false_iff] at hk ⊢
        intro e
        exact hk (by simpa using (beq_iff_eq.1 e).symm)
      simp [this, ih]

theorem susoMapOf_lookup_acc : ∀ (ext : List TriType) (i : Nat) (acc : List (Nat × TriType))
    (s : Nat) (v : TriType), acc.lookup s = some v → (susoMapOf i ext acc).lookup s = some v := by
  intro ext
  induction ext with
  | nil => intro i acc s v h; exact h
  | cons t rest ih =>
    intro i acc s v h
    simp only [susoMapOf]
    apply ih
    split
    · exact h
    · exact lookup_append_some _ _ _ _ h

theorem susoMapOf_lookup : ∀ (ext : List TriType) (i : Nat) (acc : List (Nat × TriType))
    (s : Nat), acc.lookup s = none →
      ((susoMapOf i ext acc).lookup s).map (fun tr => tr.cIdx) =
        (ext.find? fun t => t.sIdx == s).map (fun t => t.cIdx) := by
  intro ext
  induction ext with
  | nil => intro i acc s h; simp [susoMapOf, h]
  | cons t rest ih =>
    intro i acc s h
    simp only [susoMapOf, List.find?_cons]
    by_cases hs : t.sIdx = s
    · have hany : acc.any (fun p => p.1 == t.sIdx) = false := by
        rw [any_key_iff, hs, h]; rfl
      rw [hany]
      simp only [Bool.false_eq_true, if_false]
      have : (acc ++ [(t.sIdx, (⟨i, t.cIdx, t.oIdx⟩ : TriType))]).lookup s =
          some ⟨i, t.cIdx, t.oIdx⟩ := by
        rw [lookup_append_none _ _ _ h, hs]
        simp [List.lookup]
      rw [susoMapOf_lookup_acc rest (i + 1) _ s _ this]
      simp [hs]
    · have hbeq : (t.sIdx == s) = false := by simpa using hs
      rw [hbeq]
      apply ih
      split
      · exact h
      · rw [lookup_append_none _ _ _ h]
        simp only [List.lookup]
        have : (s == t.sIdx) = false := by simpa using fun e : s = t.sIdx => hs e.symm
        rw [this]

/-- C19: with the maps of `constructSusoMaps` over the tables of a finalized
geometry, for a cell `c` and an edge index `s`: `isSubsolid` is the disjunction of
`isInterface` and `isExit`, which never hold together; `isExit` holds exactly when
an entry of `susoExtz[c]` with local index `s` names `c` itself; and `andIsExit`
returns the value of `isExit` on every subsolid edge. -/
theorem edge_classes (g : Geometry) (hm : g.susoMaps = [])
    (hd : ∀ ext ∈ g.susoExtz, (ext.map fun t => t.sIdx).Nodup)
    (c s : Nat) (ext : List TriType) (hc : g.susoExtz[c]? = some ext) :
    isSubsolid (constructSusoMaps g).susoMaps c s =
        (isInterface (constructSusoMaps g).susoMaps c s ||
          isExit (constructSusoMaps g).susoMaps c s) ∧
      ¬ (isInterface (constructSusoMaps g).susoMaps c s = true ∧
        isExit (constructSusoMaps g).susoMaps c s = true) ∧
      (isSubsolid (constructSusoMaps g).susoMaps c s = true ↔ ∃ t ∈ ext, t.sIdx = s) ∧
      (isExit (constructSusoMaps g).susoMaps c s = true ↔
        ∃ t ∈ ext, t.sIdx = s ∧ t.cIdx = c) ∧
      (isSubsolid (constructSusoMaps g).susoMaps c s = true →
        andIsExit (constructSusoMaps g).susoMaps c s =
          some (isExit (constructSusoMaps g).susoMaps c s)) := by
  have hM : (constructSusoMaps g).susoMaps[c]? = some (susoMapOf 0 ext []) := by
    simp only [constructSusoMaps, hm, List.nil_append, List.getElem?_map, hc, Option.map_some']
  have hl := susoMapOf_lookup ext 0 [] s rfl
  have hfind : ∀ t, (ext.find? fun t => t.sIdx == s) = some t → t ∈ ext ∧ t.sIdx = s := by
    intro t ht
    exact ⟨List.mem_of_find?_eq_some ht, by simpa using List.find?_some ht⟩
  have huniq : ∀ t ∈ ext, t.sIdx = s → (ext.find? fun t => t.sIdx == s) = some t := by
    intro t ht hs
    cases hf : (ext.find? fun t => t.sIdx == s) with
    | none =>
      have := List.find?_eq_none.1 hf t ht
      simp [hs] at this
    | some t1 =>
      obtain ⟨h1, h2⟩ := hfind t1 hf
      have hn := hd ext (List.getElem?_mem hc)
      have : t1 = t := by
        have hinj := List.inj_on_of_nodup_map hn
        exact hinj h1 ht (h2.trans hs.symm)
      rw [this]
  simp only [isSubsolid, isInterface, isExit, andIsExit, hM]
  cases hlk : (susoMapOf 0 ext []).lookup s with
  | none =>
    rw [hlk] at hl
    have hnone : (ext.find? fun t => t.sIdx == s) = none := by
      cases hf : (ext.find? fun t => t.sIdx == s) with
      | none => rfl
      | some t => rw [hf] at hl; cases hl
    refine ⟨rfl, by simp, ?_, ?_, by simp⟩
    · simp only [Option.isSome_none, Bool.false_eq_true, false_iff]
      rintro ⟨t, ht, hs⟩
      rw [huniq t ht hs] at hnone
      cases hnone
    · simp only [Bool.false_eq_true, false_iff]
      rintro ⟨t, ht, hs, -⟩
      rw [huniq t ht hs] at hnone
      cases hnone
  | some trio =>
    rw [hlk] at hl
    cases hf : (ext.find? fun t => t.sIdx == s) with
    | none => rw [hf] at hl; cases hl
    | some t =>
      rw [hf] at hl
      have hci : trio.cIdx = t.cIdx := by simpa using hl
      obtain ⟨h1, h2⟩ := hfind t hf
      refine ⟨?_, ?_, ?_, ?_, ?_⟩
      · by_cases hx : trio.cIdx = c <;> simp [hx]
      · by_cases hx : trio.cIdx = c <;> simp [hx]
      · simp only [Option.isSome_some, true_iff]
        exact ⟨t, h1, h2⟩
      · simp only [beq_iff_eq]
        constructor
        · intro hx
          exact ⟨t, h1, h2, hci.symm.trans hx⟩
        · rintro ⟨t1, ht1, hs1, hc1⟩
          have := huniq t1 ht1 hs1
          rw [hf] at this
          have : t = t1 := Option.some.inj this
          rw [hci, this]
          exact hc1
      · intro _
        rfl

theorem edge_classes_witness :
    (shrink (patchUp geoPair)).susoMaps = [] ∧
    (finalize 4 geoPair).2 = constructSusoMaps (shrink (patchUp geoPair)) ∧
    (isSubsolid (constructSusoMaps (shrink (patchUp geoPair))).susoMaps 0 0,
      isInterface (constructSusoMaps (shrink (patchUp geoPair))).susoMaps 0 0,
      isExit (constructSusoMaps (shrink (patchUp geoPair))).susoMaps 0 0,
      andIsExit (constructSusoMaps (shrink (patchUp geoPair))).susoMaps 0 0) =
        (true, false, true, some true) ∧
    (isSubsolid (constructSusoMaps (shrink (patchUp geoPair))).susoMaps 0 0 =
        (isInterface (constructSusoMaps (shrink (patchUp geoPair))).susoMaps 0 0 ||
          isExit (constructSusoMaps (shrink (patchUp geoPair))).susoMaps 0 0) ∧
      ¬ (isInterface (constructSusoMaps (shrink (patchUp geoPair))).susoMaps 0 0 = true ∧
        isExit (constructSusoMaps (shrink (patchUp geoPair))).susoMaps 0 0 = true) ∧
      (isSubsolid (constructSusoMaps (shrink (patchUp geoPair))).susoMaps 0 0 = true ↔
        ∃ t ∈ [(⟨2, 1, 3⟩ : TriType), ⟨0, 0, 0⟩], t.sIdx = 0) ∧
      (isExit (constructSusoMaps (shrink (patchUp geoPair))).susoMaps 0 0 = true ↔
        ∃ t ∈ [(⟨2, 1, 3⟩ : TriType), ⟨0, 0, 0⟩], t.sIdx = 0 ∧ t.cIdx = 0) ∧
      (isSubsolid (constructSusoMaps (shrink (patchUp geoPair))).susoMaps 0 0 = true →
        andIsExit (constructSusoMaps (shrink (patchUp geoPair))).susoMaps 0 0 =
          some (isExit (constructSusoMaps (shrink (patchUp geoPair))).susoMaps 0 0))) :=
  ⟨rfl, rfl, by decide,
    edge_classes (shrink (patchUp geoPair)) rfl (by decide) 0 0 _ rfl⟩

/-! ### `processCell`: duplicate indices and blobs -/

theorem mapInsert_isSome {α : Type} (m : List (Nat × α)) (k k1 : Nat) (v : α) :
    ((mapInsert m k v).lookup k1).isSome = true ↔ (m.lookup k1).isSome = true ∨ k1 = k := by
  unfold mapInsert
  by_cases hk : (m.lookup k).isSome = true
  · rw [if_pos hk]
    constructor
    · exact Or.inl
    · rintro (h | h)
      · exact h
      · rw [h]; exact hk
  · rw [if_neg hk]
    cases h1 : m.lookup k1 with
    | some x =>
      rw [lookup_append_some _ _ _ _ h1]
      simp
    | none =>
      rw [lookup_append_none _ _ _ h1]
      simp only [List.lookup, Option.isSome_none, Bool.false_eq_true, false_or]
      by_cases e : k1 = k
      · simp [e]
      · have : (k1 == k) = false := by simpa using e
        rw [this]
        simp [e]

theorem indexSusos_error_iff (cellIdxN : Nat) (nosos : List Line) :
    ∀ (entries : List (Line × TriType)) (sMap SCMap : List (Nat × Nat)) (out : List TriType),
      (∃ k, indexSusos true cellIdxN nosos entries sMap SCMap out = Except.error k) ↔
        ∃ (i : Nat) (e : Line × TriType), entries[i]? = some e ∧ e.2.cIdx ≠ cellIdxN ∧
          ((sMap.lookup e.2.sIdx).isSome = true ∨
            ∃ (j : Nat) (e1 : Line × TriType), j < i ∧ entries[j]? = some e1 ∧
              e1.2.sIdx = e.2.sIdx) := by
  intro entries
  induction entries with
  | nil =>
    intro sMap SCMap out
    constructor
    · rintro ⟨k, hk⟩
      simp [indexSusos] at hk
    · rintro ⟨i, e, hi, -⟩
      simp at hi
  | cons a rest ih =>
    intro sMap SCMap out
    obtain ⟨suso, trio⟩ := a
    by_cases hchk : (true && (cellIdxN != trio.cIdx) && (sMap.lookup trio.sIdx).isSome) = true
    · constructor
      · intro _
        simp only [Bool.true_and, Bool.and_eq_true, bne_iff_ne, ne_eq] at hchk
        exact ⟨0, (suso, trio), by simp, fun e => hchk.1 e.symm, Or.inl hchk.2⟩
      · intro _
        exact ⟨trio.sIdx, by simp only [indexSusos, hchk, if_true]⟩
    · have hstep : indexSusos true cellIdxN nosos ((suso, trio) :: rest) sMap SCMap out =
          indexSusos true cellIdxN nosos rest (mapInsert sMap trio.sIdx (localIndex nosos suso))
            (mapInsert SCMap (localIndex nosos suso) trio.cIdx)
            (out ++ [⟨localIndex nosos suso, trio.cIdx, trio.oIdx⟩]) := by
        simp only [indexSusos, hchk, if_false, Bool.false_eq_true]
      rw [hstep, ih]
      constructor
      · rintro ⟨i, e, hi, hne, hk⟩
        refine ⟨i + 1, e, by rw [List.getElem?_cons_succ]; exact hi, hne, ?_⟩
        rcases hk with hk | ⟨j, e1, hj, he1, hs⟩
        · rcases (mapInsert_isSome _ _ _ _).1 hk with h1 | h1
          · exact Or.inl h1
          · exact Or.inr ⟨0, (suso, trio), by omega, by simp, h1.symm⟩
        · exact Or.inr ⟨j + 1, e1, by omega, by rw [List.getElem?_cons_succ]; exact he1, hs⟩
      · rintro ⟨i, e, hi, hne, hk⟩
        cases i with
        | zero =>
          exfalso
          simp at hi
          subst hi
          apply hchk
          simp only [Bool.true_and, Bool.and_eq_true, bne_iff_ne, ne_eq]
          refine ⟨fun e => hne e.symm, ?_⟩
          rcases hk with hk | ⟨j, e1, hj, -, -⟩
          · exact hk
          · omega
        | succ i =>
          rw [List.getElem?_cons_succ] at hi
          refine ⟨i, e, hi, hne, ?_⟩
          rcases hk with hk | ⟨j, e1, hj, he1, hs⟩
          · exact Or.inl ((mapInsert_isSome _ _ _ _).2 (Or.inl hk))
          · cases j with
            | zero =>
              simp at he1
              subst he1
              exact Or.inl ((mapInsert_isSome _ _ _ _).2 (Or.inr hs.symm))
            | succ j =>
              rw [List.getElem?_cons_succ] at he1
              exact Or.inr ⟨j, e1, by omega, he1, hs⟩

/-- C14, amended: with validation enabled the loop of `Geometry::processCell` over
the subsolid lines of a cell ends with the error `duplicate s-index` exactly when
some interface line carries the user index of an earlier subsolid line of the
cell (exits are never checked). -/
theorem indexSusos_duplicate (cellIdxN : Nat) (nosos : List Line)
    (entries : List (Line × TriType)) :
    (∃ k, indexSusos true cellIdxN nosos entries [] [] [] = Except.error k) ↔
      ∃ (i j : Nat) (ei ej : Line × TriType), j < i ∧ entries[i]? = some ei ∧
        entries[j]? = some ej ∧ ei.2.cIdx ≠ cellIdxN ∧ ej.2.sIdx = ei.2.sIdx := by
  rw [indexSusos_error_iff]
  constructor
  · rintro ⟨i, e, hi, hne, hk | ⟨j, e1, hj, he1, hs⟩⟩
    · simp [List.lookup] at hk
    · exact ⟨i, j, e, e1, hj, hi, he1, hne, hs⟩
  · rintro ⟨i, j, ei, ej, hj, hi, he1, hne, hs⟩
    exact ⟨i, ei, hi, hne, Or.inr ⟨j, ej, hj, he1, hs⟩⟩

/-- C14, counterexample: in the cell of `susosSame` an interface and two exits carry
the user index `5`; the interface comes first and exits are not checked, so
`processCell` accepts the cell (and keeps the first line under the key `5`). -/
theorem indexSusos_exits_counterexample :
    (indexSusos true 10 nososTri susosSame [] [] []).toOption =
      some ([(5, 1)], [(1, 20), (2, 10), (0, 10)],
        [⟨1, 20, 1⟩, ⟨2, 10, 0⟩, ⟨0, 10, 0⟩]) ∧
    (susosSame.map fun e => e.2.sIdx) = [5, 5, 5] := by
  decide!

/-- C12, divergence: in the cell of `susosTri` the two consecutive interfaces lead to
the cells 20 and 30, the parser hands them over as one blob `[1, 2]`, and the
blob loop of `processCell` returns the single blob `[1, 2]` of the local edges 1
and 2, whose neighbour cells differ. -/
theorem blobs_mixed_neighbours :
    (indexSusos true 10 nososTri susosTri [] [] []).toOption =
      some ([(1, 1), (2, 2), (0, 0)], [(1, 20), (2, 30), (0, 10)],
        [⟨1, 20, 1⟩, ⟨2, 30, 1⟩, ⟨0, 10, 0⟩]) ∧
    blobLoop [(1, 1), (2, 2), (0, 0)] [(1, 20), (2, 30), (0, 10)] [[1, 2]] ⟨[], [], 0⟩ =
      some ⟨[[1, 2]], [(1, 0), (2, 0)], 1⟩ ∧
    blobLoop [(1, 1), (2, 2), (3, 0)] [(1, 20), (2, 30), (0, 20)] [[1, 2, 3]] ⟨[], [], 0⟩ =
      some ⟨[[1], [2, 0]], [(1, 0), (2, 1), (0, 1)], 2⟩ := by
  decide!

/-! ### Distances and intersections of segments -/

theorem endDistance_eq (m : CMath ℚ) (p : Point ℚ) (l : Line) :
    endDistance m p l.u l.v (l.v.sub l.u)
      (vctrDot (l.v.sub l.u) (p.sub l.u) / ((l.v.sub l.u).x ^ 2 + (l.v.sub l.u).y ^ 2)) =
      pointLineDistance m p l := rfl

/-- C18: `nonIntSegmentDistance(k, l)` is the least of the four values
`pointLineDistance` of an end point of one segment to the other segment, and it is
symmetric in `k` and `l`.  The two functions compute the same expressions, so the
identity does not depend on the lengths of the segments. -/
theorem nonIntSegmentDistance_min (m : CMath ℚ) (k l : Line) :
    nonIntSegmentDistance m k l =
        min (min (min (pointLineDistance m k.u l) (pointLineDistance m k.v l))
          (pointLineDistance m l.u k)) (pointLineDistance m l.v k) ∧
      nonIntSegmentDistance m k l = nonIntSegmentDistance m l k := by
  have h : ∀ a b : Line, nonIntSegmentDistance m a b =
      min (min (min (pointLineDistance m a.u b) (pointLineDistance m a.v b))
        (pointLineDistance m b.u a)) (pointLineDistance m b.v a) := fun a b => rfl
  refine ⟨h k l, ?_⟩
  rw [h k l, h l k]
  rw [min_assoc (min _ _), min_comm (min (pointLineDistance m k.u l) _), min_assoc (min _ _)]

/-- With the identity as root, the segments `(0, 0)-(4, 0)` and `(1, 3)-(1, 5)` are at
squared distance `9`, whichever comes first. -/
theorem nonIntSegmentDistance_example :
    nonIntSegmentDistance mathId ⟨⟨0, 0⟩, ⟨4, 0⟩⟩ ⟨⟨1, 3⟩, ⟨1, 5⟩⟩ = 9 ∧
    nonIntSegmentDistance mathId ⟨⟨1, 3⟩, ⟨1, 5⟩⟩ ⟨⟨0, 0⟩, ⟨4, 0⟩⟩ = 9 := by
  decide!

theorem fEqual_zero_iff {K : Type} [LinearOrderedField K] (x : K) :
    fEqual x 0 = true ↔ x = 0 ∨ |x| < minNormal := by
  simp only [fEqual, sub_zero, add_zero, Bool.or_eq_true, decide_eq_true_eq]
  constructor
  · rintro (h | h)
    · left
      by_contra hx
      have hpos : 0 < |x| := abs_pos.2 hx
      have := epsilon_lt (K := K)
      have h2 : epsilon * |x| * 2 = (epsilon * 2) * |x| := by ring
      rw [h2] at h
      have : (epsilon * 2) * |x| < 1 * |x| := mul_lt_mul_of_pos_right this hpos
      linarith
    · exact Or.inr h
  · rintro (h | h)
    · right
      rw [h, abs_zero]
      exact minNormal_pos
    · exact Or.inr h

theorem fLess_zero_of_neg {K : Type} [LinearOrderedField K] (x : K) (h : x < 0) :
    fLess x 0 = true := by
  simp only [fLess, add_zero, zero_sub, Bool.or_eq_true, decide_eq_true_eq]
  left
  rw [abs_of_neg h]
  have := epsilon_lt (K := K)
  have h2 : epsilon * -x * 2 = (epsilon * 2) * (-x) := by ring
  rw [h2]
  have : (epsilon * 2) * (-x) < 1 * (-x) := mul_lt_mul_of_pos_right this (by linarith)
  linarith

theorem interval_tests {K : Type} [LinearOrderedField K] (t0 t1 t : K) (h0 : 0 ≤ t) (h1 : t ≤ 1)
    (hmin : min t0 t1 ≤ t) (hmax : t ≤ max t0 t1) :
    (fELess 0 t0 && fELess t0 1) = true ∨ (fELess 0 t1 && fELess t1 1) = true ∨
      (fLess (min t0 t1) 0 && fLess 1 (max t0 t1)) = true := by
  by_cases ha : fLess (min t0 t1) 0 = true
  · by_cases hb : fLess 1 (max t0 t1) = true
    · right; right
      simp [ha, hb]
    · have hb : fLess 1 (max t0 t1) = false := by simpa using hb
      have e1 := fELess_of_not_fLess (max t0 t1) 1 hb
      have e0 := fELess_of_le 0 (max t0 t1) (le_trans h0 hmax)
      rcases max_choice t0 t1 with hm | hm
      · left
        rw [hm] at e1 e0
        simp [e0, e1]
      · right; left
        rw [hm] at e1 e0
        simp [e0, e1]
  · have hge : 0 ≤ min t0 t1 := by
      by_contra hneg
      exact ha (fLess_zero_of_neg _ (not_le.1 hneg))
    have e0 := fELess_of_le 0 (min t0 t1) hge
    have e1 := fELess_of_le (min t0 t1) 1 (le_trans hmin h1)
    rcases min_choice t0 t1 with hm | hm
    · left
      rw [hm] at e1 e0
      simp [e0, e1]
    · right; left
      rw [hm] at e1 e0
      simp [e0, e1]

theorem flag_tests (rs qpr qps dqr dsr rr t u : ℚ)
    (ht0 : 0 ≤ t) (ht1 : t ≤ 1) (hu0 : 0 ≤ u) (hu1 : u ≤ 1)
    (hqpr : qpr = u * rs) (hqps : qps = t * rs) (hdot : dqr = t * rr - u * dsr)
    (hrr : 0 < rr) :
    (if fEqual rs 0 then
      if fEqual qpr 0 then
        if fELess 0 (dqr / rr) && fELess (dqr / rr) 1 then true
        else if fELess 0 (dqr / rr + dsr / rr) && fELess (dqr / rr + dsr / rr) 1 then true
        else if fLess (min (dqr / rr) (dqr / rr + dsr / rr)) 0 &&
            fLess 1 (max (dqr / rr) (dqr / rr + dsr / rr)) then true
        else false
      else false
    else
      if fELess 0 (qpr / rs) && fELess (qpr / rs) 1 && fELess 0 (qps / rs) &&
          fELess (qps / rs) 1 then true else false) = true := by
  by_cases h1 : fEqual rs 0 = true
  · rw [if_pos h1]
    have h2 : fEqual qpr 0 = true := by
      rw [hqpr, fEqual_zero_iff]
      rcases (fEqual_zero_iff rs).1 h1 with h | h
      · left; rw [h, mul_zero]
      · right
        rw [abs_mul, abs_of_nonneg hu0]
        calc u * |rs| ≤ 1 * |rs| := mul_le_mul_of_nonneg_right hu1 (abs_nonneg _)
          _ = |rs| := one_mul _
          _ < minNormal := h
    rw [if_pos h2]
    have hrr0 : rr ≠ 0 := ne_of_gt hrr
    have et : dqr / rr = t - u * (dsr / rr) := by
      rw [hdot]
      field_simp
    generalize dsr / rr = e at et
    generalize dqr / rr = t0 at et
    have hmin : min t0 (t0 + e) ≤ t := by
      rcases le_total 0 e with hpos | hneg
      · rw [min_eq_left (by linarith)]
        have := mul_nonneg hu0 hpos
        linarith
      · rw [min_eq_right (by linarith)]
        have : (1 - u) * e ≤ 0 := mul_nonpos_of_nonneg_of_nonpos (by linarith) hneg
        linarith
    have hmax : t ≤ max t0 (t0 + e) := by
      rcases le_total 0 e with hpos | hneg
      · rw [max_eq_right (by linarith)]
        have : 0 ≤ (1 - u) * e := mul_nonneg (by linarith) hpos
        linarith
      · rw [max_eq_left (by linarith)]
        have := mul_nonpos_of_nonneg_of_nonpos hu0 hneg
        linarith
    rcases interval_tests t0 (t0 + e) t ht0 ht1 hmin hmax with c | c | c
    · rw [if_pos c]
    · by_cases c1 : (fELess 0 t0 && fELess t0 1) = true
      · rw [if_pos c1]
      · rw [if_neg c1, if_pos c]
    · by_cases c1 : (fELess 0 t0 && fELess t0 1) = true
      · rw [if_pos c1]
      · rw [if_neg c1]
        by_cases c2 : (fELess 0 (t0 + e) && fELess (t0 + e) 1) = true
        · rw [if_pos c2]
        · rw [if_neg c2, if_pos c]
  · rw [if_neg h1]
    have hrs0 : rs ≠ 0 := by
      intro e
      apply h1
      rw [e, fEqual_zero_iff]
      exact Or.inl rfl
    rw [hqps, hqpr, mul_div_assoc, mul_div_assoc, div_self hrs0, mul_one, mul_one,
      fELess_of_le 0 u hu0, fELess_of_le u 1 hu1, fELess_of_le 0 t ht0, fELess_of_le t 1 ht1]
    rfl

/-- C17: two segments `pr`, `qs` with a common point, `pr` of non-zero length, are
reported by `intersectionFlag`, in exact arithmetic with the comparisons as
coded: the common point is `pr.u + t (pr.v - pr.u) = qs.u + u (qs.v - qs.u)` with
`t` and `u` in `[0, 1]`. -/
theorem intersectionFlag_complete (pr qs : Line) (hr : pr.u ≠ pr.v) (t u : ℚ)
    (ht0 : 0 ≤ t) (ht1 : t ≤ 1) (hu0 : 0 ≤ u) (hu1 : u ≤ 1)
    (hx : pr.u.x + t * (pr.v.x - pr.u.x) = qs.u.x + u * (qs.v.x - qs.u.x))
    (hy : pr.u.y + t * (pr.v.y - pr.u.y) = qs.u.y + u * (qs.v.y - qs.u.y)) :
    intersectionFlag pr qs = true := by
  obtain ⟨⟨px, py⟩, ⟨vx, vy⟩⟩ := pr
  obtain ⟨⟨qx, qy⟩, ⟨wx, wy⟩⟩ := qs
  simp only at hx hy
  have hqpr : (qx - px) * (vy - py) - (qy - py) * (vx - px) =
      u * ((vx - px) * (wy - qy) - (vy - py) * (wx - qx)) := by
    linear_combination (-(vy - py)) * hx + (vx - px) * hy
  have hqps : (qx - px) * (wy - qy) - (qy - py) * (wx - qx) =
      t * ((vx - px) * (wy - qy) - (vy - py) * (wx - qx)) := by
    linear_combination (-(wy - qy)) * hx + (wx - qx) * hy
  have hdot : (qx - px) * (vx - px) + (qy - py) * (vy - py) =
      t * ((vx - px) * (vx - px) + (vy - py) * (vy - py)) -
        u * ((wx - qx) * (vx - px) + (wy - qy) * (vy - py)) := by
    linear_combination (-(vx - px)) * hx + (-(vy - py)) * hy
  have hrr : 0 < (vx - px) * (vx - px) + (vy - py) * (vy - py) := by
    have hne : vx - px ≠ 0 ∨ vy - py ≠ 0 := by
      by_contra hh
      push_neg at hh
      apply hr
      have e1 : vx = px := by linarith [hh.1]
      have e2 : vy = py := by linarith [hh.2]
      rw [e1, e2]
    rcases hne with h | h
    · have := mul_self_pos.2 h
      have := mul_self_nonneg (vy - py)
      linarith
    · have := mul_self_pos.2 h
      have := mul_self_nonneg (vx - px)
      linarith
  exact flag_tests _ _ _ _ _ _ t u ht0 ht1 hu0 hu1 hqpr hqps hdot hrr

theorem intersectionFlag_complete_witness :
    intersectionFlag ⟨⟨0, 0⟩, ⟨2, 2⟩⟩ ⟨⟨0, 2⟩, ⟨2, 0⟩⟩ = true :=
  intersectionFlag_complete ⟨⟨0, 0⟩, ⟨2, 2⟩⟩ ⟨⟨0, 2⟩, ⟨2, 0⟩⟩ (by decide) (1 / 2) (1 / 2)
    (by norm_num) (by norm_num) (by norm_num) (by norm_num) (by norm_num) (by norm_num)

/-! ### `Cell::validate` and self-intersecting polygons -/

theorem pointLineDistance_sq (m : CMath ℚ) (p : Point ℚ) (l : Line) :
    pointLineDistance m p l = m.sqrt (sqPointLine p l) := by
  unfold pointLineDistance sqPointLine
  dsimp only
  split_ifs <;> rfl

theorem far_not_near (d : ℚ) (h : 1 ≤ d) : fELess d CPA = false := by
  have hc : CPA = 1 / 1000000 := rfl
  have he : (epsilon : ℚ) = 1 / 2 ^ 52 := rfl
  have hn := minNormal_pos (K := ℚ)
  have hd : 0 ≤ d + CPA := by rw [hc]; linarith
  have hd2 : 0 ≤ d - CPA := by rw [hc]; linarith
  simp only [fELess, fLess, fEqual, Bool.or_eq_false_iff, decide_eq_false_iff_not, not_lt, not_le,
    gt_iff_lt, ge_iff_le]
  rw [abs_of_nonneg hd, abs_of_nonneg hd2, he, hc]
  have hpos : (0 : ℚ) < 1 / 2 ^ 52 * (d + 1 / 1000000) * 2 := by positivity
  have hsm : (1 : ℚ) / 2 ^ 52 * (d + 1 / 1000000) * 2 < d - 1 / 1000000 := by
    have : (1 : ℚ) / 2 ^ 52 * 2 ≤ 1 / 2 := by norm_num
    nlinarith
  refine ⟨⟨by linarith, by linarith⟩, by linarith, ?_⟩
  have : (minNormal : ℚ) ≤ 1 / 2 := by
    unfold minNormal
    rw [div_le_div_iff₀ (by positivity) (by norm_num)]
    have : (2 : ℚ) ^ 1 ≤ 2 ^ 1022 := pow_le_pow_right₀ (by norm_num) (by norm_num)
    linarith
  linarith

theorem intersectionFlagCPA_far (m : CMath ℚ) (hm : ∀ x : ℚ, 1 ≤ x → 1 ≤ m.sqrt x) (l0 l1 : Line)
    (hi : intersectionFlag l0 l1 = false) (h1 : 1 ≤ sqPointLine l0.u l1)
    (h2 : 1 ≤ sqPointLine l0.v l1) (h3 : 1 ≤ sqPointLine l1.u l0)
    (h4 : 1 ≤ sqPointLine l1.v l0) : intersectionFlagCPA m l0 l1 = false := by
  unfold intersectionFlagCPA
  have hmin : nonIntSegmentDistance m l0 l1 =
      min (min (min (pointLineDistance m l0.u l1) (pointLineDistance m l0.v l1))
        (pointLineDistance m l1.u l0)) (pointLineDistance m l1.v l0) := rfl
  rw [hi, hmin]
  have : fELess (min (min (min (pointLineDistance m l0.u l1) (pointLineDistance m l0.v l1))
      (pointLineDistance m l1.u l0)) (pointLineDistance m l1.v l0)) CPA = false := by
    apply far_not_near
    simp only [pointLineDistance_sq]
    exact le_min (le_min (le_min (hm _ h1) (hm _ h2)) (hm _ h3)) (hm _ h4)
  rw [this]
  rfl


set_option maxRecDepth 100000 in
/-- C13: `Cell::validate` accepts the pentagon `(0,0), (10,0), (10,10), (5,8), (20,-10)`
although its segments `(10,0)-(10,10)` and `(5,8)-(20,-10)`, which are not adjacent,
cross at `(10, 2)`: the loops never test the last segment `poly[pSize-2], poly[pSize-1]`
against an earlier one.  This holds for every root function that maps values `≥ 1` to
values `≥ 1`. -/
theorem validate_misses_crossing (m : CMath ℚ) (hm : ∀ x : ℚ, 1 ≤ x → 1 ≤ m.sqrt x) :
    Cell.validate m [bowPoly] = some none ∧
      intersectionFlag ⟨bowPoly.at 1, bowPoly.at 2⟩ ⟨bowPoly.at 3, bowPoly.at 4⟩ = true ∧
      intersectionFlagCPA m ⟨bowPoly.at 1, bowPoly.at 2⟩ ⟨bowPoly.at 3, bowPoly.at 4⟩ = true := by
  have hx : intersectionFlag ⟨bowPoly.at 1, bowPoly.at 2⟩ ⟨bowPoly.at 3, bowPoly.at 4⟩ = true := by
    decide!
  refine ⟨?_, hx, ?_⟩
  · have hpv : polyValidate m bowPoly = none := by
      have hlen : bowPoly.length = 5 := rfl
      unfold polyValidate
      simp only [hlen]
      have c1 : (List.range (5 - 1)).any (fun i =>
          fELess (lineNorm m ⟨bowPoly.at i, bowPoly.at (i + 1)⟩) CPA) = false := by
        rw [List.any_eq_false]
        intro i hi
        rw [List.mem_range] at hi
        have hi : i < 4 := hi
        rw [Bool.not_eq_true]
        apply far_not_near
        apply hm
        interval_cases i <;> decide!
      have c2 : fELess (lineNorm m ⟨bowPoly.at 0, bowPoly.at (5 - 1)⟩) CPA = false := by
        apply far_not_near
        apply hm
        decide!
      have c3 : (List.range (5 - 2)).any (fun i =>
          fELess (pointLineDistance m (bowPoly.at (i + 2)) ⟨bowPoly.at (i + 1), bowPoly.at i⟩)
            CPA) = false := by
        rw [List.any_eq_false]
        intro i hi
        rw [List.mem_range] at hi
        have hi : i < 3 := hi
        rw [Bool.not_eq_true, pointLineDistance_sq]
        apply far_not_near
        apply hm
        interval_cases i <;> decide!
      have c4 : (List.range (5 - 1)).any (fun i =>
          (List.range' (i + 2) (5 - 2 - (i + 2))).any (fun j =>
            intersectionFlagCPA m ⟨bowPoly.at i, bowPoly.at (i + 1)⟩
              ⟨bowPoly.at j, bowPoly.at (j + 1)⟩)) = false := by
        rw [List.any_eq_false]
        intro i hi
        rw [List.mem_range] at hi
        have hi : i < 4 := hi
        rw [Bool.not_eq_true, List.any_eq_false]
        intro j hj
        rw [List.mem_range'_1] at hj
        have hi0 : i = 0 := by omega
        have hj2 : j = 2 := by omega
        subst hi0
        subst hj2
        rw [Bool.not_eq_true]
        exact intersectionFlagCPA_far m hm _ _ (by decide!) (by decide!) (by decide!)
          (by decide!) (by decide!)
      have c5 : (List.range' 1 (5 - 2 - 1)).any (fun i =>
          intersectionFlagCPA m ⟨bowPoly.at i, bowPoly.at (i + 1)⟩
            ⟨bowPoly.at 0, bowPoly.at (5 - 1)⟩) = false := by
        rw [List.any_eq_false]
        intro i hi
        rw [List.mem_range'_1] at hi
        have hi : i = 1 ∨ i = 2 := by omega
        rw [Bool.not_eq_true]
        rcases hi with h | h <;> subst h <;>
          exact intersectionFlagCPA_far m hm _ _ (by decide!) (by decide!) (by decide!)
            (by decide!) (by decide!)
      rw [c1, c2, c3, c4, c5]
      rfl
    simp only [Cell.validate, polysFlag, hpv]
    rfl
  · unfold intersectionFlagCPA
    rw [hx]
    rfl

theorem validate_misses_crossing_witness :
    Cell.validate mathId [bowPoly] = some none ∧
      intersectionFlag ⟨bowPoly.at 1, bowPoly.at 2⟩ ⟨bowPoly.at 3, bowPoly.at 4⟩ = true ∧
      intersectionFlagCPA mathId ⟨bowPoly.at 1, bowPoly.at 2⟩ ⟨bowPoly.at 3, bowPoly.at 4⟩ =
        true :=
  validate_misses_crossing mathId (fun _ h => h)

/-! ### The dictionaries of `Router::formDicts` -/

theorem fELess_zero_iff {K : Type} [LinearOrderedField K] (y : K) :
    fELess 0 y = true ↔ -minNormal < y := by
  have he := epsilon_lt (K := K)
  have hep := epsilon_pos (K := K)
  have hn := minNormal_pos (K := K)
  simp only [fELess, fLess, fEqual, zero_add, sub_zero, zero_sub, abs_neg, Bool.or_eq_true,
    decide_eq_true_eq, gt_iff_lt, ge_iff_le]
  constructor
  · rintro ((h | h) | (h | h))
    · have := abs_nonneg y
      have : 0 ≤ epsilon * |y| * 2 := by positivity
      linarith
    · linarith
    · have h2 : |y| ≤ (epsilon * 2) * |y| := by linarith
      have : |y| = 0 := by
        by_contra hne
        have hpos : 0 < |y| := lt_of_le_of_ne (abs_nonneg y) (Ne.symm hne)
        have : (epsilon * 2) * |y| < 1 * |y| := mul_lt_mul_of_pos_right he hpos
        linarith
      rw [abs_eq_zero] at this
      rw [this]
      linarith
    · have := neg_abs_le y
      linarith
  · intro h
    rcases le_or_lt 0 y with h0 | h0
    · rcases eq_or_lt_of_le h0 with e | hpos
      · right; right
        rw [← e, abs_zero]
        exact hn
      · left; left
        rw [abs_of_pos hpos]
        have : (epsilon * 2) * y < 1 * y := mul_lt_mul_of_pos_right he hpos
        linarith
    · right; right
      rw [abs_of_neg h0]
      linarith

theorem vctrAngle_rotate {K : Type} [LinearOrderedField K] (m : CAngle K) (hm : ExactAngle m)
    (k l : Point K) (hn : k.x ^ 2 + k.y ^ 2 = l.x ^ 2 + l.y ^ 2) (hk : 0 < k.x ^ 2 + k.y ^ 2)
    (hw : -minNormal < k.x * l.x + k.y * l.y → 0 ≤ k.x * l.x + k.y * l.y) :
    rotate m.toCMath k (vctrAngle m k l) = l := by
  obtain ⟨kx, ky⟩ := k
  obtain ⟨lx, ly⟩ := l
  simp only at hn hk hw
  unfold vctrAngle
  dsimp only
  rw [← hn, hm.sqrt_mul_self _ (le_of_lt hk)]
  generalize hN : kx ^ 2 + ky ^ 2 = N at hn hk
  have hN0 : N ≠ 0 := ne_of_gt hk
  have hlag : (kx * ly - ky * lx) ^ 2 + (kx * lx + ky * ly) ^ 2 = N * N := by
    have e1 : N * N = (kx ^ 2 + ky ^ 2) * (lx ^ 2 + ly ^ 2) := by rw [← hn, hN]
    rw [e1]; ring
  generalize hx : (kx * ly - ky * lx) / N = x
  have hxN : kx * ly - ky * lx = x * N := by rw [← hx]; field_simp
  have hx2 : x * x ≤ 1 := by
    have : (x * N) ^ 2 ≤ N * N := by
      rw [← hxN]
      have := sq_nonneg (kx * lx + ky * ly)
      linarith
    have h3 : x * x * (N * N) ≤ 1 * (N * N) := by
      have e : x * x * (N * N) = (x * N) ^ 2 := by ring
      rw [e, one_mul]
      exact this
    exact le_of_mul_le_mul_right h3 (mul_pos hk hk)
  have hx1 : -1 ≤ x ∧ x ≤ 1 := by
    have h1 : x ^ 2 ≤ 1 ^ 2 := by rw [sq, one_pow]; exact hx2
    exact abs_le.1 (abs_le_of_sq_le_sq h1 zero_le_one)
  have hs := hm.sin_asin x hx1.1 hx1.2
  have hc0 := hm.cos_asin_nonneg x
  have hcs := hm.cos_sq_add_sin_sq (m.asin x)
  rw [hs] at hcs
  generalize hc : m.cos (m.asin x) = c at hc0 hcs
  generalize hd : kx * lx + ky * ly = d at hlag hw
  rw [hxN] at hlag
  have hcd : (c * N) ^ 2 = d ^ 2 := by
    have : (c * c + x * x) * (N * N) = 1 * (N * N) := by rw [hcs]
    linear_combination this - hlag
  have hcN : 0 ≤ c * N := mul_nonneg hc0 (le_of_lt hk)
  -- the two components of the rotated vector, for cosine `cc` and sine `x`
  have key : ∀ cc : K, cc * N = d → cc * kx - x * ky = lx ∧ x * kx + cc * ky = ly := by
    intro cc hcc
    have e1 : (cc * kx - x * ky) * N = lx * N := by
      have : (cc * kx - x * ky) * N = (cc * N) * kx - (x * N) * ky := by ring
      rw [this, hcc, ← hxN, ← hd, ← hN]; ring
    have e2 : (x * kx + cc * ky) * N = ly * N := by
      have : (x * kx + cc * ky) * N = (x * N) * kx + (cc * N) * ky := by ring
      rw [this, hcc, ← hxN, ← hd, ← hN]; ring
    exact ⟨mul_right_cancel₀ hN0 e1, mul_right_cancel₀ hN0 e2⟩
  by_cases hsd : fELess 0 d = true
  · rw [if_pos hsd]
    have hd0 : 0 ≤ d := hw ((fELess_zero_iff d).1 hsd)
    have hcc : c * N = d := (sq_eq_sq₀ hcN hd0).1 hcd
    obtain ⟨e1, e2⟩ := key c hcc
    simp only [rotate, hs, hc]
    rw [e1, e2]
  · rw [if_neg hsd]
    have hd0 : d < 0 := by
      by_contra hge
      apply hsd
      rw [fELess_zero_iff]
      have := minNormal_pos (K := K)
      linarith
    have hcc : (-c) * N = d := by
      have h5 : (c * N) ^ 2 = (-d) ^ 2 := by rw [hcd]; ring
      have := (sq_eq_sq₀ hcN (by linarith)).1 h5
      linarith
    obtain ⟨e1, e2⟩ := key (-c) hcc
    by_cases hsa : fELess 0 (m.asin x) = true
    · rw [if_pos hsa]
      simp only [rotate, hm.sin_pi_sub, hm.cos_pi_sub, hs, hc]
      rw [e1, e2]
    · rw [if_neg hsa]
      simp only [rotate, hm.sin_neg_pi_add, hm.cos_neg_pi_add, hs, hc]
      rw [e1, e2]


theorem rotate_zero {K : Type} [CommRing K] (m : CMath K) (a : K) :
    rotate m (⟨0, 0⟩ : Point K) a = ⟨0, 0⟩ := by
  simp [rotate]

theorem rotate_neg {K : Type} [CommRing K] (m : CMath K) (p : Point K) (a : K) :
    rotate m (⟨-p.x, -p.y⟩ : Point K) a = ⟨-(rotate m p a).x, -(rotate m p a).y⟩ := by
  simp only [rotate, Point.mk.injEq]
  constructor <;> ring

theorem formDct_maps {K : Type} [LinearOrderedField K] (m : CAngle K) (hm : ExactAngle m)
    (pty : Bool) (lineP lineS : LineOf K)
    (hn : (lineP.v.sub lineP.u).x ^ 2 + (lineP.v.sub lineP.u).y ^ 2 =
      (lineS.v.sub lineS.u).x ^ 2 + (lineS.v.sub lineS.u).y ^ 2)
    (hk : 0 < (lineP.v.sub lineP.u).x ^ 2 + (lineP.v.sub lineP.u).y ^ 2)
    (hw : vctrDot (lineP.v.sub lineP.u) (lineS.v.sub lineS.u) = 0 ∨
      4 * minNormal ≤ |vctrDot (lineP.v.sub lineP.u) (lineS.v.sub lineS.u)|) :
    let d := formDct m pty lineP lineS
    (rotate m.toCMath ((linePoint lineP).sub d.tP) d.a).add d.tS = linePoint lineS ∧
      (rotate m.toCMath (lineP.v.sub d.tP) d.a).add d.tS =
        (if xor pty d.s then lineS.v else lineS.u) ∧
      (rotate m.toCMath (lineP.u.sub d.tP) d.a).add d.tS =
        (if xor pty d.s then lineS.u else lineS.v) := by
  obtain ⟨⟨px, py⟩, ⟨vx, vy⟩⟩ := lineP
  obtain ⟨⟨qx, qy⟩, ⟨wx, wy⟩⟩ := lineS
  simp only [Point.sub, vctrDot] at hn hk hw
  intro d
  have hmn := minNormal_pos (K := K)
  have hdS : d.s = fELess 0 ((vx - px) * (wx - qx) + (vy - py) * (wy - qy)) := rfl
  have hdP : d.tP = ⟨(px + vx) / 2, (py + vy) / 2⟩ := rfl
  have hdT : d.tS = ⟨(qx + wx) / 2, (qy + wy) / 2⟩ := rfl
  have hdA : d.a = vctrAngle m ((⟨vx, vy⟩ : Point K).sub ⟨(px + vx) / 2, (py + vy) / 2⟩)
      ((if xor pty d.s then (⟨wx, wy⟩ : Point K) else ⟨qx, qy⟩).sub
        ⟨(qx + wx) / 2, (qy + wy) / 2⟩) := rfl
  generalize hD : (vx - px) * (wx - qx) + (vy - py) * (wy - qy) = D at hw hdS
  -- the image of `v - tP`
  have hv : rotate m.toCMath ((⟨vx, vy⟩ : Point K).sub ⟨(px + vx) / 2, (py + vy) / 2⟩) d.a =
      (if xor pty d.s then (⟨wx, wy⟩ : Point K) else ⟨qx, qy⟩).sub
        ⟨(qx + wx) / 2, (qy + wy) / 2⟩ := by
    rw [hdA]
    apply vctrAngle_rotate m hm
    · cases hxs : xor pty d.s
      · simp only [Point.sub, Bool.false_eq_true, if_false]
        linear_combination hn / 4
      · simp only [Point.sub, if_true]
        linear_combination hn / 4
    · simp only [Point.sub]
      have e : (vx - (px + vx) / 2) ^ 2 + (vy - (py + vy) / 2) ^ 2 =
          ((vx - px) ^ 2 + (vy - py) ^ 2) / 4 := by ring
      rw [e]
      exact div_pos hk (by norm_num)
    · cases hxs : xor pty d.s
      · simp only [Point.sub, Bool.false_eq_true, if_false]
        have e : (vx - (px + vx) / 2) * (qx - (qx + wx) / 2) +
            (vy - (py + vy) / 2) * (qy - (qy + wy) / 2) = -D / 4 := by
          rw [← hD]; ring
        rw [e]
        intro h
        rcases hw with h0 | h4
        · rw [h0]; simp
        · rcases le_or_lt 0 D with hp | hneg
          · rw [abs_of_nonneg hp] at h4
            linarith
          · linarith
      · simp only [Point.sub, if_true]
        have e : (vx - (px + vx) / 2) * (wx - (qx + wx) / 2) +
            (vy - (py + vy) / 2) * (wy - (qy + wy) / 2) = D / 4 := by
          rw [← hD]; ring
        rw [e]
        intro h
        rcases hw with h0 | h4
        · rw [h0]; simp
        · rcases le_or_lt 0 D with hp | hneg
          · linarith
          · rw [abs_of_neg hneg] at h4
            linarith
  refine ⟨?_, ?_, ?_⟩
  · rw [hdP, hdT]
    have e : (linePoint (⟨⟨px, py⟩, ⟨vx, vy⟩⟩ : LineOf K)).sub ⟨(px + vx) / 2, (py + vy) / 2⟩ =
        ⟨0, 0⟩ := by
      simp [linePoint, Point.sub]
    rw [e, rotate_zero]
    simp [linePoint, Point.add]
  · rw [hdP, hv, hdT]
    cases hxs : xor pty d.s <;> simp [Point.sub, Point.add]
  · have e : (⟨px, py⟩ : Point K).sub ⟨(px + vx) / 2, (py + vy) / 2⟩ =
        ⟨-((⟨vx, vy⟩ : Point K).sub ⟨(px + vx) / 2, (py + vy) / 2⟩).x,
          -((⟨vx, vy⟩ : Point K).sub ⟨(px + vx) / 2, (py + vy) / 2⟩).y⟩ := by
      simp only [Point.sub, Point.mk.injEq]
      constructor <;> ring
    rw [hdP, e, rotate_neg, hv, hdT]
    cases hxs : xor pty d.s
    · simp only [Point.sub, Point.add, Bool.false_eq_true, if_false, Point.mk.injEq]
      constructor <;> ring
    · simp only [Point.sub, Point.add, if_true, Point.mk.injEq]
      constructor <;> ring


theorem formDictsRow_keep {K : Type} [LinearOrderedField K] (m : CAngle K)
    (nosoz : List (List (LineOf K))) (pMap : List Nat) (i c : Nat) (d : DctType K) :
    ∀ (tris : List TriType) (row out : List (Nat × DctType K)),
      row.lookup c = some d → formDictsRow m nosoz pMap i tris row = some out →
      out.lookup c = some d := by
  intro tris
  induction tris with
  | nil =>
    intro row out h ho
    simp only [formDictsRow, Option.some.injEq] at ho
    rw [← ho]; exact h
  | cons tri rest ih =>
    intro row out h ho
    rw [formDictsRow] at ho
    split_ifs at ho with hc
    · exact ih row out h ho
    · split at ho
      · exact ih _ out (lookup_append_some row _ c d h) ho
      · exact absurd ho (by simp)

theorem formDictsRow_first {K : Type} [LinearOrderedField K] (m : CAngle K)
    (nosoz : List (List (LineOf K))) (pMap : List Nat) (i : Nat) (tri : TriType)
    (post : List TriType) (hi : i ≠ tri.cIdx) :
    ∀ (pre : List TriType) (row out : List (Nat × DctType K)),
      (∀ t ∈ pre, t.cIdx ≠ tri.cIdx) → row.lookup tri.cIdx = none →
      formDictsRow m nosoz pMap i (pre ++ tri :: post) row = some out →
      ∃ lineP lineS, at2 nosoz i tri.sIdx = some lineP ∧
        at2 nosoz tri.cIdx tri.oIdx = some lineS ∧
        out.lookup tri.cIdx = some (formDct m (pMap.contains tri.cIdx) lineP lineS) := by
  intro pre
  induction pre with
  | nil =>
    intro row out _ hrow ho
    rw [List.nil_append, formDictsRow] at ho
    have hc : ¬(i = tri.cIdx ∨ (row.lookup tri.cIdx).isSome = true) := by
      rw [hrow]; simp [hi]
    rw [if_neg hc] at ho
    split at ho
    · rename_i lineP lineS hP hS
      refine ⟨lineP, lineS, hP, hS, ?_⟩
      refine formDictsRow_keep m nosoz pMap i tri.cIdx _ post _ out ?_ ho
      rw [lookup_append_none row _ tri.cIdx hrow]
      simp [List.lookup]
    · exact absurd ho (by simp)
  | cons t pre ih =>
    intro row out hpre hrow ho
    have ht : t.cIdx ≠ tri.cIdx := hpre t (List.mem_cons_self _ _)
    have hpre2 : ∀ t ∈ pre, t.cIdx ≠ tri.cIdx := fun x hx => hpre x (List.mem_cons_of_mem _ hx)
    rw [List.cons_append, formDictsRow] at ho
    split_ifs at ho with hc
    · exact ih row out hpre2 hrow ho
    · split at ho
      · refine ih _ out hpre2 ?_ ho
        rw [lookup_append_none row _ tri.cIdx hrow]
        simp only [List.lookup]
        have : (tri.cIdx == t.cIdx) = false := by
          rw [beq_eq_false_iff_ne]; exact Ne.symm ht
        rw [this]
      · exact absurd ho (by simp)

theorem formDicts_dctAt {K : Type} [LinearOrderedField K] (m : CAngle K)
    (susoExtz : List (List TriType)) (nosoz : List (List (LineOf K)))
    (pMaps : List (Nat × List Nat)) (dcts : List (List (Nat × DctType K)))
    (i : Nat) (pre : List TriType) (tri : TriType) (post : List TriType)
    (lineP lineS : LineOf K)
    (hf : formDicts m susoExtz nosoz pMaps = some dcts)
    (hrow : susoExtz[i]? = some (pre ++ tri :: post))
    (hfirst : ∀ t ∈ pre, t.cIdx ≠ tri.cIdx) (hi : i ≠ tri.cIdx)
    (hP : at2 nosoz i tri.sIdx = some lineP) (hS : at2 nosoz tri.cIdx tri.oIdx = some lineS) :
    dctAt dcts i tri.cIdx =
      some (formDct m ((getPMaps pMaps i).contains tri.cIdx) lineP lineS) := by
  have hlt : i < susoExtz.length := by
    by_contra h
    rw [List.getElem?_eq_none (not_lt.1 h)] at hrow
    exact absurd hrow (by simp)
  obtain ⟨row, hr, hd⟩ := mapM_option_inv _ _ dcts hf i i (List.getElem?_range hlt)
  simp only [hrow, Option.getD_some] at hr
  obtain ⟨lP, lS, hP2, hS2, hl⟩ :=
    formDictsRow_first m nosoz (getPMaps pMaps i) i tri post hi pre [] row hfirst rfl hr
  rw [hP] at hP2
  rw [hS] at hS2
  cases hP2
  cases hS2
  unfold dctAt
  rw [hd]
  exact hl

theorem formDicts_translate {K : Type} [LinearOrderedField K] (m : CAngle K) (hm : ExactAngle m)
    (susoExtz : List (List TriType)) (nosoz : List (List (LineOf K)))
    (pMaps : List (Nat × List Nat)) (dcts : List (List (Nat × DctType K)))
    (i : Nat) (pre : List TriType) (tri : TriType) (post : List TriType)
    (lineP lineS : LineOf K)
    (hf : formDicts m susoExtz nosoz pMaps = some dcts)
    (hrow : susoExtz[i]? = some (pre ++ tri :: post))
    (hfirst : ∀ t ∈ pre, t.cIdx ≠ tri.cIdx) (hi : i ≠ tri.cIdx)
    (hP : at2 nosoz i tri.sIdx = some lineP) (hS : at2 nosoz tri.cIdx tri.oIdx = some lineS)
    (hn : (lineP.v.sub lineP.u).x ^ 2 + (lineP.v.sub lineP.u).y ^ 2 =
      (lineS.v.sub lineS.u).x ^ 2 + (lineS.v.sub lineS.u).y ^ 2)
    (hk : 0 < (lineP.v.sub lineP.u).x ^ 2 + (lineP.v.sub lineP.u).y ^ 2)
    (hw : vctrDot (lineP.v.sub lineP.u) (lineS.v.sub lineS.u) = 0 ∨
      4 * minNormal ≤ |vctrDot (lineP.v.sub lineP.u) (lineS.v.sub lineS.u)|) :
    translate m.toCMath dcts i tri.cIdx (linePoint lineP) = some (linePoint lineS) ∧
      translate m.toCMath dcts i tri.cIdx lineP.v =
        some (if xor ((getPMaps pMaps i).contains tri.cIdx)
            (fELess 0 (vctrDot (lineP.v.sub lineP.u) (lineS.v.sub lineS.u)))
          then lineS.v else lineS.u) ∧
      translate m.toCMath dcts i tri.cIdx lineP.u =
        some (if xor ((getPMaps pMaps i).contains tri.cIdx)
            (fELess 0 (vctrDot (lineP.v.sub lineP.u) (lineS.v.sub lineS.u)))
          then lineS.u else lineS.v) := by
  have hd := formDicts_dctAt m susoExtz nosoz pMaps dcts i pre tri post lineP lineS hf hrow
    hfirst hi hP hS
  have hmaps := formDct_maps m hm ((getPMaps pMaps i).contains tri.cIdx) lineP lineS hn hk hw
  simp only at hmaps
  obtain ⟨h1, h2, h3⟩ := hmaps
  unfold translate
  rw [hd]
  exact ⟨congrArg some h1, congrArg some h2, congrArg some h3⟩


theorem four_minNormal_le {K : Type} [LinearOrderedField K] : 4 * (minNormal : K) ≤ 1 := by
  unfold minNormal
  rw [mul_one_div, div_le_one (by positivity)]
  have : (2 : K) ^ 2 ≤ 2 ^ 1022 := pow_le_pow_right₀ (by norm_num) (by norm_num)
  linarith

theorem exactAngle_real :
    ExactAngle (⟨⟨Real.cos, Real.sin, Real.sqrt⟩, Real.arcsin, Real.pi⟩ : CAngle ℝ) where
  sqrt_mul_self := fun _ h => Real.mul_self_sqrt h
  sin_asin := fun _ h1 h2 => Real.sin_arcsin h1 h2
  cos_asin_nonneg := fun x => Real.cos_arcsin_nonneg x
  cos_sq_add_sin_sq := fun a => by
    have := Real.cos_sq_add_sin_sq a
    rw [sq, sq] at this
    exact this
  sin_pi_sub := fun a => Real.sin_pi_sub a
  cos_pi_sub := fun a => Real.cos_pi_sub a
  sin_neg_pi_add := fun a => by
    show Real.sin (-(Real.pi + a)) = Real.sin a
    rw [Real.sin_neg, add_comm, Real.sin_add_pi, neg_neg]
  cos_neg_pi_add := fun a => by
    show Real.cos (-(Real.pi + a)) = -Real.cos a
    rw [Real.cos_neg, add_comm, Real.cos_add_pi]

/-- C11 (as amended): for the first interface of cell `i` to the neighbour `tri.cIdx`,
with the parity flag set for the pair and two sides `lineP`, `lineS` of equal non-zero
length, the dictionary of `Router::formDicts` sends the midpoint of `lineP` to the
midpoint of `lineS`; it sends `u` to `u` and `v` to `v` when the dot product of the
two directions `v - u` is negative, and `u` to `v` and `v` to `u` (the direction onto
its reverse) when it is not.  The dot product is `0` or at least `4 * minNormal` in
absolute value, so that the tolerant sign tests are exact. -/
theorem formDicts_parity {K : Type} [LinearOrderedField K] (m : CAngle K) (hm : ExactAngle m)
    (susoExtz : List (List TriType)) (nosoz : List (List (LineOf K)))
    (pMaps : List (Nat × List Nat)) (dcts : List (List (Nat × DctType K)))
    (i : Nat) (pre : List TriType) (tri : TriType) (post : List TriType)
    (lineP lineS : LineOf K)
    (hf : formDicts m susoExtz nosoz pMaps = some dcts)
    (hrow : susoExtz[i]? = some (pre ++ tri :: post))
    (hfirst : ∀ t ∈ pre, t.cIdx ≠ tri.cIdx) (hi : i ≠ tri.cIdx)
    (hP : at2 nosoz i tri.sIdx = some lineP) (hS : at2 nosoz tri.cIdx tri.oIdx = some lineS)
    (hpty : (getPMaps pMaps i).contains tri.cIdx = true)
    (hn : (lineP.v.sub lineP.u).x ^ 2 + (lineP.v.sub lineP.u).y ^ 2 =
      (lineS.v.sub lineS.u).x ^ 2 + (lineS.v.sub lineS.u).y ^ 2)
    (hk : 0 < (lineP.v.sub lineP.u).x ^ 2 + (lineP.v.sub lineP.u).y ^ 2)
    (hw : vctrDot (lineP.v.sub lineP.u) (lineS.v.sub lineS.u) = 0 ∨
      4 * minNormal ≤ |vctrDot (lineP.v.sub lineP.u) (lineS.v.sub lineS.u)|) :
    translate m.toCMath dcts i tri.cIdx (linePoint lineP) = some (linePoint lineS) ∧
      (vctrDot (lineP.v.sub lineP.u) (lineS.v.sub lineS.u) < 0 →
        translate m.toCMath dcts i tri.cIdx lineP.u = some lineS.u ∧
          translate m.toCMath dcts i tri.cIdx lineP.v = some lineS.v) ∧
      (0 ≤ vctrDot (lineP.v.sub lineP.u) (lineS.v.sub lineS.u) →
        translate m.toCMath dcts i tri.cIdx lineP.u = some lineS.v ∧
          translate m.toCMath dcts i tri.cIdx lineP.v = some lineS.u) := by
  obtain ⟨h1, h2, h3⟩ := formDicts_translate m hm susoExtz nosoz pMaps dcts i pre tri post
    lineP lineS hf hrow hfirst hi hP hS hn hk hw
  rw [hpty] at h2 h3
  have hmn := minNormal_pos (K := K)
  refine ⟨h1, ?_, ?_⟩
  · intro hneg
    have hs : fELess 0 (vctrDot (lineP.v.sub lineP.u) (lineS.v.sub lineS.u)) = false := by
      rw [← Bool.not_eq_true, fELess_zero_iff]
      rcases hw with h0 | h4
      · rw [h0] at hneg
        exact absurd hneg (lt_irrefl _)
      · rw [abs_of_neg hneg] at h4
        linarith
    rw [hs] at h2 h3
    exact ⟨h3, h2⟩
  · intro hpos
    have hs : fELess 0 (vctrDot (lineP.v.sub lineP.u) (lineS.v.sub lineS.u)) = true := by
      rw [fELess_zero_iff]
      linarith
    rw [hs] at h2 h3
    exact ⟨h3, h2⟩

theorem formDicts_parity_witness :
    translate (⟨Real.cos, Real.sin, Real.sqrt⟩ : CMath ℝ)
        [[(1, formDct ⟨⟨Real.cos, Real.sin, Real.sqrt⟩, Real.arcsin, Real.pi⟩ true
            ⟨⟨0, 0⟩, ⟨1, 2⟩⟩ ⟨⟨0, 0⟩, ⟨1, -2⟩⟩)],
          [(0, formDct ⟨⟨Real.cos, Real.sin, Real.sqrt⟩, Real.arcsin, Real.pi⟩ true
            ⟨⟨0, 0⟩, ⟨1, -2⟩⟩ ⟨⟨0, 0⟩, ⟨1, 2⟩⟩)]] 0 1 ⟨0, 0⟩ = some ⟨0, 0⟩ ∧
      translate (⟨Real.cos, Real.sin, Real.sqrt⟩ : CMath ℝ)
        [[(1, formDct ⟨⟨Real.cos, Real.sin, Real.sqrt⟩, Real.arcsin, Real.pi⟩ true
            ⟨⟨0, 0⟩, ⟨1, 2⟩⟩ ⟨⟨0, 0⟩, ⟨1, -2⟩⟩)],
          [(0, formDct ⟨⟨Real.cos, Real.sin, Real.sqrt⟩, Real.arcsin, Real.pi⟩ true
            ⟨⟨0, 0⟩, ⟨1, -2⟩⟩ ⟨⟨0, 0⟩, ⟨1, 2⟩⟩)]] 0 1 ⟨1, 2⟩ = some ⟨1, -2⟩ :=
  (formDicts_parity (⟨⟨Real.cos, Real.sin, Real.sqrt⟩, Real.arcsin, Real.pi⟩ : CAngle ℝ)
    exactAngle_real pairSusoExtz (mirrorNosoz ℝ) pairPMaps _ 0 [] ⟨0, 1, 0⟩ []
    ⟨⟨0, 0⟩, ⟨1, 2⟩⟩ ⟨⟨0, 0⟩, ⟨1, -2⟩⟩ rfl rfl (by simp) (by decide) rfl rfl rfl
    (by norm_num [Point.sub]) (by norm_num [Point.sub])
    (Or.inr (by
      have h := four_minNormal_le (K := ℝ)
      have e : vctrDot ((⟨1, 2⟩ : Point ℝ).sub ⟨0, 0⟩) ((⟨1, -2⟩ : Point ℝ).sub ⟨0, 0⟩) = -3 := by
        norm_num [vctrDot, Point.sub]
      rw [e]
      norm_num
      linarith))).2.1 (by norm_num [vctrDot, Point.sub])

/-- C11 (counterexample): two cells whose interface is the line `(0,0)-(2,0)` in both,
with the parity flag: the dictionary of `Router::formDicts` sends the end `v = (2,0)` of
the side of cell `0` to the end `u = (0,0)` of the side of cell `1`, the direction onto
its reverse. -/
theorem formDicts_parity_counterexample :
    formDicts (⟨⟨Real.cos, Real.sin, Real.sqrt⟩, Real.arcsin, Real.pi⟩ : CAngle ℝ)
        pairSusoExtz (sameNosoz ℝ) pairPMaps =
      some [[(1, formDct ⟨⟨Real.cos, Real.sin, Real.sqrt⟩, Real.arcsin, Real.pi⟩ true
            ⟨⟨0, 0⟩, ⟨2, 0⟩⟩ ⟨⟨0, 0⟩, ⟨2, 0⟩⟩)],
          [(0, formDct ⟨⟨Real.cos, Real.sin, Real.sqrt⟩, Real.arcsin, Real.pi⟩ true
            ⟨⟨0, 0⟩, ⟨2, 0⟩⟩ ⟨⟨0, 0⟩, ⟨2, 0⟩⟩)]] ∧
      (getPMaps pairPMaps 0).contains 1 = true ∧
      translate (⟨Real.cos, Real.sin, Real.sqrt⟩ : CMath ℝ)
        [[(1, formDct ⟨⟨Real.cos, Real.sin, Real.sqrt⟩, Real.arcsin, Real.pi⟩ true
            ⟨⟨0, 0⟩, ⟨2, 0⟩⟩ ⟨⟨0, 0⟩, ⟨2, 0⟩⟩)],
          [(0, formDct ⟨⟨Real.cos, Real.sin, Real.sqrt⟩, Real.arcsin, Real.pi⟩ true
            ⟨⟨0, 0⟩, ⟨2, 0⟩⟩ ⟨⟨0, 0⟩, ⟨2, 0⟩⟩)]] 0 1 ⟨2, 0⟩ = some ⟨0, 0⟩ ∧
      translate (⟨Real.cos, Real.sin, Real.sqrt⟩ : CMath ℝ)
        [[(1, formDct ⟨⟨Real.cos, Real.sin, Real.sqrt⟩, Real.arcsin, Real.pi⟩ true
            ⟨⟨0, 0⟩, ⟨2, 0⟩⟩ ⟨⟨0, 0⟩, ⟨2, 0⟩⟩)],
          [(0, formDct ⟨⟨Real.cos, Real.sin, Real.sqrt⟩, Real.arcsin, Real.pi⟩ true
            ⟨⟨0, 0⟩, ⟨2, 0⟩⟩ ⟨⟨0, 0⟩, ⟨2, 0⟩⟩)]] 0 1 ⟨2, 0⟩ ≠ some ⟨2, 0⟩ := by
  have hf : formDicts (⟨⟨Real.cos, Real.sin, Real.sqrt⟩, Real.arcsin, Real.pi⟩ : CAngle ℝ)
        pairSusoExtz (sameNosoz ℝ) pairPMaps =
      some [[(1, formDct ⟨⟨Real.cos, Real.sin, Real.sqrt⟩, Real.arcsin, Real.pi⟩ true
            ⟨⟨0, 0⟩, ⟨2, 0⟩⟩ ⟨⟨0, 0⟩, ⟨2, 0⟩⟩)],
          [(0, formDct ⟨⟨Real.cos, Real.sin, Real.sqrt⟩, Real.arcsin, Real.pi⟩ true
            ⟨⟨0, 0⟩, ⟨2, 0⟩⟩ ⟨⟨0, 0⟩, ⟨2, 0⟩⟩)]] := rfl
  have e : vctrDot ((⟨2, 0⟩ : Point ℝ).sub ⟨0, 0⟩) ((⟨2, 0⟩ : Point ℝ).sub ⟨0, 0⟩) = 4 := by
    norm_num [vctrDot, Point.sub]
  have h4 := four_minNormal_le (K := ℝ)
  have hmn := minNormal_pos (K := ℝ)
  have ht := (formDicts_translate (⟨⟨Real.cos, Real.sin, Real.sqrt⟩, Real.arcsin, Real.pi⟩ :
    CAngle ℝ) exactAngle_real pairSusoExtz (sameNosoz ℝ) pairPMaps _ 0 [] ⟨0, 1, 0⟩ []
    ⟨⟨0, 0⟩, ⟨2, 0⟩⟩ ⟨⟨0, 0⟩, ⟨2, 0⟩⟩ hf rfl (by simp) (by decide) rfl rfl
    (by norm_num [Point.sub]) (by norm_num [Point.sub])
    (Or.inr (by rw [e]; norm_num; linarith))).2.1
  have hs : fELess (0 : ℝ) 4 = true := by
    rw [fELess_zero_iff]; linarith
  have hp : (getPMaps pairPMaps 0).contains 1 = true := by decide
  simp only at ht
  rw [e, hs, hp] at ht
  refine ⟨hf, hp, ht, ?_⟩
  rw [ht]
  intro h
  have h2 := congrArg (fun o : Option (Point ℝ) => (o.map Point.x).getD 0) h
  norm_num at h2

/-! ### `Router::patchUp`: the nearest exit of every global id -/

theorem flatten_drop_take {α : Type} (n : Nat) :
    ∀ (rows : List (List α)) (i : Nat) (row : List α), (∀ r ∈ rows, r.length = n) →
      rows[i]? = some row → ((rows.flatten).drop (i * n)).take n = row := by
  intro rows
  induction rows with
  | nil => intro i row _ h; simp at h
  | cons r rows ih =>
    intro i row hall h
    have hr : r.length = n := hall r (List.mem_cons_self _ _)
    cases i with
    | zero =>
      simp only [List.getElem?_cons_zero, Option.some.injEq] at h
      subst h
      simp only [zero_mul, List.drop_zero, List.flatten_cons]
      rw [← hr, List.take_left]
    | succ i =>
      simp only [List.getElem?_cons_succ] at h
      have e : (i + 1) * n = r.length + i * n := by rw [hr]; ring
      rw [List.flatten_cons, e, List.drop_append]
      exact ih i row (fun x hx => hall x (List.mem_cons_of_mem _ hx)) h

theorem mapM_option_length {α β : Type} (f : α → Option β) :
    ∀ (l : List α) (ys : List β), l.mapM f = some ys → ys.length = l.length := by
  intro l
  induction l with
  | nil =>
    intro ys h
    rw [List.mapM_nil] at h
    cases h
    rfl
  | cons a l ih =>
    intro ys h
    rw [List.mapM_cons] at h
    cases hfa : f a with
    | none => rw [hfa] at h; simp at h
    | some y =>
      rw [hfa] at h
      cases hl : l.mapM f with
      | none => rw [hl] at h; simp at h
      | some ys2 =>
        rw [hl] at h
        simp at h
        subst h
        simp [ih ys2 hl]

theorem exitColumns_row {D : Type} (xSize : Nat) (gEIds : List Nat) (distM distMCS : List D)
    (hE : exitColumns xSize gEIds distM = some distMCS) (i : Nat) (hi : i < xSize) :
    ∃ row, (distMCS.drop (i * gEIds.length)).take gEIds.length = row ∧
      row.length = gEIds.length ∧
      ∀ (j J : Nat), gEIds[j]? = some J → ∃ v, distM[i * xSize + J]? = some v ∧
        row[j]? = some v := by
  unfold exitColumns at hE
  cases hrows : (List.range xSize).mapM (fun i => gEIds.mapM fun J => distM[i * xSize + J]?) with
  | none => rw [hrows] at hE; simp at hE
  | some rows =>
    rw [hrows] at hE
    simp only [Option.map_some', Option.some.injEq] at hE
    obtain ⟨row, hrow, hri⟩ := mapM_option_inv _ _ rows hrows i i (List.getElem?_range hi)
    have hall : ∀ r ∈ rows, r.length = gEIds.length := by
      intro r hr
      obtain ⟨k, hk, hkr⟩ := List.getElem_of_mem hr
      have hk2 : k < (List.range xSize).length := by
        rw [← mapM_option_length _ _ rows hrows]; exact hk
      have hk3 : (List.range xSize)[k]? = some k := by
        rw [List.length_range] at hk2
        exact List.getElem?_range hk2
      obtain ⟨y, hy, hry⟩ := mapM_option_inv _ _ rows hrows k k hk3
      rw [List.getElem?_eq_getElem hk, hkr] at hry
      cases hry
      exact mapM_option_length _ _ _ hy
    refine ⟨row, ?_, mapM_option_length _ _ _ hrow, ?_⟩
    · rw [← hE]
      exact flatten_drop_take gEIds.length rows i row hall hri
    · intro j J hj
      obtain ⟨v, hv, hrv⟩ := mapM_option_inv _ _ row hrow j J hj
      exact ⟨v, hv, hrv⟩

theorem option_some_getD_of_isSome {α : Type} (o : Option α) (d : α) (h : o.isSome = true) :
    o = some (o.getD d) := by
  cases o with
  | none => exact absurd h (by simp)
  | some x => rfl

theorem routerTables_patchUp {D : Type} [LinearOrderedAddCommMonoidWithTop D]
    (w : Nat → Nat → Nat → D) (nbrz : List (List Nat)) (nSizes : List Nat)
    (susoExtz : List (List TriType)) (susoMaps : List (List (Nat × TriType))) (r : Router D)
    (hr : routerTables w nbrz nSizes susoExtz susoMaps = some r) :
    exitColumns r.gIdx r.gEIds r.distM = some r.distMCS ∧
      gShrtsOf r.gIdx r.gEIds r.distMCS = some r.gShrts := by
  unfold routerTables at hr
  split at hr
  · split at hr
    · exact absurd hr (by simp)
    · split at hr
      · exact absurd hr (by simp)
      · split at hr
        · exact absurd hr (by simp)
        · split at hr
          · exact absurd hr (by simp)
          · simp only [Option.some.injEq] at hr
            subst hr
            rename_i h1 _ _ h2
            exact ⟨h1, h2⟩
  · exact absurd hr (by simp)

/-- C21: after `Router::patchUp` (the tables of `routerTables`), with at least one
exit, every global id `i` has an entry `gShrts[i] = (e, v)` where `e` is an exit id of
`gEIds`, `v = distM[i * gIdx + e]`, and `v` is the least of the values
`distM[i * gIdx + e']` over the exit ids `e'` of `gEIds`. -/
theorem patchUp_gShrts {D : Type} [LinearOrderedAddCommMonoidWithTop D]
    (w : Nat → Nat → Nat → D) (nbrz : List (List Nat)) (nSizes : List Nat)
    (susoExtz : List (List TriType)) (susoMaps : List (List (Nat × TriType))) (r : Router D)
    (hr : routerTables w nbrz nSizes susoExtz susoMaps = some r) (hne : r.gEIds ≠ [])
    (i : Nat) (hi : i < r.gIdx) :
    ∃ e v, r.gShrts[i]? = some (e, v) ∧ e ∈ r.gEIds ∧ r.distM[i * r.gIdx + e]? = some v ∧
      ∀ e2 ∈ r.gEIds, ∃ v2, r.distM[i * r.gIdx + e2]? = some v2 ∧ v ≤ v2 := by
  obtain ⟨hE, hG⟩ := routerTables_patchUp w nbrz nSizes susoExtz susoMaps r hr
  obtain ⟨row, hrow, hlen, hcol⟩ := exitColumns_row r.gIdx r.gEIds r.distM r.distMCS hE i hi
  unfold gShrtsOf at hG
  obtain ⟨y, hy, hgy⟩ := mapM_option_inv _ _ r.gShrts hG i i (List.getElem?_range hi)
  rw [hrow] at hy
  have hrne : row ≠ [] := by
    intro h
    rw [h] at hlen
    exact hne (List.length_eq_zero.1 hlen.symm)
  obtain ⟨j, v, hmin, hjv, hle⟩ := minElement_spec row hrne
  rw [hmin] at hy
  simp only at hy
  have hj : j < r.gEIds.length := by
    rw [← hlen]
    by_contra h
    rw [List.getElem?_eq_none (not_lt.1 h)] at hjv
    exact absurd hjv (by simp)
  rw [List.getElem?_eq_getElem hj] at hy
  simp only [Option.some.injEq] at hy
  subst hy
  obtain ⟨v1, hv1, hr1⟩ := hcol j _ (List.getElem?_eq_getElem hj)
  rw [hjv] at hr1
  cases hr1
  refine ⟨_, _, hgy, List.getElem_mem _, hv1, ?_⟩
  intro e2 he2
  obtain ⟨k, hk, hke⟩ := List.getElem_of_mem he2
  obtain ⟨v2, hv2, hr2⟩ := hcol k e2 (by rw [List.getElem?_eq_getElem hk, hke])
  obtain ⟨hk2, hk3⟩ := List.getElem?_eq_some.1 hr2
  exact ⟨v2, hv2, hle v2 (hk3 ▸ List.getElem_mem hk2)⟩

set_option maxRecDepth 100000 in
theorem patchUp_gShrts_witness :
    ∃ e v, routerDuo.gShrts[1]? = some (e, v) ∧ e ∈ routerDuo.gEIds ∧
      routerDuo.distM[1 * routerDuo.gIdx + e]? = some v ∧
      ∀ e2 ∈ routerDuo.gEIds, ∃ v2, routerDuo.distM[1 * routerDuo.gIdx + e2]? = some v2 ∧
        v ≤ v2 :=
  patchUp_gShrts wDuo nbrzDuo [2, 2] susosDuo (susosDuo.map fun e => susoMapOf 0 e []) routerDuo
    (option_some_getD_of_isSome _ _ (by decide)) (by decide) 1 (by decide)

/-! ### `Geometry::getBlob` after `Geometry::processCell` -/

theorem Grows.same (blobs : List (List Nat)) : Grows blobs blobs :=
  fun _ blob h => ⟨blob, h, fun _ hy => hy⟩

theorem Grows.trans {a b c : List (List Nat)} (h1 : Grows a b) (h2 : Grows b c) : Grows a c := by
  intro i blob h
  obtain ⟨blob1, hb1, hs1⟩ := h1 i blob h
  obtain ⟨blob2, hb2, hs2⟩ := h2 i blob1 hb1
  exact ⟨blob2, hb2, fun y hy => hs2 y (hs1 y hy)⟩

theorem Grows.snoc (blobs : List (List Nat)) (x : List Nat) : Grows blobs (blobs ++ [x]) := by
  intro i blob h
  have hi : i < blobs.length := by
    by_contra hn
    rw [List.getElem?_eq_none (not_lt.1 hn)] at h
    exact absurd h (by simp)
  exact ⟨blob, by rw [List.getElem?_append_left hi]; exact h, fun _ hy => hy⟩

theorem Grows.set (blobs : List (List Nat)) (i : Nat) (b : List Nat) (x : Nat)
    (h : blobs[i]? = some b) :
    Grows blobs (blobs.set i (b ++ [x])) ∧
      (blobs.set i (b ++ [x]))[i]? = some (b ++ [x]) := by
  have hi : i < blobs.length := by
    by_contra hn
    rw [List.getElem?_eq_none (not_lt.1 hn)] at h
    exact absurd h (by simp)
  refine ⟨?_, ?_⟩
  · intro j blob hj
    by_cases e : i = j
    · subst e
      rw [h] at hj
      cases hj
      refine ⟨b ++ [x], ?_, fun y hy => List.mem_append_left _ hy⟩
      rw [List.getElem?_set_self hi]
    · exact ⟨blob, by rw [List.getElem?_set_ne e]; exact hj, fun _ hy => hy⟩
  · rw [List.getElem?_set_self hi]

theorem pushBack_spec (blobs : List (List Nat)) (x : Nat) (hne : blobs ≠ []) :
    ∃ blobs1, pushBack blobs x = some blobs1 ∧ blobs1.length = blobs.length ∧
      Grows blobs blobs1 ∧ ∃ blob1, blobs1[blobs.length - 1]? = some blob1 ∧ x ∈ blob1 := by
  obtain ⟨pre, b, rfl⟩ : ∃ pre b, blobs = pre ++ [b] :=
    ⟨blobs.dropLast, blobs.getLast hne, (List.dropLast_append_getLast hne).symm⟩
  refine ⟨pre ++ [b ++ [x]], ?_, by simp, ?_, b ++ [x], ?_, by simp⟩
  · unfold pushBack
    simp
  · intro i blob hi
    by_cases hlt : i < pre.length
    · rw [List.getElem?_append_left hlt] at hi
      exact ⟨blob, by rw [List.getElem?_append_left hlt]; exact hi, fun _ hy => hy⟩
    · have hge : pre.length ≤ i := not_lt.1 hlt
      rw [List.getElem?_append_right hge] at hi
      have h0 : i - pre.length = 0 := by
        by_contra hn
        obtain ⟨k, hk⟩ : ∃ k, i - pre.length = k + 1 := ⟨i - pre.length - 1, by omega⟩
        rw [hk] at hi
        simp at hi
      rw [h0] at hi
      simp only [List.getElem?_cons_zero, Option.some.injEq] at hi
      subst hi
      refine ⟨b ++ [x], ?_, fun y hy => List.mem_append_left _ hy⟩
      rw [List.getElem?_append_right hge, h0]
      rfl
  · simp

theorem lookup_mapInsert_keep {α : Type} (m : List (Nat × α)) (k k1 : Nat) (v b : α)
    (h : m.lookup k1 = some b) : (mapInsert m k v).lookup k1 = some b := by
  unfold mapInsert
  split_ifs
  · exact h
  · exact lookup_append_some m _ k1 b h

theorem lookup_mapInsert_cases {α : Type} (m : List (Nat × α)) (k k1 : Nat) (v b : α)
    (h : (mapInsert m k v).lookup k1 = some b) :
    m.lookup k1 = some b ∨ (k1 = k ∧ b = v) := by
  unfold mapInsert at h
  split_ifs at h
  · exact Or.inl h
  · cases hm : m.lookup k1 with
    | some x =>
      rw [lookup_append_some m _ k1 x hm] at h
      left
      rw [← h]
    | none =>
      rw [lookup_append_none m _ k1 hm] at h
      right
      simp only [List.lookup] at h
      cases hk : (k1 == k) with
      | true =>
        rw [hk] at h
        simp only [Option.some.injEq] at h
        exact ⟨by simpa using hk, h.symm⟩
      | false =>
        rw [hk] at h
        simp at h

theorem lookup_mapInsert_self {α : Type} (m : List (Nat × α)) (k : Nat) (v : α) :
    ((mapInsert m k v).lookup k).isSome = true :=
  (mapInsert_isSome m k k v).2 (Or.inr rfl)

theorem mapInsert_of_isSome {α : Type} (m : List (Nat × α)) (k : Nat) (v : α)
    (h : (m.lookup k).isSome = true) : mapInsert m k v = m := by
  unfold mapInsert
  rw [if_pos h]

theorem BlobInv.grow {blobs1 : List (List Nat)} {st : BlobState} (h : BlobInv st)
    (hg : Grows st.blobs blobs1) (bIdx : Nat) : BlobInv ⟨blobs1, st.blobMap, bIdx⟩ := by
  intro s b hs
  obtain ⟨blob, hb, hm⟩ := h s b hs
  obtain ⟨blob1, hb1, hs1⟩ := hg b blob hb
  exact ⟨blob1, hb1, hs1 s hm⟩

theorem BlobInv.insert {blobs : List (List Nat)} {blobMap : List (Nat × Nat)} {bIdx : Nat}
    (h : BlobInv ⟨blobs, blobMap, bIdx⟩) (s b n : Nat) (blob : List Nat)
    (hb : blobs[b]? = some blob) (hs : s ∈ blob) : BlobInv ⟨blobs, mapInsert blobMap s b, n⟩ := by
  intro s1 b1 h1
  rcases lookup_mapInsert_cases blobMap s s1 b b1 h1 with h2 | ⟨e1, e2⟩
  · exact h s1 b1 h2
  · subst e1
    subst e2
    exact ⟨blob, hb, hs⟩

theorem blobInner_spec (sMap SCMap : List (Nat × Nat)) (cIdx : Nat) :
    ∀ (l : List Nat) (st : BlobState), st.bIdx + 1 = st.blobs.length → BlobInv st →
      (∀ n ∈ l, ∃ s c, sMap.lookup n = some s ∧ SCMap.lookup s = some c) →
      ∃ st1, blobInner sMap SCMap cIdx l st = some st1 ∧ st1.bIdx + 1 = st1.blobs.length ∧
        BlobInv st1 ∧
        (∀ s, (st.blobMap.lookup s).isSome = true → (st1.blobMap.lookup s).isSome = true) ∧
        ∀ n ∈ l, ∀ s, sMap.lookup n = some s → (st1.blobMap.lookup s).isSome = true := by
  intro l
  induction l with
  | nil =>
    intro st hlen hinv _
    exact ⟨st, rfl, hlen, hinv, fun _ h => h, fun n hn => absurd hn (List.not_mem_nil n)⟩
  | cons n rest ih =>
    intro st hlen hinv hdef
    obtain ⟨s, c, hs, hc⟩ := hdef n (List.mem_cons_self _ _)
    have hne : (if c ≠ cIdx then st.blobs ++ [[]] else st.blobs) ≠ [] := by
      split_ifs
      · simp
      · intro h
        rw [h] at hlen
        simp at hlen
    obtain ⟨blobs1, hp, hl1, hg1, blob1, hb1, hx1⟩ := pushBack_spec _ s hne
    have hlen0 : (if c ≠ cIdx then st.bIdx + 1 else st.bIdx) + 1 =
        (if c ≠ cIdx then st.blobs ++ [[]] else st.blobs).length := by
      split_ifs
      · simp [hlen]
      · exact hlen
    have hg0 : Grows st.blobs (if c ≠ cIdx then st.blobs ++ [[]] else st.blobs) := by
      split_ifs
      · exact Grows.snoc _ _
      · exact Grows.same _
    have hinv1 : BlobInv ⟨blobs1, mapInsert st.blobMap s (if c ≠ cIdx then st.bIdx + 1 else st.bIdx),
        (if c ≠ cIdx then st.bIdx + 1 else st.bIdx)⟩ := by
      have h0 : BlobInv ⟨blobs1, st.blobMap, st.bIdx⟩ := hinv.grow (hg0.trans hg1) _
      refine h0.insert s _ _ blob1 ?_ hx1
      rw [← hlen0] at hb1
      simpa using hb1
    obtain ⟨st2, h2, hl2, hi2, hk2, hn2⟩ := ih
      ⟨blobs1, mapInsert st.blobMap s (if c ≠ cIdx then st.bIdx + 1 else st.bIdx),
        (if c ≠ cIdx then st.bIdx + 1 else st.bIdx)⟩ (by rw [hl1]; exact hlen0) hinv1
      (fun x hx => hdef x (List.mem_cons_of_mem _ hx))
    refine ⟨st2, ?_, hl2, hi2, ?_, ?_⟩
    · rw [blobInner]
      simp only [hs, hc]
      rw [hp]
      exact h2
    · intro s1 h1
      exact hk2 s1 ((mapInsert_isSome _ _ _ _).2 (Or.inl h1))
    · intro x hx s1 hs1
      rcases List.mem_cons.1 hx with rfl | hx
      · rw [hs] at hs1
        cases hs1
        exact hk2 s (lookup_mapInsert_self _ _ _)
      · exact hn2 x hx s1 hs1


theorem blobOne_spec (sMap SCMap : List (Nat × Nat)) (blobC : List Nat) (st : BlobState)
    (hlen : st.bIdx = st.blobs.length) (hinv : BlobInv st) (hne : blobC ≠ [])
    (hdef : ∀ n ∈ blobC, ∃ s c, sMap.lookup n = some s ∧ SCMap.lookup s = some c) :
    ∃ st1, blobOne sMap SCMap blobC st = some st1 ∧ st1.bIdx = st1.blobs.length ∧
      BlobInv st1 ∧
      (∀ s, (st.blobMap.lookup s).isSome = true → (st1.blobMap.lookup s).isSome = true) ∧
      ∀ n ∈ blobC, ∀ s, sMap.lookup n = some s → (st1.blobMap.lookup s).isSome = true := by
  obtain ⟨front, tl, rfl⟩ : ∃ front tl, blobC = front :: tl := by
    cases blobC with
    | nil => exact absurd rfl hne
    | cons a l => exact ⟨a, l, rfl⟩
  have hlast : (front :: tl).getLast? = some ((front :: tl).getLast hne) :=
    List.getLast?_eq_getLast _ hne
  have hsplit : (front :: tl) = (front :: tl).dropLast ++ [(front :: tl).getLast hne] :=
    (List.dropLast_append_getLast hne).symm
  generalize hback : (front :: tl).getLast hne = back at hlast hsplit
  have hbmem : back ∈ front :: tl := by
    rw [hsplit]; simp
  obtain ⟨sF, cIdx, hsF, hcF⟩ := hdef front (List.mem_cons_self _ _)
  obtain ⟨sL, cL, hsL, hcL⟩ := hdef back hbmem
  have hdrop : ∀ n ∈ (front :: tl).dropLast, ∃ s c, sMap.lookup n = some s ∧
      SCMap.lookup s = some c := fun n hn => hdef n (List.mem_of_mem_dropLast hn)
  obtain ⟨st1, h1, hl1, hi1, hk1, hn1⟩ := blobInner_spec sMap SCMap cIdx (front :: tl).dropLast
    ⟨st.blobs ++ [[]], st.blobMap, st.bIdx⟩ (by simp [hlen])
    (hinv.grow (Grows.snoc _ _) _) hdrop
  have hne1 : st1.blobs ≠ [] := by
    intro h
    rw [h] at hl1
    simp at hl1
  have hmemAll : ∀ (bm : List (Nat × Nat)),
      (∀ s, (st1.blobMap.lookup s).isSome = true → (bm.lookup s).isSome = true) →
      (bm.lookup sL).isSome = true →
      (∀ s, (st.blobMap.lookup s).isSome = true → (bm.lookup s).isSome = true) ∧
      ∀ n ∈ front :: tl, ∀ s, sMap.lookup n = some s → (bm.lookup s).isSome = true := by
    intro bm hkeep hL
    refine ⟨fun s hs => hkeep s (hk1 s hs), ?_⟩
    intro n hn s hs
    rw [hsplit] at hn
    rcases List.mem_append.1 hn with hn | hn
    · exact hkeep s (hn1 n hn s hs)
    · simp only [List.mem_singleton] at hn
      subst hn
      rw [hsL] at hs
      cases hs
      exact hL
  have hfront : (front :: tl).head? = some front := rfl
  unfold blobOne
  simp only [hfront, hlast, hsF, hsL, hcF, hcL, Option.bind]
  rw [h1]
  simp only
  by_cases hc : cL ≠ cIdx
  · rw [if_pos hc, if_pos trivial]
    -- the branch that reads `blobMap[sIdxF]`
    cases hlk : st1.blobMap.lookup sL with
    | some b =>
      obtain ⟨blob, hb, hm⟩ := hi1 sL b hlk
      obtain ⟨hg, hset⟩ := Grows.set st1.blobs b blob sL hb
      simp only [Option.getD_some, hb]
      have e1 : mapInsert st1.blobMap sL 0 = st1.blobMap :=
        mapInsert_of_isSome _ _ _ (by rw [hlk]; rfl)
      have e2 : mapInsert st1.blobMap sL b = st1.blobMap :=
        mapInsert_of_isSome _ _ _ (by rw [hlk]; rfl)
      rw [e1, e2]
      refine ⟨_, rfl, ?_, hi1.grow hg _, ?_⟩
      · simp [hl1]
      · exact hmemAll st1.blobMap (fun _ h => h) (by rw [hlk]; rfl)
    | none =>
      obtain ⟨b0, hb0⟩ : ∃ b0, st1.blobs[0]? = some b0 := by
        cases hbl : st1.blobs with
        | nil => exact absurd hbl hne1
        | cons a l => exact ⟨a, by simp⟩
      obtain ⟨hg, hset⟩ := Grows.set st1.blobs 0 b0 sL hb0
      simp only [Option.getD_none, hb0]
      have e2 : mapInsert (mapInsert st1.blobMap sL 0) sL 0 = mapInsert st1.blobMap sL 0 :=
        mapInsert_of_isSome _ _ _ (lookup_mapInsert_self st1.blobMap sL 0)
      rw [e2]
      refine ⟨_, rfl, ?_, ?_, ?_⟩
      · simp [hl1]
      · have h0 : BlobInv ⟨st1.blobs.set 0 (b0 ++ [sL]), st1.blobMap, st1.bIdx⟩ := hi1.grow hg _
        exact h0.insert sL 0 _ (b0 ++ [sL]) hset (by simp)
      · exact hmemAll _ (fun s h => (mapInsert_isSome _ _ _ _).2 (Or.inl h))
          (lookup_mapInsert_self _ _ _)
  · rw [if_neg hc]
    obtain ⟨blobs1, hp, hl2, hg, blob1, hb1, hx1⟩ := pushBack_spec st1.blobs sL hne1
    rw [hp]
    refine ⟨_, rfl, ?_, ?_, ?_⟩
    · simp [hl2, hl1]
    · have h0 : BlobInv ⟨blobs1, st1.blobMap, st1.bIdx⟩ := hi1.grow hg _
      refine h0.insert sL _ _ blob1 ?_ hx1
      rw [← hl1] at hb1
      simpa using hb1
    · exact hmemAll _ (fun s h => (mapInsert_isSome _ _ _ _).2 (Or.inl h))
        (lookup_mapInsert_self _ _ _)

theorem blobLoop_spec (sMap SCMap : List (Nat × Nat)) :
    ∀ (blobsC : List (List Nat)) (st : BlobState), st.bIdx = st.blobs.length → BlobInv st →
      (∀ blobC ∈ blobsC, blobC ≠ [] ∧
        ∀ n ∈ blobC, ∃ s c, sMap.lookup n = some s ∧ SCMap.lookup s = some c) →
      ∃ st1, blobLoop sMap SCMap blobsC st = some st1 ∧ BlobInv st1 ∧
        (∀ s, (st.blobMap.lookup s).isSome = true → (st1.blobMap.lookup s).isSome = true) ∧
        ∀ blobC ∈ blobsC, ∀ n ∈ blobC, ∀ s, sMap.lookup n = some s →
          (st1.blobMap.lookup s).isSome = true := by
  intro blobsC
  induction blobsC with
  | nil =>
    intro st _ hinv _
    exact ⟨st, rfl, hinv, fun _ h => h, fun b hb => absurd hb (List.not_mem_nil b)⟩
  | cons blobC rest ih =>
    intro st hlen hinv hdef
    obtain ⟨hne, hd⟩ := hdef blobC (List.mem_cons_self _ _)
    obtain ⟨st1, h1, hl1, hi1, hk1, hn1⟩ := blobOne_spec sMap SCMap blobC st hlen hinv hne hd
    obtain ⟨st2, h2, hi2, hk2, hn2⟩ := ih st1 hl1 hi1
      (fun b hb => hdef b (List.mem_cons_of_mem _ hb))
    refine ⟨st2, ?_, hi2, fun s hs => hk2 s (hk1 s hs), ?_⟩
    · rw [blobLoop, h1]
      exact h2
    · intro b hb n hn s hs
      rcases List.mem_cons.1 hb with rfl | hb
      · exact hk2 s (hn1 n hn s hs)
      · exact hn2 b hb n hn s hs


theorem lookup_mapInsert_ne {α : Type} (m : List (Nat × α)) (k k1 : Nat) (v : α) (hne : k1 ≠ k)
    (h : m.lookup k1 = none) : (mapInsert m k v).lookup k1 = none := by
  cases hl : (mapInsert m k v).lookup k1 with
  | none => rfl
  | some b =>
    rcases lookup_mapInsert_cases m k k1 v b hl with h2 | ⟨e, _⟩
    · rw [h] at h2
      exact absurd h2 (by simp)
    · exact absurd e hne

theorem lookup_mapInsert_new {α : Type} (m : List (Nat × α)) (k : Nat) (v : α)
    (h : m.lookup k = none) : (mapInsert m k v).lookup k = some v := by
  unfold mapInsert
  rw [h]
  simp only [Option.isSome_none, Bool.false_eq_true, if_false]
  rw [lookup_append_none m _ k h]
  simp [List.lookup]

theorem indexSusos_maps (vFlg : Bool) (cellIdxN : Nat) (nosos : List Line) :
    ∀ (entries : List (Line × TriType)) (sMap0 SCMap0 : List (Nat × Nat)) (out0 : List TriType)
      (sMap SCMap : List (Nat × Nat)) (out : List TriType),
      indexSusos vFlg cellIdxN nosos entries sMap0 SCMap0 out0 = Except.ok (sMap, SCMap, out) →
      (entries.map fun e => e.2.sIdx).Nodup →
      (∀ e ∈ entries, sMap0.lookup e.2.sIdx = none) →
      (∀ k v, sMap0.lookup k = some v → sMap.lookup k = some v) ∧
        (∀ k, (SCMap0.lookup k).isSome = true → (SCMap.lookup k).isSome = true) ∧
        ∀ e ∈ entries, sMap.lookup e.2.sIdx = some (localIndex nosos e.1) ∧
          (SCMap.lookup (localIndex nosos e.1)).isSome = true := by
  intro entries
  induction entries with
  | nil =>
    intro sMap0 SCMap0 out0 sMap SCMap out h _ _
    simp only [indexSusos, Except.ok.injEq, Prod.mk.injEq] at h
    obtain ⟨h1, h2, _⟩ := h
    subst h1
    subst h2
    exact ⟨fun _ _ h => h, fun _ h => h, fun e he => absurd he (List.not_mem_nil e)⟩
  | cons e rest ih =>
    intro sMap0 SCMap0 out0 sMap SCMap out h hnd hnone
    obtain ⟨suso, trio⟩ := e
    rw [indexSusos] at h
    split_ifs at h with hc
    simp only [List.map_cons, List.nodup_cons] at hnd
    have hn0 : sMap0.lookup trio.sIdx = none := hnone (suso, trio) (List.mem_cons_self _ _)
    have hrest : ∀ e ∈ rest, (mapInsert sMap0 trio.sIdx (localIndex nosos suso)).lookup e.2.sIdx =
        none := by
      intro e he
      apply lookup_mapInsert_ne
      · intro heq
        apply hnd.1
        rw [← heq]
        exact List.mem_map_of_mem (fun e : Line × TriType => e.2.sIdx) he
      · exact hnone e (List.mem_cons_of_mem _ he)
    obtain ⟨k1, k2, k3⟩ := ih _ _ _ sMap SCMap out h hnd.2 hrest
    refine ⟨?_, ?_, ?_⟩
    · intro k v hk
      exact k1 k v (lookup_mapInsert_keep _ _ _ _ _ hk)
    · intro k hk
      exact k2 k ((mapInsert_isSome _ _ _ _).2 (Or.inl hk))
    · intro e he
      rcases List.mem_cons.1 he with rfl | he
      · exact ⟨k1 _ _ (lookup_mapInsert_new _ _ _ hn0), k2 _ (lookup_mapInsert_self _ _ _)⟩
      · exact k3 e he

theorem parseBlobs_spec :
    ∀ (pts : List XPoint) (inBlob : Bool) (blobs0 : List (List Nat)),
      (inBlob = true → blobs0 ≠ []) → (∀ b ∈ blobs0, b ≠ []) →
      ∃ blobs, parseBlobs pts inBlob blobs0 = some blobs ∧ (∀ b ∈ blobs, b ≠ []) ∧
        ∀ n, (∃ b ∈ blobs, n ∈ b) ↔
          ((∃ b ∈ blobs0, n ∈ b) ∨ ∃ p ∈ pts, p.cTyp = LineColor.INFC ∧ p.sIdx = n) := by
  intro pts
  induction pts with
  | nil =>
    intro inBlob blobs0 _ h0
    refine ⟨blobs0, rfl, h0, fun n => ⟨Or.inl, ?_⟩⟩
    rintro (h | ⟨p, hp, _⟩)
    · exact h
    · exact absurd hp (List.not_mem_nil p)
  | cons p rest ih =>
    intro inBlob blobs0 hin h0
    have hskip : ∀ (flag : Bool), (flag = true → blobs0 ≠ []) → p.cTyp ≠ LineColor.INFC →
        ∃ blobs, parseBlobs rest flag blobs0 = some blobs ∧ (∀ b ∈ blobs, b ≠ []) ∧
          ∀ n, (∃ b ∈ blobs, n ∈ b) ↔
            ((∃ b ∈ blobs0, n ∈ b) ∨ ∃ q ∈ p :: rest, q.cTyp = LineColor.INFC ∧ q.sIdx = n) := by
      intro flag hflag hcol
      obtain ⟨blobs, h1, h2, h3⟩ := ih flag blobs0 hflag h0
      refine ⟨blobs, h1, h2, fun n => ?_⟩
      rw [h3 n]
      constructor
      · rintro (h | ⟨q, hq, hc⟩)
        · exact Or.inl h
        · exact Or.inr ⟨q, List.mem_cons_of_mem _ hq, hc⟩
      · rintro (h | ⟨q, hq, hc⟩)
        · exact Or.inl h
        · rcases List.mem_cons.1 hq with rfl | hq
          · exact absurd hc.1 hcol
          · exact Or.inr ⟨q, hq, hc⟩
    cases hcol : p.cTyp with
    | SOLD =>
      rw [parseBlobs, hcol]
      exact hskip false (fun h => absurd h (by simp)) (by rw [hcol]; simp)
    | EXIT =>
      rw [parseBlobs, hcol]
      exact hskip inBlob hin (by rw [hcol]; simp)
    | META =>
      rw [parseBlobs, hcol]
      exact hskip inBlob hin (by rw [hcol]; simp)
    | INFC =>
      rw [parseBlobs, hcol]
      simp only
      have hfin : ∀ (blobs1 : List (List Nat)), blobs1 ≠ [] → (∀ b ∈ blobs1, b ≠ []) →
          (∀ n, (∃ b ∈ blobs1, n ∈ b) ↔ ((∃ b ∈ blobs0, n ∈ b) ∨ n = p.sIdx)) →
          ∃ blobs, parseBlobs rest true blobs1 = some blobs ∧ (∀ b ∈ blobs, b ≠ []) ∧
            ∀ n, (∃ b ∈ blobs, n ∈ b) ↔
              ((∃ b ∈ blobs0, n ∈ b) ∨
                ∃ q ∈ p :: rest, q.cTyp = LineColor.INFC ∧ q.sIdx = n) := by
        intro blobs1 hne1 hb1 hm1
        obtain ⟨blobs, h1, h2, h3⟩ := ih true blobs1 (fun _ => hne1) hb1
        refine ⟨blobs, h1, h2, fun n => ?_⟩
        rw [h3 n, hm1 n]
        constructor
        · rintro ((h | h) | ⟨q, hq, hc⟩)
          · exact Or.inl h
          · exact Or.inr ⟨p, List.mem_cons_self _ _, hcol, h.symm⟩
          · exact Or.inr ⟨q, List.mem_cons_of_mem _ hq, hc⟩
        · rintro (h | ⟨q, hq, hc⟩)
          · exact Or.inl (Or.inl h)
          · rcases List.mem_cons.1 hq with rfl | hq
            · exact Or.inl (Or.inr hc.2.symm)
            · exact Or.inr ⟨q, hq, hc⟩
      by_cases hb : inBlob = true
      · rw [if_pos hb]
        have hne0 := hin hb
        obtain ⟨pre, b, rfl⟩ : ∃ pre b, blobs0 = pre ++ [b] :=
          ⟨blobs0.dropLast, blobs0.getLast hne0, (List.dropLast_append_getLast hne0).symm⟩
        have hp : pushBack (pre ++ [b]) p.sIdx = some (pre ++ [b ++ [p.sIdx]]) := by
          unfold pushBack
          simp
        rw [hp]
        refine hfin _ (by simp) ?_ ?_
        · intro x hx
          rcases List.mem_append.1 hx with hx | hx
          · exact h0 x (List.mem_append_left _ hx)
          · simp only [List.mem_singleton] at hx
            rw [hx]; simp
        · intro n
          constructor
          · rintro ⟨x, hx, hn⟩
            rcases List.mem_append.1 hx with hx | hx
            · exact Or.inl ⟨x, List.mem_append_left _ hx, hn⟩
            · simp only [List.mem_singleton] at hx
              rw [hx] at hn
              rcases List.mem_append.1 hn with hn | hn
              · exact Or.inl ⟨b, by simp, hn⟩
              · exact Or.inr (by simpa using hn)
          · rintro (⟨x, hx, hn⟩ | h)
            · rcases List.mem_append.1 hx with hx | hx
              · exact ⟨x, List.mem_append_left _ hx, hn⟩
              · simp only [List.mem_singleton] at hx
                rw [hx] at hn
                exact ⟨b ++ [p.sIdx], by simp, List.mem_append_left _ hn⟩
            · exact ⟨b ++ [p.sIdx], by simp, by simp [h]⟩
      · rw [if_neg hb]
        refine hfin _ (by simp) ?_ ?_
        · intro x hx
          rcases List.mem_append.1 hx with hx | hx
          · exact h0 x hx
          · simp only [List.mem_singleton] at hx
            rw [hx]; simp
        · intro n
          constructor
          · rintro ⟨x, hx, hn⟩
            rcases List.mem_append.1 hx with hx | hx
            · exact Or.inl ⟨x, hx, hn⟩
            · simp only [List.mem_singleton] at hx
              rw [hx] at hn
              exact Or.inr (by simpa using hn)
          · rintro (⟨x, hx, hn⟩ | h)
            · exact ⟨x, List.mem_append_left _ hx, hn⟩
            · exact ⟨[p.sIdx], by simp, by simp [h]⟩


theorem mem_parseSusos (cellIdx : Nat) (pts : List XPoint) (e : Line × TriType) :
    e ∈ parseSusos cellIdx pts ↔ ∃ p ∈ pts,
      (p.cTyp = LineColor.INFC ∧ e = (orderPointsLine p.line, ⟨p.sIdx, p.cIdx, p.oIdx⟩)) ∨
      (p.cTyp = LineColor.EXIT ∧ e = (orderPointsLine p.line, ⟨p.sIdx, cellIdx, p.oIdx⟩)) := by
  unfold parseSusos
  rw [List.mem_filterMap]
  constructor
  · rintro ⟨p, hp, h⟩
    refine ⟨p, hp, ?_⟩
    cases hc : p.cTyp <;> rw [hc] at h <;> simp at h
    · exact Or.inl ⟨rfl, h.symm⟩
    · exact Or.inr ⟨rfl, h.symm⟩
  · rintro ⟨p, hp, ⟨hc, he⟩ | ⟨hc, he⟩⟩
    · exact ⟨p, hp, by rw [hc, he]⟩
    · exact ⟨p, hp, by rw [hc, he]⟩

/-- C30: for a cell whose subsolid lines carry pairwise distinct `sIdx`, the parser and
the two loops of `Geometry::processCell` return, and the tables `blobs`, `blobMap` they
leave for the cell have, for every interface line of the cell with local index `s`,
the key `s` in `blobMap`, with a value that is an index into `blobs`, and
`getBlob(cell, s)` is a blob that contains `s`. -/
theorem processCell_getBlob (vFlg : Bool) (cellIdx : Nat) (nosos : List Line)
    (polys : List (List XPoint)) (sMap SCMap : List (Nat × Nat)) (out : List TriType)
    (hx : (indexSusos vFlg cellIdx nosos (cellSusos cellIdx polys) [] [] []).toOption =
      some (sMap, SCMap, out))
    (hnd : ((cellSusos cellIdx polys).map fun e => e.2.sIdx).Nodup) :
    ∃ blobsC st, cellBlobs polys = some blobsC ∧
      blobLoop sMap SCMap blobsC ⟨[], [], 0⟩ = some st ∧
      ∀ e ∈ cellSusos cellIdx polys, e.2.cIdx ≠ cellIdx →
        (∃ b, st.blobMap.lookup (localIndex nosos e.1) = some b ∧ b < st.blobs.length) ∧
        ∀ (blobz : List (List (List Nat))) (blobMaps : List (List (Nat × Nat))) (c : Nat),
          blobz[c]? = some st.blobs → blobMaps[c]? = some st.blobMap →
          ∃ blob, getBlob blobz blobMaps c (localIndex nosos e.1) = some blob ∧
            localIndex nosos e.1 ∈ blob := by
  have hok : indexSusos vFlg cellIdx nosos (cellSusos cellIdx polys) [] [] [] =
      Except.ok (sMap, SCMap, out) := by
    cases h : indexSusos vFlg cellIdx nosos (cellSusos cellIdx polys) [] [] [] with
    | error k => rw [h] at hx; simp [Except.toOption] at hx
    | ok r =>
      rw [h] at hx
      simp only [Except.toOption, Option.some.injEq] at hx
      rw [hx]
  obtain ⟨_, _, hmaps⟩ := indexSusos_maps vFlg cellIdx nosos _ [] [] [] sMap SCMap out hok hnd
    (fun _ _ => rfl)
  have hpoly : ∀ pts ∈ polys, ∃ blobs, parseBlobs pts false [] = some blobs ∧
      (∀ b ∈ blobs, b ≠ []) ∧
      ∀ n, (∃ b ∈ blobs, n ∈ b) ↔ ∃ p ∈ pts, p.cTyp = LineColor.INFC ∧ p.sIdx = n := by
    intro pts _
    obtain ⟨blobs, h1, h2, h3⟩ := parseBlobs_spec pts false []
      (fun h => absurd h (by simp)) (fun b hb => absurd hb (List.not_mem_nil b))
    refine ⟨blobs, h1, h2, fun n => ?_⟩
    rw [h3 n]
    constructor
    · rintro (⟨b, hb, _⟩ | h)
      · exact absurd hb (List.not_mem_nil b)
      · exact h
    · exact Or.inr
  have hmapM : polys.mapM (fun pts => parseBlobs pts false []) =
      some (polys.map fun pts => (parseBlobs pts false []).getD []) := by
    apply mapM_option_eq
    intro pts hpts
    obtain ⟨blobs, h1, _⟩ := hpoly pts hpts
    rw [h1]; rfl
  have hcb : cellBlobs polys =
      some (polys.map fun pts => (parseBlobs pts false []).getD []).flatten := by
    unfold cellBlobs
    rw [hmapM]; rfl
  have hmemB : ∀ blobC, blobC ∈ (polys.map fun pts => (parseBlobs pts false []).getD []).flatten →
      ∃ pts ∈ polys, ∃ blobs, parseBlobs pts false [] = some blobs ∧ blobC ∈ blobs := by
    intro blobC hb
    rw [List.mem_flatten] at hb
    obtain ⟨l, hl, hbl⟩ := hb
    rw [List.mem_map] at hl
    obtain ⟨pts, hpts, rfl⟩ := hl
    obtain ⟨blobs, h1, _⟩ := hpoly pts hpts
    rw [h1] at hbl
    exact ⟨pts, hpts, blobs, h1, hbl⟩
  have hentry : ∀ pts ∈ polys, ∀ p ∈ pts, p.cTyp = LineColor.INFC →
      sMap.lookup p.sIdx = some (localIndex nosos (orderPointsLine p.line)) ∧
        (SCMap.lookup (localIndex nosos (orderPointsLine p.line))).isSome = true := by
    intro pts hpts p hp hc
    have hmem : (orderPointsLine p.line, (⟨p.sIdx, p.cIdx, p.oIdx⟩ : TriType)) ∈
        cellSusos cellIdx polys := by
      unfold cellSusos
      rw [List.mem_flatMap]
      exact ⟨pts, hpts, (mem_parseSusos cellIdx pts _).2 ⟨p, hp, Or.inl ⟨hc, rfl⟩⟩⟩
    exact hmaps _ hmem
  obtain ⟨st, hst, hinv, _, hkeys⟩ := blobLoop_spec sMap SCMap
    (polys.map fun pts => (parseBlobs pts false []).getD []).flatten ⟨[], [], 0⟩ rfl
    (fun s b h => absurd h (by simp [List.lookup])) (by
      intro blobC hb
      obtain ⟨pts, hpts, blobs, h1, hbl⟩ := hmemB blobC hb
      obtain ⟨blobs2, h2, hne, hmem⟩ := hpoly pts hpts
      rw [h1] at h2
      cases h2
      refine ⟨hne blobC hbl, fun n hn => ?_⟩
      obtain ⟨p, hp, hc, hs⟩ := (hmem n).1 ⟨blobC, hbl, hn⟩
      obtain ⟨e1, e2⟩ := hentry pts hpts p hp hc
      rw [hs] at e1
      obtain ⟨c, hc2⟩ := Option.isSome_iff_exists.1 e2
      exact ⟨_, c, e1, hc2⟩)
  refine ⟨_, st, hcb, hst, ?_⟩
  intro e he hne
  unfold cellSusos at he
  rw [List.mem_flatMap] at he
  obtain ⟨pts, hpts, he⟩ := he
  obtain ⟨p, hp, ⟨hc, rfl⟩ | ⟨hc, rfl⟩⟩ := (mem_parseSusos cellIdx pts e).1 he
  · obtain ⟨blobs, h1, _, hmem⟩ := hpoly pts hpts
    obtain ⟨blobC, hbl, hn⟩ := (hmem p.sIdx).2 ⟨p, hp, hc, rfl⟩
    have hbC : blobC ∈ (polys.map fun pts => (parseBlobs pts false []).getD []).flatten := by
      rw [List.mem_flatten]
      refine ⟨blobs, ?_, hbl⟩
      rw [List.mem_map]
      exact ⟨pts, hpts, by rw [h1]; rfl⟩
    obtain ⟨e1, _⟩ := hentry pts hpts p hp hc
    have hk := hkeys blobC hbC p.sIdx hn _ e1
    obtain ⟨b, hb⟩ := Option.isSome_iff_exists.1 hk
    obtain ⟨blob, hbb, hs⟩ := hinv _ b hb
    refine ⟨⟨b, hb, ?_⟩, ?_⟩
    · by_contra hlt
      rw [List.getElem?_eq_none (not_lt.1 hlt)] at hbb
      exact absurd hbb (by simp)
    · intro blobz blobMaps c hz hm
      refine ⟨blob, ?_, hs⟩
      unfold getBlob
      simp only [hz, hm]
      show (match st.blobMap.lookup (localIndex nosos (orderPointsLine p.line)) with
        | none => none
        | some b => st.blobs[b]?) = some blob
      rw [hb]
      exact hbb
  · exact absurd rfl hne

set_option maxRecDepth 100000 in
theorem processCell_getBlob_witness :
    ∃ blobsC st, cellBlobs polysQuad = some blobsC ∧
      blobLoop [(7, 0), (8, 3), (9, 1)] [(0, 20), (3, 20), (1, 10)] blobsC ⟨[], [], 0⟩ = some st ∧
      ∀ e ∈ cellSusos 10 polysQuad, e.2.cIdx ≠ 10 →
        (∃ b, st.blobMap.lookup (localIndex nososQuad e.1) = some b ∧ b < st.blobs.length) ∧
        ∀ (blobz : List (List (List Nat))) (blobMaps : List (List (Nat × Nat))) (c : Nat),
          blobz[c]? = some st.blobs → blobMaps[c]? = some st.blobMap →
          ∃ blob, getBlob blobz blobMaps c (localIndex nososQuad e.1) = some blob ∧
            localIndex nososQuad e.1 ∈ blob :=
  processCell_getBlob true 10 nososQuad polysQuad [(7, 0), (8, 3), (9, 1)]
    [(0, 20), (3, 20), (1, 10)] [⟨0, 20, 1⟩, ⟨3, 20, 2⟩, ⟨1, 10, 0⟩] (by decide!) (by decide!)

theorem processCell_quad_example :
    cellBlobs polysQuad = some [[7, 8]] ∧
      blobLoop [(7, 0), (8, 3), (9, 1)] [(0, 20), (3, 20), (1, 10)] [[7, 8]] ⟨[], [], 0⟩ =
        some ⟨[[0, 3]], [(0, 0), (3, 0)], 1⟩ := by
  decide

/-! ### `subtractLines` on the edge list of the mesher: neighbour slots -/

theorem orderPoints_idx (e : Edge) : (orderPoints e).idx = e.idx ∧ (orderPoints e).nbrs = e.nbrs := by
  unfold orderPoints
  split_ifs <;> exact ⟨rfl, rfl⟩

theorem meshEdgesFrom_get :
    ∀ (tris : List TriangleType) (i p : Nat) (e : Edge), (meshEdgesFrom i tris)[p]? = some e →
      p < 3 * tris.length ∧ e.idx = 3 * i + p + 1 ∧
        e.nbrs = ⟨3 * i + (3 * (p / 3) + (p % 3 + 1) % 3) + 1,
          3 * i + (3 * (p / 3) + (p % 3 + 2) % 3) + 1, 0, 0⟩ := by
  intro tris
  induction tris with
  | nil => intro i p e h; simp [meshEdgesFrom] at h
  | cons t rest ih =>
    intro i p e h
    rw [meshEdgesFrom] at h
    match p, h with
    | 0, h =>
      simp only [List.getElem?_cons_zero, Option.some.injEq] at h
      subst h
      refine ⟨by simp, ?_, ?_⟩
      · rw [(orderPoints_idx _).1]; simp [Edge.ctor]; omega
      · rw [(orderPoints_idx _).2]; simp [Edge.ctor]; omega
    | 1, h =>
      simp only [List.getElem?_cons_succ, List.getElem?_cons_zero, Option.some.injEq] at h
      subst h
      refine ⟨by simp; omega, ?_, ?_⟩
      · rw [(orderPoints_idx _).1]; simp [Edge.ctor]; omega
      · rw [(orderPoints_idx _).2]; simp [Edge.ctor]; omega
    | 2, h =>
      simp only [List.getElem?_cons_succ, List.getElem?_cons_zero, Option.some.injEq] at h
      subst h
      refine ⟨by simp; omega, ?_, ?_⟩
      · rw [(orderPoints_idx _).1]; simp [Edge.ctor]; omega
      · rw [(orderPoints_idx _).2]; simp [Edge.ctor]; omega
    | p + 3, h =>
      simp only [List.getElem?_cons_succ] at h
      obtain ⟨h1, h2, h3⟩ := ih (i + 1) p e h
      refine ⟨by simp only [List.length_cons]; omega, by omega, ?_⟩
      rw [h3]
      have e1 : (p + 3) / 3 = p / 3 + 1 := by omega
      have e2 : (p + 3) % 3 = p % 3 := by omega
      rw [e1, e2]
      congr 1 <;> omega

theorem meshEdgesFrom_length :
    ∀ (tris : List TriangleType) (i : Nat), (meshEdgesFrom i tris).length = 3 * tris.length := by
  intro tris
  induction tris with
  | nil => intro i; rfl
  | cons t rest ih =>
    intro i
    rw [meshEdgesFrom]
    simp only [List.length_cons, ih]
    omega

theorem meshEdges_meshLike (triVec : List TriangleType) : MeshLike (meshEdges triVec) := by
  have hlen := meshEdgesFrom_length triVec 0
  have hget : ∀ (p : Nat), p < 3 * triVec.length → ∃ e, (meshEdges triVec)[p]? = some e := by
    intro p hp
    unfold meshEdges
    exact ⟨_, List.getElem?_eq_getElem (by rw [hlen]; exact hp)⟩
  refine ⟨?_, ?_, ?_⟩
  · intro p e h
    obtain ⟨_, h2, _⟩ := meshEdgesFrom_get triVec 0 p e h
    omega
  · intro p e s h hs
    obtain ⟨_, _, h3⟩ := meshEdgesFrom_get triVec 0 p e h
    rw [h3]
    match s, hs with
    | 2, _ => rfl
    | s + 3, _ => rfl
  · intro p e j h hj
    obtain ⟨h1, _, h3⟩ := meshEdgesFrom_get triVec 0 p e h
    have hj01 : j = 0 ∨ j = 1 := by omega
    rcases hj01 with rfl | rfl
    · obtain ⟨eq, heq⟩ := hget (3 * (p / 3) + (p % 3 + 1) % 3) (by omega)
      obtain ⟨_, _, hq3⟩ := meshEdgesFrom_get triVec 0 _ eq heq
      refine ⟨3 * (p / 3) + (p % 3 + 1) % 3, eq, ?_, by omega, heq, ?_⟩
      · rw [h3]; simp [Nbrs.get]
      · rw [hq3]
        simp only [Nbrs.get]
        omega
    · obtain ⟨eq, heq⟩ := hget (3 * (p / 3) + (p % 3 + 2) % 3) (by omega)
      obtain ⟨_, _, hq3⟩ := meshEdgesFrom_get triVec 0 _ eq heq
      refine ⟨3 * (p / 3) + (p % 3 + 2) % 3, eq, ?_, by omega, heq, ?_⟩
      · rw [h3]; simp [Nbrs.get]
      · rw [hq3]
        simp only [Nbrs.get]
        omega


theorem Nbrs.get_set_zero (n : Nbrs) (s : Nat) (hs : s < 2) (t : Nat) :
    (n.set s 0).get t = if t = s then 0 else n.get t := by
  have h01 : s = 0 ∨ s = 1 := by omega
  rcases h01 with rfl | rfl
  · match t with
    | 0 => rfl
    | 1 => rfl
    | 2 => rfl
    | _ + 3 => rfl
  · match t with
    | 0 => rfl
    | 1 => rfl
    | 2 => rfl
    | _ + 3 => rfl

theorem clearSlot_cut (edges0 cur : List Edge) (k j : Nat) (hM : MeshLike edges0) (hj : j < 2)
    (hlen : cur.length = edges0.length) (e0k ek : Edge) (h0k : edges0[k]? = some e0k)
    (hk : cur[k]? = some ek)
    (hslot : ek.nbrs.get j = e0k.nbrs.get j ∨ ek.nbrs.get j = 0) :
    ∃ cur1, clearSlot cur k j = some cur1 ∧ cur1.length = cur.length ∧
      ∀ (q : Nat) (e : Edge), cur[q]? = some e →
        ∃ e1, cur1[q]? = some e1 ∧ e1.u = e.u ∧ e1.v = e.v ∧ e1.idx = e.idx ∧
          (q = k → e1 = e) ∧
          (∀ s, e1.nbrs.get s = e.nbrs.get s ∨
            (e1.nbrs.get s = 0 ∧ ∃ e0, edges0[q]? = some e0 ∧ e0.nbrs.get s = k + 1)) ∧
          (∀ e0, edges0[q]? = some e0 → e0.nbrs.get ((j + 1) % 2) = k + 1 →
            ek.nbrs.get j ≠ 0 → e1.nbrs.get ((j + 1) % 2) = 0) := by
  unfold clearSlot
  rw [hk]
  dsimp only
  by_cases h0 : ek.nbrs.get j = 0
  · rw [if_pos h0]
    refine ⟨cur, rfl, rfl, fun q e he => ⟨e, he, rfl, rfl, rfl, fun _ => rfl,
      fun s => Or.inl rfl, fun _ _ _ hne => absurd h0 hne⟩⟩
  · rw [if_neg h0]
    have hv : ek.nbrs.get j = e0k.nbrs.get j := by
      rcases hslot with h | h
      · exact h
      · exact absurd h h0
    obtain ⟨q0, eq0, hq0, hne0, heq0, hback⟩ := hM.recip k e0k j h0k hj
    have hq0lt : q0 < cur.length := by
      rw [hlen]
      by_contra hn
      rw [List.getElem?_eq_none (not_lt.1 hn)] at heq0
      exact absurd heq0 (by simp)
    have hidx : ek.nbrs.get j - 1 = q0 := by rw [hv, hq0]; rfl
    rw [hidx, List.getElem?_eq_getElem hq0lt]
    dsimp only
    refine ⟨_, rfl, by simp, ?_⟩
    intro q e he
    by_cases hq : q = q0
    · subst hq
      have he2 : cur[q] = e := by
        rw [List.getElem?_eq_getElem hq0lt] at he
        exact Option.some.inj he
      refine ⟨{ e with nbrs := e.nbrs.set ((j + 1) % 2) 0 }, ?_, rfl, rfl, rfl,
        fun h => absurd h hne0, ?_, ?_⟩
      · rw [List.getElem?_set_self hq0lt, he2]
      · intro s
        simp only
        rw [Nbrs.get_set_zero _ _ (Nat.mod_lt _ (by omega))]
        by_cases hs : s = (j + 1) % 2
        · rw [if_pos hs]
          exact Or.inr ⟨rfl, eq0, heq0, by rw [hs]; exact hback⟩
        · rw [if_neg hs]
          exact Or.inl rfl
      · intro _ _ _ _
        simp only
        rw [Nbrs.get_set_zero _ _ (Nat.mod_lt _ (by omega)), if_pos rfl]
    · refine ⟨e, ?_, rfl, rfl, rfl, fun _ => rfl, fun s => Or.inl rfl, ?_⟩
      · rw [List.getElem?_set_ne (Ne.symm hq)]
        exact he
      · intro e0 he0 hs _
        -- the slot of `q` names `k`, so the slot `j` of `k` names `q`: `q = q0`
        exfalso
        obtain ⟨q1, eq1, hq1, _, heq1, hback1⟩ := hM.recip q e0 ((j + 1) % 2) he0
          (Nat.mod_lt _ (by omega))
        have hk1 : q1 = k := by omega
        subst hk1
        rw [h0k] at heq1
        cases heq1
        have hjj : ((j + 1) % 2 + 1) % 2 = j := by omega
        rw [hjj] at hback1
        apply hq
        omega

theorem subtractWall_cut (edges0 cur : List Edge) (K : List Nat) (w : Line) (k : Nat)
    (hM : MeshLike edges0) (inv : CutInv edges0 K cur)
    (hfind : findEdge cur (Edge.ctor w.u w.v 0 0 0) = some k) (hk : k < edges0.length) :
    ∃ cur1, subtractWall cur w = some cur1 ∧ CutInv edges0 (k :: K) cur1 := by
  obtain ⟨hlen, hrel⟩ := inv
  have h0k : edges0[k]? = some edges0[k] := List.getElem?_eq_getElem hk
  obtain ⟨ek, hek, _, _, _, hk3, _⟩ := hrel k _ h0k
  have hkc : k < cur.length := by rw [hlen]; exact hk
  -- the vector once the index of the wall has been cleared
  have hset : ∀ (q : Nat) (e : Edge), cur[q]? = some e →
      (cur.set k { ek with idx := 0 })[q]? =
        some (if q = k then { ek with idx := 0 } else e) := by
    intro q e he
    by_cases hq : q = k
    · subst hq
      rw [List.getElem?_set_self hkc, if_pos rfl]
    · rw [List.getElem?_set_ne (Ne.symm hq), if_neg hq]
      exact he
  have hslot : ∀ j, ek.nbrs.get j = edges0[k].nbrs.get j ∨ ek.nbrs.get j = 0 := by
    intro j
    rcases hk3 j with h | ⟨h, _⟩
    · exact Or.inl h
    · exact Or.inr h
  obtain ⟨cur1, hc1, hl1, hr1⟩ := clearSlot_cut edges0 (cur.set k { ek with idx := 0 }) k 0 hM
    (by omega) (by simp [hlen]) edges0[k] { ek with idx := 0 } h0k
    (by rw [hset k ek hek, if_pos rfl]) (hslot 0)
  have hk1 : cur1[k]? = some { ek with idx := 0 } := by
    obtain ⟨e1, he1, _, _, _, hsame, _⟩ := hr1 k _ (by rw [hset k ek hek, if_pos rfl])
    rw [he1, hsame rfl]
  obtain ⟨cur2, hc2, hl2, hr2⟩ := clearSlot_cut edges0 cur1 k 1 hM (by omega)
    (by rw [hl1]; simp [hlen]) edges0[k] { ek with idx := 0 } h0k hk1 (hslot 1)
  refine ⟨cur2, ?_, ?_, ?_⟩
  · unfold subtractWall
    rw [hfind]
    simp only [hek, hc1, hc2]
  · rw [hl2, hl1]; simp [hlen]
  · intro q e0 he0
    obtain ⟨e, he, hu, hv, hidx, h3, h4⟩ := hrel q e0 he0
    obtain ⟨e1, he1, hu1, hv1, hi1, _, h31, h41⟩ := hr1 q _ (hset q e he)
    obtain ⟨e2, he2, hu2, hv2, hi2, _, h32, h42⟩ := hr2 q e1 he1
    have hnb : (if q = k then { ek with idx := 0 } else e).nbrs = e.nbrs := by
      by_cases hq : q = k
      · subst hq
        rw [hek] at he
        cases he
        rw [if_pos rfl]
      · rw [if_neg hq]
    have huv : (if q = k then { ek with idx := 0 } else e).u = e.u ∧
        (if q = k then { ek with idx := 0 } else e).v = e.v := by
      by_cases hq : q = k
      · subst hq
        rw [hek] at he
        cases he
        rw [if_pos rfl]
        exact ⟨rfl, rfl⟩
      · rw [if_neg hq]
        exact ⟨rfl, rfl⟩
    rw [hnb] at h31
    refine ⟨e2, he2, by rw [hu2, hu1, huv.1, hu], by rw [hv2, hv1, huv.2, hv], ?_, ?_, ?_⟩
    · rw [hi2, hi1]
      by_cases hq : q = k
      · subst hq
        simp
      · rw [if_neg hq, hidx]
        by_cases hqK : q ∈ K
        · simp [hqK]
        · simp [hqK, hq]
    · intro s
      rcases h32 s with a | ⟨a, e0', he0', hn⟩
      · rcases h31 s with b | ⟨b, e0', he0', hn⟩
        · rcases h3 s with c | ⟨c, p, hp, hpK⟩
          · left; rw [a, b, c]
          · right
            exact ⟨by rw [a, b, c], p, hp, List.mem_cons_of_mem _ hpK⟩
        · right
          rw [he0] at he0'
          cases he0'
          exact ⟨by rw [a, b], k, hn, List.mem_cons_self _ _⟩
      · right
        rw [he0] at he0'
        cases he0'
        exact ⟨a, k, hn, List.mem_cons_self _ _⟩
    · intro s p hs hp hpK hqK
      have hqk : q ≠ k := fun h => hqK (h ▸ List.mem_cons_self _ _)
      have hqK2 : q ∉ K := fun h => hqK (List.mem_cons_of_mem _ h)
      have keep1 : e.nbrs.get s = 0 → e1.nbrs.get s = 0 := by
        intro hz
        rcases h31 s with b | ⟨b, _⟩
        · rw [b, hz]
        · exact b
      have keep2 : e1.nbrs.get s = 0 → e2.nbrs.get s = 0 := by
        intro hz
        rcases h32 s with b | ⟨b, _⟩
        · rw [b, hz]
        · exact b
      rcases List.mem_cons.1 hpK with hpk | hpK1
      · subst hpk
        -- the slot `(s + 1) % 2` of the wall names `q`, and `q` is not a wall
        obtain ⟨q1, eq1, hq1, _, heq1, hback1⟩ := hM.recip q e0 s he0 hs
        have hk1' : q1 = p := by omega
        subst hk1'
        rw [h0k] at heq1
        cases heq1
        have hne : ek.nbrs.get ((s + 1) % 2) ≠ 0 := by
          rcases hk3 ((s + 1) % 2) with c | ⟨_, p1, hp1, hp1K⟩
          · rw [c, hback1]
            omega
          · rw [hback1] at hp1
            have : p1 = q := by omega
            subst this
            exact absurd hp1K hqK2
        have hs01 : s = 0 ∨ s = 1 := by omega
        rcases hs01 with rfl | rfl
        · -- cleared in the pass `j = 1`
          exact h42 e0 he0 hp hne
        · -- cleared in the pass `j = 0`
          exact keep2 (h41 e0 he0 hp hne)
      · exact keep2 (keep1 (h4 s p hs hp hpK1 hqK2))


theorem findEdge_cut (edges0 cur : List Edge) (K : List Nat) (w : Line)
    (inv : CutInv edges0 K cur)
    (hone : edges0.countP (fun e => e.eqv (wallQuery w)) = 1) :
    findEdge cur (Edge.ctor w.u w.v 0 0 0) =
        some (edges0.findIdx fun e => e.eqv (wallQuery w)) ∧
      (edges0.findIdx fun e => e.eqv (wallQuery w)) < edges0.length := by
  obtain ⟨hlen, hrel⟩ := inv
  obtain ⟨hk, _⟩ := findIdx_unique (fun e => e.eqv (wallQuery w)) edges0 hone
  have hfind : cur.findIdx (fun e => e.eqv (wallQuery w)) =
      edges0.findIdx (fun e => e.eqv (wallQuery w)) := by
    apply findIdx_congr _ edges0 cur hlen
    intro i e0 he0
    obtain ⟨e, he, hu, hv, _⟩ := hrel i e0 he0
    exact ⟨e, he, Edge.eqv_congr e e0 _ hu hv⟩
  refine ⟨?_, hk⟩
  unfold findEdge
  have hq : Edge.ctor w.u w.v 0 0 0 = wallQuery w := rfl
  rw [hq]
  simp only
  rw [hfind, hlen, if_pos hk]

theorem subtractWalls_cut (edges0 : List Edge) (hM : MeshLike edges0) :
    ∀ (walls : List Line) (K : List Nat) (cur : List Edge),
      (∀ w ∈ walls, edges0.countP (fun e => e.eqv (wallQuery w)) = 1) →
      CutInv edges0 K cur →
      ∃ cur1, subtractWalls cur walls = some cur1 ∧
        CutInv edges0
          ((walls.map fun w => edges0.findIdx fun e => e.eqv (wallQuery w)).reverse ++ K)
          cur1 := by
  intro walls
  induction walls with
  | nil =>
    intro K cur _ inv
    exact ⟨cur, rfl, by simpa using inv⟩
  | cons w walls ih =>
    intro K cur hone inv
    obtain ⟨hf, hk⟩ := findEdge_cut edges0 cur K w inv (hone w (List.mem_cons_self _ _))
    obtain ⟨cur1, h1, inv1⟩ := subtractWall_cut edges0 cur K w _ hM inv hf hk
    obtain ⟨cur2, h2, inv2⟩ := ih _ cur1 (fun w1 hw1 => hone w1 (List.mem_cons_of_mem _ hw1)) inv1
    refine ⟨cur2, by simp only [subtractWalls, h1, h2], ?_⟩
    simpa using inv2

/-- C27: for the edge list the mesher emits for any list of triangles and for walls
each equal to exactly one edge, `subtractLines` returns, and every returned edge is
an input edge that is not a wall, with its end points and index; none of its slots
holds the index of an edge equal to a wall (a removed edge), and every slot whose
input value is the index of an edge not equal to any wall holds its input value. -/
theorem subtractLines_mesh_slots (triVec : List TriangleType) (walls : List Line)
    (hone : ∀ w ∈ walls, (meshEdges triVec).countP (fun e => e.eqv (wallQuery w)) = 1) :
    ∃ res, subtractLines (meshEdges triVec) walls = some res ∧
      ∀ e ∈ res, ∃ (q : Nat) (e0 : Edge), (meshEdges triVec)[q]? = some e0 ∧ e.idx = e0.idx ∧ e.u = e0.u ∧
        e.v = e0.v ∧ (∀ w ∈ walls, e0.eqv (wallQuery w) = false) ∧
        (∀ (s p : Nat) (ep : Edge), (meshEdges triVec)[p]? = some ep →
          (∃ w ∈ walls, ep.eqv (wallQuery w) = true) → e.nbrs.get s ≠ ep.idx) ∧
        (∀ (s p : Nat) (ep : Edge), (meshEdges triVec)[p]? = some ep →
          (∀ w ∈ walls, ep.eqv (wallQuery w) = false) → e0.nbrs.get s = ep.idx →
          e.nbrs.get s = e0.nbrs.get s) := by
  have hM := meshEdges_meshLike triVec
  have inv0 : CutInv (meshEdges triVec) [] (meshEdges triVec) :=
    ⟨rfl, fun q e0 he0 => ⟨e0, he0, rfl, rfl, by simp, fun _ => Or.inl rfl,
      fun _ p _ _ hp => absurd hp (List.not_mem_nil p)⟩⟩
  obtain ⟨cur, hcur, hlen, hrel⟩ := subtractWalls_cut (meshEdges triVec) hM walls [] _ hone inv0
  -- the positions of the walls
  have hK : ∀ (p : Nat) (ep : Edge), (meshEdges triVec)[p]? = some ep →
      (p ∈ ((walls.map fun w => (meshEdges triVec).findIdx fun e => e.eqv (wallQuery w)).reverse
          ++ []) ↔ ∃ w ∈ walls, ep.eqv (wallQuery w) = true) := by
    intro p ep hp
    simp only [List.append_nil, List.mem_reverse, List.mem_map]
    constructor
    · rintro ⟨w, hw, rfl⟩
      obtain ⟨_, hu⟩ := findIdx_unique (fun e => e.eqv (wallQuery w)) _ (hone w hw)
      exact ⟨w, hw, (hu _ ep hp).2 rfl⟩
    · rintro ⟨w, hw, he⟩
      obtain ⟨_, hu⟩ := findIdx_unique (fun e => e.eqv (wallQuery w)) _ (hone w hw)
      exact ⟨w, hw, ((hu _ ep hp).1 he).symm⟩
  refine ⟨cur.filter fun edge => edge.idx != 0, by simp only [subtractLines, hcur], ?_⟩
  intro e he
  rw [List.mem_filter] at he
  obtain ⟨hmem, hidx⟩ := he
  obtain ⟨q, hq, hqe⟩ := List.getElem_of_mem hmem
  have hq0 : q < (meshEdges triVec).length := by rw [← hlen]; exact hq
  obtain ⟨e1, he1, hu, hv, hi, h3, h4⟩ := hrel q _ (List.getElem?_eq_getElem hq0)
  rw [List.getElem?_eq_getElem hq, hqe] at he1
  cases he1
  have hqK : q ∉ ((walls.map fun w =>
      (meshEdges triVec).findIdx fun e => e.eqv (wallQuery w)).reverse ++ []) := by
    intro hin
    rw [if_pos hin] at hi
    rw [hi] at hidx
    simp at hidx
  rw [if_neg hqK] at hi
  refine ⟨q, _, List.getElem?_eq_getElem hq0, hi, hu, hv, ?_, ?_, ?_⟩
  · intro w hw
    by_contra hne
    apply hqK
    rw [hK q _ (List.getElem?_eq_getElem hq0)]
    exact ⟨w, hw, by simpa using hne⟩
  · intro s p ep hp hwall heq
    have hpK := (hK p ep hp).2 hwall
    have hpidx : ep.idx = p + 1 := hM.idx p ep hp
    rw [hpidx] at heq
    rcases h3 s with a | ⟨a, _⟩
    · rw [a] at heq
      have hs : s < 2 := by
        by_contra hs
        rw [hM.high q _ s (List.getElem?_eq_getElem hq0) (not_lt.1 hs)] at heq
        omega
      have hz := h4 s p hs heq hpK hqK
      rw [a, heq] at hz
      omega
    · rw [a] at heq
      omega
  · intro s p ep hp hnw heq
    have hpidx : ep.idx = p + 1 := hM.idx p ep hp
    rcases h3 s with a | ⟨_, p1, hp1, hp1K⟩
    · exact a
    · exfalso
      have : p1 = p := by omega
      subst this
      obtain ⟨w, hw, hwe⟩ := (hK p1 ep hp).1 hp1K
      rw [hnw w hw] at hwe
      cases hwe

theorem subtractLines_mesh_slots_witness :
    ∃ res, subtractLines (meshEdges [triNear]) (wallsNear.take 1) = some res ∧
      ∀ e ∈ res, ∃ (q : Nat) (e0 : Edge), (meshEdges [triNear])[q]? = some e0 ∧ e.idx = e0.idx ∧ e.u = e0.u ∧
        e.v = e0.v ∧ (∀ w ∈ wallsNear.take 1, e0.eqv (wallQuery w) = false) ∧
        (∀ (s p : Nat) (ep : Edge), (meshEdges [triNear])[p]? = some ep →
          (∃ w ∈ wallsNear.take 1, ep.eqv (wallQuery w) = true) → e.nbrs.get s ≠ ep.idx) ∧
        (∀ (s p : Nat) (ep : Edge), (meshEdges [triNear])[p]? = some ep →
          (∀ w ∈ wallsNear.take 1, ep.eqv (wallQuery w) = false) → e0.nbrs.get s = ep.idx →
          e.nbrs.get s = e0.nbrs.get s) :=
  subtractLines_mesh_slots [triNear] (wallsNear.take 1) (by decide!)

/-! ### The step of `Actuator::operator()` -/

theorem lt_of_fELess_false {K : Type} [LinearOrderedField K] (x y : K)
    (h : fELess x y = false) : y < x := by
  by_contra hn
  rw [fELess_of_le x y (not_lt.1 hn)] at h
  cases h

/-- C22: when `Actuator::operator()` moves the agent (the branch that calls `findCell`)
and the first segment of the chain has positive length `dptA`, the step `dpt` is at
most `dptM = 0.9`, it is `dptM` with an exit in sight and `min(dptA, dptM)` otherwise,
and the scalar `dpt / dptA` handed to `findCell` lies in `(0, 1]`. -/
theorem step_scalar (exitInSight isDummy : Bool) (dptA : ℚ) (hA : 0 < dptA)
    (h : takesStep exitInSight isDummy dptA = true) :
    stepDpt exitInSight dptA ≤ DPTM ∧
      (exitInSight = true → stepDpt exitInSight dptA = DPTM) ∧
      (exitInSight = false → stepDpt exitInSight dptA = min dptA DPTM) ∧
      0 < stepDpt exitInSight dptA / dptA ∧ stepDpt exitInSight dptA / dptA ≤ 1 := by
  have hM : (0 : ℚ) < DPTM := by unfold DPTM; norm_num
  cases exitInSight with
  | true =>
    have hd : stepDpt true dptA = DPTM := rfl
    have hf : fELess dptA DPTM = false := by
      unfold takesStep at h
      rw [hd] at h
      simp only [Bool.true_and, Bool.and_eq_true, Bool.not_eq_eq_eq_not, Bool.not_true] at h
      exact h.1
    have hlt := lt_of_fELess_false dptA DPTM hf
    rw [hd]
    refine ⟨le_refl _, fun _ => rfl, fun h => (by cases h), div_pos hM hA, ?_⟩
    rw [div_le_one hA]
    exact le_of_lt hlt
  | false =>
    have hd : stepDpt false dptA = min dptA DPTM := rfl
    rw [hd]
    refine ⟨min_le_right _ _, fun h => (by cases h), fun _ => rfl,
      div_pos (lt_min hA hM) hA, ?_⟩
    rw [div_le_one hA]
    exact min_le_left _ _

theorem step_scalar_witness :
    stepDpt false (1 / 2) ≤ DPTM ∧
      (false = true → stepDpt false (1 / 2) = DPTM) ∧
      (false = false → stepDpt false (1 / 2) = min (1 / 2) DPTM) ∧
      0 < stepDpt false (1 / 2) / (1 / 2) ∧ stepDpt false (1 / 2) / (1 / 2) ≤ 1 :=
  step_scalar false false (1 / 2) (by norm_num) (by decide)

theorem step_scalar_exit_example :
    takesStep true false 2 = true ∧ stepDpt true 2 / 2 = 9 / 20 ∧
      takesStep true false (1 / 2) = false := by
  decide!

/-! ### `Router::findCell` -/

theorem findCellLoop_spec (m : CMath ℚ) (W : World) (cells : List DuoType) (s : ℚ) :
    ∀ (rest : List Line) (i idx0 : Nat),
      (∀ (k : Nat) (ln : Line), rest[k]? = some ln → ∃ c b, cells[i + k]? = some c ∧
        isInsideCell m W ((Point.smul (1 - s) ln.u).add (Point.smul s ln.v)) c.cIdx = some b) →
      ∃ idx, findCellLoop m W cells s i rest idx0 = some idx ∧
        ((idx = idx0 ∧ ∀ (k : Nat) (ln : Line) (c : DuoType), rest[k]? = some ln →
            cells[i + k]? = some c →
            isInsideCell m W ((Point.smul (1 - s) ln.u).add (Point.smul s ln.v)) c.cIdx =
              some false) ∨
          ∃ (k : Nat) (ln : Line) (c : DuoType), idx = i + k ∧ rest[k]? = some ln ∧
            cells[i + k]? = some c ∧
            isInsideCell m W ((Point.smul (1 - s) ln.u).add (Point.smul s ln.v)) c.cIdx =
              some true ∧
            ∀ (k1 : Nat) (ln1 : Line) (c1 : DuoType), k < k1 → rest[k1]? = some ln1 →
              cells[i + k1]? = some c1 →
              isInsideCell m W ((Point.smul (1 - s) ln1.u).add (Point.smul s ln1.v)) c1.cIdx =
                some false) := by
  intro rest
  induction rest with
  | nil =>
    intro i idx0 _
    exact ⟨idx0, rfl, Or.inl ⟨rfl, fun k ln c h => by simp at h⟩⟩
  | cons ln rest ih =>
    intro i idx0 hdef
    obtain ⟨c, b, hc, hb⟩ := hdef 0 ln (by simp)
    rw [Nat.add_zero] at hc
    have hdef1 : ∀ (k : Nat) (ln1 : Line), rest[k]? = some ln1 → ∃ c b,
        cells[i + 1 + k]? = some c ∧
        isInsideCell m W ((Point.smul (1 - s) ln1.u).add (Point.smul s ln1.v)) c.cIdx =
          some b := by
      intro k ln1 hk
      obtain ⟨c1, b1, h1, h2⟩ := hdef (k + 1) ln1 (by simpa using hk)
      exact ⟨c1, b1, by rw [← h1]; congr 1; omega, h2⟩
    obtain ⟨idx, hidx, hcase⟩ := ih (i + 1) (if b then i else idx0) hdef1
    refine ⟨idx, ?_, ?_⟩
    · rw [findCellLoop, hc]
      simp only [hb]
      exact hidx
    · rcases hcase with ⟨he, hall⟩ | ⟨k, ln1, c1, he, hk, hck, hin, hlater⟩
      · cases b with
        | false =>
          left
          refine ⟨by simpa using he, ?_⟩
          intro k lnk ck hk hck
          cases k with
          | zero =>
            simp only [List.getElem?_cons_zero, Option.some.injEq] at hk
            subst hk
            rw [Nat.add_zero, hc] at hck
            cases hck
            exact hb
          | succ k =>
            simp only [List.getElem?_cons_succ] at hk
            exact hall k lnk ck hk (by rw [← hck]; congr 1; omega)
        | true =>
          right
          refine ⟨0, ln, c, by simpa using he, by simp, by simpa using hc, hb, ?_⟩
          intro k1 ln1 c1 hk1 h1 h2
          obtain ⟨k2, rfl⟩ : ∃ k2, k1 = k2 + 1 := ⟨k1 - 1, by omega⟩
          simp only [List.getElem?_cons_succ] at h1
          exact hall k2 ln1 c1 h1 (by rw [← h2]; congr 1; omega)
      · right
        refine ⟨k + 1, ln1, c1, by omega, by simpa using hk,
          by rw [← hck]; congr 1; omega, hin, ?_⟩
        intro k1 ln2 c2 hk1 h1 h2
        obtain ⟨k2, rfl⟩ : ∃ k2, k1 = k2 + 1 := ⟨k1 - 1, by omega⟩
        simp only [List.getElem?_cons_succ] at h1
        exact hlater k2 ln2 c2 (by omega) h1 (by rw [← h2]; congr 1; omega)

theorem lerp_eq (s : ℚ) (u v : Point ℚ) :
    (Point.smul (1 - s) u).add (Point.smul s v) = u.add (Point.smul s (v.sub u)) := by
  simp only [Point.smul, Point.add, Point.sub, Point.mk.injEq]
  constructor <;> ring

/-- C25: for a chain `(lines, cells)` of equal length and a scalar `s`, when the
interpolated point `(1 - s) u + s v` of some line lies inside the cell at its index,
`Router::findCell` returns the greatest such index `idx`, with that interpolated point
of `lines[idx]` as position and `unitVctr` of `lines[idx]` as direction. -/
theorem findCell_greatest (m : CMath ℚ) (W : World) (lines : List Line) (cells : List DuoType)
    (s : ℚ) (hlen : lines.length = cells.length)
    (hdef : ∀ (i : Nat) (ln : Line) (c : DuoType), lines[i]? = some ln → cells[i]? = some c →
      (isInsideCell m W ((Point.smul (1 - s) ln.u).add (Point.smul s ln.v)) c.cIdx).isSome = true)
    (hex : ∃ (i : Nat) (ln : Line) (c : DuoType), lines[i]? = some ln ∧ cells[i]? = some c ∧
      isInsideCell m W ((Point.smul (1 - s) ln.u).add (Point.smul s ln.v)) c.cIdx = some true) :
    ∃ (idx : Nat) (ln : Line) (c : DuoType), lines[idx]? = some ln ∧ cells[idx]? = some c ∧
      findCell m W lines cells s =
        some (idx, ⟨(Point.smul (1 - s) ln.u).add (Point.smul s ln.v),
          unitVctr m (ln.v.sub ln.u)⟩) ∧
      isInsideCell m W ((Point.smul (1 - s) ln.u).add (Point.smul s ln.v)) c.cIdx = some true ∧
      ∀ (j : Nat) (lnj : Line) (cj : DuoType), idx < j → lines[j]? = some lnj →
        cells[j]? = some cj →
        isInsideCell m W ((Point.smul (1 - s) lnj.u).add (Point.smul s lnj.v)) cj.cIdx =
          some false := by
  have hdef0 : ∀ (k : Nat) (ln : Line), lines[k]? = some ln → ∃ c b, cells[0 + k]? = some c ∧
      isInsideCell m W ((Point.smul (1 - s) ln.u).add (Point.smul s ln.v)) c.cIdx = some b := by
    intro k ln hk
    have hlt : k < cells.length := by
      rw [← hlen]
      by_contra hn
      rw [List.getElem?_eq_none (not_lt.1 hn)] at hk
      exact absurd hk (by simp)
    have hc : cells[k]? = some cells[k] := List.getElem?_eq_getElem hlt
    obtain ⟨b, hb⟩ := Option.isSome_iff_exists.1 (hdef k ln _ hk hc)
    exact ⟨_, b, by rw [Nat.zero_add]; exact hc, hb⟩
  obtain ⟨idx, hidx, hcase⟩ := findCellLoop_spec m W cells s lines 0 IdxTypeMax hdef0
  rcases hcase with ⟨_, hall⟩ | ⟨k, ln, c, he, hk, hck, hin, hlater⟩
  · obtain ⟨i, ln, c, h1, h2, h3⟩ := hex
    have := hall i ln c h1 (by rw [Nat.zero_add]; exact h2)
    rw [h3] at this
    cases this
  · rw [Nat.zero_add] at he hck
    subst he
    refine ⟨idx, ln, c, hk, hck, ?_, hin, ?_⟩
    · unfold findCell
      rw [hidx]
      simp only [hk]
      rw [lerp_eq]
    · intro j lnj cj hj h1 h2
      exact hlater j lnj cj hj h1 (by rw [Nat.zero_add]; exact h2)


theorem findCell_greatest_witness :
    ∃ (idx : Nat) (ln : Line) (c : DuoType),
      [(⟨⟨1, 1⟩, ⟨2, 0⟩⟩ : Line)][idx]? = some ln ∧ [(⟨0, 0⟩ : DuoType)][idx]? = some c ∧
      findCell mathId worldTri [⟨⟨1, 1⟩, ⟨2, 0⟩⟩] [⟨0, 0⟩] (1 / 2) =
        some (idx, ⟨(Point.smul (1 - 1 / 2) ln.u).add (Point.smul (1 / 2) ln.v),
          unitVctr mathId (ln.v.sub ln.u)⟩) ∧
      isInsideCell mathId worldTri ((Point.smul (1 - 1 / 2) ln.u).add (Point.smul (1 / 2) ln.v))
        c.cIdx = some true ∧
      ∀ (j : Nat) (lnj : Line) (cj : DuoType), idx < j →
        [(⟨⟨1, 1⟩, ⟨2, 0⟩⟩ : Line)][j]? = some lnj → [(⟨0, 0⟩ : DuoType)][j]? = some cj →
        isInsideCell mathId worldTri
          ((Point.smul (1 - 1 / 2) lnj.u).add (Point.smul (1 / 2) lnj.v)) cj.cIdx = some false :=
  findCell_greatest mathId worldTri [⟨⟨1, 1⟩, ⟨2, 0⟩⟩] [⟨0, 0⟩] (1 / 2) rfl
    (fun i ln c h1 h2 => by
      match i, h1, h2 with
      | 0, h1, h2 =>
        simp only [List.getElem?_cons_zero, Option.some.injEq] at h1 h2
        subst h1
        subst h2
        decide!
      | k + 1, h1, _ => simp at h1)
    ⟨0, ⟨⟨1, 1⟩, ⟨2, 0⟩⟩, ⟨0, 0⟩, rfl, rfl, by decide!⟩

theorem findCell_example :
    findCell mathId worldTri [⟨⟨1, 1⟩, ⟨2, 0⟩⟩] [⟨0, 0⟩] (1 / 2) =
      some (0, ⟨⟨3 / 2, 1 / 2⟩, ⟨1 / 2, -1 / 2⟩⟩) := by
  decide!

/-! ### `Router::findLine` -/

theorem lineCost_cases (m : CMath ℚ) (W : World) (cIdx : Nat) (pt : Point ℚ) (nosos : List Line)
    (v : Nat) (c : WithTop ℚ) (h : lineCost m W cIdx pt nosos v = some c) :
    ∃ l, nosos[v]? = some l ∧
      ((intersectsWalls m W ⟨pt, linePoint l.toLineOf⟩ cIdx CPA = some true ∧ c = ⊤) ∨
        (intersectsWalls m W ⟨pt, linePoint l.toLineOf⟩ cIdx CPA = some false ∧
          ∃ s, at2 W.lShrtz cIdx v = some s ∧
            c = ((euclideanPLDistance m pt l : ℚ) : WithTop ℚ) + s)) := by
  unfold lineCost at h
  cases hl : nosos[v]? with
  | none => rw [hl] at h; simp at h
  | some l =>
    rw [hl] at h
    simp only at h
    refine ⟨l, rfl, ?_⟩
    cases hi : intersectsWalls m W ⟨pt, linePoint l.toLineOf⟩ cIdx CPA with
    | none => rw [hi] at h; simp at h
    | some b =>
      rw [hi] at h
      cases b with
      | true =>
        simp only [Option.some.injEq] at h
        exact Or.inl ⟨rfl, h.symm⟩
      | false =>
        simp only at h
        cases hs : at2 W.lShrtz cIdx v with
        | none => rw [hs] at h; simp at h
        | some s =>
          rw [hs] at h
          simp only [Option.some.injEq] at h
          exact Or.inr ⟨rfl, s, rfl, h.symm⟩

theorem mapM_option_some {α β : Type} (f : α → Option β) :
    ∀ (l : List α), (∀ x ∈ l, (f x).isSome = true) → ∃ ys, l.mapM f = some ys := by
  intro l
  induction l with
  | nil => intro _; exact ⟨[], rfl⟩
  | cons a l ih =>
    intro h
    obtain ⟨y, hy⟩ := Option.isSome_iff_exists.1 (h a (List.mem_cons_self _ _))
    obtain ⟨ys, hys⟩ := ih (fun x hx => h x (List.mem_cons_of_mem _ hx))
    exact ⟨y :: ys, by rw [List.mapM_cons, hy, hys]; rfl⟩

/-- Let `vec` be the vector of `Router::findLine` after the partial sort, so that its
first `min(7, n)` entries are the candidates.  When the costs of the candidates are
defined, the distances `lShrtz` of the candidates are finite, and some candidate is
not blocked, `findLine` returns a candidate that is not blocked and whose value
`euclideanPLDistance + lShrtz` is least among the candidates that are not blocked. -/
theorem findLineFrom_finite (m : CMath ℚ) (W : World) (cIdx : Nat) (pt : Point ℚ)
    (nosos : List Line) (vec : List Nat)
    (hdef : ∀ v ∈ vec.take (min DICHI nosos.length),
      (lineCost m W cIdx pt nosos v).isSome = true)
    (hfin : ∀ v ∈ vec.take (min DICHI nosos.length), ∀ s, at2 W.lShrtz cIdx v = some s → s ≠ ⊤)
    (hex : ∃ v ∈ vec.take (min DICHI nosos.length), ∃ l, nosos[v]? = some l ∧
      intersectsWalls m W ⟨pt, linePoint l.toLineOf⟩ cIdx CPA = some false) :
    ∃ (r : Nat) (l : Line) (s : WithTop ℚ), findLineFrom m W cIdx pt nosos vec = some r ∧
      r ∈ vec.take (min DICHI nosos.length) ∧ nosos[r]? = some l ∧
      intersectsWalls m W ⟨pt, linePoint l.toLineOf⟩ cIdx CPA = some false ∧
      at2 W.lShrtz cIdx r = some s ∧
      ∀ v ∈ vec.take (min DICHI nosos.length), ∀ (lv : Line) (sv : WithTop ℚ),
        nosos[v]? = some lv →
        intersectsWalls m W ⟨pt, linePoint lv.toLineOf⟩ cIdx CPA = some false →
        at2 W.lShrtz cIdx v = some sv →
        ((euclideanPLDistance m pt l : ℚ) : WithTop ℚ) + s ≤
          ((euclideanPLDistance m pt lv : ℚ) : WithTop ℚ) + sv := by
  generalize hcand : vec.take (min DICHI nosos.length) = cand at hdef hfin hex
  obtain ⟨dst, hdst⟩ := mapM_option_some _ cand hdef
  have hlen := mapM_option_length _ cand dst hdst
  obtain ⟨v0, hv0, l0, hl0, hi0⟩ := hex
  have hne : dst ≠ [] := by
    intro h
    rw [h] at hlen
    have : cand = [] := List.length_eq_zero.1 hlen.symm
    rw [this] at hv0
    exact absurd hv0 (List.not_mem_nil v0)
  obtain ⟨j, c, hmin, hjc, hle⟩ := minElement_spec dst hne
  have hj : j < cand.length := by
    rw [← hlen]
    by_contra hn
    rw [List.getElem?_eq_none (not_lt.1 hn)] at hjc
    exact absurd hjc (by simp)
  obtain ⟨c1, hc1, hd1⟩ := mapM_option_inv _ cand dst hdst j cand[j] (List.getElem?_eq_getElem hj)
  rw [hjc] at hd1
  cases hd1
  -- the cost of the candidate that is not blocked is finite
  obtain ⟨k0, hk0, hk0e⟩ := List.getElem_of_mem hv0
  obtain ⟨c0, hc0, hd0⟩ := mapM_option_inv _ cand dst hdst k0 v0
    (by rw [List.getElem?_eq_getElem hk0, hk0e])
  obtain ⟨l0', hl0', hcase0⟩ := lineCost_cases m W cIdx pt nosos v0 c0 hc0
  rw [hl0] at hl0'
  cases hl0'
  have hc0fin : c0 ≠ ⊤ := by
    rcases hcase0 with ⟨hb, _⟩ | ⟨_, s0, hs0, hce⟩
    · rw [hi0] at hb
      cases hb
    · rw [hce]
      exact WithTop.add_ne_top.2 ⟨WithTop.coe_ne_top, hfin v0 hv0 s0 hs0⟩
  have hcle : c ≤ c0 := hle c0 (by
    obtain ⟨h1, h2⟩ := List.getElem?_eq_some.1 hd0
    exact h2 ▸ List.getElem_mem h1)
  have hcfin : c ≠ ⊤ := fun h => hc0fin (top_le_iff.1 (h ▸ hcle))
  obtain ⟨l, hl, hcase⟩ := lineCost_cases m W cIdx pt nosos cand[j] c hc1
  rcases hcase with ⟨_, hct⟩ | ⟨hub, s, hs, hce⟩
  · exact absurd hct hcfin
  · refine ⟨cand[j], l, s, ?_, List.getElem_mem hj, hl, hub, hs, ?_⟩
    · unfold findLineFrom
      rw [hcand, hdst]
      simp only [hmin]
      have : vec[j]? = cand[j]? := by
        rw [← hcand, List.getElem?_take]
        rw [← hcand, List.length_take] at hj
        simp only [lt_min_iff] at hj
        rw [if_pos (by simp only [lt_min_iff]; exact hj.1)]
      rw [this, List.getElem?_eq_getElem hj]
    · intro v hv lv sv hlv hiv hsv
      obtain ⟨k, hk, hke⟩ := List.getElem_of_mem hv
      obtain ⟨cv, hcv, hdv⟩ := mapM_option_inv _ cand dst hdst k v
        (by rw [List.getElem?_eq_getElem hk, hke])
      obtain ⟨lv', hlv', hcasev⟩ := lineCost_cases m W cIdx pt nosos v cv hcv
      rw [hlv] at hlv'
      cases hlv'
      have hcc : c ≤ cv := hle cv (by
        obtain ⟨h1, h2⟩ := List.getElem?_eq_some.1 hdv
        exact h2 ▸ List.getElem_mem h1)
      rcases hcasev with ⟨hb, _⟩ | ⟨_, s2, hs2, hce2⟩
      · rw [hiv] at hb
        cases hb
      · rw [hsv] at hs2
        cases hs2
        rw [← hce, ← hce2]
        exact hcc

theorem findLine_eq (m : CMath ℚ) (W : World) (cIdx : Nat) (pt : Point ℚ) (nosos : List Line)
    (h : W.nosoz[cIdx]? = some nosos) :
    findLine m W cIdx pt = findLineFrom m W cIdx pt nosos
      (partialSort (fun a => euclideanPLDistance m pt (nosos.getD a ⟨⟨0, 0⟩, ⟨0, 0⟩⟩))
        (List.range nosos.length)) := by
  unfold findLine
  rw [h]


/-! ### `Router::findVisible`: the returned chain -/

theorem backLines_spec (m : CMath ℚ) (W : World) (cpa : ℚ) (cells : List DuoType)
    (tails : List (Point ℚ)) :
    ∀ (i : Nat) (head : Point ℚ) (acc : List Line) (pz pz1 : PseudoType) (L : List Line),
      backLines m W cpa cells tails i head acc pz = some (pz1, some L) →
      L.length = i + acc.length ∧ (i = 0 → L = acc) ∧
        (0 < i → ∃ l rest, L = l :: rest ∧ tails[0]? = some l.u) := by
  intro i
  induction i with
  | zero =>
    intro head acc pz pz1 L h
    simp only [backLines, Option.some.injEq, Prod.mk.injEq] at h
    obtain ⟨_, h2⟩ := h
    subst h2
    exact ⟨by simp, fun _ => rfl, fun h => absurd h (lt_irrefl 0)⟩
  | succ i ih =>
    intro head acc pz pz1 L h
    rw [backLines] at h
    split at h
    · rename_i ci cc tail hci hcc htail
      split at h
      · exact absurd h (by simp)
      · rename_i head1 _
        split at h
        · exact absurd h (by simp)
        · simp at h
        · obtain ⟨h1, h2, h3⟩ := ih _ _ _ _ L h
          refine ⟨by simp only [List.length_cons] at h1; omega, fun h0 => absurd h0 (by simp),
            fun _ => ?_⟩
          cases i with
          | zero =>
            rw [h2 rfl]
            exact ⟨_, _, rfl, htail⟩
          | succ i => exact h3 (Nat.succ_pos i)
    · exact absurd h (by simp)

theorem visEnter_spec (m : CMath ℚ) (W : World) (st : VisState) (duoS : DuoType)
    (cells : List DuoType) (tails : List (Point ℚ)) (pz : PseudoType) (cTrnsn hitExit : Bool)
    (h : visEnter m W st duoS = some (cells, tails, pz, cTrnsn, hitExit)) :
    (cTrnsn = true ∧ ∃ t, cells = st.cells ++ [duoS] ∧ tails = st.tails ++ [t]) ∨
      (cTrnsn = false ∧ cells = st.cells ∧ tails = st.tails) := by
  unfold visEnter at h
  split_ifs at h with h1 h2
  · split at h
    · exact absurd h (by simp)
    · split at h
      · exact absurd h (by simp)
      · split at h
        · exact absurd h (by simp)
        · simp only [Option.some.injEq, Prod.mk.injEq] at h
          obtain ⟨e1, e2, _, e4, _⟩ := h
          exact Or.inl ⟨e4.symm, _, e1.symm, e2.symm⟩
  · split at h
    · simp only [Option.some.injEq, Prod.mk.injEq] at h
      obtain ⟨e1, e2, _, e4, _⟩ := h
      exact Or.inr ⟨e4.symm, e1.symm, e2.symm⟩
    · simp only [Option.some.injEq, Prod.mk.injEq] at h
      obtain ⟨e1, e2, _, e4, _⟩ := h
      exact Or.inr ⟨e4.symm, e1.symm, e2.symm⟩
  · simp only [Option.some.injEq, Prod.mk.injEq] at h
    obtain ⟨e1, e2, _, e4, _⟩ := h
    exact Or.inr ⟨e4.symm, e1.symm, e2.symm⟩

theorem visLines_spec (m : CMath ℚ) (W : World) (cpa : ℚ) (cells : List DuoType)
    (tails : List (Point ℚ)) (pz pz1 : PseudoType) (duoS : DuoType) (L : List Line)
    (hlen : tails.length = cells.length) (hne : cells ≠ [])
    (h : visLines m W cpa cells tails pz duoS = some (pz1, some L)) :
    L.length = cells.length ∧ ∃ l rest, L = l :: rest ∧ tails[0]? = some l.u := by
  unfold visLines at h
  split at h
  · rename_i l tail hl htail
    split at h
    · exact absurd h (by simp)
    · simp at h
    · obtain ⟨h1, h2, h3⟩ := backLines_spec m W cpa cells tails _ _ _ _ _ L h
      have hpos : 0 < cells.length := List.length_pos.2 hne
      refine ⟨by simp only [List.length_singleton] at h1; omega, ?_⟩
      by_cases h0 : cells.length - 1 = 0
      · rw [h2 h0]
        refine ⟨_, _, rfl, ?_⟩
        have h1' : tails.length = 1 := by omega
        match tails, h1', htail with
        | [t], _, htail =>
          simp only [List.getLast?_singleton, Option.some.injEq] at htail
          subst htail
          rfl
      · exact h3 (Nat.pos_of_ne_zero h0)
  · exact absurd h (by simp)

theorem setBackSIdx_length (cells cells1 : List DuoType) (sIdx : Nat)
    (h : setBackSIdx cells sIdx = some cells1) : cells1.length = cells.length := by
  unfold setBackSIdx at h
  cases hl : cells.getLast? with
  | none => rw [hl] at h; simp at h
  | some c =>
    rw [hl] at h
    simp only [Option.some.injEq] at h
    subst h
    have hne : cells ≠ [] := by
      intro e
      rw [e] at hl
      simp at hl
    have := List.length_pos.2 hne
    simp only [List.length_append, List.length_dropLast, List.length_singleton]
    omega

theorem visStep_inv (m : CMath ℚ) (W : World) (cpa : ℚ) (pt : Point ℚ) (st st1 : VisState)
    (b : Bool) (inv : VisInv pt st) (h : visStep m W cpa st = some (st1, b)) : VisInv pt st1 := by
  obtain ⟨i1, i2, i3, l0, rest0, i4, i5⟩ := inv
  unfold visStep at h
  split at h
  · exact absurd h (by simp)
  · rename_i duoS _
    split at h
    · exact absurd h (by simp)
    · rename_i cells tails pz cTrnsn hitExit henter
      have hshape := visEnter_spec m W st duoS cells tails pz cTrnsn hitExit henter
      have hlen : tails.length = cells.length := by
        rcases hshape with ⟨_, t, e1, e2⟩ | ⟨_, e1, e2⟩
        · rw [e1, e2]; simp [i2]
        · rw [e1, e2]; exact i2
      have hcl : cells.length = st.cells.length + (if cTrnsn then 1 else 0) := by
        rcases hshape with ⟨e0, t, e1, e2⟩ | ⟨e0, e1, e2⟩
        · rw [e1, e0]; simp
        · rw [e1, e0]; simp
      have hne : cells ≠ [] := by
        intro e
        rw [e] at hcl
        rw [i4] at i1
        simp only [List.length_cons, List.length_nil] at i1 hcl
        omega
      have ht0 : tails[0]? = some pt := by
        rcases hshape with ⟨_, t, _, e2⟩ | ⟨_, _, e2⟩
        · rw [e2]
          have : 0 < st.tails.length := by
            by_contra hn
            rw [List.getElem?_eq_none (not_lt.1 hn)] at i3
            exact absurd i3 (by simp)
          rw [List.getElem?_append_left this]
          exact i3
        · rw [e2]; exact i3
      split at h
      · exact absurd h (by simp)
      · simp only [Option.some.injEq, Prod.mk.injEq] at h
        obtain ⟨h, _⟩ := h
        subst h
        refine ⟨?_, hlen, ht0, l0, rest0, i4, i5⟩
        simp only
        rw [hcl]
        split_ifs <;> omega
      · rename_i pz1 linesT hlines
        obtain ⟨hL, l, rest, hLe, hlu⟩ := visLines_spec m W cpa cells tails pz pz1 duoS linesT
          hlen hne hlines
        have hlpt : l.u = pt := by
          rw [ht0] at hlu
          exact (Option.some.inj hlu).symm
        split_ifs at h with hc
        · simp only [Option.some.injEq, Prod.mk.injEq] at h
          obtain ⟨h, _⟩ := h
          subst h
          exact ⟨by simp [hL], hlen, ht0, l, rest, hLe, hlpt⟩
        · split at h
          · exact absurd h (by simp)
          · rename_i cells1 hset
            simp only [Option.some.injEq, Prod.mk.injEq] at h
            obtain ⟨h, _⟩ := h
            subst h
            have := setBackSIdx_length cells cells1 duoS.sIdx hset
            exact ⟨by simp [hL, this], by rw [this]; exact hlen, ht0, l, rest, hLe, hlpt⟩

theorem visLoop_inv (m : CMath ℚ) (W : World) (cpa : ℚ) (pt : Point ℚ) :
    ∀ (hop : Nat) (st st1 : VisState), VisInv pt st → visLoop m W cpa hop st = some st1 →
      VisInv pt st1 := by
  intro hop
  induction hop with
  | zero =>
    intro st st1 inv h
    simp only [visLoop, Option.some.injEq] at h
    subst h
    exact inv
  | succ hop ih =>
    intro st st1 inv h
    rw [visLoop] at h
    split at h
    · exact absurd h (by simp)
    · rename_i st2 hstep
      simp only [Option.some.injEq] at h
      subst h
      exact visStep_inv m W cpa pt st _ true inv hstep
    · rename_i st2 hstep
      exact ih st2 st1 (visStep_inv m W cpa pt st st2 false inv hstep) h

/-- C29: whenever `Router::findVisible` returns for a start cell, a point `pt` and a hop
bound, the chain of lines and the list of cells it returns are non-empty and of equal
length, and the first line starts at `pt`. -/
theorem findVisible_chain (m : CMath ℚ) (W : World) (cIdx : Nat) (pt : Point ℚ) (hop : Nat)
    (cpa : ℚ) (lines : List Line) (cells : List DuoType)
    (h : findVisible m W cIdx pt hop cpa = some (lines, cells)) :
    lines ≠ [] ∧ cells ≠ [] ∧ lines.length = cells.length ∧
      ∃ l rest, lines = l :: rest ∧ l.u = pt := by
  unfold findVisible at h
  split at h
  · exact absurd h (by simp)
  · rename_i sIdx _
    split at h
    · exact absurd h (by simp)
    · rename_i l _
      split at h
      · exact absurd h (by simp)
      · rename_i st hloop
        simp only [Option.some.injEq, Prod.mk.injEq] at h
        obtain ⟨h1, h2⟩ := h
        have inv0 : VisInv pt ⟨⟨cIdx, sIdx⟩, [⟨cIdx, sIdx⟩], [pt],
            [⟨pt, linePoint l.toLineOf⟩], [], 0⟩ :=
          ⟨rfl, rfl, rfl, _, _, rfl, rfl⟩
        obtain ⟨i1, _, _, l1, rest1, i4, i5⟩ := visLoop_inv m W cpa pt hop _ st inv0 hloop
        have hlen : lines.length = cells.length := by
          rw [← h1, ← h2, List.length_take]
          omega
        have hne : lines ≠ [] := by
          rw [← h1, i4]
          simp
        refine ⟨hne, ?_, hlen, l1, rest1, by rw [← h1]; exact i4, i5⟩
        intro e
        rw [e] at hlen
        exact hne (List.length_eq_zero.1 hlen)

set_option maxRecDepth 100000 in
theorem findVisible_chain_witness :
    [(⟨⟨1, 1⟩, ⟨2, 0⟩⟩ : Line)] ≠ [] ∧ [(⟨0, 0⟩ : DuoType)] ≠ [] ∧
      [(⟨⟨1, 1⟩, ⟨2, 0⟩⟩ : Line)].length = [(⟨0, 0⟩ : DuoType)].length ∧
      ∃ l rest, [(⟨⟨1, 1⟩, ⟨2, 0⟩⟩ : Line)] = l :: rest ∧ l.u = ⟨1, 1⟩ :=
  findVisible_chain mathId worldTri 0 ⟨1, 1⟩ IdxTypeMax CPA [⟨⟨1, 1⟩, ⟨2, 0⟩⟩] [⟨0, 0⟩]
    (by decide!)

/-! ### `Actuator::operator()`: frame and path -/

theorem pushPos_spec (path path1 : List (Nat × List (Point ℚ))) (pos : Point ℚ)
    (h : pushPos path pos = some path1) :
    ∃ pre c ps, path = pre ++ [(c, ps)] ∧ path1 = pre ++ [(c, ps ++ [pos])] := by
  unfold pushPos at h
  cases hl : path.getLast? with
  | none => rw [hl] at h; simp at h
  | some run =>
    rw [hl] at h
    simp only [Option.some.injEq] at h
    have hne : path ≠ [] := by
      intro e
      rw [e] at hl
      simp at hl
    have h2 : path.getLast hne = run := by
      rw [List.getLast?_eq_getLast _ hne] at hl
      exact Option.some.inj hl
    refine ⟨path.dropLast, run.1, run.2, ?_, h.symm⟩
    rw [← h2]
    exact (List.dropLast_append_getLast hne).symm

/-- The outcome of one call of `Actuator::operator()` in terms of the agent before:
nothing but `dpt` changes and nothing is pushed, or the agent moves: its index is
pushed once and the position is appended to the last run of the path or to a new run. -/
theorem step_cases (m : CMath ℚ) (W : World) (a a1 : Actuator) (pushed : List Nat)
    (h : a.step m W = some (a1, pushed)) :
    ∃ lines cells lastLine line0, findVisible m W a.cIdx a.pos IdxTypeMax CPA =
        some (lines, cells) ∧ cells.getLast? = some lastLine ∧ lines[0]? = some line0 ∧
      a1.idx = a.idx ∧
      ((takesStep (isExit W.susoMaps lastLine.cIdx lastLine.sIdx) (W.dummys.contains a.cIdx)
          (lineNorm m line0) = false ∧
        pushed = [] ∧ a1.path = a.path ∧ a1.cIdx = a.cIdx ∧ a1.pos = a.pos) ∨
      (takesStep (isExit W.susoMaps lastLine.cIdx lastLine.sIdx) (W.dummys.contains a.cIdx)
          (lineNorm m line0) = true ∧
        pushed = [a.idx] ∧
        ((a1.cIdx ≠ a.cIdx ∧ a1.path = a.path ++ [(a1.cIdx, [a1.pos])]) ∨
          (a1.cIdx = a.cIdx ∧ ∃ pre c ps, a.path = pre ++ [(c, ps)] ∧
            a1.path = pre ++ [(c, ps ++ [a1.pos])])))) := by
  unfold Actuator.step at h
  split at h
  · exact absurd h (by simp)
  · rename_i lines cells hvis
    split at h
    · rename_i lastLine line0 hlast hline
      refine ⟨lines, cells, lastLine, line0, hvis, hlast, hline, ?_⟩
      split_ifs at h with ht
      · split at h
        · exact absurd h (by simp)
        · rename_i loc _
          split at h
          · exact absurd h (by simp)
          · rename_i c _
            split at h
            · exact absurd h (by simp)
            · rename_i path1 hpush
              simp only [Option.some.injEq, Prod.mk.injEq] at h
              obtain ⟨h1, h2⟩ := h
              subst h1
              refine ⟨rfl, Or.inr ⟨ht, h2.symm, ?_⟩⟩
              obtain ⟨pre, c0, ps, hp, hp1⟩ := pushPos_spec _ _ _ hpush
              by_cases hc : a.cIdx ≠ c.cIdx
              · rw [if_pos hc] at hp
                left
                refine ⟨fun e => hc e.symm, ?_⟩
                have hsp := List.append_inj' hp (by simp)
                obtain ⟨e1, e2⟩ := hsp
                simp only [List.cons.injEq, Prod.mk.injEq, and_true] at e2
                show path1 = a.path ++ [(c.cIdx, [loc.2.u])]
                rw [hp1, ← e1, ← e2.1, ← e2.2]
                rfl
              · rw [if_neg hc] at hp
                have hcc : c.cIdx = a.cIdx := (not_not.1 hc).symm
                right
                exact ⟨hcc, pre, c0, ps, hp, hp1⟩
      · simp only [Option.some.injEq, Prod.mk.injEq] at h
        obtain ⟨h1, h2⟩ := h
        subst h1
        exact ⟨rfl, Or.inl ⟨by simpa using ht, h2.symm, rfl, rfl, rfl⟩⟩
    · exact absurd h (by simp)


theorem takesStep_false_iff (exitInSight isDummy : Bool) (dptA : ℚ) :
    takesStep exitInSight isDummy dptA = false ↔
      (isDummy = true ∨
        (exitInSight = true ∧ fELess dptA (stepDpt exitInSight dptA) = true)) := by
  unfold takesStep
  cases exitInSight <;> cases isDummy <;> cases fELess dptA (stepDpt _ dptA) <;> simp

/-- C23: one call of `Actuator::operator()` that returns either leaves path, cell and
position as they are and pushes nothing, or appends one position to the path (to its
last run, or as a new run for the new cell) and pushes the index of the agent once.
The first case occurs exactly when the agent is in a dummy cell or an exit is in
sight and `fELess(dptA, dpt)` holds. -/
theorem step_frame (m : CMath ℚ) (W : World) (a a1 : Actuator) (pushed : List Nat)
    (h : a.step m W = some (a1, pushed)) :
    ∃ lines cells lastLine line0, findVisible m W a.cIdx a.pos IdxTypeMax CPA =
        some (lines, cells) ∧ cells.getLast? = some lastLine ∧ lines[0]? = some line0 ∧
      ((pushed = [] ∧ a1.path = a.path ∧ a1.cIdx = a.cIdx ∧ a1.pos = a.pos) ∨
        (pushed = [a.idx] ∧
          ((a1.cIdx ≠ a.cIdx ∧ a1.path = a.path ++ [(a1.cIdx, [a1.pos])]) ∨
            (a1.cIdx = a.cIdx ∧ ∃ pre c ps, a.path = pre ++ [(c, ps)] ∧
              a1.path = pre ++ [(c, ps ++ [a1.pos])])))) ∧
      (pushed = [] ↔
        (W.dummys.contains a.cIdx = true ∨
          (isExit W.susoMaps lastLine.cIdx lastLine.sIdx = true ∧
            fELess (lineNorm m line0)
              (stepDpt (isExit W.susoMaps lastLine.cIdx lastLine.sIdx) (lineNorm m line0)) =
              true))) := by
  obtain ⟨lines, cells, lastLine, line0, h1, h2, h3, _, hcase⟩ := step_cases m W a a1 pushed h
  refine ⟨lines, cells, lastLine, line0, h1, h2, h3, ?_, ?_⟩
  · rcases hcase with ⟨_, hp, r⟩ | ⟨_, hp, r⟩
    · exact Or.inl ⟨hp, r⟩
    · exact Or.inr ⟨hp, r⟩
  · rw [← takesStep_false_iff]
    rcases hcase with ⟨ht, hp, _⟩ | ⟨ht, hp, _⟩
    · exact ⟨fun _ => ht, fun _ => hp⟩
    · constructor
      · intro e
        rw [e] at hp
        cases hp
      · intro e
        rw [e] at ht
        cases ht

theorem pathInv_ctor (gIdx nIdx cIdx : Nat) (pos : Point ℚ) :
    PathInv (Actuator.ctor gIdx nIdx cIdx pos).1 := by
  refine ⟨by simp [Actuator.ctor], ?_, by simp [Actuator.ctor], rfl, rfl⟩
  intro run hr
  simp only [Actuator.ctor, List.mem_singleton] at hr
  rw [hr]
  simp

theorem pathInv_step (m : CMath ℚ) (W : World) (a a1 : Actuator) (pushed : List Nat)
    (inv : PathInv a) (h : a.step m W = some (a1, pushed)) : PathInv a1 := by
  obtain ⟨i1, i2, i3, i4, i5⟩ := inv
  obtain ⟨_, _, _, _, _, _, _, _, hcase⟩ := step_cases m W a a1 pushed h
  rcases hcase with ⟨_, _, hp, hc, hpos⟩ | ⟨_, _, ⟨hc, hp⟩ | ⟨hc, pre, c, ps, hp0, hp⟩⟩
  · unfold PathInv
    rw [hp, hc, hpos]
    exact ⟨i1, i2, i3, i4, i5⟩
  · unfold PathInv
    rw [hp]
    refine ⟨by simp, ?_, ?_, by simp, by simp⟩
    · intro run hr
      rcases List.mem_append.1 hr with hr | hr
      · exact i2 run hr
      · simp only [List.mem_singleton] at hr
        rw [hr]
        simp
    · rw [List.map_append, List.chain'_append]
      refine ⟨i3, by simp, ?_⟩
      intro x hx y hy
      simp only [List.map_cons, List.map_nil, List.head?_cons, Option.mem_def,
        Option.some.injEq] at hy
      subst hy
      rw [List.getLast?_map, i4] at hx
      simp only [Option.mem_def, Option.some.injEq] at hx
      subst hx
      exact fun e => hc e.symm
  · unfold PathInv
    rw [hp, hc]
    rw [hp0] at i2 i3 i4
    refine ⟨by simp, ?_, ?_, ?_, by simp⟩
    · intro run hr
      rcases List.mem_append.1 hr with hr | hr
      · exact i2 run (List.mem_append_left _ hr)
      · simp only [List.mem_singleton] at hr
        rw [hr]
        simp
    · simpa using i3
    · simpa using i4

theorem pathInv_steps (m : CMath ℚ) (W : World) :
    ∀ (n : Nat) (a0 a : Actuator), PathInv a0 → Actuator.steps m W n a0 = some a → PathInv a := by
  intro n
  induction n with
  | zero =>
    intro a0 a h0 h
    simp only [Actuator.steps, Option.some.injEq] at h
    subst h
    exact h0
  | succ n ih =>
    intro a0 a h0 h
    rw [Actuator.steps] at h
    split at h
    · exact absurd h (by simp)
    · rename_i a1 pushed hstep
      exact ih a1 a (pathInv_step m W a0 a1 pushed h0 hstep) h

/-- C28: after its construction and any number of calls of `operator()` that return,
an agent has a non-empty path without empty cell runs, consecutive runs are in
different cells, the last run is in the cell `cIdx` of the agent and its last
position is `pos`. -/
theorem actuator_path_inv (m : CMath ℚ) (W : World) (gIdx nIdx cIdx : Nat) (pos : Point ℚ)
    (n : Nat) (a : Actuator)
    (h : Actuator.steps m W n (Actuator.ctor gIdx nIdx cIdx pos).1 = some a) :
    a.path ≠ [] ∧ (∀ run ∈ a.path, run.2 ≠ []) ∧
      (a.path.map Prod.fst).Chain' (fun c1 c2 => c1 ≠ c2) ∧
      a.path.getLast?.map Prod.fst = some a.cIdx ∧
      (a.path.getLast?.bind fun run => run.2.getLast?) = some a.pos :=
  pathInv_steps m W n _ a (pathInv_ctor gIdx nIdx cIdx pos) h

set_option maxRecDepth 100000 in
theorem actuator_path_inv_witness :
    ([(0, [(⟨1, 1⟩ : Point ℚ), ⟨29 / 20, 11 / 20⟩])] : List (Nat × List (Point ℚ))) ≠ [] ∧
      (∀ run ∈ ([(0, [(⟨1, 1⟩ : Point ℚ), ⟨29 / 20, 11 / 20⟩])] : List (Nat × List (Point ℚ))),
        run.2 ≠ []) ∧
      (([(0, [(⟨1, 1⟩ : Point ℚ), ⟨29 / 20, 11 / 20⟩])] : List (Nat × List (Point ℚ))).map
        Prod.fst).Chain' (fun c1 c2 => c1 ≠ c2) ∧
      ([(0, [(⟨1, 1⟩ : Point ℚ), ⟨29 / 20, 11 / 20⟩])] :
        List (Nat × List (Point ℚ))).getLast?.map Prod.fst = some 0 ∧
      (([(0, [(⟨1, 1⟩ : Point ℚ), ⟨29 / 20, 11 / 20⟩])] :
        List (Nat × List (Point ℚ))).getLast?.bind fun run => run.2.getLast?) =
        some ⟨29 / 20, 11 / 20⟩ :=
  actuator_path_inv mathId worldTri 0 0 0 ⟨1, 1⟩ 1
    ⟨0, 0, 0, ⟨29 / 20, 11 / 20⟩, ⟨1 / 2, -1 / 2⟩, 9 / 10,
      [(0, [⟨1, 1⟩, ⟨29 / 20, 11 / 20⟩])]⟩ (by decide!)

set_option maxRecDepth 100000 in
theorem step_frame_witness :
    ∃ lines cells lastLine line0, findVisible mathId worldTri 0 ⟨1, 1⟩ IdxTypeMax CPA =
        some (lines, cells) ∧ cells.getLast? = some lastLine ∧ lines[0]? = some line0 ∧
      ((([0] : List Nat) = [] ∧
          [(0, [(⟨1, 1⟩ : Point ℚ), ⟨29 / 20, 11 / 20⟩])] = [(0, [(⟨1, 1⟩ : Point ℚ)])] ∧
          0 = 0 ∧ (⟨29 / 20, 11 / 20⟩ : Point ℚ) = ⟨1, 1⟩) ∨
        (([0] : List Nat) = [0] ∧
          ((0 ≠ 0 ∧ [(0, [(⟨1, 1⟩ : Point ℚ), ⟨29 / 20, 11 / 20⟩])] =
              [(0, [(⟨1, 1⟩ : Point ℚ)])] ++ [(0, [(⟨29 / 20, 11 / 20⟩ : Point ℚ)])]) ∨
            (0 = 0 ∧ ∃ pre c ps, [(0, [(⟨1, 1⟩ : Point ℚ)])] = pre ++ [(c, ps)] ∧
              [(0, [(⟨1, 1⟩ : Point ℚ), ⟨29 / 20, 11 / 20⟩])] =
                pre ++ [(c, ps ++ [(⟨29 / 20, 11 / 20⟩ : Point ℚ)])])))) ∧
      (([0] : List Nat) = [] ↔
        (worldTri.dummys.contains 0 = true ∨
          (isExit worldTri.susoMaps lastLine.cIdx lastLine.sIdx = true ∧
            fELess (lineNorm mathId line0)
              (stepDpt (isExit worldTri.susoMaps lastLine.cIdx lastLine.sIdx)
                (lineNorm mathId line0)) = true))) :=
  step_frame mathId worldTri (Actuator.ctor 0 0 0 ⟨1, 1⟩).1
    ⟨0, 0, 0, ⟨29 / 20, 11 / 20⟩, ⟨1 / 2, -1 / 2⟩, 9 / 10,
      [(0, [⟨1, 1⟩, ⟨29 / 20, 11 / 20⟩])]⟩ [0] (by decide!)

/-- In `worldTri` an agent at `(2, 1/2)` sees the exit at a distance below `dptM` (the
root being the identity here): the call changes `dpt` only and pushes nothing. -/
theorem step_arrived_example :
    (Actuator.ctor 0 0 0 ⟨2, 1 / 2⟩).1.step mathId worldTri =
      some (⟨0, 0, 0, ⟨2, 1 / 2⟩, ⟨0, 0⟩, 9 / 10, [(0, [⟨2, 1 / 2⟩])]⟩, []) := by
  decide!

/-! ### The rounds of `Simmer::Simmer` -/

theorem step_idx (m : CMath ℚ) (W : World) (a a1 : Actuator) (pushed : List Nat)
    (h : a.step m W = some (a1, pushed)) :
    a1.idx = a.idx ∧ (pushed = [] ∨ pushed = [a.idx]) := by
  obtain ⟨_, _, _, _, _, _, _, hidx, hcase⟩ := step_cases m W a a1 pushed h
  refine ⟨hidx, ?_⟩
  rcases hcase with ⟨_, hp, _⟩ | ⟨_, hp, _⟩
  · exact Or.inl hp
  · exact Or.inr hp

theorem map_idx_set (actrs : List Actuator) (i : Nat) (a a1 : Actuator)
    (h : actrs[i]? = some a) (hidx : a1.idx = a.idx) :
    (actrs.set i a1).map (fun x => x.idx) = actrs.map (fun x => x.idx) := by
  apply List.ext_getElem?
  intro j
  rw [List.getElem?_map, List.getElem?_map]
  by_cases hj : i = j
  · subst hj
    have hlt : i < actrs.length := by
      by_contra hn
      rw [List.getElem?_eq_none (not_lt.1 hn)] at h
      exact absurd h (by simp)
    rw [List.getElem?_set_self hlt, h]
    simp [hidx]
  · rw [List.getElem?_set_ne hj]

theorem poolRound_spec (m : CMath ℚ) (W : World) (ids : List Nat) :
    ∀ (iQue : List Nat) (actrs : List Actuator) (oQue : List Nat) (actrs1 : List Actuator)
      (oQue1 : List Nat), actrs.map (fun x => x.idx) = ids →
      poolRound m W iQue actrs oQue = some (actrs1, oQue1) →
      actrs1.map (fun x => x.idx) = ids ∧ (∀ i ∈ iQue, i < ids.length) ∧
        ∃ sub, oQue1 = oQue ++ sub ∧ sub.Sublist (iQue.map fun i => ids.getD i 0) := by
  intro iQue
  induction iQue with
  | nil =>
    intro actrs oQue actrs1 oQue1 hids h
    simp only [poolRound, Option.some.injEq, Prod.mk.injEq] at h
    obtain ⟨h1, h2⟩ := h
    subst h1
    subst h2
    exact ⟨hids, fun i hi => absurd hi (List.not_mem_nil i), [], by simp, List.Sublist.refl _⟩
  | cons i rest ih =>
    intro actrs oQue actrs1 oQue1 hids h
    rw [poolRound] at h
    split at h
    · exact absurd h (by simp)
    · rename_i a ha
      split at h
      · exact absurd h (by simp)
      · rename_i a1 pushed hstep
        obtain ⟨hidx, hpush⟩ := step_idx m W a a1 pushed hstep
        have hlt : i < actrs.length := by
          by_contra hn
          rw [List.getElem?_eq_none (not_lt.1 hn)] at ha
          exact absurd ha (by simp)
        have hid : ids.getD i 0 = a.idx := by
          rw [← hids, List.getD_eq_getElem?_getD, List.getElem?_map, ha]
          rfl
        obtain ⟨k1, k2, sub, k3, k4⟩ := ih (actrs.set i a1) (oQue ++ pushed) actrs1 oQue1
          (by rw [map_idx_set actrs i a a1 ha hidx]; exact hids) h
        refine ⟨k1, ?_, pushed ++ sub, by rw [k3, List.append_assoc], ?_⟩
        · intro j hj
          rcases List.mem_cons.1 hj with rfl | hj
          · rw [← hids, List.length_map]; exact hlt
          · exact k2 j hj
        · rw [List.map_cons, hid]
          rcases hpush with e | e
          · rw [e]
            exact List.Sublist.cons _ k4
          · rw [e]
            exact List.Sublist.cons₂ _ k4

theorem nodup_map_getD (ids : List Nat) (hnd : ids.Nodup) (que : List Nat) (hq : que.Nodup)
    (hlt : ∀ i ∈ que, i < ids.length) : (que.map fun i => ids.getD i 0).Nodup := by
  apply List.Nodup.map_on _ hq
  intro x hx y hy hxy
  have hx1 := hlt x hx
  have hy1 := hlt y hy
  rw [List.getD_eq_getElem _ _ hx1, List.getD_eq_getElem _ _ hy1] at hxy
  exact (List.Nodup.getElem_inj_iff hnd).1 hxy

/-- C24: when the indices `idx` of the agents are pairwise distinct (they are taken
from the static counter `gIdx++`), the input queue of every round of `Simmer::Simmer`
holds each index at most once. -/
theorem simmer_queue_nodup (m : CMath ℚ) (W : World) (actrs : List Actuator)
    (hnd : (actrs.map fun x => x.idx).Nodup) :
    ∀ (k : Nat) (actrs1 : List Actuator) (iQue : List Nat),
      simmerRound m W actrs k = some (actrs1, iQue) →
      iQue.Nodup ∧ (actrs1.map fun x => x.idx) = (actrs.map fun x => x.idx) := by
  intro k
  induction k with
  | zero =>
    intro actrs1 iQue h
    simp only [simmerRound, Option.some.injEq, Prod.mk.injEq] at h
    obtain ⟨h1, h2⟩ := h
    subst h1
    subst h2
    exact ⟨List.nodup_range _, rfl⟩
  | succ k ih =>
    intro actrs1 iQue h
    rw [simmerRound] at h
    split at h
    · exact absurd h (by simp)
    · rename_i actrs0 iQue0 h0
      obtain ⟨hq0, hids0⟩ := ih actrs0 iQue0 h0
      obtain ⟨k1, k2, sub, k3, k4⟩ := poolRound_spec m W _ iQue0 actrs0 [] actrs1 iQue hids0 h
      refine ⟨?_, k1⟩
      rw [k3, List.nil_append]
      exact (nodup_map_getD _ hnd iQue0 hq0 k2).sublist k4

theorem ctors_idx :
    ∀ (specs : List (Nat × Nat × Point ℚ)) (gIdx : Nat),
      (Actuator.ctors gIdx specs).map (fun x => x.idx) = List.range' gIdx specs.length := by
  intro specs
  induction specs with
  | nil => intro gIdx; rfl
  | cons s rest ih =>
    intro gIdx
    obtain ⟨n, c, p⟩ := s
    rw [Actuator.ctors, List.map_cons, ih]
    rfl

set_option maxRecDepth 100000 in
theorem simmer_queue_nodup_witness :
    ([0] : List Nat).Nodup ∧
      ([⟨0, 0, 0, ⟨29 / 20, 11 / 20⟩, ⟨1 / 2, -1 / 2⟩, 9 / 10,
          [(0, [⟨1, 1⟩, ⟨29 / 20, 11 / 20⟩])]⟩,
        ⟨1, 1, 0, ⟨2, 1 / 2⟩, ⟨0, 0⟩, 9 / 10, [(0, [⟨2, 1 / 2⟩])]⟩] : List Actuator).map
          (fun x => x.idx) =
        (Actuator.ctors 0 [(0, 0, ⟨1, 1⟩), (1, 0, ⟨2, 1 / 2⟩)]).map fun x => x.idx :=
  simmer_queue_nodup mathId worldTri (Actuator.ctors 0 [(0, 0, ⟨1, 1⟩), (1, 0, ⟨2, 1 / 2⟩)])
    (by decide) 1 _ [0] (by decide!)

/-- Two agents in `worldTri`: the queues of the first rounds are `[0, 1]`, `[0]` (the
second agent has arrived) and `[]`. -/
theorem simmer_rounds_example :
    (simmerRound mathId worldTri (Actuator.ctors 0 [(0, 0, ⟨1, 1⟩), (1, 0, ⟨2, 1 / 2⟩)]) 0).map
        Prod.snd = some [0, 1] ∧
      (simmerRound mathId worldTri (Actuator.ctors 0 [(0, 0, ⟨1, 1⟩), (1, 0, ⟨2, 1 / 2⟩)]) 1).map
        Prod.snd = some [0] ∧
      (simmerRound mathId worldTri (Actuator.ctors 0 [(0, 0, ⟨1, 1⟩), (1, 0, ⟨2, 1 / 2⟩)]) 2).map
        Prod.snd = some [] := by
  decide!

set_option maxRecDepth 100000 in
/-- In `worldPair`, from the point `(1,2)` of cell `0`: the first iteration enters cell
`1` and finds the exit hidden (it still is a pseudo wall: `dmp = 1`), the second
iteration sees it through both cells, and the chain of two lines and two cells is
returned; with the hop bound `1` the cell that was not confirmed is trimmed. -/
theorem findVisible_two_cells :
    findVisible mathId worldPair 0 ⟨1, 2⟩ IdxTypeMax CPA =
        some ([⟨⟨1, 2⟩, ⟨8, 2⟩⟩, ⟨⟨-3, 2⟩, ⟨4, 2⟩⟩], [⟨0, 0⟩, ⟨1, 1⟩]) ∧
      findVisible mathId worldPair 0 ⟨1, 2⟩ 1 CPA = some ([⟨⟨1, 2⟩, ⟨4, 2⟩⟩], [⟨0, 0⟩]) ∧
      (visLoop mathId worldPair CPA 1
          ⟨⟨0, 0⟩, [⟨0, 0⟩], [⟨1, 2⟩], [⟨⟨1, 2⟩, ⟨4, 2⟩⟩], [], 0⟩).map
        (fun st => (st.cells, st.dmp, st.pseudoz)) =
        some ([⟨0, 0⟩, ⟨1, 1⟩], 1, [(0, []), (1, [1])]) := by
  decide!

/-! ### Walks and the local graph of a cell -/

theorem Walk.src_lt {D : Type} [LinearOrderedAddCommMonoidWithTop D] {g : GraphType D}
    {s v : Nat} {l : D} (h : Walk g s v l) : s < g.length := by
  induction h with
  | nil hs => exact hs
  | snoc _ _ _ _ _ _ _ _ ih => exact ih

theorem Walk.tgt_lt {D : Type} [LinearOrderedAddCommMonoidWithTop D] {g : GraphType D}
    (hwf : ∀ (u : Nat) (row : List (Nat × D)), g[u]? = some row → ∀ e ∈ row, e.1 < g.length)
    {s v : Nat} {l : D} (h : Walk g s v l) : v < g.length := by
  induction h with
  | nil hs => exact hs
  | snoc u v l w row _ hrow hvw _ => exact hwf u row hrow _ hvw

theorem Walk.append {D : Type} [LinearOrderedAddCommMonoidWithTop D] {g : GraphType D}
    {s u v : Nat} {l1 l2 : D} (h1 : Walk g s u l1) (h2 : Walk g u v l2) :
    Walk g s v (l1 + l2) := by
  induction h2 with
  | nil _ => rw [add_zero]; exact h1
  | snoc a b l w row _ hrow hvw ih =>
    rw [← add_assoc]
    exact Walk.snoc a b _ w row ih hrow hvw

theorem Walk.edge {D : Type} [LinearOrderedAddCommMonoidWithTop D] {g : GraphType D}
    {u v : Nat} {w : D} {row : List (Nat × D)} (hrow : g[u]? = some row) (hvw : (v, w) ∈ row) :
    Walk g u v w := by
  have h := Walk.snoc u v 0 w row (Walk.nil (List.getElem?_eq_some.1 hrow).1) hrow hvw
  rw [zero_add] at h
  exact h

theorem Walk.reverse {D : Type} [LinearOrderedAddCommMonoidWithTop D] {g : GraphType D}
    (hsym : ∀ (u v : Nat) (w : D) (row : List (Nat × D)), g[u]? = some row → (v, w) ∈ row →
      ∃ row1, g[v]? = some row1 ∧ (u, w) ∈ row1)
    {s v : Nat} {l : D} (h : Walk g s v l) : Walk g v s l := by
  induction h with
  | nil hs => exact Walk.nil hs
  | snoc a b l w row _ hrow hvw ih =>
    obtain ⟨row1, h1, h2⟩ := hsym a b w row hrow hvw
    have := Walk.append (Walk.edge h1 h2) ih
    rw [add_comm] at this
    exact this

theorem Walk.ne_top {M : Type} [LinearOrderedCancelAddCommMonoid M] {g : GraphType (WithTop M)}
    (hfin : ∀ (u : Nat) (row : List (Nat × WithTop M)), g[u]? = some row → ∀ e ∈ row, e.2 ≠ ⊤)
    {s v : Nat} {l : WithTop M} (h : Walk g s v l) : l ≠ ⊤ := by
  induction h with
  | nil _ => exact WithTop.zero_ne_top
  | snoc a b l w row _ hrow hvw ih =>
    exact WithTop.add_ne_top.2 ⟨ih, hfin a row hrow _ hvw⟩

/-! local rows -/

theorem mem_mapInsert {α : Type} (m : List (Nat × α)) (k : Nat) (v : α) (e : Nat × α) :
    e ∈ mapInsert m k v ↔ e ∈ m ∨ (m.lookup k = none ∧ e = (k, v)) := by
  unfold mapInsert
  cases h : m.lookup k with
  | none => simp
  | some x => simp

theorem lookup_none_iff {α : Type} (m : List (Nat × α)) (k : Nat) :
    m.lookup k = none ↔ ∀ e ∈ m, e.1 ≠ k := by
  induction m with
  | nil => simp
  | cons a m ih =>
    obtain ⟨a1, a2⟩ := a
    simp only [List.lookup]
    by_cases h : k = a1
    · subst h
      simp
    · have : (k == a1) = false := by simpa using h
      rw [this]
      simp only [ih, List.mem_cons, forall_eq_or_imp, ne_eq]
      constructor
      · intro h1
        exact ⟨fun e => h e.symm, h1⟩
      · intro h1
        exact h1.2

theorem localFold_mem {D : Type} (w : Nat → Nat → D) (nbrs : List Nat) (i : Nat)
    (f : List (Nat × D) → Nat → List (Nat × D))
    (hf : ∀ row j, (nbrs.getD (i * 4 + j) 0 = 0 ∧ f row j = row) ∨
      (∃ Jm, nbrs.getD (i * 4 + j) 0 = Jm + 1 ∧ f row j = mapInsert row Jm (w i Jm))) :
    ∀ (js : List Nat) (acc : List (Nat × D)), (∀ e ∈ acc, e.2 = w i e.1) →
      ∀ v x, (v, x) ∈ js.foldl f acc ↔
        x = w i v ∧ ((v, x) ∈ acc ∨ ∃ j ∈ js, nbrs.getD (i * 4 + j) 0 = v + 1) := by
  intro js
  induction js with
  | nil =>
    intro acc hacc v x
    simp only [List.foldl_nil, List.not_mem_nil, false_and, exists_false, or_false]
    constructor
    · intro h; exact ⟨hacc _ h, h⟩
    · intro h; exact h.2
  | cons j js ih =>
    intro acc hacc v x
    rw [List.foldl_cons]
    rcases hf acc j with ⟨h0, hrow⟩ | ⟨Jm, hJ, hrow⟩
    · rw [hrow, ih acc hacc]
      constructor
      · rintro ⟨h1, h2 | ⟨j1, hj1, h3⟩⟩
        · exact ⟨h1, Or.inl h2⟩
        · exact ⟨h1, Or.inr ⟨j1, List.mem_cons_of_mem _ hj1, h3⟩⟩
      · rintro ⟨h1, h2 | ⟨j1, hj1, h3⟩⟩
        · exact ⟨h1, Or.inl h2⟩
        · rcases List.mem_cons.1 hj1 with rfl | hj1
          · rw [h0] at h3; omega
          · exact ⟨h1, Or.inr ⟨j1, hj1, h3⟩⟩
    · have hacc1 : ∀ e ∈ mapInsert acc Jm (w i Jm), e.2 = w i e.1 := by
        intro e he
        rcases (mem_mapInsert _ _ _ _).1 he with h | ⟨-, h⟩
        · exact hacc e h
        · rw [h]
      rw [hrow, ih _ hacc1]
      constructor
      · rintro ⟨h1, h2 | ⟨j1, hj1, h3⟩⟩
        · rcases (mem_mapInsert _ _ _ _).1 h2 with h | ⟨-, h⟩
          · exact ⟨h1, Or.inl h⟩
          · cases h
            exact ⟨h1, Or.inr ⟨j, List.mem_cons_self _ _, hJ⟩⟩
        · exact ⟨h1, Or.inr ⟨j1, List.mem_cons_of_mem _ hj1, h3⟩⟩
      · rintro ⟨h1, h2 | ⟨j1, hj1, h3⟩⟩
        · exact ⟨h1, Or.inl ((mem_mapInsert _ _ _ _).2 (Or.inl h2))⟩
        · rcases List.mem_cons.1 hj1 with rfl | hj1
          · rw [hJ] at h3
            have hv : Jm = v := by omega
            subst hv
            refine ⟨h1, Or.inl ((mem_mapInsert _ _ _ _).2 ?_)⟩
            cases hl : acc.lookup Jm with
            | none => exact Or.inr ⟨rfl, by rw [h1]⟩
            | some y =>
              left
              have : ∃ e ∈ acc, e.1 = Jm := by
                by_contra hne
                push_neg at hne
                rw [(lookup_none_iff acc Jm).2 hne] at hl
                cases hl
              obtain ⟨e, he, hek⟩ := this
              have := hacc e he
              rw [h1, ← hek, ← this]
              exact he
          · exact ⟨h1, Or.inr ⟨j1, hj1, h3⟩⟩

theorem mem_localRow {D : Type} (w : Nat → Nat → D) (nbrs : List Nat) (i v : Nat) (x : D) :
    (v, x) ∈ localRow w nbrs i ↔ x = w i v ∧ ∃ j, j < 4 ∧ nbrs.getD (i * 4 + j) 0 = v + 1 := by
  unfold localRow
  rw [localFold_mem w nbrs i _ _ (List.range 4) [] (by intro e he; cases he)]
  · simp only [List.not_mem_nil, false_or, List.mem_range]
  · intro row j
    cases h : nbrs.getD (i * 4 + j) 0 with
    | zero => left; simp
    | succ Jm => right; exact ⟨Jm, rfl, by simp⟩

theorem localGraph_length {D : Type} (w : Nat → Nat → D) (nbrs : List Nat) (xSize : Nat) :
    (localGraph w nbrs xSize).length = xSize := by
  simp [localGraph]

theorem localGraph_row {D : Type} (w : Nat → Nat → D) (nbrs : List Nat) (xSize u : Nat)
    (row : List (Nat × D)) (h : (localGraph w nbrs xSize)[u]? = some row) :
    u < xSize ∧ row = localRow w nbrs u := by
  unfold localGraph at h
  rw [List.getElem?_map] at h
  by_cases hu : u < xSize
  · rw [List.getElem?_range hu] at h
    simp only [Option.map_some', Option.some.injEq] at h
    exact ⟨hu, h.symm⟩
  · rw [List.getElem?_eq_none (by simpa using hu)] at h
    cases h

/-! ### `Finder::findLocal`: the columns of the local tables -/

theorem localRuns_spec {D : Type} [LinearOrderedAddCommMonoidWithTop D] (g : GraphType D)
    (hwf : ∀ (u : Nat) (row : List (Nat × D)), g[u]? = some row → ∀ e ∈ row, e.1 < g.length)
    (hnn : ∀ (u : Nat) (row : List (Nat × D)), g[u]? = some row → ∀ e ∈ row, 0 ≤ e.2)
    (ySize : Nat) :
    ∀ (rest : List TriType) (i : Nat) (path : List Nat) (dist : List D),
      i + rest.length = ySize → path.length = g.length * ySize →
      dist.length = g.length * ySize → (∀ t ∈ rest, t.sIdx < g.length) →
      ∃ path1 dist1, localRuns g i rest (path, dist) = some (path1, dist1) ∧
        path1.length = path.length ∧ dist1.length = dist.length ∧
        (∀ j t, rest[j]? = some t → ∃ d p, dijkstraCore g t.sIdx = some (d, p) ∧
          ∀ e, e < g.length → path1[e * ySize + (i + j)]? = p[e]? ∧
            dist1[e * ySize + (i + j)]? = d[e]?) ∧
        (∀ e k, k < i → path1[e * ySize + k]? = path[e * ySize + k]? ∧
          dist1[e * ySize + k]? = dist[e * ySize + k]?) := by
  intro rest
  induction rest with
  | nil =>
    intro i path dist _ _ _ _
    exact ⟨path, dist, rfl, rfl, rfl, fun j t h => by simp at h, fun e k _ => ⟨rfl, rfl⟩⟩
  | cons t rest ih =>
    intro i path dist hi hp hd hs
    have hts : t.sIdx < g.length := hs t (List.mem_cons_self _ _)
    have hiy : i < ySize := by simp at hi; omega
    obtain ⟨d, p, hcore, hdl, hpl, -⟩ := dijkstraCore_tree g t.sIdx hts hwf hnn
    have hy : path.length / g.length = ySize := by
      rw [hp, Nat.mul_div_cancel_left ySize (by omega)]
    have hidx : ∀ j, j < d.length → (0 + j) * ySize + i < g.length * ySize := by
      intro j hj
      rw [hdl] at hj
      rw [Nat.zero_add]
      exact index_lt _ _ _ _ hj hiy
    obtain ⟨path1, dist1, hw, hcol, hframe, hl1, hl2⟩ :=
      writeColumn_spec ySize i hiy d p 0 path dist (by rw [hdl, hpl])
        (fun j hj => ⟨by rw [hp]; exact hidx j hj, by rw [hd]; exact hidx j hj⟩)
    obtain ⟨path2, dist2, hr, hl3, hl4, hcols, hfr⟩ := ih (i + 1) path1 dist1
      (by simp at hi ⊢; omega) (by rw [hl1, hp]) (by rw [hl2, hd])
      (fun t1 ht1 => hs t1 (List.mem_cons_of_mem _ ht1))
    refine ⟨path2, dist2, ?_, by rw [hl3, hl1], by rw [hl4, hl2], ?_, ?_⟩
    · simp only [localRuns, dijkstraPQCS, hcore, hy, hw, hr]
    · intro j t1 hj
      cases j with
      | zero =>
        simp only [List.getElem?_cons_zero, Option.some.injEq] at hj
        subst hj
        refine ⟨d, p, hcore, ?_⟩
        intro e he
        obtain ⟨f1, f2⟩ := hfr e i (by omega)
        have c := hcol e (by rw [hdl]; exact he)
        rw [Nat.zero_add] at c
        rw [Nat.add_zero, f1, f2]
        exact c
      | succ j =>
        simp only [List.getElem?_cons_succ] at hj
        obtain ⟨d1, p1, hc1, hcol1⟩ := hcols j t1 hj
        refine ⟨d1, p1, hc1, ?_⟩
        intro e he
        have := hcol1 e he
        rw [show i + (j + 1) = i + 1 + j by omega]
        exact this
    · intro e k hk
      obtain ⟨f1, f2⟩ := hfr e k (by omega)
      have hne : ∀ j, j < d.length → e * ySize + k ≠ (0 + j) * ySize + i := by
        intro j _ h
        rw [Nat.zero_add] at h
        have h1 : (e * ySize + k) % ySize = (j * ySize + i) % ySize := by rw [h]
        rw [Nat.mul_comm e, Nat.mul_comm j, Nat.mul_add_mod, Nat.mul_add_mod,
          Nat.mod_eq_of_lt (by omega), Nat.mod_eq_of_lt hiy] at h1
        omega
      obtain ⟨f3, f4⟩ := hframe _ hne
      rw [f1, f2, f3, f4]
      exact ⟨rfl, rfl⟩

theorem formMCS_spec {D : Type} [LinearOrderedAddCommMonoidWithTop D] (w : Nat → Nat → D)
    (nbrs : List Nat) (xSize : Nat) (ext : List TriType)
    (hwf : ∀ (u : Nat) (row : List (Nat × D)), (localGraph w nbrs xSize)[u]? = some row →
      ∀ e ∈ row, e.1 < xSize)
    (hnn : ∀ (u : Nat) (row : List (Nat × D)), (localGraph w nbrs xSize)[u]? = some row →
      ∀ e ∈ row, 0 ≤ e.2)
    (hs : ∀ t ∈ ext, t.sIdx < xSize) :
    ∃ path dist, formMCS w nbrs xSize ext = some (path, dist) ∧
      path.length = xSize * ext.length ∧ dist.length = xSize * ext.length ∧
      ∀ j t, ext[j]? = some t → ∃ d p, dijkstraCore (localGraph w nbrs xSize) t.sIdx = some (d, p) ∧
        ∀ e, e < xSize → path[e * ext.length + j]? = p[e]? ∧
          dist[e * ext.length + j]? = d[e]? := by
  have hl := localGraph_length w nbrs xSize
  obtain ⟨path, dist, h1, h2, h3, h4, -⟩ := localRuns_spec (localGraph w nbrs xSize)
    (by rw [hl]; exact hwf) hnn ext.length ext 0
    (List.replicate (xSize * ext.length) 0) (List.replicate (xSize * ext.length) 0)
    (by simp) (by simp [hl]) (by simp [hl]) (by rw [hl]; exact hs)
  refine ⟨path, dist, h1, by simpa using h2, by simpa using h3, ?_⟩
  intro j t hj
  obtain ⟨d, p, hc, hcol⟩ := h4 j t hj
  refine ⟨d, p, hc, ?_⟩
  intro e he
  have := hcol e (by rw [hl]; exact he)
  rw [Nat.zero_add] at this
  exact this

theorem findLocal_spec {D : Type} [LinearOrderedAddCommMonoidWithTop D]
    (w : Nat → Nat → Nat → D) (nbrz : List (List Nat)) (S : List (List TriType)) :
    ∀ (sizes : List Nat) (idx : Nat),
      (∀ k xSize, sizes[k]? = some xSize → ∃ nbrs ext path dist,
        nbrz[idx + k]? = some nbrs ∧ S[idx + k]? = some ext ∧
        formMCS (w (idx + k)) nbrs xSize ext = some (path, dist)) →
      ∃ ps ds, findLocal w nbrz S idx sizes = some (ps, ds) ∧
        ps.length = sizes.length ∧ ds.length = sizes.length ∧
        ∀ k xSize, sizes[k]? = some xSize → ∃ nbrs ext path dist,
          nbrz[idx + k]? = some nbrs ∧ S[idx + k]? = some ext ∧
          formMCS (w (idx + k)) nbrs xSize ext = some (path, dist) ∧
          ps[k]? = some path ∧ ds[k]? = some dist := by
  intro sizes
  induction sizes with
  | nil =>
    intro idx _
    exact ⟨[], [], rfl, rfl, rfl, fun k x h => by simp at h⟩
  | cons xSize rest ih =>
    intro idx h
    obtain ⟨nbrs, ext, path, dist, h1, h2, h3⟩ := h 0 xSize (by simp)
    rw [Nat.add_zero] at h1 h2 h3
    obtain ⟨ps, ds, hf, hl1, hl2, hrest⟩ := ih (idx + 1) (by
      intro k x hk
      have := h (k + 1) x (by simpa using hk)
      rw [show idx + (k + 1) = idx + 1 + k by omega] at this
      exact this)
    refine ⟨path :: ps, dist :: ds, ?_, by simp [hl1], by simp [hl2], ?_⟩
    · simp only [findLocal, h1, h2, h3, hf]
    · intro k x hk
      cases k with
      | zero =>
        simp only [List.getElem?_cons_zero, Option.some.injEq] at hk
        subst hk
        exact ⟨nbrs, ext, path, dist, by simpa using h1, by simpa using h2, by simpa using h3,
          by simp, by simp⟩
      | succ k =>
        simp only [List.getElem?_cons_succ] at hk
        obtain ⟨nbrs1, ext1, path1, dist1, a1, a2, a3, a4, a5⟩ := hrest k x hk
        rw [show idx + 1 + k = idx + (k + 1) by omega] at a1 a2 a3
        exact ⟨nbrs1, ext1, path1, dist1, a1, a2, a3, by simpa using a4, by simpa using a5⟩

/-! ### `Router::consolidate`: quads and exits -/

theorem isEntry_grow (pre : List (List TriType)) (a b : List TriType) (c k : Nat) (x : TriType)
    (h : IsEntry (pre ++ [a]) c k x) : IsEntry (pre ++ [a ++ b]) c k x := by
  rw [isEntry_iff] at h ⊢
  obtain ⟨ext, h1, h2⟩ := h
  by_cases hc : c < pre.length
  · rw [List.getElem?_append_left hc] at h1
    exact ⟨ext, by rw [List.getElem?_append_left hc]; exact h1, h2⟩
  · have hc2 : c = pre.length := by
      have := (List.getElem?_eq_some.1 h1).1
      simp at this
      omega
    subst hc2
    simp at h1
    subst h1
    refine ⟨a ++ b, by simp, ?_⟩
    rw [List.getElem?_append_left (List.getElem?_eq_some.1 h2).1]
    exact h2

theorem consEntry_q (Sfull : List (List TriType)) (hfin : FinalizedSusos Sfull)
    (pre : List (List TriType)) (done : List TriType) (t : TriType)
    (st : Consolidated) (clons : List (Nat × Nat)) (gIds : List Nat)
    (hpre : ∀ c, c < pre.length → Sfull[c]? = pre[c]?)
    (hcur : ∃ rest, Sfull[pre.length]? = some (done ++ t :: rest))
    (inv : CInv (pre ++ [done]) (st.push clons gIds))
    (qinv : QInv (pre ++ [done]) (st.push clons gIds))
    (st1 : Consolidated) (clons1 : List (Nat × Nat)) (gIds1 : List Nat)
    (h : consEntry pre.length st clons gIds t = some (st1, clons1, gIds1)) :
    QInv (pre ++ [done ++ [t]]) (st1.push clons1 gIds1) := by
  have hlg : st.gIdz.length = pre.length := by
    have := inv.len_g
    simpa [Consolidated.push] using this
  have hlc : st.clonz.length = pre.length := by
    have := inv.len_c
    simpa [Consolidated.push] using this
  have hlq : st.quads.length = st.gIdx := by
    have := inv.len_q
    simpa [Consolidated.push] using this
  have hrow : gIds.length = done.length :=
    inv.row pre.length done gIds (by simp) (by simp [Consolidated.push, hlg])
  have hlt : ∀ c k g, at2 (st.gIdz ++ [gIds]) c k = some g → g < st.gIdx := inv.lt
  have hold : ∀ c k t1, IsEntry (pre ++ [done]) c k t1 → IsEntry (pre ++ [done ++ [t]]) c k t1 :=
    fun c k t1 h => (at2_snoc _ _ _ _ _ _).2 (Or.inl h)
  have hnew : IsEntry (pre ++ [done ++ [t]]) pre.length done.length t :=
    (at2_snoc _ _ _ _ _ _).2 (Or.inr ⟨rfl, rfl, rfl⟩)
  have qP : ∀ c k t1 g, IsEntry (pre ++ [done]) c k t1 → c ≤ t1.cIdx →
      at2 (st.gIdz ++ [gIds]) c k = some g →
      ∃ q, st.quads[g]? = some q ∧ q.cIdxP = c ∧ q.sIdxP = t1.sIdx := qinv.quadP
  have qX : ∀ c k t1 g, IsEntry (pre ++ [done]) c k t1 → t1.cIdx = c →
      at2 (st.gIdz ++ [gIds]) c k = some g →
      ∃ q, st.quads[g]? = some q ∧ q.cIdxS = IdxTypeMax := qinv.quadX
  have qS : ∀ c k t1 g, IsEntry (pre ++ [done]) c k t1 → t1.cIdx < c →
      at2 (st.gIdz ++ [gIds]) c k = some g →
      ∃ q, st.quads[g]? = some q ∧ q.cIdxS = c ∧ q.sIdxS = t1.sIdx := qinv.quadS
  have qU : ∀ g, g < st.gIdx → ∃ c k t1, IsEntry (pre ++ [done]) c k t1 ∧ c ≤ t1.cIdx ∧
      at2 (st.gIdz ++ [gIds]) c k = some g := qinv.surj
  have qE : ∀ e, e ∈ st.gEIds ↔ ∃ c k t1, IsEntry (pre ++ [done]) c k t1 ∧ t1.cIdx = c ∧
      at2 (st.gIdz ++ [gIds]) c k = some e := qinv.exits
  by_cases hf : pre.length ≤ t.cIdx
  · simp only [consEntry, ge_iff_le, hf, if_true, Option.some.injEq, Prod.mk.injEq] at h
    obtain ⟨h1, h2, h3⟩ := h
    subst h1 h2 h3
    have hsplit := entry_gid_snoc pre done t st.gIdz gIds st.gIdx hlg hrow
    have holdg : ∀ c k g, at2 (st.gIdz ++ [gIds]) c k = some g →
        at2 (st.gIdz ++ [gIds ++ [st.gIdx]]) c k = some g :=
      fun c k g h => (at2_snoc _ _ _ _ _ _).2 (Or.inl h)
    have hnewg : at2 (st.gIdz ++ [gIds ++ [st.gIdx]]) pre.length done.length = some st.gIdx :=
      (at2_snoc _ _ _ _ _ _).2 (Or.inr ⟨hlg.symm, hrow.symm, rfl⟩)
    have hqold : ∀ g q, g < st.gIdx → st.quads[g]? = some q →
        (st.quads ++ [(⟨pre.length, t.sIdx, IdxTypeMax, IdxTypeMax⟩ : QudType)])[g]? = some q := by
      intro g q hg hq
      rw [List.getElem?_append_left (by omega)]
      exact hq
    have hqnew : (st.quads ++ [(⟨pre.length, t.sIdx, IdxTypeMax, IdxTypeMax⟩ : QudType)])[st.gIdx]?
        = some ⟨pre.length, t.sIdx, IdxTypeMax, IdxTypeMax⟩ := by
      rw [← hlq]
      simp
    refine ⟨?_, ?_, ?_, ?_, ?_⟩
    · intro e
      show e ∈ (if t.cIdx = pre.length then st.gEIds ++ [st.gIdx] else st.gEIds) ↔
        ∃ c k t1, IsEntry (pre ++ [done ++ [t]]) c k t1 ∧ t1.cIdx = c ∧
          at2 (st.gIdz ++ [gIds ++ [st.gIdx]]) c k = some e
      constructor
      · intro he
        have hcases : e ∈ st.gEIds ∨ (t.cIdx = pre.length ∧ e = st.gIdx) := by
          by_cases hx : t.cIdx = pre.length
          · rw [if_pos hx] at he
            rcases List.mem_append.1 he with he | he
            · exact Or.inl he
            · exact Or.inr ⟨hx, by simpa using he⟩
          · rw [if_neg hx] at he
            exact Or.inl he
        rcases hcases with he | ⟨hx, he⟩
        · obtain ⟨c, k, t1, a1, a2, a3⟩ := (qE e).1 he
          exact ⟨c, k, t1, hold _ _ _ a1, a2, holdg _ _ _ a3⟩
        · subst he
          exact ⟨pre.length, done.length, t, hnew, hx, hnewg⟩
      · rintro ⟨c, k, t1, a1, a2, a3⟩
        rcases hsplit c k t1 e a1 a3 with ⟨b1, b2⟩ | ⟨b1, b2, b3, b4⟩
        · have := (qE e).2 ⟨c, k, t1, b1, a2, b2⟩
          split
          · exact List.mem_append_left _ this
          · exact this
        · subst b1 b3 b4
          rw [if_pos a2]
          simp
    · intro c k t1 g a1 a2 a3
      have a3 : at2 (st.gIdz ++ [gIds ++ [st.gIdx]]) c k = some g := a3
      show ∃ q, (st.quads ++ [(⟨pre.length, t.sIdx, IdxTypeMax, IdxTypeMax⟩ : QudType)])[g]?
        = some q ∧ _
      rcases hsplit c k t1 g a1 a3 with ⟨b1, b2⟩ | ⟨b1, b2, b3, b4⟩
      · obtain ⟨q, x1, x2⟩ := qP c k t1 g b1 a2 b2
        exact ⟨q, hqold g q (hlt _ _ _ b2) x1, x2⟩
      · subst b1 b3 b4
        exact ⟨_, hqnew, rfl, rfl⟩
    · intro c k t1 g a1 a2 a3
      have a3 : at2 (st.gIdz ++ [gIds ++ [st.gIdx]]) c k = some g := a3
      show ∃ q, (st.quads ++ [(⟨pre.length, t.sIdx, IdxTypeMax, IdxTypeMax⟩ : QudType)])[g]?
        = some q ∧ _
      rcases hsplit c k t1 g a1 a3 with ⟨b1, b2⟩ | ⟨b1, b2, b3, b4⟩
      · obtain ⟨q, x1, x2⟩ := qX c k t1 g b1 a2 b2
        exact ⟨q, hqold g q (hlt _ _ _ b2) x1, x2⟩
      · subst b1 b3 b4
        exact ⟨_, hqnew, rfl⟩
    · intro c k t1 g a1 a2 a3
      have a3 : at2 (st.gIdz ++ [gIds ++ [st.gIdx]]) c k = some g := a3
      show ∃ q, (st.quads ++ [(⟨pre.length, t.sIdx, IdxTypeMax, IdxTypeMax⟩ : QudType)])[g]?
        = some q ∧ _
      rcases hsplit c k t1 g a1 a3 with ⟨b1, b2⟩ | ⟨b1, b2, b3, b4⟩
      · obtain ⟨q, x1, x2⟩ := qS c k t1 g b1 a2 b2
        exact ⟨q, hqold g q (hlt _ _ _ b2) x1, x2⟩
      · subst b1 b3
        omega
    · intro g hg
      have hg : g < st.gIdx + 1 := hg
      by_cases hgg : g = st.gIdx
      · subst hgg
        exact ⟨pre.length, done.length, t, hnew, hf, hnewg⟩
      · obtain ⟨c, k, t1, a1, a2, a3⟩ := qU g (by omega)
        exact ⟨c, k, t1, hold _ _ _ a1, a2, holdg _ _ _ a3⟩
  · have hr : t.cIdx < pre.length := by omega
    have hsub : ∀ c k t1, IsEntry (pre ++ [done ++ [t]]) c k t1 → IsEntry Sfull c k t1 := by
      intro c k t1 h1
      rw [isEntry_iff] at h1 ⊢
      obtain ⟨ext, e1, e2⟩ := h1
      by_cases hc : c < pre.length
      · rw [List.getElem?_append_left hc] at e1
        exact ⟨ext, by rw [hpre c hc]; exact e1, e2⟩
      · have hc2 : c = pre.length := by
          have := (List.getElem?_eq_some.1 e1).1
          simp at this
          omega
        subst hc2
        simp at e1
        subst e1
        obtain ⟨rest, hrest⟩ := hcur
        refine ⟨_, hrest, ?_⟩
        have hk : k < (done ++ [t]).length := (List.getElem?_eq_some.1 e2).1
        rw [show done ++ t :: rest = (done ++ [t]) ++ rest by simp,
          List.getElem?_append_left hk]
        exact e2
    have hback : ∀ c k t1, c < pre.length → IsEntry Sfull c k t1 →
        IsEntry (pre ++ [done]) c k t1 := by
      intro c k t1 hc h1
      rw [isEntry_iff] at h1 ⊢
      obtain ⟨ext, e1, e2⟩ := h1
      rw [hpre c hc] at e1
      exact ⟨ext, by rw [List.getElem?_append_left hc]; exact e1, e2⟩
    have hnewS : IsEntry Sfull pre.length done.length t := hsub _ _ _ hnew
    obtain ⟨k0, hk0⟩ := hfin.recip_entry Sfull pre.length done.length t hnewS (by omega)
    have e0 : IsEntry (pre ++ [done]) t.cIdx k0 ⟨t.oIdx, pre.length, t.sIdx⟩ :=
      hback _ _ _ hr hk0
    obtain ⟨g0, hg0⟩ := inv.gid_defined _ _ t.cIdx k0 _ e0
    have hg0 : at2 (st.gIdz ++ [gIds]) t.cIdx k0 = some g0 := hg0
    obtain ⟨cl, hcl, hlk⟩ := inv.clon t.cIdx k0 _ g0 e0 (by show t.cIdx ≤ pre.length; omega) hg0
    have hcl : st.clonz[t.cIdx]? = some cl := by
      have hcl : (st.clonz ++ [clons])[t.cIdx]? = some cl := hcl
      rw [List.getElem?_append_left (by omega)] at hcl
      exact hcl
    have hlk : cl.lookup t.oIdx = some g0 := hlk
    have hg0lt : g0 < st.quads.length := by
      have h1 := hlt _ _ _ hg0
      omega
    simp only [consEntry, ge_iff_le, hf, if_false, hcl, hlk, List.getElem?_eq_getElem hg0lt,
      Option.some.injEq, Prod.mk.injEq] at h
    obtain ⟨h1, h2, h3⟩ := h
    subst h1 h2 h3
    have hsplit := entry_gid_snoc pre done t st.gIdz gIds g0 hlg hrow
    have holdg : ∀ c k g, at2 (st.gIdz ++ [gIds]) c k = some g →
        at2 (st.gIdz ++ [gIds ++ [g0]]) c k = some g :=
      fun c k g h => (at2_snoc _ _ _ _ _ _).2 (Or.inl h)
    -- the old primary entry with the id `g0` is the reciprocal entry
    have hA : ∀ c k t1, IsEntry (pre ++ [done]) c k t1 → c ≤ t1.cIdx →
        at2 (st.gIdz ++ [gIds]) c k = some g0 →
        c = t.cIdx ∧ t1 = ⟨t.oIdx, pre.length, t.sIdx⟩ := by
      intro c k t1 a1 a2 a3
      obtain ⟨x1, x2⟩ := inv.inj c k t1 t.cIdx k0 _ g0 a1 e0 a2
        (by show t.cIdx ≤ pre.length; omega) a3 hg0
      subst x1 x2
      exact ⟨rfl, isEntry_inj _ _ _ _ _ a1 e0⟩
    have hB : ∀ c k t1, IsEntry (pre ++ [done]) c k t1 → t1.cIdx = c →
        at2 (st.gIdz ++ [gIds]) c k ≠ some g0 := by
      intro c k t1 a1 a2 a3
      obtain ⟨x1, x2⟩ := hA c k t1 a1 (by omega) a3
      subst x2
      simp only at a2
      omega
    have hC : ∀ c k t1, IsEntry (pre ++ [done]) c k t1 → t1.cIdx < c →
        at2 (st.gIdz ++ [gIds]) c k ≠ some g0 := by
      intro c k t1 a1 a2 a3
      obtain ⟨k1, t2, y1, y2, y3, y4⟩ := inv.sec c k t1 g0 a1 a2 a3
      obtain ⟨x1, x2⟩ := hA t1.cIdx k1 t2 y1 y3 y4
      subst x2
      simp only at y2
      have f1 : IsEntry Sfull c k t1 := hsub _ _ _ (hold _ _ _ a1)
      obtain ⟨k2, f2⟩ := hfin.recip_entry Sfull c k t1 f1 (by omega)
      rw [x1] at f2
      obtain ⟨-, f3⟩ := hfin.entry_unique Sfull t.cIdx k2 k0 _ _ f2 hk0 y2.symm
      have f4 : c = pre.length := congrArg TriType.cIdx f3
      have f5 : t1.sIdx = t.sIdx := congrArg TriType.oIdx f3
      subst f4
      obtain ⟨f6, -⟩ := hfin.entry_unique Sfull pre.length k done.length t1 t f1 hnewS f5
      subst f6
      unfold IsEntry at a1
      rw [at2_end] at a1
      cases a1
    have hset : ∀ g (q : QudType), g ≠ g0 → st.quads[g]? = some q →
        (st.quads.set g0 ⟨st.quads[g0].cIdxP, st.quads[g0].sIdxP, pre.length, t.sIdx⟩)[g]?
          = some q := by
      intro g q hne hq
      rw [List.getElem?_set]
      simp [Ne.symm hne, hq]
    have hset0 : (st.quads.set g0 ⟨st.quads[g0].cIdxP, st.quads[g0].sIdxP, pre.length,
        t.sIdx⟩)[g0]? = some ⟨st.quads[g0].cIdxP, st.quads[g0].sIdxP, pre.length, t.sIdx⟩ := by
      rw [List.getElem?_set]
      simp [hg0lt]
    refine ⟨?_, ?_, ?_, ?_, ?_⟩
    · intro e
      show e ∈ st.gEIds ↔ ∃ c k t1, IsEntry (pre ++ [done ++ [t]]) c k t1 ∧ t1.cIdx = c ∧
          at2 (st.gIdz ++ [gIds ++ [g0]]) c k = some e
      rw [qE e]
      constructor
      · rintro ⟨c, k, t1, a1, a2, a3⟩
        exact ⟨c, k, t1, hold _ _ _ a1, a2, holdg _ _ _ a3⟩
      · rintro ⟨c, k, t1, a1, a2, a3⟩
        rcases hsplit c k t1 e a1 a3 with ⟨b1, b2⟩ | ⟨b1, b2, b3, b4⟩
        · exact ⟨c, k, t1, b1, a2, b2⟩
        · subst b1 b3
          omega
    · intro c k t1 g a1 a2 a3
      have a3 : at2 (st.gIdz ++ [gIds ++ [g0]]) c k = some g := a3
      show ∃ q, (st.quads.set g0 ⟨st.quads[g0].cIdxP, st.quads[g0].sIdxP, pre.length,
        t.sIdx⟩)[g]? = some q ∧ _
      rcases hsplit c k t1 g a1 a3 with ⟨b1, b2⟩ | ⟨b1, b2, b3, b4⟩
      · obtain ⟨q, x1, x2, x3⟩ := qP c k t1 g b1 a2 b2
        by_cases hg : g = g0
        · subst hg
          rw [List.getElem?_eq_getElem hg0lt] at x1
          cases x1
          exact ⟨_, hset0, x2, x3⟩
        · exact ⟨q, hset g q hg x1, x2, x3⟩
      · subst b1 b3
        omega
    · intro c k t1 g a1 a2 a3
      have a3 : at2 (st.gIdz ++ [gIds ++ [g0]]) c k = some g := a3
      show ∃ q, (st.quads.set g0 ⟨st.quads[g0].cIdxP, st.quads[g0].sIdxP, pre.length,
        t.sIdx⟩)[g]? = some q ∧ _
      rcases hsplit c k t1 g a1 a3 with ⟨b1, b2⟩ | ⟨b1, b2, b3, b4⟩
      · obtain ⟨q, x1, x2⟩ := qX c k t1 g b1 a2 b2
        have hg : g ≠ g0 := by
          intro hg
          subst hg
          exact hB c k t1 b1 a2 b2
        exact ⟨q, hset g q hg x1, x2⟩
      · subst b1 b3
        omega
    · intro c k t1 g a1 a2 a3
      have a3 : at2 (st.gIdz ++ [gIds ++ [g0]]) c k = some g := a3
      show ∃ q, (st.quads.set g0 ⟨st.quads[g0].cIdxP, st.quads[g0].sIdxP, pre.length,
        t.sIdx⟩)[g]? = some q ∧ _
      rcases hsplit c k t1 g a1 a3 with ⟨b1, b2⟩ | ⟨b1, b2, b3, b4⟩
      · obtain ⟨q, x1, x2⟩ := qS c k t1 g b1 a2 b2
        have hg : g ≠ g0 := by
          intro hg
          subst hg
          exact hC c k t1 b1 a2 b2
        exact ⟨q, hset g q hg x1, x2⟩
      · subst b1 b3 b4
        exact ⟨_, hset0, rfl, rfl⟩
    · intro g hg
      obtain ⟨c, k, t1, a1, a2, a3⟩ := qU g hg
      exact ⟨c, k, t1, hold _ _ _ a1, a2, holdg _ _ _ a3⟩

theorem QInv.open_row (pre : List (List TriType)) (st : Consolidated) (qinv : QInv pre st) :
    QInv (pre ++ [[]]) (st.push [] []) := by
  have hE : ∀ c k t, IsEntry (pre ++ [[]]) c k t → IsEntry pre c k t := by
    intro c k t h
    unfold IsEntry at h ⊢
    rw [at2_open] at h; exact h
  have hE2 : ∀ c k t, IsEntry pre c k t → IsEntry (pre ++ [[]]) c k t := by
    intro c k t h
    unfold IsEntry at h ⊢
    rw [at2_open]; exact h
  have hG : ∀ c k, (st.push [] []).gidAt c k = st.gidAt c k := by
    intro c k
    show at2 (st.gIdz ++ [[]]) c k = at2 st.gIdz c k
    rw [at2_open]
  refine ⟨?_, ?_, ?_, ?_, ?_⟩
  · intro e
    show e ∈ st.gEIds ↔ _
    rw [qinv.exits e]
    constructor
    · rintro ⟨c, k, t, a1, a2, a3⟩
      exact ⟨c, k, t, hE2 _ _ _ a1, a2, by rw [hG]; exact a3⟩
    · rintro ⟨c, k, t, a1, a2, a3⟩
      rw [hG] at a3
      exact ⟨c, k, t, hE _ _ _ a1, a2, a3⟩
  · intro c k t g a1 a2 a3
    rw [hG] at a3
    exact qinv.quadP c k t g (hE _ _ _ a1) a2 a3
  · intro c k t g a1 a2 a3
    rw [hG] at a3
    exact qinv.quadX c k t g (hE _ _ _ a1) a2 a3
  · intro c k t g a1 a2 a3
    rw [hG] at a3
    exact qinv.quadS c k t g (hE _ _ _ a1) a2 a3
  · intro g hg
    obtain ⟨c, k, t, a1, a2, a3⟩ := qinv.surj g hg
    exact ⟨c, k, t, hE2 _ _ _ a1, a2, by rw [hG]; exact a3⟩

theorem qInv_init : QInv [] ⟨0, [], [], [], []⟩ := by
  refine ⟨?_, ?_, ?_, ?_, ?_⟩
  · intro e
    constructor
    · intro h; cases h
    · rintro ⟨c, k, t, h, -⟩
      simp [IsEntry, at2] at h
  · intro c k t g h; simp [IsEntry, at2] at h
  · intro c k t g h; simp [IsEntry, at2] at h
  · intro c k t g h; simp [IsEntry, at2] at h
  · intro g hg
    exact absurd hg (by simp)

theorem consCell_both (Sfull : List (List TriType)) (hfin : FinalizedSusos Sfull)
    (pre : List (List TriType)) (hpre : ∀ c, c < pre.length → Sfull[c]? = pre[c]?) :
    ∀ (rest done : List TriType) (st : Consolidated) (clons : List (Nat × Nat))
      (gIds : List Nat),
      Sfull[pre.length]? = some (done ++ rest) →
      CInv (pre ++ [done]) (st.push clons gIds) →
      QInv (pre ++ [done]) (st.push clons gIds) →
      ∃ st1 clons1 gIds1, consCell pre.length rest st clons gIds = some (st1, clons1, gIds1) ∧
        CInv (pre ++ [done ++ rest]) (st1.push clons1 gIds1) ∧
        QInv (pre ++ [done ++ rest]) (st1.push clons1 gIds1) := by
  intro rest
  induction rest with
  | nil =>
    intro done st clons gIds _ inv qinv
    exact ⟨st, clons, gIds, rfl, by simpa using inv, by simpa using qinv⟩
  | cons t rest ih =>
    intro done st clons gIds hcur inv qinv
    have hmem : (done ++ t :: rest) ∈ Sfull := List.getElem?_mem hcur
    have hnd := hfin.distinct _ hmem
    have hU : ∀ t1 ∈ done, t1.sIdx ≠ t.sIdx := by
      intro t1 h1 heq
      rw [List.map_append, List.nodup_append] at hnd
      exact hnd.2.2 (List.mem_map.2 ⟨t1, h1, rfl⟩)
        (List.mem_map.2 ⟨t, List.mem_cons_self _ _, heq.symm⟩)
    have hR : t.cIdx < pre.length →
        ∃ k0 t0, IsEntry pre t.cIdx k0 t0 ∧ t0.sIdx = t.oIdx ∧ t.cIdx ≤ t0.cIdx := by
      intro hlt
      obtain ⟨extS, hS1, hin⟩ := hfin.recip pre.length _ hcur t (by simp) (by omega)
      obtain ⟨k0, hk0⟩ := List.mem_iff_getElem?.1 hin
      refine ⟨k0, ⟨t.oIdx, pre.length, t.sIdx⟩, ?_, rfl, ?_⟩
      · rw [isEntry_iff]
        refine ⟨extS, ?_, hk0⟩
        rw [hpre _ hlt] at hS1
        exact hS1
      · show t.cIdx ≤ pre.length
        omega
    obtain ⟨st1, clons1, gIds1, h1, inv1⟩ := consEntry_inv pre done t st clons gIds inv hU hR
    have qinv1 := consEntry_q Sfull hfin pre done t st clons gIds hpre ⟨rest, hcur⟩ inv qinv
      st1 clons1 gIds1 h1
    obtain ⟨st2, clons2, gIds2, h2, inv2, qinv2⟩ := ih (done ++ [t]) st1 clons1 gIds1
      (by simpa using hcur) inv1 qinv1
    refine ⟨st2, clons2, gIds2, by simp only [consCell, h1, h2], ?_, ?_⟩
    · simpa using inv2
    · simpa using qinv2

theorem consCells_both (S : List (List TriType)) (hfin : FinalizedSusos S) :
    ∀ (rest pre : List (List TriType)) (st : Consolidated), pre ++ rest = S → CInv pre st →
      QInv pre st →
      ∃ st1, consCells pre.length rest st = some st1 ∧ CInv S st1 ∧ QInv S st1 := by
  intro rest
  induction rest with
  | nil =>
    intro pre st hS inv qinv
    rw [List.append_nil] at hS
    subst hS
    exact ⟨st, rfl, inv, qinv⟩
  | cons ext rest ih =>
    intro pre st hS inv qinv
    have hext : S[pre.length]? = some ext := by
      rw [← hS, List.getElem?_append_right (le_refl _)]; simp
    have hpre : ∀ c, c < pre.length → S[c]? = pre[c]? := by
      intro c hc
      rw [← hS, List.getElem?_append_left hc]
    obtain ⟨st1, clons, gIds, h1, inv1, qinv1⟩ := consCell_both S hfin pre hpre ext [] st [] []
      (by simpa using hext) inv.open_cell qinv.open_row
    obtain ⟨st2, h2, inv2, qinv2⟩ := ih (pre ++ [ext]) (st1.push clons gIds) (by simpa using hS)
      (by simpa using inv1) (by simpa using qinv1)
    refine ⟨st2, ?_, inv2, qinv2⟩
    simp only [consCells, h1]
    simpa using h2

theorem consolidate_both (S : List (List TriType)) (hfin : FinalizedSusos S) :
    ∃ st, consolidate S = some st ∧ CInv S st ∧ QInv S st :=
  consCells_both S hfin S [] _ rfl cInv_init qInv_init

/-! ### `Router::patchUp`: the graph over the global ids -/

theorem foldlM_range_inv {α : Type} (f : α → Nat → Option α) (P : Nat → α → Prop) :
    ∀ (n : Nat) (init : α), P 0 init →
      (∀ i a, i < n → P i a → ∃ b, f a i = some b ∧ P (i + 1) b) →
      ∃ r, (List.range n).foldlM f init = some r ∧ P n r := by
  intro n
  induction n with
  | zero =>
    intro init h0 _
    exact ⟨init, rfl, h0⟩
  | succ n ih =>
    intro init h0 hstep
    obtain ⟨r, hr, hP⟩ := ih init h0 (fun i a hi hp => hstep i a (by omega) hp)
    obtain ⟨b, hb, hPb⟩ := hstep n r (by omega) hP
    refine ⟨b, ?_, hPb⟩
    rw [List.range_succ, List.foldlM_append, hr]
    simp [hb]

theorem lookup_some_mem {α : Type} (l : List (Nat × α)) (k : Nat) (v : α)
    (h : l.lookup k = some v) : (k, v) ∈ l := by
  obtain ⟨t, ht⟩ := getElem_of_lookup l k v h
  exact List.getElem?_mem ht

theorem lookup_of_mem {α : Type} (l : List (Nat × α)) (hn : (l.map Prod.fst).Nodup)
    (k : Nat) (v : α) (h : (k, v) ∈ l) : l.lookup k = some v := by
  obtain ⟨t, ht⟩ := List.mem_iff_getElem?.1 h
  exact lookup_of_getElem l hn t k v ht

theorem mapAssign_keys {α : Type} (m : List (Nat × α)) (k : Nat) (v : α) :
    (mapAssign m k v).map Prod.fst = m.map Prod.fst := by
  unfold mapAssign
  rw [List.map_map]
  apply List.map_congr_left
  intro p _
  by_cases h : p.1 = k <;> simp [h]

theorem mem_mapAssign {α : Type} (m : List (Nat × α)) (k : Nat) (v : α) (e : Nat × α) :
    e ∈ mapAssign m k v ↔ (e.1 ≠ k ∧ e ∈ m) ∨ (e = (k, v) ∧ ∃ p ∈ m, p.1 = k) := by
  unfold mapAssign
  rw [List.mem_map]
  constructor
  · rintro ⟨p, hp, rfl⟩
    by_cases h : p.1 = k
    · right
      refine ⟨?_, p, hp, h⟩
      simp [h]
    · left
      have : (p.1 == k) = false := by simpa using h
      simp only [this]
      exact ⟨h, hp⟩
  · rintro (⟨h1, h2⟩ | ⟨h1, p, hp, hk⟩)
    · refine ⟨e, h2, ?_⟩
      have : (e.1 == k) = false := by simpa using h1
      simp [this]
    · refine ⟨p, hp, ?_⟩
      simp [hk, h1]

theorem graphEdge_keys {D : Type} [LinearOrder D] (row : List (Nat × D)) (K : Nat) (x : D)
    (h : (row.map Prod.fst).Nodup) : ((graphEdge row K x).map Prod.fst).Nodup := by
  unfold graphEdge
  cases hl : row.lookup K with
  | none =>
    simp only [List.map_append, List.map_cons, List.map_nil]
    rw [List.nodup_append]
    refine ⟨h, by simp, ?_⟩
    intro a ha hb
    simp only [List.mem_singleton] at hb
    subst hb
    obtain ⟨p, hp, hpk⟩ := List.mem_map.1 ha
    exact (lookup_none_iff row _).1 hl p hp hpk
  | some old =>
    simp only
    rw [mapAssign_keys]
    exact h

theorem mem_graphEdge {D : Type} [LinearOrder D] (row : List (Nat × D)) (K : Nat) (x : D)
    (_h : (row.map Prod.fst).Nodup) (e : Nat × D) :
    e ∈ graphEdge row K x ↔
      (e.1 ≠ K ∧ e ∈ row) ∨
      (e.1 = K ∧ ((row.lookup K = none ∧ e.2 = x) ∨
        ∃ old, row.lookup K = some old ∧ e.2 = min old x)) := by
  unfold graphEdge
  cases hl : row.lookup K with
  | none =>
    simp only [List.mem_append, List.mem_singleton]
    have hno := (lookup_none_iff row K).1 hl
    constructor
    · rintro (h1 | h1)
      · exact Or.inl ⟨hno e h1, h1⟩
      · subst h1
        right
        simp
    · rintro (⟨-, h2⟩ | ⟨h1, (⟨-, h3⟩ | ⟨old, h3, -⟩)⟩)
      · exact Or.inl h2
      · right
        obtain ⟨a, b⟩ := e
        simp only at h1 h3
        rw [h1, h3]
      · cases h3
  | some old =>
    simp only
    rw [mem_mapAssign]
    constructor
    · rintro (⟨h1, h2⟩ | ⟨h1, -⟩)
      · exact Or.inl ⟨h1, h2⟩
      · subst h1
        right
        simp
    · rintro (⟨h1, h2⟩ | ⟨h1, (⟨h3, -⟩ | ⟨old1, h3, h4⟩)⟩)
      · exact Or.inl ⟨h1, h2⟩
      · cases h3
      · right
        cases h3
        obtain ⟨a, b⟩ := e
        simp only at h1 h4
        refine ⟨by rw [h1, h4], (K, old), lookup_some_mem _ _ _ hl, rfl⟩

theorem before_succ (S : List (List TriType)) (C J K : Nat) (ext : List TriType)
    (hC : S[C]? = some ext) (hJ : J < ext.length) (hK : K < ext.length) (c j k : Nat) :
    Before S C J (K + 1) c j k ↔ Before S C J K c j k ∨ (c = C ∧ j = J ∧ k = K) := by
  unfold Before
  constructor
  · rintro ⟨hv, h | ⟨h1, h2 | ⟨h2, h3⟩⟩⟩
    · exact Or.inl ⟨hv, Or.inl h⟩
    · exact Or.inl ⟨hv, Or.inr ⟨h1, Or.inl h2⟩⟩
    · by_cases hk : k = K
      · exact Or.inr ⟨h1, h2, hk⟩
      · exact Or.inl ⟨hv, Or.inr ⟨h1, Or.inr ⟨h2, by omega⟩⟩⟩
  · rintro (⟨hv, h | ⟨h1, h2 | ⟨h2, h3⟩⟩⟩ | ⟨h1, h2, h3⟩)
    · exact ⟨hv, Or.inl h⟩
    · exact ⟨hv, Or.inr ⟨h1, Or.inl h2⟩⟩
    · exact ⟨hv, Or.inr ⟨h1, Or.inr ⟨h2, by omega⟩⟩⟩
    · subst h1 h2 h3
      exact ⟨⟨ext, hC, hJ, hK⟩, Or.inr ⟨rfl, Or.inr ⟨rfl, by omega⟩⟩⟩

theorem GInv.congr {D : Type} [LinearOrder D] {gIdx : Nat} {S : List (List TriType)}
    {gid : Nat → Nat → Nat} {wt : Nat → Nat → Nat → D} {C J K C1 J1 K1 : Nat} {g : GraphType D}
    (inv : GInv gIdx S gid wt C J K g)
    (h : ∀ c j k, Before S C J K c j k ↔ Before S C1 J1 K1 c j k) :
    GInv gIdx S gid wt C1 J1 K1 g := by
  refine ⟨inv.len, inv.keys, ?_, ?_⟩
  · intro c j k hb
    exact inv.edge c j k ((h c j k).2 hb)
  · intro J0 row K0 x h1 h2
    obtain ⟨c, j, k, a, b⟩ := inv.real J0 row K0 x h1 h2
    exact ⟨c, j, k, (h c j k).1 a, b⟩

theorem GInv.visit {D : Type} [LinearOrder D] {gIdx : Nat} {S : List (List TriType)}
    {gid : Nat → Nat → Nat} {wt : Nat → Nat → Nat → D} {C J K : Nat} {g : GraphType D}
    (inv : GInv gIdx S gid wt C J K g) (ext : List TriType) (hC : S[C]? = some ext)
    (hJ : J < ext.length) (hK : K < ext.length) (row : List (Nat × D))
    (hrow : g[gid C J]? = some row) :
    GInv gIdx S gid wt C J (K + 1) (g.set (gid C J) (graphEdge row (gid C K) (wt C J K))) := by
  have hlt : gid C J < g.length := (List.getElem?_eq_some.1 hrow).1
  have hkeys := inv.keys row (List.getElem?_mem hrow)
  have hsame : (g.set (gid C J) (graphEdge row (gid C K) (wt C J K)))[gid C J]? =
      some (graphEdge row (gid C K) (wt C J K)) := by
    rw [List.getElem?_set]
    simp [hlt]
  have hother : ∀ i, i ≠ gid C J →
      (g.set (gid C J) (graphEdge row (gid C K) (wt C J K)))[i]? = g[i]? := by
    intro i hi
    rw [List.getElem?_set]
    simp [Ne.symm hi]
  have hnewmem : ∃ x, (gid C K, x) ∈ graphEdge row (gid C K) (wt C J K) ∧ x ≤ wt C J K := by
    cases hl : row.lookup (gid C K) with
    | none =>
      exact ⟨wt C J K, (mem_graphEdge row _ _ hkeys _).2 (Or.inr ⟨rfl, Or.inl ⟨hl, rfl⟩⟩),
        le_refl _⟩
    | some old =>
      exact ⟨min old (wt C J K),
        (mem_graphEdge row _ _ hkeys _).2 (Or.inr ⟨rfl, Or.inr ⟨old, hl, rfl⟩⟩),
        min_le_right _ _⟩
  refine ⟨by simp [inv.len], ?_, ?_, ?_⟩
  · intro r hr
    rcases List.mem_or_eq_of_mem_set hr with h | h
    · exact inv.keys r h
    · rw [h]
      exact graphEdge_keys row _ _ hkeys
  · intro c j k hb
    rcases (before_succ S C J K ext hC hJ hK c j k).1 hb with hb | ⟨h1, h2, h3⟩
    · obtain ⟨row0, x, a1, a2, a3⟩ := inv.edge c j k hb
      by_cases hj : gid c j = gid C J
      · rw [hj] at a1 ⊢
        rw [hrow] at a1
        cases a1
        by_cases hk : gid c k = gid C K
        · have hl := lookup_of_mem row hkeys _ _ a2
          rw [hk] at hl ⊢
          exact ⟨_, min x (wt C J K), hsame,
            (mem_graphEdge row _ _ hkeys _).2 (Or.inr ⟨rfl, Or.inr ⟨x, hl, rfl⟩⟩),
            le_trans (min_le_left _ _) a3⟩
        · exact ⟨_, x, hsame, (mem_graphEdge row _ _ hkeys _).2 (Or.inl ⟨hk, a2⟩), a3⟩
      · exact ⟨row0, x, by rw [hother _ hj]; exact a1, a2, a3⟩
    · subst h1 h2 h3
      obtain ⟨x, hx1, hx2⟩ := hnewmem
      exact ⟨_, x, hsame, hx1, hx2⟩
  · intro J0 row0 K0 x h1 h2
    have hnew : Before S C J (K + 1) C J K :=
      (before_succ S C J K ext hC hJ hK C J K).2 (Or.inr ⟨rfl, rfl, rfl⟩)
    have hold : ∀ c j k, Before S C J K c j k → Before S C J (K + 1) c j k :=
      fun c j k h => (before_succ S C J K ext hC hJ hK c j k).2 (Or.inl h)
    by_cases hJ0 : J0 = gid C J
    · subst hJ0
      rw [hsame] at h1
      cases h1
      rcases (mem_graphEdge row _ _ hkeys _).1 h2 with ⟨b1, b2⟩ | ⟨b1, (⟨-, b3⟩ | ⟨old, b3, b4⟩)⟩
      · obtain ⟨c, j, k, a, b⟩ := inv.real _ row K0 x hrow b2
        exact ⟨c, j, k, hold _ _ _ a, b⟩
      · exact ⟨C, J, K, hnew, rfl, b1.symm, b3⟩
      · simp only at b1 b4
        rcases min_choice old (wt C J K) with hm | hm
        · rw [hm] at b4
          have hmem := lookup_some_mem row _ _ b3
          obtain ⟨c, j, k, a, b, b', b''⟩ := inv.real _ row (gid C K) old hrow hmem
          exact ⟨c, j, k, hold _ _ _ a, b, by rw [b', b1], by rw [b4, b'']⟩
        · rw [hm] at b4
          exact ⟨C, J, K, hnew, rfl, b1.symm, b4⟩
    · rw [hother _ hJ0] at h1
      obtain ⟨c, j, k, a, b⟩ := inv.real J0 row0 K0 x h1 h2
      exact ⟨c, j, k, hold _ _ _ a, b⟩

theorem GInv.init {D : Type} [LinearOrder D] (gIdx : Nat) (S : List (List TriType))
    (gid : Nat → Nat → Nat) (wt : Nat → Nat → Nat → D) :
    GInv gIdx S gid wt 0 0 0 (List.replicate gIdx []) := by
  refine ⟨by simp, ?_, ?_, ?_⟩
  · intro row hr
    rw [(List.mem_replicate.1 hr).2]
    exact List.nodup_nil
  · rintro c j k ⟨-, h | ⟨-, h | ⟨-, h⟩⟩⟩ <;> omega
  · intro J0 row K0 x h1 h2
    have := List.getElem?_mem h1
    rw [(List.mem_replicate.1 this).2] at h2
    cases h2

theorem globalGraph_spec {D : Type} [LinearOrder D] (gIdx : Nat) (S : List (List TriType))
    (gIdz : List (List Nat)) (distMCSs : List (List D))
    (gid : Nat → Nat → Nat) (wt : Nat → Nat → Nat → D)
    (hrows : ∀ c ext, S[c]? = some ext → ∃ gIds dm, gIdz[c]? = some gIds ∧
      distMCSs[c]? = some dm ∧ ∀ j tJ, ext[j]? = some tJ → gIds[j]? = some (gid c j) ∧
        gid c j < gIdx ∧ ∀ k, k < ext.length → dm[tJ.sIdx * ext.length + k]? = some (wt c j k)) :
    ∃ g, globalGraph gIdx S gIdz distMCSs = some g ∧
      GInv gIdx S gid wt S.length 0 0 g := by
  unfold globalGraph
  apply foldlM_range_inv _ (fun C g => GInv gIdx S gid wt C 0 0 g) S.length _
    (GInv.init gIdx S gid wt)
  intro C g hC inv
  obtain ⟨gIds, dm, h1, h2, h3⟩ := hrows C S[C] (List.getElem?_eq_getElem hC)
  simp only [List.getElem?_eq_getElem hC, h1, h2]
  have hfinal : ∀ g1, GInv gIdx S gid wt C S[C].length 0 g1 → GInv gIdx S gid wt (C + 1) 0 0 g1 := by
    intro g1 inv1
    apply inv1.congr
    intro c j k
    unfold Before
    constructor
    · rintro ⟨hv, h | ⟨ha, h | ⟨-, h⟩⟩⟩
      · exact ⟨hv, Or.inl (by omega)⟩
      · exact ⟨hv, Or.inl (by omega)⟩
      · omega
    · rintro ⟨hv, h | ⟨-, h | ⟨-, h⟩⟩⟩
      · refine ⟨hv, ?_⟩
        by_cases hc : c = C
        · subst hc
          obtain ⟨ext, e1, e2, e3⟩ := hv
          rw [List.getElem?_eq_getElem hC] at e1
          cases e1
          exact Or.inr ⟨rfl, Or.inl e2⟩
        · exact Or.inl (by omega)
      · omega
      · omega
  obtain ⟨r, hr, hP⟩ := foldlM_range_inv
    (fun g j =>
      match gIds[j]?, S[C][j]? with
      | some gIdxJ, some tJ =>
        (List.range S[C].length).foldlM (fun g k =>
          match gIds[k]?, dm[tJ.sIdx * S[C].length + k]?, g[gIdxJ]? with
          | some gIdxK, some wgt, some row => some (g.set gIdxJ (graphEdge row gIdxK wgt))
          | _, _, _ => none) g
      | _, _ => none)
    (fun J g => GInv gIdx S gid wt C J 0 g) S[C].length g inv (by
      intro J g1 hJ inv1
      obtain ⟨a1, a2, a3⟩ := h3 J S[C][J] (List.getElem?_eq_getElem hJ)
      simp only [a1, List.getElem?_eq_getElem hJ]
      have hnext : ∀ g2, GInv gIdx S gid wt C J S[C].length g2 →
          GInv gIdx S gid wt C (J + 1) 0 g2 := by
        intro g2 inv2
        apply inv2.congr
        intro c j k
        unfold Before
        constructor
        · rintro ⟨hv, h | ⟨ha, h | ⟨hb, h⟩⟩⟩
          · exact ⟨hv, Or.inl h⟩
          · exact ⟨hv, Or.inr ⟨ha, Or.inl (by omega)⟩⟩
          · exact ⟨hv, Or.inr ⟨ha, Or.inl (by omega)⟩⟩
        · rintro ⟨hv, h | ⟨ha, h | ⟨-, h⟩⟩⟩
          · exact ⟨hv, Or.inl h⟩
          · refine ⟨hv, Or.inr ⟨ha, ?_⟩⟩
            by_cases hj : j = J
            · subst ha
              obtain ⟨ext, e1, e2, e3⟩ := hv
              rw [List.getElem?_eq_getElem hC] at e1
              cases e1
              exact Or.inr ⟨hj, e3⟩
            · exact Or.inl (by omega)
          · omega
      obtain ⟨r, hr, hP⟩ := foldlM_range_inv
        (fun g k =>
          match gIds[k]?, dm[S[C][J].sIdx * S[C].length + k]?, g[gid C J]? with
          | some gIdxK, some wgt, some row => some (g.set (gid C J) (graphEdge row gIdxK wgt))
          | _, _, _ => none)
        (fun K g => GInv gIdx S gid wt C J K g) S[C].length g1 inv1 (by
          intro K g2 hK inv2
          obtain ⟨b1, b2, b3⟩ := h3 K S[C][K] (List.getElem?_eq_getElem hK)
          have hlt : gid C J < g2.length := by rw [inv2.len]; exact a2
          simp only [b1, a3 K hK, List.getElem?_eq_getElem hlt]
          exact ⟨_, rfl, inv2.visit S[C] (List.getElem?_eq_getElem hC) hJ hK _
            (List.getElem?_eq_getElem hlt)⟩)
      exact ⟨r, hr, hnext r hP⟩)
  exact ⟨r, hr, hfinal r hP⟩

/-! ### `Finder::pathFinderGlobal` and `gShrts` -/

theorem pathFinderGlobal_spec {D : Type} [LinearOrderedAddCommMonoidWithTop D] (g : GraphType D)
    (hwf : ∀ (u : Nat) (row : List (Nat × D)), g[u]? = some row → ∀ e ∈ row, e.1 < g.length)
    (hnn : ∀ (u : Nat) (row : List (Nat × D)), g[u]? = some row → ∀ e ∈ row, 0 ≤ e.2)
    (pathM : List Nat) (distM : List D)
    (hp : pathM.length = g.length * g.length) (hd : distM.length = g.length * g.length) :
    ∃ pathM1 distM1, pathFinderGlobal g pathM distM = some (pathM1, distM1) ∧
      pathM1.length = g.length * g.length ∧ distM1.length = g.length * g.length ∧
      ∀ s, s < g.length → ∃ d p, dijkstraCore g s = some (d, p) ∧
        ∀ i, i < g.length → pathM1[i * g.length + s]? = p[i]? ∧
          distM1[i * g.length + s]? = d[i]? := by
  unfold pathFinderGlobal
  obtain ⟨r, hr, h1, h2, h3⟩ := foldlM_range_inv
    (fun (tabs : List Nat × List D) i => dijkstraPQ g tabs.1 tabs.2 i)
    (fun n tabs => tabs.1.length = g.length * g.length ∧ tabs.2.length = g.length * g.length ∧
      ∀ s, s < n → ∃ d p, dijkstraCore g s = some (d, p) ∧
        ∀ i, i < g.length → tabs.1[i * g.length + s]? = p[i]? ∧
          tabs.2[i * g.length + s]? = d[i]?)
    g.length (pathM, distM) ⟨hp, hd, fun s hs => absurd hs (by omega)⟩ (by
      rintro s ⟨path, dist⟩ hs ⟨a1, a2, a3⟩
      simp only at a1 a2 a3
      obtain ⟨d, p, hcore, hdl, hpl, -⟩ := dijkstraCore_tree g s hs hwf hnn
      have hidx : ∀ j, j < d.length → (0 + j) * g.length + s < g.length * g.length := by
        intro j hj
        rw [hdl] at hj
        rw [Nat.zero_add]
        exact index_lt _ _ _ _ hj hs
      obtain ⟨path1, dist1, hw, hcol, hframe, hl1, hl2⟩ :=
        writeColumn_spec g.length s hs d p 0 path dist (by rw [hdl, hpl])
          (fun j hj => ⟨by rw [a1]; exact hidx j hj, by rw [a2]; exact hidx j hj⟩)
      refine ⟨(path1, dist1), ?_, by rw [hl1, a1], by rw [hl2, a2], ?_⟩
      · simp only [dijkstraPQ, hcore, hw]
      · intro s1 hs1
        by_cases hss : s1 = s
        · subst hss
          refine ⟨d, p, hcore, ?_⟩
          intro i hi
          have c := hcol i (by rw [hdl]; exact hi)
          rw [Nat.zero_add] at c
          exact c
        · obtain ⟨d1, p1, hc1, hcol1⟩ := a3 s1 (by omega)
          refine ⟨d1, p1, hc1, ?_⟩
          intro i hi
          have hne : ∀ j, j < d.length → i * g.length + s1 ≠ (0 + j) * g.length + s := by
            intro j _ h
            rw [Nat.zero_add] at h
            have h1 : (i * g.length + s1) % g.length = (j * g.length + s) % g.length := by rw [h]
            rw [Nat.mul_comm i, Nat.mul_comm j, Nat.mul_add_mod, Nat.mul_add_mod,
              Nat.mod_eq_of_lt (by omega), Nat.mod_eq_of_lt hs] at h1
            exact hss h1
          obtain ⟨f3, f4⟩ := hframe _ hne
          rw [f3, f4]
          exact hcol1 i hi)
  exact ⟨r.1, r.2, hr, h1, h2, h3⟩

theorem exitColumns_some {D : Type} (xSize : Nat) (gEIds : List Nat) (distM : List D)
    (hd : distM.length = xSize * xSize) (hE : ∀ e ∈ gEIds, e < xSize) :
    ∃ distMCS, exitColumns xSize gEIds distM = some distMCS := by
  unfold exitColumns
  obtain ⟨rows, hrows⟩ := mapM_option_some
    (fun i => gEIds.mapM fun J => distM[i * xSize + J]?) (List.range xSize) (by
      intro i hi
      have hi := List.mem_range.1 hi
      obtain ⟨row, hrow⟩ := mapM_option_some (fun J => distM[i * xSize + J]?) gEIds (by
        intro J hJ
        have hlt : i * xSize + J < distM.length := by
          rw [hd]
          exact index_lt _ _ _ _ hi (hE J hJ)
        simp only [List.getElem?_eq_getElem hlt, Option.isSome_some])
      simp only [hrow, Option.isSome_some])
  rw [hrows]
  exact ⟨_, rfl⟩

theorem gShrts_entry {D : Type} [LinearOrder D] (xSize : Nat) (gEIds : List Nat)
    (distM distMCS : List D) (gShrts : List (Nat × D))
    (hE : exitColumns xSize gEIds distM = some distMCS)
    (hG : gShrtsOf xSize gEIds distMCS = some gShrts) (hne : gEIds ≠ [])
    (i : Nat) (hi : i < xSize) :
    ∃ e v, gShrts[i]? = some (e, v) ∧ e ∈ gEIds ∧ distM[i * xSize + e]? = some v ∧
      ∀ e2 ∈ gEIds, ∃ v2, distM[i * xSize + e2]? = some v2 ∧ v ≤ v2 := by
  obtain ⟨row, hrow, hlen, hcol⟩ := exitColumns_row xSize gEIds distM distMCS hE i hi
  unfold gShrtsOf at hG
  obtain ⟨y, hy, hgy⟩ := mapM_option_inv _ _ gShrts hG i i (List.getElem?_range hi)
  rw [hrow] at hy
  have hrne : row ≠ [] := by
    intro h
    rw [h] at hlen
    exact hne (List.length_eq_zero.1 hlen.symm)
  obtain ⟨j, v, hmin, hjv, hle⟩ := minElement_spec row hrne
  rw [hmin] at hy
  simp only at hy
  have hj : j < gEIds.length := by
    rw [← hlen]
    by_contra h
    rw [List.getElem?_eq_none (not_lt.1 h)] at hjv
    exact absurd hjv (by simp)
  rw [List.getElem?_eq_getElem hj] at hy
  simp only [Option.some.injEq] at hy
  subst hy
  obtain ⟨v1, hv1, hr1⟩ := hcol j _ (List.getElem?_eq_getElem hj)
  rw [hjv] at hr1
  cases hr1
  refine ⟨_, _, hgy, List.getElem_mem _, hv1, ?_⟩
  intro e2 he2
  obtain ⟨k, hk, hke⟩ := List.getElem_of_mem he2
  obtain ⟨v2, hv2, hr2⟩ := hcol k e2 (by rw [List.getElem?_eq_getElem hk, hke])
  obtain ⟨hk2, hk3⟩ := List.getElem?_eq_some.1 hr2
  exact ⟨v2, hv2, hle v2 (hk3 ▸ List.getElem_mem hk2)⟩

theorem gShrtsOf_some {D : Type} [LinearOrder D] (xSize : Nat) (gEIds : List Nat)
    (distM distMCS : List D) (hE : exitColumns xSize gEIds distM = some distMCS)
    (hne : 0 < xSize → gEIds ≠ []) :
    ∃ gShrts, gShrtsOf xSize gEIds distMCS = some gShrts ∧ gShrts.length = xSize := by
  unfold gShrtsOf
  obtain ⟨ys, hys⟩ := mapM_option_some
    (fun i =>
      match minElement ((distMCS.drop (i * gEIds.length)).take gEIds.length) with
      | none => none
      | some (pos, val) =>
        match gEIds[pos]? with
        | none => none
        | some gE => some (gE, val)) (List.range xSize) (by
      intro i hi
      have hi := List.mem_range.1 hi
      obtain ⟨row, hrow, hlen, -⟩ := exitColumns_row xSize gEIds distM distMCS hE i hi
      have hrne : row ≠ [] := by
        intro h
        rw [h] at hlen
        exact hne (by omega) (List.length_eq_zero.1 hlen.symm)
      obtain ⟨j, v, hmin, hjv, -⟩ := minElement_spec row hrne
      have hj : j < gEIds.length := by
        rw [← hlen]
        exact (List.getElem?_eq_some.1 hjv).1
      simp only [hrow, hmin, List.getElem?_eq_getElem hj, Option.isSome_some])
  refine ⟨ys, hys, ?_⟩
  rw [mapM_option_length _ _ _ hys]
  simp

/-! ### `constructSusoMaps` on distinct local indices -/

theorem susoMapOf_eq : ∀ (ext : List TriType) (i : Nat) (acc : List (Nat × TriType)),
    (∀ p ∈ acc, ∀ t ∈ ext, p.1 ≠ t.sIdx) → (ext.map fun t => t.sIdx).Nodup →
    susoMapOf i ext acc =
      acc ++ (ext.enumFrom i).map (fun p => (p.2.sIdx, (⟨p.1, p.2.cIdx, p.2.oIdx⟩ : TriType))) := by
  intro ext
  induction ext with
  | nil => intro i acc _ _; simp [susoMapOf]
  | cons t rest ih =>
    intro i acc hdis hnd
    have hany : acc.any (fun p => p.1 == t.sIdx) = false := by
      rw [List.any_eq_false]
      intro p hp
      have := hdis p hp t (List.mem_cons_self _ _)
      simpa using this
    simp only [susoMapOf, hany, Bool.false_eq_true, if_false]
    rw [List.map_cons, List.nodup_cons] at hnd
    rw [ih (i + 1) _ ?_ hnd.2]
    · simp [List.enumFrom_cons]
    · intro p hp t1 ht1
      rcases List.mem_append.1 hp with hp | hp
      · exact hdis p hp t1 (List.mem_cons_of_mem _ ht1)
      · simp only [List.mem_singleton] at hp
        subst hp
        intro heq
        exact hnd.1 (List.mem_map.2 ⟨t1, ht1, heq.symm⟩)

theorem susoMapOf_get (ext : List TriType) (hnd : (ext.map fun t => t.sIdx).Nodup) (k : Nat) :
    (susoMapOf 0 ext [])[k]? =
      (ext[k]?).map (fun x => (x.sIdx, (⟨k, x.cIdx, x.oIdx⟩ : TriType))) := by
  rw [susoMapOf_eq ext 0 [] (by intro p hp; cases hp) hnd]
  simp only [List.nil_append, List.getElem?_map, List.getElem?_enumFrom, Nat.zero_add]
  cases ext[k]? <;> rfl

theorem susoMapOf_length (ext : List TriType) (hnd : (ext.map fun t => t.sIdx).Nodup) :
    (susoMapOf 0 ext []).length = ext.length := by
  rw [susoMapOf_eq ext 0 [] (by intro p hp; cases hp) hnd]
  simp

theorem susoMapOf_keys (ext : List TriType) (hnd : (ext.map fun t => t.sIdx).Nodup) :
    (susoMapOf 0 ext []).map Prod.fst = ext.map fun t => t.sIdx := by
  rw [susoMapOf_eq ext 0 [] (by intro p hp; cases hp) hnd]
  simp only [List.nil_append, List.map_map]
  apply List.ext_getElem?
  intro k
  simp only [List.getElem?_map, List.getElem?_enumFrom, Nat.zero_add]
  cases ext[k]? <;> rfl

theorem Walk.nonneg {D : Type} [LinearOrderedAddCommMonoidWithTop D] {g : GraphType D}
    (hnn : ∀ (u : Nat) (row : List (Nat × D)), g[u]? = some row → ∀ e ∈ row, 0 ≤ e.2)
    {s v : Nat} {l : D} (h : Walk g s v l) : 0 ≤ l := by
  induction h with
  | nil _ => exact le_refl _
  | snoc a b l w row _ hrow hvw ih => exact add_nonneg ih (hnn a row hrow _ hvw)

/-! ### `Router::Router` over a finalized geometry -/

theorem Router.susoMap_of {D : Type} (r : Router D) (S : List (List TriType))
    (hm : r.susoMaps = S.map fun e => susoMapOf 0 e []) (c : Nat) (ext : List TriType)
    (hc : S[c]? = some ext) : r.susoMap c = susoMapOf 0 ext [] := by
  unfold Router.susoMap
  rw [hm, List.getElem?_map, hc]
  rfl

theorem Router.ySize_of {D : Type} (r : Router D) (S : List (List TriType))
    (hfin : FinalizedSusos S)
    (hm : r.susoMaps = S.map fun e => susoMapOf 0 e []) (c : Nat) (ext : List TriType)
    (hc : S[c]? = some ext) : r.ySize c = ext.length := by
  unfold Router.ySize
  rw [r.susoMap_of S hm c ext hc]
  exact susoMapOf_length ext (hfin.distinct ext (List.getElem?_mem hc))

theorem Router.entry_of {D : Type} (r : Router D) (S : List (List TriType))
    (hfin : FinalizedSusos S)
    (hm : r.susoMaps = S.map fun e => susoMapOf 0 e []) (c : Nat) (ext : List TriType)
    (hc : S[c]? = some ext) (t : Nat) (x : TriType) (hx : ext[t]? = some x) :
    r.entry c t = (x.sIdx, ⟨t, x.cIdx, x.oIdx⟩) := by
  unfold Router.entry
  rw [r.susoMap_of S hm c ext hc, List.getD_eq_getElem?_getD,
    susoMapOf_get ext (hfin.distinct ext (List.getElem?_mem hc)) t, hx]
  rfl

theorem Router.key_of {D : Type} (r : Router D) (S : List (List TriType))
    (hfin : FinalizedSusos S)
    (hm : r.susoMaps = S.map fun e => susoMapOf 0 e []) (c : Nat) (ext : List TriType)
    (hc : S[c]? = some ext) (t : Nat) (x : TriType) (hx : ext[t]? = some x) :
    r.key c t = x.sIdx := by
  unfold Router.key
  rw [r.entry_of S hfin hm c ext hc t x hx]

theorem localGraph_facts {M : Type} [LinearOrderedCancelAddCommMonoid M]
    {w : Nat → Nat → Nat → WithTop M} {nbrz : List (List Nat)} {nSizes : List Nat}
    {S : List (List TriType)} (hgeo : Routable w nbrz nSizes S) (c : Nat) (nbrs : List Nat)
    (hn : nbrz[c]? = some nbrs) (u : Nat) (row : List (Nat × WithTop M))
    (hrow : (localGraph (w c) nbrs (nSizes.getD c 0))[u]? = some row) (e : Nat × WithTop M)
    (he : e ∈ row) :
    u < nSizes.getD c 0 ∧ e.1 < nSizes.getD c 0 ∧ e.2 = w c u e.1 ∧ 0 ≤ e.2 ∧ e.2 ≠ ⊤ ∧
      (∃ row1, (localGraph (w c) nbrs (nSizes.getD c 0))[e.1]? = some row1 ∧ (u, e.2) ∈ row1) ∧
      (e.1 ≠ u → ∃ x : M, e.2 = (x : WithTop M) ∧ 0 < x) := by
  obtain ⟨hu, hr⟩ := localGraph_row _ _ _ _ _ hrow
  subst hr
  obtain ⟨e1, e2⟩ := e
  obtain ⟨h1, j, hj, h2⟩ := (mem_localRow _ _ _ _ _).1 he
  obtain ⟨hv, j1, hj1, h3⟩ := hgeo.slots c nbrs hn u j e1 hu hj h2
  obtain ⟨hs, x, hx, hx0, hxp⟩ := hgeo.weight c u e1 hu hv
  simp only
  refine ⟨hu, hv, h1, ?_, ?_, ?_, ?_⟩
  · rw [h1, hx]
    exact WithTop.coe_nonneg.2 hx0
  · rw [h1, hx]
    exact WithTop.coe_ne_top
  · refine ⟨localRow (w c) nbrs e1, ?_, ?_⟩
    · unfold localGraph
      rw [List.getElem?_map, List.getElem?_range hv]
      rfl
    · exact (mem_localRow _ _ _ _ _).2 ⟨by rw [h1, hs], j1, hj1, h3⟩
  · intro hne
    exact ⟨x, by rw [h1, hx], hxp (Ne.symm hne)⟩

theorem findLocal_built {M : Type} [LinearOrderedCancelAddCommMonoid M]
    {w : Nat → Nat → Nat → WithTop M} {nbrz : List (List Nat)} {nSizes : List Nat}
    {S : List (List TriType)} (hgeo : Routable w nbrz nSizes S) :
    ∃ ps ds, findLocal w nbrz S 0 nSizes = some (ps, ds) ∧ ps.length = nSizes.length ∧
      ds.length = nSizes.length ∧
      ∀ (c : Nat) (ext : List TriType) (nbrs : List Nat), S[c]? = some ext →
        nbrz[c]? = some nbrs →
        ∃ path dist, ps[c]? = some path ∧ ds[c]? = some dist ∧
          path.length = nSizes.getD c 0 * ext.length ∧
          dist.length = nSizes.getD c 0 * ext.length ∧
          ∀ (j : Nat) (t : TriType), ext[j]? = some t →
            ∃ d p, dijkstraCore (localGraph (w c) nbrs (nSizes.getD c 0)) t.sIdx = some (d, p) ∧
              ∀ e, e < nSizes.getD c 0 → path[e * ext.length + j]? = p[e]? ∧
                dist[e * ext.length + j]? = d[e]? := by
  have hform : ∀ (c : Nat) (ext : List TriType) (nbrs : List Nat), S[c]? = some ext →
      nbrz[c]? = some nbrs →
      ∃ path dist, formMCS (w c) nbrs (nSizes.getD c 0) ext = some (path, dist) ∧
        path.length = nSizes.getD c 0 * ext.length ∧
        dist.length = nSizes.getD c 0 * ext.length ∧
        ∀ (j : Nat) (t : TriType), ext[j]? = some t →
          ∃ d p, dijkstraCore (localGraph (w c) nbrs (nSizes.getD c 0)) t.sIdx = some (d, p) ∧
            ∀ e, e < nSizes.getD c 0 → path[e * ext.length + j]? = p[e]? ∧
              dist[e * ext.length + j]? = d[e]? := by
    intro c ext nbrs hc hn
    exact formMCS_spec (w c) nbrs (nSizes.getD c 0) ext
      (fun u row hrow e he => (localGraph_facts hgeo c nbrs hn u row hrow e he).2.1)
      (fun u row hrow e he => (localGraph_facts hgeo c nbrs hn u row hrow e he).2.2.2.1)
      (hgeo.keys c ext hc)
  have hdef : ∀ c, c < nSizes.length → ∃ nbrs ext, nbrz[c]? = some nbrs ∧ S[c]? = some ext := by
    intro c hc
    have h1 : c < nbrz.length := by rw [hgeo.cells.1]; exact hc
    have h2 : c < S.length := by rw [hgeo.cells.2.1]; exact hc
    exact ⟨nbrz[c], S[c], List.getElem?_eq_getElem h1, List.getElem?_eq_getElem h2⟩
  obtain ⟨ps, ds, h1, h2, h3, h4⟩ := findLocal_spec w nbrz S nSizes 0 (by
    intro k xSize hk
    obtain ⟨hk1, hk2⟩ := List.getElem?_eq_some.1 hk
    obtain ⟨nbrs, ext, a1, a2⟩ := hdef k hk1
    have hx : nSizes.getD k 0 = xSize := by
      rw [List.getD_eq_getElem?_getD, hk]
      rfl
    obtain ⟨path, dist, b1, -⟩ := hform k ext nbrs a2 a1
    rw [hx] at b1
    rw [Nat.zero_add]
    exact ⟨nbrs, ext, path, dist, a1, a2, b1⟩)
  refine ⟨ps, ds, h1, h2, h3, ?_⟩
  intro c ext nbrs hc hn
  have hcn : c < nSizes.length := by
    rw [← hgeo.cells.2.1]
    exact (List.getElem?_eq_some.1 hc).1
  have hx : nSizes[c]? = some (nSizes.getD c 0) := by
    rw [List.getD_eq_getElem?_getD, List.getElem?_eq_getElem hcn]
    rfl
  obtain ⟨nbrs1, ext1, path, dist, a1, a2, a3, a4, a5⟩ := h4 c _ hx
  rw [Nat.zero_add] at a1 a2 a3
  rw [hn] at a1
  rw [hc] at a2
  cases a1
  cases a2
  obtain ⟨path1, dist1, b1, b2, b3, b4⟩ := hform c ext nbrs hc hn
  rw [a3] at b1
  cases b1
  exact ⟨path, dist, a4, a5, b2, b3, b4⟩

theorem CellReach.exists_exit {S : List (List TriType)} {c : Nat} (h : CellReach S c) :
    ∃ (c1 : Nat) (ext : List TriType) (t : TriType), S[c1]? = some ext ∧ t ∈ ext ∧ t.cIdx = c1 := by
  induction h with
  | exit c ext t h1 h2 h3 => exact ⟨c, ext, t, h1, h2, h3⟩
  | step c ext t _ _ _ ih => exact ih

theorem getD_of_getElem? {α : Type} (l : List α) (i : Nat) (d : α) (hi : i < l.length) :
    l[i]? = some (l.getD i d) := by
  rw [List.getD_eq_getElem?_getD, List.getElem?_eq_getElem hi]
  rfl


theorem LocalBuilt.ld_spec {M : Type} [LinearOrderedCancelAddCommMonoid M]
    {w : Nat → Nat → Nat → WithTop M} {nbrz : List (List Nat)} {nSizes : List Nat}
    {S : List (List TriType)} {r : Router (WithTop M)} (hgeo : Routable w nbrz nSizes S)
    (hl : LocalBuilt w nbrz nSizes S r) (c : Nat) (ext : List TriType) (nbrs : List Nat)
    (hc : S[c]? = some ext) (hn : nbrz[c]? = some nbrs) (t : Nat) (ht : t < ext.length)
    (e : Nat) (he : e < nSizes.getD c 0) :
    r.key c t < nSizes.getD c 0 ∧
    at2 r.distMCSs c (e * ext.length + t) = some (r.ld c e t) ∧
    at2 r.pathMCSs c (e * ext.length + t) = some (r.lp c e t) ∧
    (∀ l, Walk (localGraph (w c) nbrs (nSizes.getD c 0)) (r.key c t) e l → r.ld c e t ≤ l) ∧
    Walk (localGraph (w c) nbrs (nSizes.getD c 0)) (r.key c t) e (r.ld c e t) ∧
    r.ld c e t ≠ ⊤ ∧ 0 ≤ r.ld c e t ∧ (e = r.key c t → r.ld c e t = 0) ∧
    (e ≠ r.key c t → ∃ (u : Nat) (x : WithTop M) (row : List (Nat × WithTop M)),
      r.lp c e t = u ∧ u < nSizes.getD c 0 ∧ u ≠ e ∧
      (localGraph (w c) nbrs (nSizes.getD c 0))[u]? = some row ∧ (e, x) ∈ row ∧
      r.ld c e t = r.ld c u t + x) := by
  have hx : ext[t]? = some ext[t] := List.getElem?_eq_getElem ht
  have hkey := r.key_of S hgeo.fin hl.maps c ext hc t _ hx
  have hy := r.ySize_of S hgeo.fin hl.maps c ext hc
  have hsrc : ext[t].sIdx < nSizes.getD c 0 := hgeo.keys c ext hc _ (List.getElem_mem ht)
  have hgl := localGraph_length (w c) nbrs (nSizes.getD c 0)
  have hwf : ∀ (u : Nat) (row : List (Nat × WithTop M)),
      (localGraph (w c) nbrs (nSizes.getD c 0))[u]? = some row → ∀ e ∈ row,
        e.1 < (localGraph (w c) nbrs (nSizes.getD c 0)).length := by
    intro u row hrow e he
    rw [hgl]
    exact (localGraph_facts hgeo c nbrs hn u row hrow e he).2.1
  have hnn : ∀ (u : Nat) (row : List (Nat × WithTop M)),
      (localGraph (w c) nbrs (nSizes.getD c 0))[u]? = some row → ∀ e ∈ row, 0 ≤ e.2 :=
    fun u row hrow e he => (localGraph_facts hgeo c nbrs hn u row hrow e he).2.2.2.1
  have hfin : ∀ (u : Nat) (row : List (Nat × WithTop M)),
      (localGraph (w c) nbrs (nSizes.getD c 0))[u]? = some row → ∀ e ∈ row, e.2 ≠ ⊤ :=
    fun u row hrow e he => (localGraph_facts hgeo c nbrs hn u row hrow e he).2.2.2.2.1
  obtain ⟨d, p, hcore, hcol⟩ := hl.cols c ext nbrs hc hn t _ hx
  obtain ⟨d1, p1, hcore1, hdl, hpl, hzero, hlow, hreal, htree⟩ :=
    dijkstraCore_tree (localGraph (w c) nbrs (nSizes.getD c 0)) ext[t].sIdx
      (by rw [hgl]; exact hsrc) hwf hnn
  rw [hcore] at hcore1
  cases hcore1
  rw [hgl] at hdl hpl
  have hld : ∀ u, u < nSizes.getD c 0 → r.ld c u t = d.getD u ⊤ := by
    intro u hu
    unfold Router.ld
    rw [hy, (hcol u hu).2, List.getD_eq_getElem?_getD]
  have hlp : ∀ u, u < nSizes.getD c 0 → r.lp c u t = p.getD u 0 := by
    intro u hu
    unfold Router.lp
    rw [hy, (hcol u hu).1, List.getD_eq_getElem?_getD]
  rw [hkey, hld e he]
  obtain ⟨l0, hl0⟩ := hgeo.conn c nbrs hn ext[t].sIdx e hsrc he
  have hne : d.getD e ⊤ ≠ ⊤ := by
    intro htop
    have h1 := hlow e l0 hl0
    rw [htop] at h1
    exact Walk.ne_top hfin hl0 (top_le_iff.1 h1)
  have hwalk : Walk (localGraph (w c) nbrs (nSizes.getD c 0)) ext[t].sIdx e (d.getD e ⊤) := by
    rcases hreal e (by rw [hgl]; exact he) with h | h
    · exact absurd h hne
    · exact h
  refine ⟨hsrc, ?_, ?_, hlow e, hwalk, hne, Walk.nonneg hnn hwalk, ?_, ?_⟩
  · rw [(hcol e he).2]
    exact getD_of_getElem? d e ⊤ (by rw [hdl]; exact he)
  · rw [(hcol e he).1, hlp e he]
    exact getD_of_getElem? p e 0 (by rw [hpl]; exact he)
  · intro h
    rw [h]
    exact hzero
  · intro hes
    obtain ⟨u, x, row, a1, a2, a3, a4, a5⟩ := htree e (by rw [hgl]; exact he) hes hne
    have hu : u < nSizes.getD c 0 := (localGraph_row _ _ _ _ _ a3).1
    refine ⟨u, x, row, ?_, hu, a2, a3, a4, ?_⟩
    · rw [hlp e he, List.getD_eq_getElem?_getD, a1]
      rfl
    · rw [hld u hu]
      exact a5

theorem LocalBuilt.ld_symm {M : Type} [LinearOrderedCancelAddCommMonoid M]
    {w : Nat → Nat → Nat → WithTop M} {nbrz : List (List Nat)} {nSizes : List Nat}
    {S : List (List TriType)} {r : Router (WithTop M)} (hgeo : Routable w nbrz nSizes S)
    (hl : LocalBuilt w nbrz nSizes S r) (c : Nat) (ext : List TriType)
    (hc : S[c]? = some ext) (j k : Nat) (hj : j < ext.length) (hk : k < ext.length) :
    r.ld c (r.key c j) k = r.ld c (r.key c k) j := by
  have hcn : c < nbrz.length := by
    rw [hgeo.cells.1, ← hgeo.cells.2.1]
    exact (List.getElem?_eq_some.1 hc).1
  have hn : nbrz[c]? = some nbrz[c] := List.getElem?_eq_getElem hcn
  have hkj := (hl.ld_spec hgeo c ext _ hc hn j hj 0 (by
    have := hgeo.keys c ext hc _ (List.getElem_mem hj); omega)).1
  have hkk := (hl.ld_spec hgeo c ext _ hc hn k hk 0 (by
    have := hgeo.keys c ext hc _ (List.getElem_mem hj); omega)).1
  obtain ⟨-, -, -, a1, a2, -⟩ := hl.ld_spec hgeo c ext _ hc hn k hk (r.key c j) hkj
  obtain ⟨-, -, -, b1, b2, -⟩ := hl.ld_spec hgeo c ext _ hc hn j hj (r.key c k) hkk
  have hsym : ∀ (u v : Nat) (x : WithTop M) (row : List (Nat × WithTop M)),
      (localGraph (w c) nbrz[c] (nSizes.getD c 0))[u]? = some row → (v, x) ∈ row →
      ∃ row1, (localGraph (w c) nbrz[c] (nSizes.getD c 0))[v]? = some row1 ∧ (u, x) ∈ row1 :=
    fun u v x row hrow hv => (localGraph_facts hgeo c _ hn u row hrow _ hv).2.2.2.2.2.1
  exact le_antisymm (a1 _ (Walk.reverse hsym b2)) (b1 _ (Walk.reverse hsym a2))

theorem gid_facts {D : Type} (r : Router D) (S : List (List TriType)) (st : Consolidated)
    (inv : CInv S st) (hz : r.gIdz = st.gIdz) (c : Nat) (ext : List TriType)
    (hc : S[c]? = some ext) (k : Nat) (hk : k < ext.length) :
    at2 st.gIdz c k = some (r.gid c k) ∧ r.gid c k < st.gIdx ∧
      ∃ gIds, st.gIdz[c]? = some gIds ∧ gIds[k]? = some (r.gid c k) := by
  obtain ⟨g, hg⟩ := inv.gid_defined S st c k ext[k]
    ((isEntry_iff _ _ _ _).2 ⟨ext, hc, List.getElem?_eq_getElem hk⟩)
  have hg : at2 st.gIdz c k = some g := hg
  have hgid : r.gid c k = g := by
    unfold Router.gid
    rw [hz, hg]
    rfl
  rw [hgid]
  refine ⟨hg, inv.lt c k g hg, ?_⟩
  unfold at2 at hg
  cases hrow : st.gIdz[c]? with
  | none => rw [hrow] at hg; cases hg
  | some gIds =>
    rw [hrow] at hg
    exact ⟨gIds, rfl, hg⟩

theorem routerTables_built {M : Type} [LinearOrderedCancelAddCommMonoid M]
    {w : Nat → Nat → Nat → WithTop M} {nbrz : List (List Nat)} {nSizes : List Nat}
    {S : List (List TriType)} (hgeo : Routable w nbrz nSizes S) :
    ∃ r, routerTables w nbrz nSizes S (S.map fun e => susoMapOf 0 e []) = some r ∧
      Built w nbrz nSizes S r := by
  obtain ⟨st, hst, inv, qinv⟩ := consolidate_both S hgeo.fin
  obtain ⟨ps, ds, hfl, hpl, hdl, hloc⟩ := findLocal_built hgeo
  have hnb : ∀ (c : Nat) (ext : List TriType), S[c]? = some ext →
      ∃ nbrs, nbrz[c]? = some nbrs := by
    intro c ext hc
    have hcn : c < nbrz.length := by
      rw [hgeo.cells.1, ← hgeo.cells.2.1]
      exact (List.getElem?_eq_some.1 hc).1
    exact ⟨nbrz[c], List.getElem?_eq_getElem hcn⟩
  -- the local part, for any router with these local tables
  have hlocal : ∀ r : Router (WithTop M), r.susoMaps = (S.map fun e => susoMapOf 0 e []) →
      r.pathMCSs = ps → r.distMCSs = ds → LocalBuilt w nbrz nSizes S r := by
    intro r h1 h2 h3
    refine ⟨h1, ⟨by rw [h2]; exact hpl, by rw [h3]; exact hdl⟩, ?_, ?_⟩
    · intro c ext hc
      obtain ⟨nbrs, hn⟩ := hnb c ext hc
      obtain ⟨path, dist, a1, a2, a3, a4, -⟩ := hloc c ext nbrs hc hn
      rw [h2, h3, a1, a2]
      exact ⟨a4, a3⟩
    · intro c ext nbrs hc hn j t hj
      obtain ⟨path, dist, a1, a2, a3, a4, a5⟩ := hloc c ext nbrs hc hn
      obtain ⟨d, p, b1, b2⟩ := a5 j t hj
      refine ⟨d, p, b1, ?_⟩
      intro e he
      unfold at2
      rw [h2, h3, a1, a2]
      exact b2 e he
  have hl0 := hlocal ⟨st.gIdx, st.quads, st.gEIds, st.gIdz, S.map fun e => susoMapOf 0 e [],
    ps, ds, [], [], [], []⟩ rfl rfl rfl
  obtain ⟨g, hg, ginv⟩ := globalGraph_spec st.gIdx S st.gIdz ds
    (Router.gid (⟨st.gIdx, st.quads, st.gEIds, st.gIdz, S.map fun e => susoMapOf 0 e [],
      ps, ds, [], [], [], []⟩ : Router (WithTop M)))
    (fun c j k => Router.ld (⟨st.gIdx, st.quads, st.gEIds, st.gIdz,
      S.map fun e => susoMapOf 0 e [], ps, ds, [], [], [], []⟩ : Router (WithTop M)) c
      (Router.key (⟨st.gIdx, st.quads, st.gEIds, st.gIdz, S.map fun e => susoMapOf 0 e [],
        ps, ds, [], [], [], []⟩ : Router (WithTop M)) c j) k) (by
      intro c ext hc
      obtain ⟨nbrs, hn⟩ := hnb c ext hc
      obtain ⟨path, dist, a1, a2, a3, a4, -⟩ := hloc c ext nbrs hc hn
      have hcg : c < st.gIdz.length := by
        rw [inv.len_g]
        exact (List.getElem?_eq_some.1 hc).1
      refine ⟨st.gIdz[c], dist, List.getElem?_eq_getElem hcg, a2, ?_⟩
      intro j tJ hj
      have hjl : j < ext.length := (List.getElem?_eq_some.1 hj).1
      obtain ⟨-, f2, gIds, f3, f4⟩ := gid_facts (⟨st.gIdx, st.quads, st.gEIds, st.gIdz,
        S.map fun e => susoMapOf 0 e [], ps, ds, [], [], [], []⟩ : Router (WithTop M)) S st inv
        rfl c ext hc j hjl
      rw [List.getElem?_eq_getElem hcg] at f3
      cases f3
      refine ⟨f4, f2, ?_⟩
      intro k hk
      have hkey : tJ.sIdx < nSizes.getD c 0 := hgeo.keys c ext hc tJ (List.getElem?_mem hj)
      have hspec := (hl0.ld_spec hgeo c ext nbrs hc hn k hk tJ.sIdx hkey).2.1
      beta_reduce
      rw [Router.key_of _ S hgeo.fin rfl c ext hc j tJ hj]
      unfold at2 at hspec
      simp only [a2] at hspec
      exact hspec)
  have hgl : g.length = st.gIdx := ginv.len
  have hvalid : ∀ C J K c j k, Before S C J K c j k →
      ∃ ext nbrs, S[c]? = some ext ∧ nbrz[c]? = some nbrs ∧ j < ext.length ∧ k < ext.length := by
    rintro C J K c j k ⟨⟨ext, h1, h2, h3⟩, -⟩
    obtain ⟨nbrs, hn⟩ := hnb c ext h1
    exact ⟨ext, nbrs, h1, hn, h2, h3⟩
  have hwf : ∀ (u : Nat) (row : List (Nat × WithTop M)), g[u]? = some row →
      ∀ e ∈ row, e.1 < g.length := by
    intro u row hrow e he
    obtain ⟨c, j, k, hb, -, h2, -⟩ := ginv.real u row e.1 e.2 hrow he
    obtain ⟨ext, nbrs, b1, b2, b3, b4⟩ := hvalid _ _ _ _ _ _ hb
    rw [hgl, ← h2]
    exact (gid_facts _ S st inv rfl c ext b1 k b4).2.1
  have hnn : ∀ (u : Nat) (row : List (Nat × WithTop M)), g[u]? = some row →
      ∀ e ∈ row, 0 ≤ e.2 := by
    intro u row hrow e he
    obtain ⟨c, j, k, hb, -, -, h3⟩ := ginv.real u row e.1 e.2 hrow he
    obtain ⟨ext, nbrs, b1, b2, b3, b4⟩ := hvalid _ _ _ _ _ _ hb
    rw [h3]
    have hkj := (hl0.ld_spec hgeo c ext nbrs b1 b2 j b3 0 (by
      have := hgeo.keys c ext b1 _ (List.getElem_mem b3); omega)).1
    exact (hl0.ld_spec hgeo c ext nbrs b1 b2 k b4 _ hkj).2.2.2.2.2.2.1
  obtain ⟨pathM, distM, hpf, hpM, hdM, hcols⟩ := pathFinderGlobal_spec g hwf hnn
    (List.replicate (st.gIdx * st.gIdx) 0) (List.replicate (st.gIdx * st.gIdx) 0)
    (by rw [hgl]; simp) (by rw [hgl]; simp)
  rw [hgl] at hpM hdM hcols
  have hexits : ∀ e ∈ st.gEIds, e < st.gIdx := by
    intro e he
    obtain ⟨c, k, t, -, -, a3⟩ := (qinv.exits e).1 he
    exact inv.lt c k e a3
  obtain ⟨distMCS, hec⟩ := exitColumns_some st.gIdx st.gEIds distM hdM hexits
  have hne : 0 < st.gIdx → st.gEIds ≠ [] := by
    intro hpos
    obtain ⟨c, k, t, a1, -, -⟩ := qinv.surj 0 hpos
    have hc : c < S.length := at2_lt _ _ _ _ a1
    obtain ⟨c1, ext1, t1, b1, b2, b3⟩ := (hgeo.reach c hc).exists_exit
    obtain ⟨k1, hk1⟩ := List.mem_iff_getElem?.1 b2
    have hent : IsEntry S c1 k1 t1 := (isEntry_iff _ _ _ _).2 ⟨ext1, b1, hk1⟩
    obtain ⟨g1, hg1⟩ := inv.gid_defined S st c1 k1 t1 hent
    have := (qinv.exits g1).2 ⟨c1, k1, t1, hent, b3, hg1⟩
    exact List.ne_nil_of_mem this
  obtain ⟨gShrts, hgs, hgsl⟩ := gShrtsOf_some st.gIdx st.gEIds distM distMCS hec hne
  refine ⟨⟨st.gIdx, st.quads, st.gEIds, st.gIdz, S.map fun e => susoMapOf 0 e [], ps, ds,
    pathM, distM, distMCS, gShrts⟩, ?_, ?_⟩
  · simp only [routerTables, hfl, hst, hg, hpf, hec, hgs]
  · have hgr : Router.graph (⟨st.gIdx, st.quads, st.gEIds, st.gIdz,
        S.map fun e => susoMapOf 0 e [], ps, ds, pathM, distM, distMCS, gShrts⟩ :
        Router (WithTop M)) S = g := by
      unfold Router.graph
      simp only [hg, Option.getD_some]
    refine ⟨hlocal _ rfl rfl rfl, ⟨st, inv, qinv, rfl, rfl, rfl, rfl⟩, ⟨hpM, hdM, hgsl⟩,
      ⟨by rw [hgr]; exact ginv, by rw [hgr]; exact hcols⟩, ?_⟩
    intro i hi
    exact gShrts_entry st.gIdx st.gEIds distM distMCS gShrts hec hgs
      (hne (Nat.lt_of_le_of_lt (Nat.zero_le i) hi)) i hi

/-! ### The tables of the router are sound -/

theorem CInv.gid_same (S : List (List TriType)) (hfin : FinalizedSusos S) (st : Consolidated)
    (inv : CInv S st) (c k : Nat) (t : TriType) (c1 k1 : Nat) (t1 : TriType) (g : Nat)
    (h : IsEntry S c k t) (h1 : IsEntry S c1 k1 t1)
    (hg : st.gidAt c k = some g) (hg1 : st.gidAt c1 k1 = some g) :
    (c = c1 ∧ k = k1) ∨ Reciprocal c t c1 t1 := by
  obtain ⟨c0, k0, t0, a1, a2, a3, a4⟩ := inv.rep S hfin st c k t g h hg
  obtain ⟨c0', k0', t0', b1, b2, b3, b4⟩ := inv.rep S hfin st c1 k1 t1 g h1 hg1
  obtain ⟨e1, e2⟩ := inv.inj c0 k0 t0 c0' k0' t0' g a1 b1 a2 b2 a3 b3
  subst e1 e2
  have e3 := isEntry_inj S c0 k0 t0 t0' a1 b1
  subst e3
  rcases a4 with ⟨x1, x2, x3⟩ | x
  · rcases b4 with ⟨y1, y2, y3⟩ | y
    · left; exact ⟨x1.symm.trans y1, x2.symm.trans y2⟩
    · right
      subst x1 x3
      exact Reciprocal.symm _ _ _ _ y
  · rcases b4 with ⟨y1, y2, y3⟩ | y
    · right
      subst y1 y3
      exact x
    · left
      obtain ⟨-, -, x3, -, x5⟩ := x
      obtain ⟨-, -, y3, -, y5⟩ := y
      have hc : c = c1 := x3.symm.trans y3
      subst hc
      exact ⟨rfl, (hfin.entry_unique S c k k1 t t1 h h1 (x5.symm.trans y5)).1⟩

theorem CInv.gid_recip (S : List (List TriType)) (hfin : FinalizedSusos S) (st : Consolidated)
    (inv : CInv S st) (c k : Nat) (t : TriType) (c1 k1 : Nat) (t1 : TriType) (g g1 : Nat)
    (h : IsEntry S c k t) (h1 : IsEntry S c1 k1 t1)
    (hg : st.gidAt c k = some g) (hg1 : st.gidAt c1 k1 = some g1)
    (r : Reciprocal c t c1 t1) : g = g1 := by
  obtain ⟨r1, r2, r3, r4, r5⟩ := r
  by_cases hlt : c1 < c
  · obtain ⟨k2, t2, x1, x2, -, x4⟩ := inv.sec c k t g h (by omega) hg
    rw [r2] at x1 x4
    obtain ⟨e, -⟩ := hfin.entry_unique S c1 k2 k1 t2 t1 x1 h1 (x2.trans r4.symm)
    subst e
    rw [x4] at hg1
    exact Option.some.inj hg1
  · obtain ⟨k2, t2, x1, x2, -, x4⟩ := inv.sec c1 k1 t1 g1 h1 (by omega) hg1
    rw [r3] at x1 x4
    obtain ⟨e, -⟩ := hfin.entry_unique S c k2 k t2 t x1 h (x2.trans r5)
    subst e
    rw [x4] at hg
    exact (Option.some.inj hg).symm

theorem Built.cell {M : Type} [LinearOrderedCancelAddCommMonoid M]
    {w : Nat → Nat → Nat → WithTop M} {nbrz : List (List Nat)} {nSizes : List Nat}
    {S : List (List TriType)} {r : Router (WithTop M)} (hgeo : Routable w nbrz nSizes S)
    (hb : Built w nbrz nSizes S r) (c : Nat) (hc : c < nSizes.length) :
    ∃ ext nbrs, S[c]? = some ext ∧ nbrz[c]? = some nbrs ∧ r.ySize c = ext.length := by
  have h1 : c < nbrz.length := by rw [hgeo.cells.1]; exact hc
  have h2 : c < S.length := by rw [hgeo.cells.2.1]; exact hc
  exact ⟨S[c], nbrz[c], List.getElem?_eq_getElem h2, List.getElem?_eq_getElem h1,
    r.ySize_of S hgeo.fin hb.loc.maps c _ (List.getElem?_eq_getElem h2)⟩

theorem Built.graph_rows {M : Type} [LinearOrderedCancelAddCommMonoid M]
    {w : Nat → Nat → Nat → WithTop M} {nbrz : List (List Nat)} {nSizes : List Nat}
    {S : List (List TriType)} {r : Router (WithTop M)} (hgeo : Routable w nbrz nSizes S)
    (hb : Built w nbrz nSizes S r) (u : Nat) (row : List (Nat × WithTop M))
    (hrow : (r.graph S)[u]? = some row) (e : Nat × WithTop M) (he : e ∈ row) :
    u < r.gIdx ∧ e.1 < r.gIdx ∧ 0 ≤ e.2 ∧ e.2 ≠ ⊤ ∧
      ∃ (c : Nat) (ext : List TriType) (j k : Nat), S[c]? = some ext ∧ j < ext.length ∧
        k < ext.length ∧ r.gid c j = u ∧ r.gid c k = e.1 ∧ e.2 = r.ld c (r.key c j) k := by
  obtain ⟨st, inv, qinv, i1, i2, i3, i4⟩ := hb.ids
  obtain ⟨c, j, k, ⟨⟨ext, b1, b3, b4⟩, -⟩, h1, h2, h3⟩ := hb.glob.1.real u row e.1 e.2 hrow he
  have hcn : c < nSizes.length := by
    rw [← hgeo.cells.2.1]
    exact (List.getElem?_eq_some.1 b1).1
  obtain ⟨ext1, nbrs, c1, c2, c3⟩ := hb.cell hgeo c hcn
  rw [b1] at c1
  cases c1
  have hkj := (hb.loc.ld_spec hgeo c ext nbrs b1 c2 j b3 0 (by
    have := hgeo.keys c ext b1 _ (List.getElem_mem b3); omega)).1
  have hs := hb.loc.ld_spec hgeo c ext nbrs b1 c2 k b4 _ hkj
  refine ⟨?_, ?_, ?_, ?_, c, ext, j, k, b1, b3, b4, h1, h2, h3⟩
  · have := (List.getElem?_eq_some.1 hrow).1
    rw [hb.glob.1.len] at this
    exact this
  · rw [← h2, i1]
    exact (gid_facts r S st inv i4 c ext b1 k b4).2.1
  · rw [h3]
    exact hs.2.2.2.2.2.2.1
  · rw [h3]
    exact hs.2.2.2.2.2.1

theorem Built.gd_spec {M : Type} [LinearOrderedCancelAddCommMonoid M]
    {w : Nat → Nat → Nat → WithTop M} {nbrz : List (List Nat)} {nSizes : List Nat}
    {S : List (List TriType)} {r : Router (WithTop M)} (hgeo : Routable w nbrz nSizes S)
    (hb : Built w nbrz nSizes S r) (s i : Nat) (hs : s < r.gIdx) (hi : i < r.gIdx) :
    r.distM[i * r.gIdx + s]? = some (r.gd s i) ∧
    (∀ l, Walk (r.graph S) s i l → r.gd s i ≤ l) ∧
    (r.gd s i = ⊤ ∨ Walk (r.graph S) s i (r.gd s i)) ∧
    (i = s → r.gd s i = 0) ∧
    (i ≠ s → r.gd s i ≠ ⊤ → ∃ (u : Nat) (x : WithTop M) (row : List (Nat × WithTop M)),
      r.pathM[i * r.gIdx + s]? = some u ∧ u ≠ i ∧ u < r.gIdx ∧
      (r.graph S)[u]? = some row ∧ (i, x) ∈ row ∧ r.gd s i = r.gd s u + x) := by
  have hgl : (r.graph S).length = r.gIdx := hb.glob.1.len
  have hwf : ∀ (u : Nat) (row : List (Nat × WithTop M)), (r.graph S)[u]? = some row →
      ∀ e ∈ row, e.1 < (r.graph S).length := by
    intro u row hrow e he
    rw [hgl]
    exact (hb.graph_rows hgeo u row hrow e he).2.1
  have hnn : ∀ (u : Nat) (row : List (Nat × WithTop M)), (r.graph S)[u]? = some row →
      ∀ e ∈ row, 0 ≤ e.2 :=
    fun u row hrow e he => (hb.graph_rows hgeo u row hrow e he).2.2.1
  obtain ⟨d, p, hcore, hcol⟩ := hb.glob.2 s hs
  obtain ⟨d1, p1, hcore1, hdl, hpl, hzero, hlow, hreal, htree⟩ :=
    dijkstraCore_tree (r.graph S) s (by rw [hgl]; exact hs) hwf hnn
  rw [hcore] at hcore1
  cases hcore1
  rw [hgl] at hdl hpl
  have hgd : ∀ u, u < r.gIdx → r.gd s u = d.getD u ⊤ := by
    intro u hu
    unfold Router.gd
    rw [List.getD_eq_getElem?_getD, (hcol u hu).2, List.getD_eq_getElem?_getD]
  rw [hgd i hi]
  refine ⟨?_, hlow i, hreal i (by rw [hgl]; exact hi), ?_, ?_⟩
  · rw [(hcol i hi).2]
    exact getD_of_getElem? d i ⊤ (by rw [hdl]; exact hi)
  · intro h
    rw [h]
    exact hzero
  · intro his hne
    obtain ⟨u, x, row, a1, a2, a3, a4, a5⟩ := htree i (by rw [hgl]; exact hi) his hne
    have hu : u < r.gIdx := (hb.graph_rows hgeo u row a3 _ a4).1
    refine ⟨u, x, row, ?_, a2, hu, a3, a4, ?_⟩
    · rw [(hcol i hi).1]
      exact a1
    · rw [hgd u hu]
      exact a5

theorem Built.gsh_spec {M : Type} [LinearOrderedCancelAddCommMonoid M]
    {w : Nat → Nat → Nat → WithTop M} {nbrz : List (List Nat)} {nSizes : List Nat}
    {S : List (List TriType)} {r : Router (WithTop M)}
    (hb : Built w nbrz nSizes S r) (i : Nat) (hi : i < r.gIdx) :
    r.gex i ∈ r.gEIds ∧ r.gex i < r.gIdx ∧ r.gsh i = r.gd (r.gex i) i ∧
      ∀ e ∈ r.gEIds, r.gsh i ≤ r.gd e i := by
  obtain ⟨st, inv, qinv, i1, i2, i3, i4⟩ := hb.ids
  obtain ⟨e, v, h1, h2, h3, h4⟩ := hb.shrt i hi
  have hex : r.gex i = e := by
    unfold Router.gex
    rw [h1]
    rfl
  have hsh : r.gsh i = v := by
    unfold Router.gsh
    rw [h1]
    rfl
  have hlt : ∀ e ∈ r.gEIds, e < r.gIdx := by
    intro e he
    rw [i3] at he
    obtain ⟨c, k, t, -, -, a3⟩ := (qinv.exits e).1 he
    rw [i1]
    exact inv.lt c k e a3
  rw [hex, hsh]
  refine ⟨h2, hlt e h2, ?_, ?_⟩
  · unfold Router.gd
    rw [List.getD_eq_getElem?_getD, h3]
    rfl
  · intro e2 he2
    obtain ⟨v2, a1, a2⟩ := h4 e2 he2
    unfold Router.gd
    rw [List.getD_eq_getElem?_getD, a1]
    exact a2

theorem Built.link {M : Type} [LinearOrderedCancelAddCommMonoid M]
    {w : Nat → Nat → Nat → WithTop M} {nbrz : List (List Nat)} {nSizes : List Nat}
    {S : List (List TriType)} {r : Router (WithTop M)} (hgeo : Routable w nbrz nSizes S)
    (hb : Built w nbrz nSizes S r) (c : Nat) (ext : List TriType) (hc : S[c]? = some ext)
    (i j : Nat) (hi : i < ext.length) (hj : j < ext.length) :
    ∃ (row : List (Nat × WithTop M)) (x : WithTop M), (r.graph S)[r.gid c i]? = some row ∧
      (r.gid c j, x) ∈ row ∧ x ≤ r.ld c (r.key c j) i ∧ x ≠ ⊤ := by
  have hlast : Before S S.length 0 0 c i j :=
    ⟨⟨ext, hc, hi, hj⟩, Or.inl (List.getElem?_eq_some.1 hc).1⟩
  obtain ⟨row, x, h1, h2, h3⟩ := hb.glob.1.edge c i j hlast
  refine ⟨row, x, h1, h2, ?_, (hb.graph_rows hgeo _ row h1 _ h2).2.2.2.1⟩
  rw [hb.loc.ld_symm hgeo c ext hc j i hj hi]
  exact h3

theorem Built.gid_entry {M : Type} [LinearOrderedCancelAddCommMonoid M]
    {w : Nat → Nat → Nat → WithTop M} {nbrz : List (List Nat)} {nSizes : List Nat}
    {S : List (List TriType)} {r : Router (WithTop M)}
    (_hb : Built w nbrz nSizes S r) (st : Consolidated) (inv : CInv S st)
    (hz : r.gIdz = st.gIdz) (c : Nat) (ext : List TriType) (hc : S[c]? = some ext)
    (k : Nat) (hk : k < ext.length) :
    IsEntry S c k ext[k] ∧ st.gidAt c k = some (r.gid c k) :=
  ⟨(isEntry_iff _ _ _ _).2 ⟨ext, hc, List.getElem?_eq_getElem hk⟩,
    (gid_facts r S st inv hz c ext hc k hk).1⟩

theorem Built.reach_walk {M : Type} [LinearOrderedCancelAddCommMonoid M]
    {w : Nat → Nat → Nat → WithTop M} {nbrz : List (List Nat)} {nSizes : List Nat}
    {S : List (List TriType)} {r : Router (WithTop M)} (hgeo : Routable w nbrz nSizes S)
    (hb : Built w nbrz nSizes S r) (c : Nat) (h : CellReach S c) :
    ∀ (ext : List TriType), S[c]? = some ext → ∀ t, t < ext.length →
      ∃ e ∈ r.gEIds, ∃ l, Walk (r.graph S) e (r.gid c t) l := by
  obtain ⟨st, inv, qinv, i1, i2, i3, i4⟩ := hb.ids
  induction h with
  | exit c ext0 t0 h1 h2 h3 =>
    intro ext hc t ht
    have hee : ext0 = ext := Option.some.inj (h1.symm.trans hc)
    rw [hee] at h2
    obtain ⟨k0, hk0, hk0e⟩ := List.getElem_of_mem h2
    obtain ⟨a1, a2⟩ := hb.gid_entry st inv i4 c ext hc k0 hk0
    have hE : r.gid c k0 ∈ r.gEIds := by
      rw [i3]
      exact (qinv.exits _).2 ⟨c, k0, ext[k0], a1, by rw [hk0e]; exact h3, a2⟩
    obtain ⟨row, x, b1, b2, -⟩ := hb.link hgeo c ext hc k0 t hk0 ht
    exact ⟨_, hE, x, Walk.edge b1 b2⟩
  | step c ext0 t0 h1 h2 _ ih =>
    intro ext hc t ht
    have hee : ext0 = ext := Option.some.inj (h1.symm.trans hc)
    rw [hee] at h2
    obtain ⟨k0, hk0, hk0e⟩ := List.getElem_of_mem h2
    obtain ⟨a1, a2⟩ := hb.gid_entry st inv i4 c ext hc k0 hk0
    rw [hk0e] at a1
    by_cases hx : t0.cIdx = c
    · have := ih ext (by rw [hx]; exact hc) t ht
      rw [hx] at this
      exact this
    · obtain ⟨k1, hk1⟩ := hgeo.fin.recip_entry S c k0 t0 a1 hx
      obtain ⟨ext1, c1, c2⟩ := (isEntry_iff _ _ _ _).1 hk1
      have hk1l : k1 < ext1.length := (List.getElem?_eq_some.1 c2).1
      obtain ⟨e, he, l, hw⟩ := ih ext1 c1 k1 hk1l
      obtain ⟨d1, d2⟩ := hb.gid_entry st inv i4 t0.cIdx ext1 c1 k1 hk1l
      have hsame : r.gid c k0 = r.gid t0.cIdx k1 :=
        inv.gid_recip S hgeo.fin st c k0 t0 t0.cIdx k1 _ _ _ a1 hk1 a2 d2
          ⟨fun e => hx e.symm, rfl, rfl, rfl, rfl⟩
      obtain ⟨row, x, b1, b2, -⟩ := hb.link hgeo c ext hc k0 t hk0 ht
      rw [hsame] at b1
      exact ⟨e, he, l + x, Walk.snoc _ _ l x row hw b1 b2⟩

theorem Built.fin {M : Type} [LinearOrderedCancelAddCommMonoid M]
    {w : Nat → Nat → Nat → WithTop M} {nbrz : List (List Nat)} {nSizes : List Nat}
    {S : List (List TriType)} {r : Router (WithTop M)} (hgeo : Routable w nbrz nSizes S)
    (hb : Built w nbrz nSizes S r) (i : Nat) (hi : i < r.gIdx) :
    r.gsh i ≠ ⊤ ∧ r.gex i < r.gIdx := by
  obtain ⟨st, inv, qinv, i1, i2, i3, i4⟩ := hb.ids
  obtain ⟨g1, g2, g3, g4⟩ := hb.gsh_spec i hi
  refine ⟨?_, g2⟩
  obtain ⟨c, k, t, a1, -, a3⟩ := qinv.surj i (by rw [← i1]; exact hi)
  obtain ⟨ext, b1, b2⟩ := (isEntry_iff _ _ _ _).1 a1
  have hk : k < ext.length := (List.getElem?_eq_some.1 b2).1
  have hc : c < S.length := (List.getElem?_eq_some.1 b1).1
  obtain ⟨e, he, l, hw⟩ := hb.reach_walk hgeo c (hgeo.reach c hc) ext b1 k hk
  have hgid : r.gid c k = i := by
    have := (hb.gid_entry st inv i4 c ext b1 k hk).2
    rw [a3] at this
    exact (Option.some.inj this).symm
  rw [hgid] at hw
  have hl : l ≠ ⊤ :=
    Walk.ne_top (fun u row hrow e he => (hb.graph_rows hgeo u row hrow e he).2.2.2.1) hw
  have hel : e < r.gIdx := by
    have := Walk.src_lt hw
    rw [hb.glob.1.len] at this
    exact this
  have h1 := (hb.gd_spec hgeo e i hel hi).2.1 l hw
  have h2 := g4 e he
  intro htop
  rw [htop] at h2
  have := le_trans h2 h1
  exact hl (top_le_iff.1 this)

theorem Built.tri {M : Type} [LinearOrderedCancelAddCommMonoid M]
    {w : Nat → Nat → Nat → WithTop M} {nbrz : List (List Nat)} {nSizes : List Nat}
    {S : List (List TriType)} {r : Router (WithTop M)} (hgeo : Routable w nbrz nSizes S)
    (hb : Built w nbrz nSizes S r) (c : Nat) (ext : List TriType) (hc : S[c]? = some ext)
    (j i : Nat) (hj : j < ext.length) (hi : i < ext.length) :
    r.gsh (r.gid c j) ≤ r.ld c (r.key c j) i + r.gsh (r.gid c i) := by
  obtain ⟨st, inv, qinv, i1, i2, i3, i4⟩ := hb.ids
  have hI : r.gid c i < r.gIdx := by
    rw [i1]; exact (gid_facts r S st inv i4 c ext hc i hi).2.1
  have hJ : r.gid c j < r.gIdx := by
    rw [i1]; exact (gid_facts r S st inv i4 c ext hc j hj).2.1
  obtain ⟨g1, g2, g3, g4⟩ := hb.gsh_spec (r.gid c i) hI
  obtain ⟨f1, f2, f3, f4⟩ := hb.gsh_spec (r.gid c j) hJ
  obtain ⟨row, x, b1, b2, b3, -⟩ := hb.link hgeo c ext hc i j hi hj
  have hfinI := (hb.fin hgeo _ hI).1
  rw [g3] at hfinI
  rcases (hb.gd_spec hgeo _ _ g2 hI).2.2.1 with h | h
  · exact absurd h hfinI
  · have hw := Walk.snoc _ _ _ x row h b1 b2
    have h1 := (hb.gd_spec hgeo _ _ g2 hJ).2.1 _ hw
    calc r.gsh (r.gid c j) ≤ r.gd (r.gex (r.gid c i)) (r.gid c j) := f4 _ g1
      _ ≤ r.gd (r.gex (r.gid c i)) (r.gid c i) + x := h1
      _ ≤ r.gd (r.gex (r.gid c i)) (r.gid c i) + r.ld c (r.key c j) i := add_le_add_left b3 _
      _ = r.ld c (r.key c j) i + r.gsh (r.gid c i) := by rw [g3, add_comm]

theorem Built.par {M : Type} [LinearOrderedCancelAddCommMonoid M]
    {w : Nat → Nat → Nat → WithTop M} {nbrz : List (List Nat)} {nSizes : List Nat}
    {S : List (List TriType)} {r : Router (WithTop M)} (hgeo : Routable w nbrz nSizes S)
    (hb : Built w nbrz nSizes S r) (c : Nat) (ext : List TriType) (nbrs : List Nat)
    (hc : S[c]? = some ext) (hn : nbrz[c]? = some nbrs) (t : Nat) (ht : t < ext.length)
    (e : Nat) (he : e < nSizes.getD c 0) (hne : e ≠ r.key c t) :
    r.lp c e t < nSizes.getD c 0 ∧ r.ld c (r.lp c e t) t < r.ld c e t := by
  obtain ⟨-, -, -, -, -, hfin, -, -, htree⟩ := hb.loc.ld_spec hgeo c ext nbrs hc hn t ht e he
  obtain ⟨u, x, row, a1, a2, a3, a4, a5, a6⟩ := htree hne
  rw [a1]
  refine ⟨a2, ?_⟩
  obtain ⟨m, hm, hpos⟩ := (localGraph_facts hgeo c nbrs hn u row a4 _ a5).2.2.2.2.2.2
    (Ne.symm a3)
  simp only at hm
  have hu := (hb.loc.ld_spec hgeo c ext nbrs hc hn t ht u a2).2.2.2.2.2.1
  rw [a6, hm]
  obtain ⟨a, ha⟩ := WithTop.ne_top_iff_exists.1 hu
  rw [← ha, ← WithTop.coe_add, WithTop.coe_lt_coe]
  exact lt_add_of_pos_right a hpos

theorem Built.pos {M : Type} [LinearOrderedCancelAddCommMonoid M]
    {w : Nat → Nat → Nat → WithTop M} {nbrz : List (List Nat)} {nSizes : List Nat}
    {S : List (List TriType)} {r : Router (WithTop M)} (hgeo : Routable w nbrz nSizes S)
    (hb : Built w nbrz nSizes S r) (st : Consolidated) (inv : CInv S st)
    (h1 : r.gIdx = st.gIdx) (hz : r.gIdz = st.gIdz) (c : Nat) (ext : List TriType)
    (hc : S[c]? = some ext) (k : Nat) (hk : k < ext.length) :
    r.key c k = ext[k].sIdx ∧ r.entry c k = (ext[k].sIdx, ⟨k, ext[k].cIdx, ext[k].oIdx⟩) ∧
      IsEntry S c k ext[k] ∧ st.gidAt c k = some (r.gid c k) ∧ r.gid c k < r.gIdx ∧
      r.ySize c = ext.length ∧ c < nSizes.length := by
  have hx : ext[k]? = some ext[k] := List.getElem?_eq_getElem hk
  obtain ⟨a1, a2⟩ := hb.gid_entry st inv hz c ext hc k hk
  refine ⟨r.key_of S hgeo.fin hb.loc.maps c ext hc k _ hx,
    r.entry_of S hgeo.fin hb.loc.maps c ext hc k _ hx, a1, a2, ?_,
    r.ySize_of S hgeo.fin hb.loc.maps c ext hc, ?_⟩
  · rw [h1]
    exact (gid_facts r S st inv hz c ext hc k hk).2.1
  · rw [← hgeo.cells.2.1]
    exact (List.getElem?_eq_some.1 hc).1

theorem Built.quad_spec {M : Type} [LinearOrderedCancelAddCommMonoid M]
    {w : Nat → Nat → Nat → WithTop M} {nbrz : List (List Nat)} {nSizes : List Nat}
    {S : List (List TriType)} {r : Router (WithTop M)} (hgeo : Routable w nbrz nSizes S)
    (hb : Built w nbrz nSizes S r) (cx : Nat) (extx : List TriType)
    (hcx : S[cx]? = some extx) (j : Nat) (hj : j < extx.length) :
    (r.quad (r.gid cx j)).cIdxP ≠ (r.quad (r.gid cx j)).cIdxS ∧
    ∀ x, x < r.susoMaps.length →
      (x = (r.quad (r.gid cx j)).cIdxP →
        ∃ p, p < r.ySize x ∧ r.key x p = (r.quad (r.gid cx j)).sIdxP ∧
          r.gid x p = r.gid cx j) ∧
      (x = (r.quad (r.gid cx j)).cIdxS →
        ∃ p, p < r.ySize x ∧ r.key x p = (r.quad (r.gid cx j)).sIdxS ∧
          r.gid x p = r.gid cx j) ∧
      (∀ p, p < r.ySize x → r.gid x p = r.gid cx j →
        x = (r.quad (r.gid cx j)).cIdxP ∨ x = (r.quad (r.gid cx j)).cIdxS) := by
  obtain ⟨st, inv, qinv, i1, i2, i3, i4⟩ := hb.ids
  have hmaps : r.susoMaps.length = nSizes.length := by
    rw [hb.loc.maps, List.length_map, hgeo.cells.2.1]
  obtain ⟨-, -, e1, e2, e3, -, -⟩ := hb.pos hgeo st inv i1 i4 cx extx hcx j hj
  obtain ⟨c0, k0, t0, a1, a2, a3, -⟩ := inv.rep S hgeo.fin st cx j _ _ e1 e2
  obtain ⟨q, q1, q2, q3⟩ := qinv.quadP c0 k0 t0 _ a1 a2 a3
  have hq : r.quad (r.gid cx j) = q := by
    unfold Router.quad
    rw [i2, q1]
    rfl
  rw [hq]
  obtain ⟨ext0, b1, b2⟩ := (isEntry_iff _ _ _ _).1 a1
  have hk0 : k0 < ext0.length := (List.getElem?_eq_some.1 b2).1
  have hk0e : ext0[k0] = t0 := (List.getElem?_eq_some.1 b2).2
  obtain ⟨p1, -, -, p4, -, p6, p7⟩ := hb.pos hgeo st inv i1 i4 c0 ext0 b1 k0 hk0
  rw [hk0e] at p1
  have hg0 : r.gid c0 k0 = r.gid cx j := by
    rw [a3] at p4
    exact (Option.some.inj p4).symm
  have hc0max : c0 ≠ IdxTypeMax := by
    have := hgeo.cells.2.2
    omega
  -- the secondary side
  have hsec : (t0.cIdx = c0 ∧ q.cIdxS = IdxTypeMax) ∨
      (t0.cIdx ≠ c0 ∧ q.cIdxS = t0.cIdx ∧ q.sIdxS = t0.oIdx ∧
        ∃ p, p < r.ySize t0.cIdx ∧ r.key t0.cIdx p = t0.oIdx ∧ r.gid t0.cIdx p = r.gid cx j) := by
    by_cases hx : t0.cIdx = c0
    · obtain ⟨q', x1, x2⟩ := qinv.quadX c0 k0 t0 _ a1 hx a3
      rw [q1] at x1
      cases x1
      exact Or.inl ⟨hx, x2⟩
    · obtain ⟨k1, hk1⟩ := hgeo.fin.recip_entry S c0 k0 t0 a1 hx
      obtain ⟨ext1, c1, c2⟩ := (isEntry_iff _ _ _ _).1 hk1
      have hk1l : k1 < ext1.length := (List.getElem?_eq_some.1 c2).1
      have hk1e : ext1[k1] = ⟨t0.oIdx, c0, t0.sIdx⟩ := (List.getElem?_eq_some.1 c2).2
      obtain ⟨s1, -, -, s4, -, s6, -⟩ := hb.pos hgeo st inv i1 i4 t0.cIdx ext1 c1 k1 hk1l
      rw [hk1e] at s1
      have hsame : r.gid cx j = r.gid t0.cIdx k1 :=
        inv.gid_recip S hgeo.fin st c0 k0 t0 t0.cIdx k1 _ _ _ a1 hk1 a3 s4
          ⟨fun e => hx e.symm, rfl, rfl, rfl, rfl⟩
      obtain ⟨q', x1, x2, x3⟩ := qinv.quadS t0.cIdx k1 _ _ hk1
        (by show c0 < t0.cIdx; omega) s4
      rw [← hsame, q1] at x1
      cases x1
      exact Or.inr ⟨hx, x2, x3, k1, by rw [s6]; exact hk1l, s1, hsame.symm⟩
  refine ⟨?_, ?_⟩
  · rw [q2]
    rcases hsec with ⟨-, h⟩ | ⟨h1, h2, -⟩
    · rw [h]; exact hc0max
    · rw [h2]; exact fun e => h1 e.symm
  · intro x hx
    rw [hmaps] at hx
    refine ⟨?_, ?_, ?_⟩
    · intro hxP
      rw [q2] at hxP
      subst hxP
      exact ⟨k0, by rw [p6]; exact hk0, by rw [p1, q3], hg0⟩
    · intro hxS
      rcases hsec with ⟨-, h⟩ | ⟨-, h2, h3, p, hp1, hp2, hp3⟩
      · exfalso
        rw [h] at hxS
        have := hgeo.cells.2.2
        omega
      · rw [h2] at hxS
        subst hxS
        exact ⟨p, hp1, by rw [hp2, h3], hp3⟩
    · intro p hp hgp
      obtain ⟨extp, nbrsp, y1, y2, y3⟩ := hb.cell hgeo x hx
      rw [y3] at hp
      obtain ⟨-, -, z3, z4, -, -, -⟩ := hb.pos hgeo st inv i1 i4 x extp y1 p hp
      rw [hgp] at z4
      by_cases hprim : x ≤ extp[p].cIdx
      · obtain ⟨q', x1, x2, -⟩ := qinv.quadP x p _ _ z3 hprim z4
        rw [q1] at x1
        cases x1
        exact Or.inl x2.symm
      · obtain ⟨q', x1, x2, -⟩ := qinv.quadS x p _ _ z3 (by omega) z4
        rw [q1] at x1
        cases x1
        exact Or.inr x2.symm

theorem Built.hop {M : Type} [LinearOrderedCancelAddCommMonoid M]
    {w : Nat → Nat → Nat → WithTop M} {nbrz : List (List Nat)} {nSizes : List Nat}
    {S : List (List TriType)} {r : Router (WithTop M)} (hgeo : Routable w nbrz nSizes S)
    (hb : Built w nbrz nSizes S r) (c : Nat) (ext : List TriType) (hc : S[c]? = some ext)
    (t : Nat) (ht : t < ext.length) (hx : ext[t].cIdx ≠ c) : HopOK r c t := by
  obtain ⟨st, inv, qinv, i1, i2, i3, i4⟩ := hb.ids
  obtain ⟨k1, k2, k3, k4, k5, k6, k7⟩ := hb.pos hgeo st inv i1 i4 c ext hc t ht
  obtain ⟨g1, g2, g3, g4⟩ := hb.gsh_spec (r.gid c t) k5
  have hfin := (hb.fin hgeo _ k5).1
  have hST : r.gid c t ≠ r.gex (r.gid c t) := by
    intro heq
    rw [i3] at g1
    obtain ⟨cE, kE, tE, a1, a2, a3⟩ := (qinv.exits _).1 g1
    rw [← heq] at a3
    rcases inv.gid_same S hgeo.fin st c t _ cE kE tE _ k3 a1 k4 a3 with ⟨b1, b2⟩ | b
    · subst b1 b2
      have := isEntry_inj S c t _ _ k3 a1
      rw [← this] at a2
      exact hx a2
    · obtain ⟨b1, -, b3, -⟩ := b
      exact b1 (by rw [← b3, a2])
  obtain ⟨-, -, -, -, htree⟩ := hb.gd_spec hgeo _ _ g2 k5
  obtain ⟨u, x, row, a1, a2, a3, a4, a5, a6⟩ := htree hST (by rw [← g3]; exact hfin)
  have hhop : r.hop (r.gid c t) = u := by
    unfold Router.hop
    rw [a1]
    rfl
  obtain ⟨-, -, -, -, cx, extx, j, k, b1, b2, b3, b4, b5, b6⟩ :=
    hb.graph_rows hgeo u row a4 _ a5
  simp only at b5 b6
  obtain ⟨m1, m2, m3, m4, m5, m6, m7⟩ := hb.pos hgeo st inv i1 i4 cx extx b1 k b3
  obtain ⟨f1, f2, f3, f4⟩ := hb.gsh_spec u a3
  have htri := hb.tri hgeo cx extx b1 k j b3 b2
  rw [b5, b4] at htri
  have hsym := hb.loc.ld_symm hgeo cx extx b1 j k b2 b3
  have heq : r.gsh (r.gid c t) = r.ld cx (r.key cx k) j + r.gsh u := by
    apply le_antisymm htri
    calc r.ld cx (r.key cx k) j + r.gsh u
        ≤ r.ld cx (r.key cx k) j + r.gd (r.gex (r.gid c t)) u := add_le_add_left (f4 _ g1) _
      _ = r.gd (r.gex (r.gid c t)) u + x := by rw [b6, hsym, add_comm]
      _ = r.gsh (r.gid c t) := by rw [g3, a6]
  obtain ⟨q1, q2⟩ := hb.quad_spec hgeo cx extx b1 j b2
  rw [b4] at q1 q2
  -- the other side of the interface
  obtain ⟨kr, hkr⟩ := hgeo.fin.recip_entry S c t _ k3 hx
  obtain ⟨extr, r1, r2⟩ := (isEntry_iff _ _ _ _).1 hkr
  have hkrl : kr < extr.length := (List.getElem?_eq_some.1 r2).1
  have hkre : extr[kr] = ⟨ext[t].oIdx, c, ext[t].sIdx⟩ := (List.getElem?_eq_some.1 r2).2
  obtain ⟨s1, -, -, s4, -, s6, -⟩ := hb.pos hgeo st inv i1 i4 ext[t].cIdx extr r1 kr hkrl
  rw [hkre] at s1
  have hsame : r.gid c t = r.gid ext[t].cIdx kr :=
    inv.gid_recip S hgeo.fin st c t _ ext[t].cIdx kr _ _ _ k3 hkr k4 s4
      ⟨fun e => hx e.symm, rfl, rfl, rfl, rfl⟩
  unfold HopOK
  rw [hhop]
  simp only [k2]
  refine ⟨a3, a2, q1, ⟨kr, by rw [s6]; exact hkrl, s1, hsame.symm⟩, fun x hx _ => q2 x hx, ?_⟩
  rcases inv.gid_same S hgeo.fin st c t _ cx k _ _ k3 m3 k4 (by rw [← b5]; exact m4) with
    ⟨e1, e2⟩ | e
  · have hee : ext = extx := by
      rw [e1] at hc
      exact Option.some.inj (hc.symm.trans b1)
    left
    refine ⟨j, by rw [k6, hee]; exact b2, by rw [e1]; exact b4, ?_⟩
    rw [heq, e1, e2]
  · obtain ⟨-, e2, -, e4, -⟩ := e
    right
    refine ⟨j, ?_, ?_, ?_⟩
    · rw [e2, m6]; exact b2
    · rw [e2]; exact b4
    · rw [heq, m1, e4, e2]

theorem Built.sound {M : Type} [LinearOrderedCancelAddCommMonoid M]
    {w : Nat → Nat → Nat → WithTop M} {nbrz : List (List Nat)} {nSizes : List Nat}
    {S : List (List TriType)} {r : Router (WithTop M)} (hgeo : Routable w nbrz nSizes S)
    (hb : Built w nbrz nSizes S r) : Sound r nSizes := by
  obtain ⟨st, inv, qinv, i1, i2, i3, i4⟩ := hb.ids
  have hmaps : r.susoMaps.length = nSizes.length := by
    rw [hb.loc.maps, List.length_map, hgeo.cells.2.1]
  refine ⟨hmaps, ⟨hb.loc.lens.2, hb.loc.lens.1, ?_, hb.lens.2.2, ?_, hb.lens.1⟩, ?_, ?_,
    fun g hg => hb.fin hgeo g hg, ?_, ?_, ?_⟩
  · rw [i4, inv.len_g, hgeo.cells.2.1]
  · rw [i2, inv.len_q, i1]
  · intro c hc
    obtain ⟨ext, nbrs, c1, c2, c3⟩ := hb.cell hgeo c hc
    obtain ⟨d1, d2⟩ := hb.loc.rows c ext c1
    have hcg : c < st.gIdz.length := by
      rw [inv.len_g]
      exact (List.getElem?_eq_some.1 c1).1
    refine ⟨by rw [c3]; exact d1, by rw [c3]; exact d2, ?_, ?_, ?_⟩
    · rw [i4, c3, List.getElem?_eq_getElem hcg]
      exact inv.row c ext _ c1 (List.getElem?_eq_getElem hcg)
    · rw [r.susoMap_of S hb.loc.maps c ext c1,
        susoMapOf_keys ext (hgeo.fin.distinct ext (List.getElem?_mem c1))]
      exact hgeo.fin.distinct ext (List.getElem?_mem c1)
    · rw [c3]
      have hcS : c < S.length := (List.getElem?_eq_some.1 c1).1
      have hne : ∀ (ext0 : List TriType) (t0 : TriType), S[c]? = some ext0 → t0 ∈ ext0 →
          0 < ext.length := by
        intro ext0 t0 h1 h2
        rw [c1] at h1
        cases h1
        exact List.length_pos_of_mem h2
      cases hgeo.reach c hcS with
      | exit _ ext0 t0 h1 h2 _ => exact hne ext0 t0 h1 h2
      | step _ ext0 t0 h1 h2 _ => exact hne ext0 t0 h1 h2
  · intro c hc t ht
    obtain ⟨ext, nbrs, c1, c2, c3⟩ := hb.cell hgeo c hc
    rw [c3] at ht
    obtain ⟨k1, k2, k3, k4, k5, k6, k7⟩ := hb.pos hgeo st inv i1 i4 c ext c1 t ht
    refine ⟨by rw [k2], ?_, k5, ?_, ?_⟩
    · rw [k1]
      exact hgeo.keys c ext c1 _ (List.getElem_mem ht)
    · rw [k2]
      show ext[t].cIdx < nSizes.length
      by_cases hx : ext[t].cIdx = c
      · rw [hx]; exact hc
      · obtain ⟨kr, hkr⟩ := hgeo.fin.recip_entry S c t _ k3 hx
        rw [← hgeo.cells.2.1]
        exact at2_lt _ _ _ _ hkr
    · intro t1 ht1 hg
      rw [c3] at ht1
      obtain ⟨-, -, l3, l4, -, -, -⟩ := hb.pos hgeo st inv i1 i4 c ext c1 t1 ht1
      rcases inv.gid_same S hgeo.fin st c t _ c t1 _ _ k3 l3 k4 (by rw [hg]; exact l4) with
        ⟨-, e⟩ | e
      · exact e
      · exact absurd rfl e.1
  · intro c hc t ht e he hne
    obtain ⟨ext, nbrs, c1, c2, c3⟩ := hb.cell hgeo c hc
    rw [c3] at ht
    exact hb.par hgeo c ext nbrs c1 c2 t ht e he hne
  · intro c hc j hj i hi
    obtain ⟨ext, nbrs, c1, c2, c3⟩ := hb.cell hgeo c hc
    rw [c3] at hj hi
    exact hb.tri hgeo c ext c1 j i hj hi
  · intro c hc t ht hx
    obtain ⟨ext, nbrs, c1, c2, c3⟩ := hb.cell hgeo c hc
    rw [c3] at ht
    obtain ⟨-, k2, -⟩ := hb.pos hgeo st inv i1 i4 c ext c1 t ht
    rw [k2] at hx
    exact hb.hop hgeo c ext c1 t ht hx

/-! ### The values of `lShrtz` are finite -/

theorem populateNexts_at {D : Type} [LinearOrderedAddCommMonoidWithTop D] (r : Router D)
    (nSizes : List Nat) (nextz : List (List DuoType)) (lShrtz : List (List D))
    (hp : populateNexts r nSizes = some (nextz, lShrtz)) (c e : Nat) (s : D)
    (hs : at2 lShrtz c e = some s) :
    c < nSizes.length ∧ e < nSizes.getD c 0 ∧
      ∃ d l, nextMark r c e = some (d, l) ∧ s = l.getD 0 := by
  unfold populateNexts at hp
  cases hrows : (List.range nSizes.length).mapM (fun i =>
      (List.range (nSizes.getD i 0)).mapM fun j =>
        (nextMark r i j).map fun res => (res.1, res.2.getD 0)) with
  | none => rw [hrows] at hp; simp at hp
  | some rows =>
    rw [hrows] at hp
    simp only [Option.map_some', Option.some.injEq, Prod.mk.injEq] at hp
    obtain ⟨-, hl⟩ := hp
    subst hl
    rw [at2_map] at hs
    cases hat : at2 rows c e with
    | none => rw [hat] at hs; simp at hs
    | some z =>
      rw [hat] at hs
      simp only [Option.map_some', Option.some.injEq] at hs
      unfold at2 at hat
      cases hrow : rows[c]? with
      | none => rw [hrow] at hat; cases hat
      | some row =>
        rw [hrow] at hat
        simp only at hat
        have hlen := mapM_option_length _ _ rows hrows
        have hc : c < nSizes.length := by
          have := (List.getElem?_eq_some.1 hrow).1
          rw [hlen, List.length_range] at this
          exact this
        obtain ⟨y, hy, hry⟩ := mapM_option_inv _ _ rows hrows c c (List.getElem?_range hc)
        rw [hrow] at hry
        cases hry
        have hlen2 := mapM_option_length _ _ row hy
        have he : e < nSizes.getD c 0 := by
          have := (List.getElem?_eq_some.1 hat).1
          rw [hlen2, List.length_range] at this
          exact this
        obtain ⟨z1, hz1, hrz⟩ := mapM_option_inv _ _ row hy e e (List.getElem?_range he)
        rw [hat] at hrz
        cases hrz
        refine ⟨hc, he, ?_⟩
        cases hn : nextMark r c e with
        | none => rw [hn] at hz1; simp at hz1
        | some res =>
          rw [hn] at hz1
          simp only [Option.map_some', Option.some.injEq] at hz1
          refine ⟨res.1, res.2, rfl, ?_⟩
          rw [← hs, ← hz1]

theorem nextMark_interior_val {D : Type} [LinearOrderedAddCommMonoidWithTop D] {r : Router D}
    {nSizes : List Nat} (h : Sound r nSizes) (c e : Nat) (hc : c < nSizes.length)
    (he : e < nSizes.getD c 0) (hl : (r.susoMap c).lookup e = none) :
    ∃ i, i < r.ySize c ∧
      nextMark r c e = some (⟨c, r.lp c e i⟩, some (r.ld c e i + r.gsh (r.gid c i))) := by
  have hy : (r.susoMap c).length = r.ySize c := rfl
  have hmap : (List.range (r.ySize c)).mapM (exitDist r c e (r.ySize c)) =
      some ((List.range (r.ySize c)).map fun i => r.ld c e i + r.gsh (r.gid c i)) := by
    apply mapM_option_eq
    intro i hi
    have hi := List.mem_range.1 hi
    simp only [exitDist, h.ld_at c e i hc he hi, h.gid_at c i hc hi,
      h.gShrts_at _ (h.subs c hc i hi).2.2.1]
  have hne : ((List.range (r.ySize c)).map fun i => r.ld c e i + r.gsh (r.gid c i)) ≠ [] := by
    intro e0
    have := congrArg List.length e0
    simp at this
    have := (h.rows c hc).2.2.2.2
    omega
  obtain ⟨i, v, hmin, hget, -⟩ := minElement_spec _ hne
  have hi : i < r.ySize c := by
    have := (List.getElem?_eq_some.1 hget).1
    simpa using this
  have hv : v = r.ld c e i + r.gsh (r.gid c i) := by
    rw [List.getElem?_map, List.getElem?_range hi] at hget
    exact (Option.some.inj hget).symm
  refine ⟨i, hi, ?_⟩
  rw [← hv]
  simp only [nextMark, h.maps_at c hc, hl, hy, hmap, hmin, h.lp_at c e i hc he hi]

theorem nextMark_interface_val {D : Type} [LinearOrderedAddCommMonoidWithTop D] {r : Router D}
    {nSizes : List Nat} (h : Sound r nSizes) (c t : Nat) (hc : c < nSizes.length)
    (ht : t < r.ySize c) (hx : (r.entry c t).2.cIdx ≠ c) :
    ∃ d, nextMark r c (r.key c t) = some (d, some (r.gsh (r.hop (r.gid c t)))) := by
  obtain ⟨cD, s1, sD, hn, hcD, hs1, hsD, -⟩ := nextCell_spec h c t hc ht hx
  have hs := h.subs c hc t ht
  have hG := (h.hop c hc t ht hx).1
  refine ⟨⟨cD, r.lp cD s1 sD⟩, ?_⟩
  have e1 : at2 r.gIdz c (r.entry c t).2.sIdx = some (r.gid c t) := by
    rw [hs.1]; exact h.gid_at c t hc ht
  simp only [nextMark, h.maps_at c hc, h.lookup_key c t hc ht, if_neg hx, e1,
    h.gShrts_at _ hs.2.2.1, h.pathM_at _ hs.2.2.1, h.gShrts_at _ hG, h.quads_at _ hG, hn,
    h.lp_at cD s1 sD hcD hs1 hsD]

theorem Built.lShrtz_finite {M : Type} [LinearOrderedCancelAddCommMonoid M]
    {w : Nat → Nat → Nat → WithTop M} {nbrz : List (List Nat)} {nSizes : List Nat}
    {S : List (List TriType)} {r : Router (WithTop M)} (hgeo : Routable w nbrz nSizes S)
    (hb : Built w nbrz nSizes S r) (nextz : List (List DuoType))
    (lShrtz : List (List (WithTop M)))
    (hp : populateNexts r nSizes = some (nextz, lShrtz)) (c e : Nat) (s : WithTop M)
    (hs : at2 lShrtz c e = some s) : s ≠ ⊤ := by
  have h : Sound r nSizes := hb.sound hgeo
  obtain ⟨hc, he, d, l, hn, hsl⟩ := populateNexts_at r nSizes nextz lShrtz hp c e s hs
  obtain ⟨ext, nbrs, c1, c2, c3⟩ := hb.cell hgeo c hc
  cases hl : (r.susoMap c).lookup e with
  | none =>
    obtain ⟨i, hi, hv⟩ := nextMark_interior_val h c e hc he hl
    rw [hn] at hv
    simp only [Option.some.injEq, Prod.mk.injEq] at hv
    rw [hsl, hv.2]
    simp only [Option.getD_some]
    have hi2 : i < ext.length := by rw [← c3]; exact hi
    exact WithTop.add_ne_top.2 ⟨(hb.loc.ld_spec hgeo c ext nbrs c1 c2 i hi2 e he).2.2.2.2.2.1,
      (h.fin _ (h.subs c hc i hi).2.2.1).1⟩
  | some trio =>
    obtain ⟨t, ht, hk, htr⟩ := h.of_lookup c e trio hl
    by_cases hx : trio.cIdx = c
    · obtain ⟨a, -⟩ := nextMark_exit h c e hc trio hl hx
      rw [hn] at a
      simp only [Option.some.injEq, Prod.mk.injEq] at a
      rw [hsl, a.2]
      exact WithTop.zero_ne_top
    · rw [← htr] at hx
      obtain ⟨d1, hv⟩ := nextMark_interface_val h c t hc ht hx
      rw [hk, hn] at hv
      simp only [Option.some.injEq, Prod.mk.injEq] at hv
      rw [hsl, hv.2]
      simp only [Option.getD_some]
      exact (h.fin _ (h.hop c hc t ht hx).1).1

/-! ### The chain of `nextz` and `Router::findLine` over a built router -/

theorem getD_of_get? {α : Type} (L : List α) (c : Nat) (x d : α) (h : L[c]? = some x) :
    L.getD c d = x := by
  rw [List.getD_eq_getElem?_getD, h]
  rfl

theorem routable_of_checks {M : Type} [LinearOrderedCancelAddCommMonoid M]
    (w : Nat → Nat → Nat → WithTop M) (nbrz : List (List Nat)) (nSizes : List Nat)
    (S : List (List TriType))
    (hrecip : ∀ c, c < S.length → ∀ t ∈ S.getD c [], t.cIdx ≠ c →
      (⟨t.oIdx, c, t.sIdx⟩ : TriType) ∈ S.getD t.cIdx [])
    (hdist : ∀ ext ∈ S, (ext.map fun t => t.sIdx).Nodup)
    (hcells : nbrz.length = nSizes.length ∧ S.length = nSizes.length ∧
      nSizes.length ≤ IdxTypeMax)
    (hkeys : ∀ c, c < S.length → ∀ t ∈ S.getD c [], t.sIdx < nSizes.getD c 0)
    (hreach : ∀ c, c < S.length → CellReach S c)
    (hslots : ∀ c, c < nbrz.length → ∀ u, u < nSizes.getD c 0 → ∀ j, j < 4 →
      (nbrz.getD c []).getD (u * 4 + j) 0 = 0 ∨
        ((nbrz.getD c []).getD (u * 4 + j) 0 - 1 < nSizes.getD c 0 ∧
          ∃ j1, j1 < 4 ∧
            (nbrz.getD c []).getD (((nbrz.getD c []).getD (u * 4 + j) 0 - 1) * 4 + j1) 0 = u + 1))
    (hconn : ∀ c, c < nbrz.length → ∀ a, a < nSizes.getD c 0 → ∀ b, b < nSizes.getD c 0 →
      ((dijkstraCore (localGraph (w c) (nbrz.getD c []) (nSizes.getD c 0)) a).map
        fun dp => dp.1.getD b ⊤) ≠ some ⊤)
    (hweight : ∀ c, c < nSizes.length → ∀ a, a < nSizes.getD c 0 → ∀ b, b < nSizes.getD c 0 →
      w c a b = w c b a ∧ w c a b ≠ ⊤ ∧ 0 ≤ w c a b ∧ (a ≠ b → 0 < w c a b)) :
    Routable w nbrz nSizes S := by
  have hslot : ∀ (c : Nat) (nbrs : List Nat), nbrz[c]? = some nbrs → ∀ u j v,
      u < nSizes.getD c 0 → j < 4 → nbrs.getD (u * 4 + j) 0 = v + 1 →
      v < nSizes.getD c 0 ∧ ∃ j1, j1 < 4 ∧ nbrs.getD (v * 4 + j1) 0 = u + 1 := by
    intro c nbrs hn u j v hu hj hv
    have hc : c < nbrz.length := (List.getElem?_eq_some.1 hn).1
    have hg := getD_of_get? nbrz c nbrs [] hn
    have := hslots c hc u hu j hj
    rw [hg, hv] at this
    rcases this with h | ⟨h1, h2⟩
    · omega
    · rw [Nat.add_sub_cancel] at h1 h2
      exact ⟨h1, h2⟩
  have hcn : ∀ c, c < nbrz.length → c < nSizes.length := fun c h => by rw [← hcells.1]; exact h
  refine ⟨⟨?_, hdist⟩, hcells, ?_, hreach, hslot, ?_, ?_⟩
  · intro c ext hc t ht hne
    have hcl : c < S.length := (List.getElem?_eq_some.1 hc).1
    have := hrecip c hcl t (by rw [getD_of_get? S c ext [] hc]; exact ht) hne
    cases hx : S[t.cIdx]? with
    | none =>
      rw [List.getD_eq_getElem?_getD, hx] at this
      cases this
    | some extS =>
      rw [getD_of_get? S _ extS [] hx] at this
      exact ⟨extS, rfl, this⟩
  · intro c ext hc t ht
    have hcl : c < S.length := (List.getElem?_eq_some.1 hc).1
    exact hkeys c hcl t (by rw [getD_of_get? S c ext [] hc]; exact ht)
  · intro c nbrs hn a b ha hb
    have hc : c < nbrz.length := (List.getElem?_eq_some.1 hn).1
    have hg := getD_of_get? nbrz c nbrs [] hn
    have hcheck := hconn c hc a ha b hb
    rw [hg] at hcheck
    have hgl := localGraph_length (w c) nbrs (nSizes.getD c 0)
    obtain ⟨d, p, hcore, -, -, -, -, hreal, -⟩ :=
      dijkstraCore_tree (localGraph (w c) nbrs (nSizes.getD c 0)) a (by rw [hgl]; exact ha)
        (by
          intro u row hrow e he
          obtain ⟨hu, hr⟩ := localGraph_row _ _ _ _ _ hrow
          subst hr
          obtain ⟨-, j, hj, h2⟩ := (mem_localRow _ _ _ e.1 e.2).1 he
          rw [hgl]
          exact (hslot c nbrs hn u j e.1 hu hj h2).1)
        (by
          intro u row hrow e he
          obtain ⟨hu, hr⟩ := localGraph_row _ _ _ _ _ hrow
          subst hr
          obtain ⟨h1, j, hj, h2⟩ := (mem_localRow _ _ _ e.1 e.2).1 he
          rw [h1]
          exact (hweight c (hcn c hc) u hu e.1 (hslot c nbrs hn u j e.1 hu hj h2).1).2.2.1)
    rw [hcore] at hcheck
    rcases hreal b (by rw [hgl]; exact hb) with h | h
    · exact absurd (by simp only [Option.map_some', h]) hcheck
    · exact ⟨_, h⟩
  · intro c a b ha hb
    have hc : c < nSizes.length := by
      by_contra hcon
      rw [List.getD_eq_getElem?_getD, List.getElem?_eq_none (not_lt.1 hcon)] at ha
      exact absurd ha (by simp)
    obtain ⟨h1, h2, h3, h4⟩ := hweight c hc a ha b hb
    obtain ⟨x, hx⟩ := WithTop.ne_top_iff_exists.1 h2
    refine ⟨h1, x, hx.symm, ?_, ?_⟩
    · rw [← hx] at h3
      exact WithTop.coe_nonneg.1 h3
    · intro hne
      have := h4 hne
      rw [← hx] at this
      exact WithTop.coe_pos.1 this

set_option maxRecDepth 100000 in
set_option synthInstance.maxSize 4000 in
set_option synthInstance.maxHeartbeats 200000 in
theorem routable_annex : Routable wAnnex nbrzAnnex [3, 2] susosAnnex :=
  routable_of_checks wAnnex nbrzAnnex [3, 2] susosAnnex (by decide) (by decide) (by decide)
    (by decide)
    (fun c hc => by
      have h01 : c = 0 ∨ c = 1 := by
        have : c < 2 := hc
        omega
      have h0 : CellReach susosAnnex 0 :=
        CellReach.exit 0 [⟨0, 0, 0⟩, ⟨2, 1, 0⟩] ⟨0, 0, 0⟩ rfl (by decide) rfl
      rcases h01 with rfl | rfl
      · exact h0
      · exact CellReach.step 1 [⟨0, 0, 2⟩] ⟨0, 0, 2⟩ rfl (by decide) h0)
    (by decide) (by decide) (by decide)

set_option maxRecDepth 100000 in
set_option synthInstance.maxSize 4000 in
set_option synthInstance.maxHeartbeats 200000 in
theorem routable_room :
    Routable (llWeight mathId worldRoom.nosoz) nbrzRoom [3] worldRoom.susoExtz :=
  routable_of_checks (llWeight mathId worldRoom.nosoz) nbrzRoom [3] worldRoom.susoExtz
    (by decide) (by decide) (by decide) (by decide)
    (fun c hc => by
      have h0 : c = 0 := by
        have : c < 1 := hc
        omega
      subst h0
      exact CellReach.exit 0 [⟨0, 0, 0⟩, ⟨2, 0, 0⟩] ⟨0, 0, 0⟩ rfl (by decide) rfl)
    (by decide) (by decide!) (by decide!)

/-- C3: for a router built over a finalized geometry in which every cell reaches
an exit (`Routable`), `Router::Router` builds its tables, `Router::populateNexts`
returns, and from every non-solid edge `(c, e)` between one and `N` applications
of `nextz` lead to an exit, `N` being the total number of non-solid edges: `nextz`
has no cycle that avoids the exits. -/
theorem nextz_reaches_exit {M : Type} [LinearOrderedCancelAddCommMonoid M]
    (w : Nat → Nat → Nat → WithTop M) (nbrz : List (List Nat)) (nSizes : List Nat)
    (S : List (List TriType)) (hgeo : Routable w nbrz nSizes S) :
    ∃ r nextz lShrtz,
      routerTables w nbrz nSizes S (S.map fun e => susoMapOf 0 e []) = some r ∧
      populateNexts r nSizes = some (nextz, lShrtz) ∧
      ∀ c e, c < nSizes.length → e < nSizes.getD c 0 →
        ∃ k, 1 ≤ k ∧ k ≤ nSizes.sum ∧ ∃ d, follow nextz k ⟨c, e⟩ = some d ∧
          isExit r.susoMaps d.cIdx d.sIdx = true := by
  obtain ⟨r, hr, hb⟩ := routerTables_built hgeo
  obtain ⟨nextz, lShrtz, hp, hall⟩ := sound_reaches_exit r nSizes (hb.sound hgeo)
  exact ⟨r, nextz, lShrtz, hr, hp, hall⟩

theorem nextz_reaches_exit_witness :
    Routable wAnnex nbrzAnnex [3, 2] susosAnnex ∧
    ∃ r nextz lShrtz,
      routerTables wAnnex nbrzAnnex [3, 2] susosAnnex
        (susosAnnex.map fun e => susoMapOf 0 e []) = some r ∧
      populateNexts r [3, 2] = some (nextz, lShrtz) ∧
      ∀ c e, c < [3, 2].length → e < [3, 2].getD c 0 →
        ∃ k, 1 ≤ k ∧ k ≤ [3, 2].sum ∧ ∃ d, follow nextz k ⟨c, e⟩ = some d ∧
          isExit r.susoMaps d.cIdx d.sIdx = true :=
  ⟨routable_annex, nextz_reaches_exit wAnnex nbrzAnnex [3, 2] susosAnnex routable_annex⟩

set_option maxRecDepth 100000 in
/-- The tables of the router of `susosAnnex`: the interior edge `1` of cell 0 leads
to the exit `0`, the interface `2` to the interior edge `1`; in cell 1 the
interface `0` leads to the edge `1` of cell 0 and the interior edge `1` to the
interface `0`, so that three applications of `nextz` lead from `(1, 1)` to the
exit. -/
theorem annex_nextz :
    ((routerTables wAnnex nbrzAnnex [3, 2] susosAnnex
        (susosAnnex.map fun e => susoMapOf 0 e [])).bind fun r => populateNexts r [3, 2]) =
      some ([[⟨0, 0⟩, ⟨0, 0⟩, ⟨0, 1⟩], [⟨0, 1⟩, ⟨1, 0⟩]], [[0, 4, 0], [0, 14]]) ∧
    follow [[⟨0, 0⟩, ⟨0, 0⟩, ⟨0, 1⟩], [⟨0, 1⟩, ⟨1, 0⟩]] 3 ⟨1, 1⟩ = some ⟨0, 0⟩ := by
  decide

theorem world_tables {M : Type} [LinearOrderedCancelAddCommMonoid M]
    (w : Nat → Nat → Nat → WithTop M) (nbrz : List (List Nat)) (nSizes : List Nat)
    (S : List (List TriType)) (hgeo : Routable w nbrz nSizes S)
    (nextz : List (List DuoType)) (lShrtz : List (List (WithTop M)))
    (hW : ((routerTables w nbrz nSizes S (S.map fun e => susoMapOf 0 e [])).bind
      fun r => populateNexts r nSizes) = some (nextz, lShrtz))
    (c e : Nat) (s : WithTop M) (hs : at2 lShrtz c e = some s) : s ≠ ⊤ := by
  obtain ⟨r, hr, hb⟩ := routerTables_built hgeo
  rw [hr] at hW
  exact hb.lShrtz_finite hgeo nextz lShrtz hW c e s hs

/-- C26: let the tables `nextz`, `lShrtz` of the world be those that
`Router::Router` builds over a finalized geometry in which every cell reaches an
exit (`Routable`), and let `vec` be the vector of `Router::findLine` after the
partial sort, so that its first `min(7, n)` entries are the candidates.  When the
costs of the candidates are defined and some candidate is not blocked (the segment
from `pt` to its midpoint does not meet the walls), `findLine` returns a candidate
that is not blocked and whose value `euclideanPLDistance + lShrtz` is least among
the candidates that are not blocked.  A blocked candidate has `dst = infinity()`,
and the construction leaves no `infinity()` in `lShrtz` (`Built.lShrtz_finite`;
for a cell cut off from the exits `Router::nextMark` indexes `gShrts` with the
parent `IdxTypeMax` of an unreached line and `populateNexts` returns no tables,
see `populateNexts_cut_off`), so a candidate that is not blocked always wins. -/
theorem findLine_unblocked (m : CMath ℚ) (W : World) (cIdx : Nat) (pt : Point ℚ)
    (nosos : List Line) (vec : List Nat)
    (w : Nat → Nat → Nat → WithTop ℚ) (nbrz : List (List Nat)) (nSizes : List Nat)
    (S : List (List TriType)) (hgeo : Routable w nbrz nSizes S)
    (hW : ((routerTables w nbrz nSizes S (S.map fun e => susoMapOf 0 e [])).bind
      fun r => populateNexts r nSizes) = some (W.nextz, W.lShrtz))
    (hdef : ∀ v ∈ vec.take (min DICHI nosos.length),
      (lineCost m W cIdx pt nosos v).isSome = true)
    (hex : ∃ v ∈ vec.take (min DICHI nosos.length), ∃ l, nosos[v]? = some l ∧
      intersectsWalls m W ⟨pt, linePoint l.toLineOf⟩ cIdx CPA = some false) :
    ∃ (r : Nat) (l : Line) (s : WithTop ℚ), findLineFrom m W cIdx pt nosos vec = some r ∧
      r ∈ vec.take (min DICHI nosos.length) ∧ nosos[r]? = some l ∧
      intersectsWalls m W ⟨pt, linePoint l.toLineOf⟩ cIdx CPA = some false ∧
      at2 W.lShrtz cIdx r = some s ∧
      ∀ v ∈ vec.take (min DICHI nosos.length), ∀ (lv : Line) (sv : WithTop ℚ),
        nosos[v]? = some lv →
        intersectsWalls m W ⟨pt, linePoint lv.toLineOf⟩ cIdx CPA = some false →
        at2 W.lShrtz cIdx v = some sv →
        ((euclideanPLDistance m pt l : ℚ) : WithTop ℚ) + s ≤
          ((euclideanPLDistance m pt lv : ℚ) : WithTop ℚ) + sv :=
  findLineFrom_finite m W cIdx pt nosos vec hdef
    (fun v _ s hs => world_tables w nbrz nSizes S hgeo W.nextz W.lShrtz hW cIdx v s hs) hex

set_option maxRecDepth 100000 in
theorem findLine_unblocked_witness :
    Routable (llWeight mathId worldRoom.nosoz) nbrzRoom [3] worldRoom.susoExtz ∧
    ∃ (r : Nat) (l : Line) (s : WithTop ℚ),
      findLineFrom mathId worldRoom 0 ⟨2, 1⟩
        [⟨⟨0, 0⟩, ⟨4, 0⟩⟩, ⟨⟨0, 0⟩, ⟨4, 4⟩⟩, ⟨⟨0, 0⟩, ⟨0, 4⟩⟩] [0, 1, 2] = some r ∧
      r ∈ [0, 1, 2].take (min DICHI
        [(⟨⟨0, 0⟩, ⟨4, 0⟩⟩ : Line), ⟨⟨0, 0⟩, ⟨4, 4⟩⟩, ⟨⟨0, 0⟩, ⟨0, 4⟩⟩].length) ∧
      [(⟨⟨0, 0⟩, ⟨4, 0⟩⟩ : Line), ⟨⟨0, 0⟩, ⟨4, 4⟩⟩, ⟨⟨0, 0⟩, ⟨0, 4⟩⟩][r]? = some l ∧
      intersectsWalls mathId worldRoom ⟨⟨2, 1⟩, linePoint l.toLineOf⟩ 0 CPA = some false ∧
      at2 worldRoom.lShrtz 0 r = some s ∧
      ∀ v ∈ [0, 1, 2].take (min DICHI
          [(⟨⟨0, 0⟩, ⟨4, 0⟩⟩ : Line), ⟨⟨0, 0⟩, ⟨4, 4⟩⟩, ⟨⟨0, 0⟩, ⟨0, 4⟩⟩].length),
        ∀ (lv : Line) (sv : WithTop ℚ),
        [(⟨⟨0, 0⟩, ⟨4, 0⟩⟩ : Line), ⟨⟨0, 0⟩, ⟨4, 4⟩⟩, ⟨⟨0, 0⟩, ⟨0, 4⟩⟩][v]? = some lv →
        intersectsWalls mathId worldRoom ⟨⟨2, 1⟩, linePoint lv.toLineOf⟩ 0 CPA = some false →
        at2 worldRoom.lShrtz 0 v = some sv →
        ((euclideanPLDistance mathId ⟨2, 1⟩ l : ℚ) : WithTop ℚ) + s ≤
          ((euclideanPLDistance mathId ⟨2, 1⟩ lv : ℚ) : WithTop ℚ) + sv :=
  ⟨routable_room,
    findLine_unblocked mathId worldRoom 0 ⟨2, 1⟩
      [⟨⟨0, 0⟩, ⟨4, 0⟩⟩, ⟨⟨0, 0⟩, ⟨4, 4⟩⟩, ⟨⟨0, 0⟩, ⟨0, 4⟩⟩] [0, 1, 2]
      (llWeight mathId worldRoom.nosoz) nbrzRoom [3] worldRoom.susoExtz routable_room
      (by decide!) (by decide!)
      ⟨1, by decide, ⟨⟨0, 0⟩, ⟨4, 4⟩⟩, rfl, by decide!⟩⟩

set_option maxRecDepth 100000 in
/-- In `worldRoom` the tables `nextz` and `lShrtz` are those of the router; for the
point `(2,1)` the bottom side is the nearest edge and it is blocked by the
obstacle; of the two edges that are not blocked the diagonal is nearer
(`euclideanPLDistance` 5 against 7) but farther from an exit (`lShrtz` 4 against
0), and `findLine` returns the left side, edge `2`. -/
theorem findLine_room :
    ((routerTables (llWeight mathId worldRoom.nosoz) nbrzRoom [3] worldRoom.susoExtz
        (worldRoom.susoExtz.map fun e => susoMapOf 0 e [])).bind
      fun r => populateNexts r [3]) = some (worldRoom.nextz, worldRoom.lShrtz) ∧
    (List.range 3).mapM (lineCost mathId worldRoom 0 ⟨2, 1⟩
      [⟨⟨0, 0⟩, ⟨4, 0⟩⟩, ⟨⟨0, 0⟩, ⟨4, 4⟩⟩, ⟨⟨0, 0⟩, ⟨0, 4⟩⟩]) = some [⊤, 9, 7] ∧
    euclideanPLDistance mathId ⟨2, 1⟩ ⟨⟨0, 0⟩, ⟨4, 0⟩⟩ = 3 ∧
    euclideanPLDistance mathId ⟨2, 1⟩ ⟨⟨0, 0⟩, ⟨4, 4⟩⟩ = 5 ∧
    euclideanPLDistance mathId ⟨2, 1⟩ ⟨⟨0, 0⟩, ⟨0, 4⟩⟩ = 7 ∧
    findLine mathId worldRoom 0 ⟨2, 1⟩ = some 2 := by
  decide!

/-! ### The router outside `Routable` -/

set_option maxRecDepth 100000 in
/-- A cell cut off from the exits: cell 0 owns an exit, the cells 1 and 2 share an
interface and have no other subsolid line.  `Router::Router` builds its tables,
with `gShrts = infinity()` and the parent `IdxTypeMax` for the interface; then
`Router::nextMark` indexes `gShrts` with `IdxTypeMax`, and `populateNexts` returns
no tables. -/
theorem populateNexts_cut_off :
    ((routerTables wAnnex [[0, 0, 0, 0], [0, 0, 0, 0], [0, 0, 0, 0]] [1, 1, 1]
        [[⟨0, 0, 0⟩], [⟨0, 2, 0⟩], [⟨0, 1, 0⟩]]
        ([[⟨0, 0, 0⟩], [⟨0, 2, 0⟩], [⟨0, 1, 0⟩]].map fun e => susoMapOf 0 e [])).map
      fun r => (r.gShrts, r.pathM)) =
      some ([(0, 0), (0, ⊤)], [0, IdxTypeMax, IdxTypeMax, 1]) ∧
    ((routerTables wAnnex [[0, 0, 0, 0], [0, 0, 0, 0], [0, 0, 0, 0]] [1, 1, 1]
        [[⟨0, 0, 0⟩], [⟨0, 2, 0⟩], [⟨0, 1, 0⟩]]
        ([[⟨0, 0, 0⟩], [⟨0, 2, 0⟩], [⟨0, 1, 0⟩]].map fun e => susoMapOf 0 e [])).bind
      fun r => populateNexts r [1, 1, 1]) = none := by
  decide

set_option maxRecDepth 100000 in
/-- The hypothesis `conn` of `Routable` at work: a cell with the exits `0` and `2`,
the interior edge `1` between them, and an edge `3` without neighbours.  No
subsolid line reaches the edge `3`; its entries of `distMCSs` are `infinity()` and
those of `pathMCSs` are `IdxTypeMax`, and `Router::nextMark` writes them to
`lShrtz` and `nextz`. -/
theorem isolated_edge_tables :
    ((routerTables wAnnex [[2, 0, 0, 0, 1, 3, 0, 0, 2, 0, 0, 0, 0, 0, 0, 0]] [4]
        [[⟨0, 0, 0⟩, ⟨2, 0, 0⟩]]
        ([[⟨0, 0, 0⟩, ⟨2, 0, 0⟩]].map fun e => susoMapOf 0 e [])).bind
      fun r => populateNexts r [4]) =
      some ([[⟨0, 0⟩, ⟨0, 0⟩, ⟨0, 2⟩, ⟨0, IdxTypeMax⟩]], [[0, 4, 0, ⊤]]) := by
  decide

end Simmer
